import Mathlib

/-!
# Support-vector clustering engine of `crop-extents_seasonal/statsml.cpp`

A shallow embedding of the solver and cluster-assignment routines of
`statsml.cpp`, together with theorems about them.

Conventions of the embedding

* `double` values are rationals (`ℚ`): every statement is about exact arithmetic.
* A C array is an index function (`Nat → ℚ`, `Nat → Int`, `Nat → Bool`) used together
  with its length; a write `a[i] = x` is `Function.update a i x`.
* `gsl_vector` / `gsl_matrix` carry their sizes and an index function; a matrix column is
  the view returned by `gsl_matrix_column`.
* The kernel `calkernel(., ., kt, pa)` enters the path-adjacency routines as the function
  `kern`; the random draws of `gsl_rng_uniform` and the permutation written by
  `gsl_sort_index` enter as explicit arguments.
* A routine that may index outside its arrays, or whose recursion is bounded by a depth
  argument, returns `Option`; `none` stands for the undefined access or the used-up depth.
* Vectors handed to one GSL call have the same length (the length checks of GSL are not
  part of the embedding); OpenMP loops are read as sequential loops.
-/

namespace Statsml

/-! ## Data model -/

/-- The `gsl_vector` view: a length and its entries. -/
structure gsl_vector where
  size : Nat
  data : Nat → ℚ

/-- The `gsl_matrix` view: `size1` rows (attributes), `size2` columns (samples). -/
structure gsl_matrix where
  size1 : Nat
  size2 : Nat
  data : Nat → Nat → ℚ

/-- Entry `(i, j)` of a matrix, as read by `gsl_matrix_get`. -/
def gsl_matrix_get (K : gsl_matrix) (i j : Nat) : ℚ := K.data i j

/-- Column `j` of a matrix, as returned by `gsl_matrix_column`. -/
def gsl_matrix_column (X : gsl_matrix) (j : Nat) : gsl_vector :=
  ⟨X.size1, fun r => X.data r j⟩

/-- The record `svminfo` handed from the solver to cluster assignment (its fields are the
ones the source reads and writes through `svf->`). -/
structure svminfo where
  a : Nat → ℚ
  rsq : ℚ
  sum : ℚ
  svind : Nat → Int
  svcuts : Nat → Int
  svnum : Int
  nc : Int

/-- The caller-visible outputs of `SVclustering`: the reference `nc`, the label array
`cls` and the record behind `svf`. -/
structure SVout where
  nc : Int
  cls : Nat → Int
  svf : svminfo

/-! ## `SVclustering`: entry checks -/

/-- The three range checks at the head of `SVclustering`, in source order: the code
returned by the first check that fires, or `none` when the call goes on. -/
def SVclustering_checks (m : Nat) (v : ℚ) : Option Int :=
  if m < 50 then some (-1)
  else if m > 20000 then some (-2)
  else if v ≥ 1 then some (-3)
  else none

/-- The function `SVclustering(X, v, kt, pa, nc, cls, svf)`.  `m = X->size2`.  A failed
check returns its code with the outputs untouched.  Otherwise the clustering work runs
(kernel matrix, coefficient initialisation, solver loop, cluster assignment): it is the
argument `work`, applied to the inputs and the outputs on entry, and it yields the new
outputs or `none` when its `while(1)` loops do not end; the only `return` after the
checks is `return 0`. -/
def SVclustering
    (work : gsl_matrix → ℚ → Int → (Nat → ℚ) → SVout → Option SVout)
    (X : gsl_matrix) (v : ℚ) (kt : Int) (pa : Nat → ℚ) (out : SVout) :
    Option (Int × SVout) :=
  match SVclustering_checks X.size2 v with
  | some code => some (code, out)
  | none => (work X v kt pa out).map (fun out1 => (0, out1))

/-! ## Coefficient initialisation -/

/-- The library call `gsl_sort(b, 1, n)`: the values in ascending order. -/
def gsl_sort (b : List ℚ) : List ℚ := b.insertionSort (fun x y => x ≤ y)

/-- What `gsl_sort_index(sts, a, 1, m)` guarantees of the permutation it writes: `sts`
lists the indices `0..m-1`, each once, and the values `a[sts[k]]` ascend with `k` (the
order among equal values is the library's choice). -/
def IsSortIndex (sts : Nat → Nat) (a : Nat → ℚ) (m : Nat) : Prop :=
  (∀ k, k < m → sts k < m) ∧
  (∀ k l, k < m → l < m → sts k = sts l → k = l) ∧
  (∀ k l, k ≤ l → l < m → a (sts k) ≤ a (sts l))

/-- The function `randomsimplex(rng, a, m)`: `u i` is the `i`-th value returned by
`gsl_rng_uniform`.  For `m < 2` the array is left alone; otherwise the `n = m - 1` draws
are sorted into `b` and `a` receives `b[0]`, the consecutive differences `b[i] - b[i-1]`
and `1 - b[n-1]`. -/
def randomsimplex (u : Nat → ℚ) (a : Nat → ℚ) (m : Nat) : Nat → ℚ :=
  if m < 2 then a
  else
    let n := m - 1
    let b := gsl_sort ((List.range n).map u)
    let a1 := Function.update a 0 (b.getD 0 0)
    let a2 := (List.range' 1 (n - 1)).foldl
      (fun acc i => Function.update acc i (b.getD i 0 - b.getD (i - 1) 0)) a1
    Function.update a2 (m - 1) (1 - b.getD (n - 1) 0)

/-- Entry `k` of the array `b` of `randomsimplex` after `gsl_sort`, for `n` draws. -/
def sortedDraw (u : Nat → ℚ) (n k : Nat) : ℚ := (gsl_sort ((List.range n).map u)).getD k 0

/-- The clamp loop of `SVclustering` (`for(i=0;i<m;i++) { j=sts[m-i-1]; ... }`).  The
first `Nat` is the number of iterations left, so `i = m - (r+1)`; `cc` is the position
from which the receiver search starts.  An over-cap `a[j]` looks for the first `k ≥ cc`
with `a[sts[k]] + a[j] < 2*rvm` and, when there is one, moves `a[j] - rvm` into
`p = sts[k]`, sets `a[j] = rvm` and `cc = k+1`; the loop stops at the first `a[j]` that is
not above `rvm`. -/
def clamp_loop (sts : Nat → Nat) (rvm : ℚ) (m : Nat) :
    Nat → Nat → (Nat → ℚ) → (Nat → ℚ)
  | 0, _, a => a
  | r + 1, cc, a =>
    let i := m - (r + 1)
    let j := sts (m - i - 1)
    if a j > rvm then
      match (List.range' cc (m - cc)).find? (fun k => decide (a (sts k) + a j < 2 * rvm)) with
      | some k =>
        let p := sts k
        let a1 := Function.update a p (a p + a j - rvm)
        let a2 := Function.update a1 j rvm
        clamp_loop sts rvm m r (k + 1) a2
      | none => clamp_loop sts rvm m r cc a
    else a

/-- The clamp pass of `SVclustering`: the loop run from `i = 0`, `cc = 0`. -/
def clamp_pass (sts : Nat → Nat) (rvm : ℚ) (m : Nat) (a : Nat → ℚ) : Nat → ℚ :=
  clamp_loop sts rvm m m 0 a

/-- The coefficient initialisation of `SVclustering`: `rvm = 1.0/(v*m)`, then
`randomsimplex`, `gsl_sort_index` (its output is `sts`) and the clamp pass.  `a0` is
the content of the fresh array `a`. -/
def SVclustering_init (u : Nat → ℚ) (a0 : Nat → ℚ) (sts : Nat → Nat) (v : ℚ) (m : Nat) :
    Nat → ℚ :=
  let rvm := 1 / (v * m)
  clamp_pass sts rvm m (randomsimplex u a0 m)

/-! ## Pairwise coefficient update -/

/-- The outputs of `updatecoeffs`: its return value, the arrays `a` and `fw` and the
reference `ph`. -/
structure UpdateResult where
  ret : Int
  a : Nat → ℚ
  fw : Nat → ℚ
  ph : ℚ

/-- The lower end `L` of the clip interval in `updatecoeffs`. -/
def updatecoeffs_L (a : Nat → ℚ) (i j : Nat) (rvm : ℚ) : ℚ :=
  let gama := a i + a j
  let L := gama - rvm
  if L < 0 then 0 else L

/-- The upper end `H` of the clip interval in `updatecoeffs`. -/
def updatecoeffs_H (a : Nat → ℚ) (i j : Nat) (rvm : ℚ) : ℚ :=
  let gama := a i + a j
  if rvm < gama then rvm else gama

/-- The clipped step `ahi` of `updatecoeffs` for a divisor `xx = kii + kjj - 2*kij` other
than 0: `a[i] + (fw[j]-fw[i])/xx`, raised to `L` and then lowered to `H`.  The quotient is
the division of `ℚ`, which gives 0 for `xx = 0`, where the C code gives an infinity or a
NaN: the statements about this definition carry `xx ≠ 0` or `xx > 0`, and the step for
every divisor is `updatecoeffs_ieee_ahi`. -/
def updatecoeffs_ahi (K : gsl_matrix) (a fw : Nat → ℚ) (i j : Nat) (rvm : ℚ) : ℚ :=
  let kii := gsl_matrix_get K i i
  let kjj := gsl_matrix_get K j j
  let kij := gsl_matrix_get K i j
  let xx := kii + kjj - 2 * kij
  let L := updatecoeffs_L a i j rvm
  let H := updatecoeffs_H a i j rvm
  let ahi := a i + (fw j - fw i) / xx
  let ahi := if ahi < L then L else ahi
  if ahi > H then H else ahi

/-- The function `updatecoeffs(K, a, fw, i, j, rvm, ph)` for a divisor other than 0 (the
call with every divisor is `updatecoeffs_ieee`).  When the clipped step equals `a[i]`
nothing is written and 0 is returned.  Otherwise every `fw[k]`, `k < m = K->size1`, loses
the old contribution of the pair and gains the new one, `a[i]`, `a[j]` become `ahi`,
`gama - ahi`, `ph` is recomputed and 1 is returned. -/
def updatecoeffs (K : gsl_matrix) (a fw : Nat → ℚ) (i j : Nat) (rvm ph : ℚ) :
    UpdateResult :=
  let m := K.size1
  let gama := a i + a j
  let ahi := updatecoeffs_ahi K a fw i j rvm
  if a i = ahi then ⟨0, a, fw, ph⟩
  else
    let ahj := gama - ahi
    let fw1 : Nat → ℚ := fun k =>
      if k < m then
        let kki := gsl_matrix_get K k i
        let kkj := gsl_matrix_get K k j
        fw k - (a i * kki + a j * kkj) + (ahi * kki + ahj * kkj)
      else fw k
    let a1 := Function.update (Function.update a i ahi) j ahj
    let ph1 :=
      if a1 i > 0 ∧ a1 i < rvm then
        if a1 j > 0 ∧ a1 j < rvm then (fw1 i + fw1 j) / 2 else fw1 i
      else fw1 j
    ⟨1, a1, fw1, ph1⟩

/-! ## Path adjacency -/

/-- The call `gsl_vector_set_zero` on a vector of length `n`. -/
def gsl_vector_zero (n : Nat) : gsl_vector := ⟨n, fun _ => 0⟩

/-- The call `gsl_blas_daxpy(alpha, x, y)`: `y` becomes `alpha*x + y`. -/
def gsl_blas_daxpy (alpha : ℚ) (x y : gsl_vector) : gsl_vector :=
  ⟨y.size, fun r => alpha * x.data r + y.data r⟩

/-- The function `calrsq(px, a, X, kt, pa, sum)`: `kern` is `calkernel(., ., kt, pa)`.
`rsq` starts as `K(px,px) + sum`, `wd` accumulates `a[i]*K(px, x_i)` over the `m =
X->size2` columns, is doubled and subtracted. -/
def calrsq (kern : gsl_vector → gsl_vector → ℚ) (px : gsl_vector) (a : Nat → ℚ)
    (X : gsl_matrix) (sum : ℚ) : ℚ :=
  let m := X.size2
  let rsq := kern px px + sum
  let wd := (List.range m).foldl (fun wd i => wd + a i * kern px (gsl_matrix_column X i)) 0
  let wd := wd * 2
  rsq - wd

/-- The point `px` built in iteration `k` of `adjcheck2v`: `alp = (k+1.0)/(ss+1.0)`,
`beta = 1.0 - alp`, `px = alp*pi + beta*pj` by two `daxpy` calls on the zero vector. -/
def adjcheck2v_point (p_i p_j : gsl_vector) (ss k : Nat) : gsl_vector :=
  let alp : ℚ := ((k : ℚ) + 1) / ((ss : ℚ) + 1)
  let beta : ℚ := 1 - alp
  gsl_blas_daxpy beta p_j (gsl_blas_daxpy alp p_i (gsl_vector_zero p_i.size))

/-- The loop of `adjcheck2v` from iteration `k` with `n` iterations left: the first
point with `dd > rsq` makes the answer `false` and ends the loop. -/
def adjcheck2v_loop (kern : gsl_vector → gsl_vector → ℚ) (p_i p_j : gsl_vector)
    (a : Nat → ℚ) (sum rsq : ℚ) (ss : Nat) (X : gsl_matrix) : Nat → Nat → Bool
  | 0, _ => true
  | n + 1, k =>
    let dd := calrsq kern (adjcheck2v_point p_i p_j ss k) a X sum
    if dd > rsq then false
    else adjcheck2v_loop kern p_i p_j a sum rsq ss X n (k + 1)

/-- The function `adjcheck2v(pi, pj, a, kt, pa, sum, rsq, ss, X)`. -/
def adjcheck2v (kern : gsl_vector → gsl_vector → ℚ) (p_i p_j : gsl_vector)
    (a : Nat → ℚ) (sum rsq : ℚ) (ss : Nat) (X : gsl_matrix) : Bool :=
  adjcheck2v_loop kern p_i p_j a sum rsq ss X ss 0

/-- The function `adjcheck(X, i, j, ss, a, kt, pa, rsq, sum)`: `adjcheck2v` on columns
`i` and `j` of `X`. -/
def adjcheck (kern : gsl_vector → gsl_vector → ℚ) (X : gsl_matrix) (i j ss : Nat)
    (a : Nat → ℚ) (rsq sum : ℚ) : Bool :=
  adjcheck2v kern (gsl_matrix_column X i) (gsl_matrix_column X j) a sum rsq ss X

/-! ## Connected components of the support-vector graph -/

/-- The variables `findgroup` works on: the fill position `pp`, the list `cdex` and the
marks `chk`. -/
structure GroupState where
  pp : Nat
  cdex : Nat → Nat
  chk : Nat → Bool

/-- The function `findgroup(h, m, adj, pp, cdex, chk)`.  The first argument bounds the
depth of the recursion (`none` when it is used up).  `chk[h]` is set; then for `i =
0..m-1`, an unmarked neighbour `i` of `h` is appended to `cdex` and explored at once. -/
def findgroup (adj : Nat → Nat → Bool) (m : Nat) : Nat → Nat → GroupState → Option GroupState
  | 0, _, _ => none
  | depth + 1, h, s =>
    (List.range m).foldlM
      (fun (t : GroupState) (i : Nat) =>
        if adj h i && !t.chk i then
          findgroup adj m depth i ⟨t.pp + 1, Function.update t.cdex t.pp i, t.chk⟩
        else some t)
      ⟨s.pp, s.cdex, Function.update s.chk h true⟩

/-- The variables of the main loop of `clusterfromgraph`: the list `cdex`, the marks
`chk`, the labels `cls` and the next label `nc`. -/
structure GraphState where
  cdex : Nat → Nat
  chk : Nat → Bool
  cls : Nat → Int
  nc : Int

/-- The labelling loop of `clusterfromgraph` (`for(j=0;j<pp;j++)`): every collected
vertex `cdex[j]` gets the label `nc` and a mark. -/
def clusterfromgraph_label (pp : Nat) (g : GraphState) : GraphState :=
  (List.range pp).foldl
    (fun (t : GraphState) (j : Nat) =>
      ⟨t.cdex, Function.update t.chk (t.cdex j) true, Function.update t.cls (t.cdex j) t.nc,
        t.nc⟩)
    g

/-- One iteration of the main loop of `clusterfromgraph` at vertex `i`: an unmarked `i`
opens `cdex` with itself, `findgroup` collects its group, the collected vertices are
labelled and `nc` advances. -/
def clusterfromgraph_step (adj : Nat → Nat → Bool) (m depth : Nat)
    (g : GraphState) (i : Nat) : Option GraphState :=
  if !g.chk i then
    match findgroup adj m depth i ⟨1, Function.update g.cdex 0 i, g.chk⟩ with
    | none => none
    | some s =>
      let t := clusterfromgraph_label s.pp ⟨s.cdex, s.chk, g.cls, g.nc⟩
      some ⟨t.cdex, t.chk, t.cls, t.nc + 1⟩
  else some g

/-- The function `clusterfromgraph(adj, m, nc, cls)`: it returns the new `nc` and the
array `cls` it allocates.  `depth` bounds the recursion of `findgroup`; `cdex0` and
`cls0` are the contents of the fresh arrays `cdex` and `cls`.  The main loop runs over
`i = 0..m-2`; the last vertex, when unmarked, gets a label of its own.  With `m = 0` the
test `chk[m-1]` indexes outside `chk`: that is `none`. -/
def clusterfromgraph (adj : Nat → Nat → Bool) (m depth : Nat) (cdex0 : Nat → Nat)
    (cls0 : Nat → Int) : Option (Int × (Nat → Int)) :=
  match (List.range (m - 1)).foldlM (clusterfromgraph_step adj m depth)
      (⟨cdex0, fun _ => false, cls0, 1⟩ : GraphState) with
  | none => none
  | some g =>
    if m = 0 then none
    else if !g.chk (m - 1) then some (g.nc + 1, Function.update g.cls (m - 1) g.nc)
    else some (g.nc, g.cls)

/-- An edge of the graph on the vertices `0..m-1` given by the matrix `adj`. -/
def Edge (adj : Nat → Nat → Bool) (m : Nat) (x y : Nat) : Prop :=
  x < m ∧ y < m ∧ adj x y = true

/-- Two vertices are joined when a path of `adj`-edges leads from one to the other. -/
def Joined (adj : Nat → Nat → Bool) (m : Nat) : Nat → Nat → Prop :=
  Relation.ReflTransGen (Edge adj m)

/-- The number of vertices below `m` that `chk` does not mark. -/
def unmarked (m : Nat) (chk : Nat → Bool) : Nat :=
  ((Finset.range m).filter (fun v => chk v = false)).card

/-- What a call `findgroup(h, ...)` that starts in `s` and ends in `s1` has done: marks
only grow and `h` is marked; `cdex` grows at its end; every newly marked vertex other than
`h` is listed; every listed vertex is a vertex that was unmarked, is now marked and is
joined to `h`; and every newly marked vertex has all its neighbours marked. -/
structure FindgroupPost (adj : Nat → Nat → Bool) (m h : Nat) (s s1 : GroupState) : Prop where
  mono : ∀ v, s.chk v = true → s1.chk v = true
  root : s1.chk h = true
  pp_le : s.pp ≤ s1.pp
  keep : ∀ k, k < s.pp → s1.cdex k = s.cdex k
  listed : ∀ v, s1.chk v = true →
    s.chk v = true ∨ v = h ∨ ∃ k, s.pp ≤ k ∧ k < s1.pp ∧ s1.cdex k = v
  fresh : ∀ k, s.pp ≤ k → k < s1.pp →
    s1.cdex k < m ∧ s.chk (s1.cdex k) = false ∧ s1.chk (s1.cdex k) = true ∧
      Joined adj m h (s1.cdex k)
  closed : ∀ u, u < m → s1.chk u = true →
    s.chk u = true ∨ ∀ w, w < m → adj u w = true → s1.chk w = true

/-- The invariant of the neighbour loop of `findgroup(h, ...)` before iteration `n`. -/
structure FindgroupInv (adj : Nat → Nat → Bool) (m h : Nat) (s : GroupState) (n : Nat)
    (t : GroupState) : Prop where
  mono : ∀ v, (v = h ∨ s.chk v = true) → t.chk v = true
  pp_le : s.pp ≤ t.pp
  keep : ∀ k, k < s.pp → t.cdex k = s.cdex k
  listed : ∀ v, t.chk v = true →
    s.chk v = true ∨ v = h ∨ ∃ k, s.pp ≤ k ∧ k < t.pp ∧ t.cdex k = v
  fresh : ∀ k, s.pp ≤ k → k < t.pp →
    t.cdex k < m ∧ s.chk (t.cdex k) = false ∧ t.chk (t.cdex k) = true ∧
      Joined adj m h (t.cdex k)
  closed : ∀ u, u < m → t.chk u = true →
    (u = h ∨ s.chk u = true) ∨ ∀ w, w < m → adj u w = true → t.chk w = true
  seen : ∀ i, i < n → adj h i = true → t.chk i = true

/-- The invariant of the main loop of `clusterfromgraph`: marks sit on vertices only and
are closed under `adj`; marked vertices carry labels in `1..nc-1`, equal exactly for
joined vertices; every label in `1..nc-1` is carried by a marked vertex. -/
structure GraphInv (adj : Nat → Nat → Bool) (m : Nat) (chk : Nat → Bool) (cls : Nat → Int)
    (nc : Int) : Prop where
  marked_range : ∀ v, chk v = true → v < m
  closed : ∀ u w, u < m → w < m → chk u = true → adj u w = true → chk w = true
  label_range : ∀ v, chk v = true → 1 ≤ cls v ∧ cls v < nc
  label_iff : ∀ u v, chk u = true → chk v = true → (cls u = cls v ↔ Joined adj m u v)
  label_used : ∀ l, 1 ≤ l → l < nc → ∃ v, chk v = true ∧ cls v = l
  nc_pos : 1 ≤ nc

/-! ## Cluster assignment -/

/-- The support-vector scan of `createcluster_v2`: the indices `i < m` with
`0 < a[i] < rvm`, in increasing order (the filled part of `svind`). -/
def createcluster_v2_svlist (a : Nat → ℚ) (rvm : ℚ) (m : Nat) : List Nat :=
  (List.range m).filter (fun i => decide (a i > 0 ∧ a i < rvm))

/-- The count `svcc` of `createcluster_v2` after the scan. -/
def createcluster_v2_svcc (a : Nat → ℚ) (rvm : ℚ) (m : Nat) : Nat :=
  (createcluster_v2_svlist a rvm m).length

/-- The array `svind` of `createcluster_v2` after the scan (entries from `svcc` on are
never read). -/
def createcluster_v2_svind (a : Nat → ℚ) (rvm : ℚ) (m : Nat) : Nat → Nat :=
  fun k => (createcluster_v2_svlist a rvm m).getD k 0

/-- The array `cls` of `createcluster_v2` when `inducecluster_sv2` is called: `-1`
everywhere, except 0 on the samples that are not support vectors and have `a[i] == rvm`. -/
def createcluster_v2_cls (a : Nat → ℚ) (rvm : ℚ) (m : Nat) (cls : Nat → Int) : Nat → Int :=
  fun i =>
    if i < m then
      if a i > 0 ∧ a i < rvm then -1
      else if a i = rvm then 0
      else -1
    else cls i

/-- The adjacency matrix of `createcluster_v2`: for `i < j < svcc` both `adj[i][j]` and
`adj[j][i]` hold `adjcheck(X, svind[i], svind[j], ...)`; the other entries keep what
`creatematrix` left in them (`adj0`). -/
def createcluster_v2_adj (kern : gsl_vector → gsl_vector → ℚ) (X : gsl_matrix)
    (svind : Nat → Nat) (svcc sam : Nat) (a : Nat → ℚ) (rsq sum : ℚ)
    (adj0 : Nat → Nat → Bool) : Nat → Nat → Bool :=
  fun i j =>
    if i < j ∧ j < svcc then adjcheck kern X (svind i) (svind j) sam a rsq sum
    else if j < i ∧ i < svcc then adjcheck kern X (svind j) (svind i) sam a rsq sum
    else adj0 i j

/-- The inner loop of `inducecluster_sv2` for sample `i` (`for(j=0;j<svcc;j++)`) as one
thread runs it when no other thread writes `flag` in between: the label `svcls[j]` of the
first support vector with `adjcheck(X, i, svind[j], ...)`, and 0 (the value `cls[i]` was
given before the loop) when there is none.  The loop over the samples is an OpenMP loop
whose threads share `flag`; its statements in the order of a schedule are
`inducecluster_sv2_threads`. -/
def inducecluster_sv2_search (kern : gsl_vector → gsl_vector → ℚ) (X : gsl_matrix)
    (svind : Nat → Nat) (svcls : Nat → Int) (sam : Nat) (a : Nat → ℚ) (rsq sum : ℚ)
    (i : Nat) : Nat → Nat → Int
  | 0, _ => 0
  | n + 1, j =>
    if adjcheck kern X i (svind j) sam a rsq sum then svcls j
    else inducecluster_sv2_search kern X svind svcls sam a rsq sum i n (j + 1)

/-- The array `cls` of `inducecluster_sv2` at its call of `consolidate`, together with
`nc`, when the iterations of the loop over the samples run one after the other:
`clusterfromgraph` labels the graph, the support vectors take their labels
(`cls[svind[i]] = svcls[i]`, in order), and every sample with `cls[i] < 0` takes the
result of the search over the support vectors. -/
def inducecluster_sv2_labels (kern : gsl_vector → gsl_vector → ℚ) (depth svcc : Nat)
    (svind : Nat → Nat) (adj : Nat → Nat → Bool) (X : gsl_matrix) (sam : Nat) (a : Nat → ℚ)
    (rsq sum : ℚ) (cdex0 : Nat → Nat) (svcls0 : Nat → Int) (cls : Nat → Int) :
    Option (Int × (Nat → Int)) :=
  match clusterfromgraph adj svcc depth cdex0 svcls0 with
  | none => none
  | some (nc, svcls) =>
    let m := X.size2
    let cls1 := (List.range svcc).foldl
      (fun (c : Nat → Int) (i : Nat) => Function.update c (svind i) (svcls i)) cls
    let cls2 : Nat → Int := fun i =>
      if i < m ∧ cls1 i < 0 then
        inducecluster_sv2_search kern X svind svcls sam a rsq sum i svcc 0
      else cls1 i
    some (nc, cls2)

/-- The function `createcluster_v2(X, K, a, sam, kt, pa, rsq, sum, rvm, nc, cls)` up to
the call of `consolidate` inside `inducecluster_sv2`: the result is `nc` and `cls` at
that point. -/
def createcluster_v2_labels (kern : gsl_vector → gsl_vector → ℚ) (depth : Nat)
    (X : gsl_matrix) (a : Nat → ℚ) (sam : Nat) (rsq sum rvm : ℚ)
    (adj0 : Nat → Nat → Bool) (cdex0 : Nat → Nat) (svcls0 : Nat → Int) (cls : Nat → Int) :
    Option (Int × (Nat → Int)) :=
  let m := X.size2
  let svcc := createcluster_v2_svcc a rvm m
  let svind := createcluster_v2_svind a rvm m
  let cls1 := createcluster_v2_cls a rvm m cls
  let adj := createcluster_v2_adj kern X svind svcc sam a rsq sum adj0
  inducecluster_sv2_labels kern depth svcc svind adj X sam a rsq sum cdex0 svcls0 cls1

/-! ## Consolidation -/

/-- The counting loop of `consolidate` (`cnm[i]=0` for `i < nc`, then `cnm[cls[i]]++`
for `i < m`): the member count of every label. -/
def consolidate_cnm (cls : Nat → Int) (m : Nat) : Nat → Int :=
  (List.range m).foldl
    (fun cnm i => Function.update cnm (cls i).toNat (cnm (cls i).toNat + 1)) (fun _ => 0)

/-- The variables of the renumbering loop of `consolidate`: the array `map` and the
next label `cc`. -/
structure MapState where
  map : Nat → Int
  cc : Int

/-- The renumbering loop of `consolidate`: `map[0]=0; cc=1;` then for `i = 1..nc-1` a
label with `cnm[i] >= thd` gets `map[i]=cc; cc++` and any other gets `map[i]=0`.  (The
fresh array `map` is read only at entries written here.) -/
def consolidate_map (cnm : Nat → Int) (thd : Int) (nc : Nat) : MapState :=
  (List.range' 1 (nc - 1)).foldl
    (fun (s : MapState) (i : Nat) =>
      if cnm i ≥ thd then ⟨Function.update s.map i s.cc, s.cc + 1⟩
      else ⟨Function.update s.map i 0, s.cc⟩)
    ⟨Function.update (fun _ => 0) 0 0, 1⟩

/-- The function `consolidate(cls, m, thd, nc)`: it returns the new `nc` (also its return
value) and the rewritten array `cls`.  With `nc < 1` the write `map[0]=0` lies outside
`map`, and a label outside `[0, nc)` indexes outside `cnm` and `map`: that is `none`. -/
def consolidate (cls : Nat → Int) (m : Nat) (thd : Int) (nc : Int) :
    Option (Int × (Nat → Int)) :=
  if nc < 1 then none
  else if (List.range m).all (fun i => decide (0 ≤ cls i ∧ cls i < nc)) then
    let cnm := consolidate_cnm cls m
    let s := consolidate_map cnm thd nc.toNat
    some (s.cc, fun i => if i < m then s.map (cls i).toNat else cls i)
  else none

/-- The member count of label `L` among the samples `0..m-1`. -/
def memberCount (cls : Nat → Int) (m : Nat) (L : Int) : Nat :=
  ((Finset.range m).filter (fun i => cls i = L)).card

/-- The number of surviving clusters (labels `L'` with `1 ≤ L' < L` and at least `thd`
members) below the label `L`. -/
def survivorsBelow (cls : Nat → Int) (m : Nat) (thd : Int) (L : Nat) : Nat :=
  ((Finset.Ico 1 L).filter (fun (L1 : Nat) => thd ≤ ((memberCount cls m (L1 : Int) : Nat) : Int))).card

/-- The labels written by `consolidate`, in closed form. -/
def consolidate_label (cls : Nat → Int) (m : Nat) (thd : Int) (L : Int) : Int :=
  if 1 ≤ L ∧ thd ≤ (memberCount cls m L : Int) then
    (survivorsBelow cls m thd L.toNat : Int) + 1
  else 0

/-! ## Kernel engine -/

/-- The call `gsl_vector_sub(a, b)`: `a` becomes `a - b`. -/
def gsl_vector_sub (a b : gsl_vector) : gsl_vector :=
  ⟨a.size, fun i => a.data i - b.data i⟩

/-- The call `gsl_blas_ddot(x, y, &result)`: the running sum of `x[i]*y[i]`. -/
def gsl_blas_ddot (x y : gsl_vector) : ℚ :=
  (List.range x.size).foldl (fun s i => s + x.data i * y.data i) 0

/-- The function `calkernel(v1, v2, kt, pa)`.  `expf` and `powf` are the library
functions `exp` and `pow`.  For `kt == 1`, `v3 = v1 - v2`, `norm = <v3,v3>` and the value
is `exp(-norm*r)` with `r = pa[0]`; for `kt == 2` the value is `pow(<v1,v2> + c, d)` with
`d = pa[0]`, `c = pa[1]`.  Vectors of different lengths stop in the GSL length check and
any other `kt` leaves the function without a `return`: both are `none`. -/
def calkernel (expf : ℚ → ℚ) (powf : ℚ → ℚ → ℚ) (v1 v2 : gsl_vector) (kt : Int)
    (pa : Nat → ℚ) : Option ℚ :=
  if kt = 1 then
    if v1.size = v2.size then
      let r := pa 0
      let v3 := gsl_vector_sub v1 v2
      let norm := gsl_blas_ddot v3 v3
      some (expf (-norm * r))
    else none
  else if kt = 2 then
    if v1.size = v2.size then
      let d := pa 0
      let c := pa 1
      let norm := gsl_blas_ddot v1 v2
      some (powf (norm + c) d)
    else none
  else none

/-- The outputs of `findakernel`: the returned matrix and the references `sum` and
`colsum`. -/
structure KernelResult where
  K : gsl_matrix
  sum : ℚ
  colsum : Nat → ℚ

/-- The matrix filled by the first loop nest of `findakernel`: for `i ≤ j < icol` both
`K[i][j]` and `K[j][i]` hold `calkernel(x_i, x_j)` (`kern` is `calkernel(., ., kt, pa)`). -/
def findakernel_K (kern : gsl_vector → gsl_vector → ℚ) (X : gsl_matrix) : gsl_matrix :=
  ⟨X.size2, X.size2, fun i j =>
    if i < X.size2 ∧ j < X.size2 then
      if i ≤ j then kern (gsl_matrix_column X i) (gsl_matrix_column X j)
      else kern (gsl_matrix_column X j) (gsl_matrix_column X i)
    else 0⟩

/-- The row total accumulated in `colsum[i]` by `findakernel` before the division. -/
def findakernel_rowsum (K : gsl_matrix) (icol i : Nat) : ℚ :=
  (List.range icol).foldl (fun s j => s + gsl_matrix_get K i j) 0

/-- The function `findakernel(X, centred, kt, pa, sum, colsum)`.  Without centring it
returns `K` and leaves `sum` and `colsum` as they were (`sum0`, `colsum0`).  With
centring, `colsum[i]` is the row total divided by `icol`, `sum` the grand total divided
by `icol*icol` (an `int` product, exact up to `icol = 46340`), and the returned matrix holds, for `i ≤ j`,
`K[i][j] - (colsum[i]+colsum[j]) + sum` at `[i][j]` and `[j][i]`. -/
def findakernel (kern : gsl_vector → gsl_vector → ℚ) (X : gsl_matrix) (centred : Bool)
    (sum0 : ℚ) (colsum0 : Nat → ℚ) : KernelResult :=
  let icol := X.size2
  let K := findakernel_K kern X
  if centred then
    let total := (List.range icol).foldl (fun s i => s + findakernel_rowsum K icol i) 0
    let colsum : Nat → ℚ := fun i =>
      if i < icol then findakernel_rowsum K icol i / (icol : ℚ) else colsum0 i
    let sum := total / (((icol * icol : Nat) : ℚ))
    let KP : gsl_matrix := ⟨icol, icol, fun i j =>
      if i < icol ∧ j < icol then
        if i ≤ j then gsl_matrix_get K i j - (colsum i + colsum j) + sum
        else gsl_matrix_get K j i - (colsum j + colsum i) + sum
      else 0⟩
    ⟨KP, sum, colsum⟩
  else ⟨K, sum0, colsum0⟩

/-! ## `SVclustering`: radius and hand-over to cluster assignment -/

/-- The double loop of `SVclustering` after the solver loop:
`sum += a[p]*a[k]*K[k][p]` over `k, p < m`. -/
def SVclustering_sum (K : gsl_matrix) (a : Nat → ℚ) (m : Nat) : ℚ :=
  (List.range m).foldl
    (fun s k => (List.range m).foldl (fun s1 p => s1 + a p * a k * gsl_matrix_get K k p) s) 0

/-- The radius loop of `SVclustering` from sample `i` with `n` samples left: the first
`i` with `a[i]>0.0001 && a[i]<rvm-0.0001` assigns `rsq = K[i][i]-2*fw[i]+sum` and ends the
loop; `none` when the loop ends without an assignment. -/
def SVclustering_rsq_loop (K : gsl_matrix) (a fw : Nat → ℚ) (rvm sum : ℚ) :
    Nat → Nat → Option ℚ
  | 0, _ => none
  | n + 1, i =>
    if a i > 1 / 10000 ∧ a i < rvm - 1 / 10000 then
      some (gsl_matrix_get K i i - 2 * fw i + sum)
    else SVclustering_rsq_loop K a fw rvm sum n (i + 1)

/-- The value assigned to `rsq` by the radius loop of `SVclustering`, if any. -/
def SVclustering_rsq (K : gsl_matrix) (a fw : Nat → ℚ) (rvm sum : ℚ) (m : Nat) : Option ℚ :=
  SVclustering_rsq_loop K a fw rvm sum m 0

/-- The variables of the loop of `getsvfsvind`. -/
structure SvfState where
  ss : Nat
  pc : Nat
  oldcc : Int
  svcuts : Nat → Int
  svind : Nat → Int

/-- The function `getsvfsvind(cls, svind, svcc, nc, svf)`: `sts` is the permutation
written by `gsl_sort_index` on the labels of the support vectors.  In that order, every
support vector with a positive label is appended to `svf->svind`, a label above the last
one opens a new cut in `svf->svcuts`; at the end the closing cut, `svf->nc` and
`svf->svnum` are written. -/
def getsvfsvind (cls : Nat → Int) (svind : Nat → Nat) (svcc : Nat) (nc : Int)
    (sts : Nat → Nat) (svf : svminfo) : svminfo :=
  let s := (List.range svcc).foldl
    (fun (s : SvfState) (i : Nat) =>
      let ind := sts i
      let cc := cls (svind ind)
      if cc > 0 then
        let s1 : SvfState :=
          if cc > s.oldcc then ⟨s.ss, s.pc + 1, cc, Function.update s.svcuts s.pc s.ss, s.svind⟩
          else s
        ⟨s1.ss + 1, s1.pc, s1.oldcc, s1.svcuts, Function.update s1.svind s1.ss (svind ind)⟩
      else s)
    ⟨0, 0, 0, svf.svcuts, svf.svind⟩
  ⟨svf.a, svf.rsq, svf.sum, s.svind, Function.update s.svcuts s.pc s.ss, s.ss, nc⟩

/-- What the run of `SVclustering` takes from outside the function: the kernel
`calkernel(., ., kt, pa)`, the recursion depth available to `findgroup`, the content of
the local `rsq` before any assignment, the contents of the fresh arrays `adj`, `cdex`,
`svcls`, and the permutation written by `gsl_sort_index` in `getsvfsvind`. -/
structure RunEnv where
  kern : gsl_vector → gsl_vector → ℚ
  depth : Nat
  rsq0 : ℚ
  adj0 : Nat → Nat → Bool
  cdex0 : Nat → Nat
  svcls0 : Nat → Int
  sts : Nat → Nat

/-- The function `createcluster_v3(X, K, sam, kt, pa, rvm, nc, cls, svf)`: the steps of
`createcluster_v2` on `a = svf->a`, `rsq = svf->rsq`, `sum = svf->sum`, and, inside
`inducecluster_sv3`, `consolidate(cls, m, (int)(m*.01), nc)` followed by `getsvfsvind`.
The result is `nc`, `cls` and the record behind `svf`. -/
def createcluster_v3 (env : RunEnv) (X : gsl_matrix) (sam : Nat) (rvm : ℚ)
    (cls : Nat → Int) (svf : svminfo) : Option (Int × (Nat → Int) × svminfo) :=
  let m := X.size2
  match createcluster_v2_labels env.kern env.depth X svf.a sam svf.rsq svf.sum rvm
      env.adj0 env.cdex0 env.svcls0 cls with
  | none => none
  | some (nc, cls1) =>
    match consolidate cls1 m ((m / 100 : Nat) : Int) nc with
    | none => none
    | some (nc2, cls2) =>
      some (nc2, cls2,
        getsvfsvind cls2 (createcluster_v2_svind svf.a rvm m) (createcluster_v2_svcc svf.a rvm m)
          nc2 env.sts svf)

/-- The coefficients, heights and kernel matrix with which the solver loop of
`SVclustering` ends. -/
structure SolverEnd where
  K : gsl_matrix
  a : Nat → ℚ
  fw : Nat → ℚ

/-- The part of `SVclustering` after the solver loop: `sum`, the radius loop, the copy of
`a`, `rsq` (assigned or not) and `sum` into `svf`, `createcluster_v3` with `sam = 30`, and
`return 0`.  No statement between the radius loop and `createcluster_v3` looks at whether
`rsq` was assigned.  (The closing count of the labels only prints.) -/
def SVclustering_finish (env : RunEnv) (X : gsl_matrix) (e : SolverEnd) (rvm : ℚ)
    (out : SVout) : Option (Int × SVout) :=
  let m := X.size2
  let sum := SVclustering_sum e.K e.a m
  let rsq := (SVclustering_rsq e.K e.a e.fw rvm sum m).getD env.rsq0
  let svf1 : svminfo :=
    ⟨fun i => if i < m then e.a i else out.svf.a i, rsq, sum, out.svf.svind, out.svf.svcuts,
      out.svf.svnum, out.svf.nc⟩
  match createcluster_v3 env X 30 rvm out.cls svf1 with
  | none => none
  | some (nc, cls, svf2) => some (0, ⟨nc, cls, svf2⟩)

/-- The clustering work of `SVclustering` as one body: `solve` stands for the kernel
matrix, the coefficient initialisation and the solver loop (`none` when the loop does not
end), and the rest is `SVclustering_finish` with `rvm = 1.0/(v*m)`. -/
def SVclustering_body (env : RunEnv)
    (solve : gsl_matrix → ℚ → Int → (Nat → ℚ) → Option SolverEnd) :
    gsl_matrix → ℚ → Int → (Nat → ℚ) → SVout → Option SVout :=
  fun X v kt pa out =>
    match solve X v kt pa with
    | none => none
    | some e =>
      (SVclustering_finish env X e (1 / (v * (X.size2 : ℚ))) out).map (fun r => r.2)

/-! ## Image-scale controller `clusteroneimage` -/

/-- The validity test of `clusteroneimage` for pixel `i` from band `j` with `n` bands
left: `flag` becomes false at the first band with `data[j][i] <= ivd`. -/
def clusteroneimage_valid (data : Nat → Nat → ℚ) (ivd : ℚ) (i : Nat) : Nat → Nat → Bool
  | 0, _ => true
  | n + 1, j => if data j i ≤ ivd then false else clusteroneimage_valid data ivd i n (j + 1)

/-- The Init loop of `clusteroneimage` over the `pnum` pixels: a valid pixel gets the
label 0 and is counted in `olduncls`, any other gets -999.  `cls0` is the content of the
fresh array `cls`. -/
def clusteroneimage_init (data : Nat → Nat → ℚ) (natb pnum : Nat) (ivd : ℚ)
    (cls0 : Nat → Int) : (Nat → Int) × Int :=
  (List.range pnum).foldl
    (fun (s : (Nat → Int) × Int) (i : Nat) =>
      if clusteroneimage_valid data ivd i natb 0 then (Function.update s.1 i 0, s.2 + 1)
      else (Function.update s.1 i (-999), s.2))
    (cls0, 0)

/-- The loop shared by `samplingaset` and `samplingexset`, at position `i` of the random
permutation `sts` with `n` positions left: a pixel that passes the test is stored in
`idx[m]`, and the loop ends when `m` reaches `bs`. -/
def sampling_loop (test : Nat → Bool) (sts : Nat → Nat) (bs : Nat) :
    Nat → Nat → Nat → (Nat → Nat) → Nat × (Nat → Nat)
  | 0, _, m, idx => (m, idx)
  | n + 1, i, m, idx =>
    let ind := sts i
    if test ind then
      if m + 1 = bs then (m + 1, Function.update idx m ind)
      else sampling_loop test sts bs n (i + 1) (m + 1) (Function.update idx m ind)
    else sampling_loop test sts bs n (i + 1) m idx

/-- The function `samplingaset(rng, cls, pnum, idx, bs)`: `sts` is the permutation drawn
by `randomperm`; the pixels with `cls[ind]==0` are taken.  It returns `m` and `idx`. -/
def samplingaset (sts : Nat → Nat) (cls : Nat → Int) (pnum : Nat) (idx : Nat → Nat)
    (bs : Nat) : Nat × (Nat → Nat) :=
  sampling_loop (fun ind => decide (cls ind = 0)) sts bs pnum 0 0 idx

/-- The function `samplingexset(rng, cls, pnum, idx, bs, rsflags)`: the pixels with
`cls[ind]==0 && rsflags[ind]==2` are taken. -/
def samplingexset (sts : Nat → Nat) (cls : Nat → Int) (pnum : Nat) (idx : Nat → Nat)
    (bs : Nat) (rsflags : Nat → Int) : Nat × (Nat → Nat) :=
  sampling_loop (fun ind => decide (cls ind = 0 ∧ rsflags ind = 2)) sts bs pnum 0 0 idx

/-- The variables of `clusteroneimage` that live across its rounds. -/
structure ImageState where
  cls : Nat → Int
  idx : Nat → Nat
  scls : Nat → Int
  snc : Int
  nc : Int
  vflags : Nat → Bool
  succ : Nat → Bool
  rsflags : Nat → Int
  untc : Nat → Nat
  svf : svminfo
  X : gsl_matrix
  olduncls : Int

/-- The inputs of `clusteroneimage` that stay fixed during a run: the raster `data`
(`data[j][i]` is band `j` of pixel `i`), `natb`, the pixel count `pnum = icol*irow`, the
batch size `bs`, `v`, `kt`, `pa`, and the neighbour count `k = 10`. -/
structure ImageConfig where
  data : Nat → Nat → ℚ
  natb : Nat
  pnum : Nat
  bs : Nat
  v : ℚ
  kt : Int
  pa : Nat → ℚ
  k : Nat

/-- The loop that copies the batch into `X` (`gsl_matrix_set(X, j, i, data[j][idx[i]])`
for `i < m`, `j < natb`).  A column index beyond `X->size2` stops in the range check of
GSL: that is `none`. -/
def clusteroneimage_fill (cfg : ImageConfig) (X : gsl_matrix) (idx : Nat → Nat) (m : Nat) :
    Option gsl_matrix :=
  if m ≤ X.size2 ∨ cfg.natb = 0 then
    some ⟨X.size1, X.size2, fun j i =>
      if i < m ∧ j < cfg.natb then cfg.data j (idx i) else X.data j i⟩
  else none

/-- The loop `for(i=0;i<bs;i++) { j=scls[i]; if (j>0) scls[i]=nc+j-1; }`. -/
def clusteroneimage_offset (scls : Nat → Int) (nc : Int) (bs : Nat) : Nat → Int :=
  fun i => if i < bs ∧ scls i > 0 then nc + scls i - 1 else scls i

/-- The assignment loop of a round, `for(i=0;i<bs;i++) if (scls[i]>0) { ind=idx[i];
cls[ind]=scls[i]; vflags[ind]=true; }`, run in index order. -/
def clusteroneimage_assign (idx : Nat → Nat) (scls : Nat → Int) (bs : Nat)
    (cls : Nat → Int) (vflags : Nat → Bool) : (Nat → Int) × (Nat → Bool) :=
  (List.range bs).foldl
    (fun (s : (Nat → Int) × (Nat → Bool)) (i : Nat) =>
      if scls i > 0 then (Function.update s.1 (idx i) (scls i), Function.update s.2 (idx i) true)
      else s)
    (cls, vflags)

/-- The assignment loop after the first solver call, `for(i=0;i<m;i++) { ind=idx[i];
cls[ind]=scls[i]; }`. -/
def clusteroneimage_assign_first (idx : Nat → Nat) (scls : Nat → Int) (m : Nat)
    (cls : Nat → Int) : Nat → Int :=
  (List.range m).foldl (fun (c : Nat → Int) (i : Nat) => Function.update c (idx i) (scls i)) cls

/-- The closing part of a round of `clusteroneimage`, from `nc+=snc-1` to the
assignment of the batch labels: the next batch is drawn by `samplingexset` (`sts` is its
permutation) and copied into the first `m` columns of `X`, the flags are reset,
`SVclustering` runs on `X` (its return value is not looked at), every positive solver
label `j` becomes `nc+j-1`, and the loop over all `bs` entries of `scls` and `idx` writes
the labels into the raster.  `uncls` is the count taken before in the round. -/
def clusteroneimage_batch
    (work : gsl_matrix → ℚ → Int → (Nat → ℚ) → SVout → Option SVout)
    (cfg : ImageConfig) (sts : Nat → Nat) (uncls : Int) (st : ImageState) :
    Option ImageState :=
  let nc1 := st.nc + st.snc - 1
  let sample := samplingexset sts st.cls cfg.pnum st.idx cfg.bs st.rsflags
  match clusteroneimage_fill cfg st.X sample.2 sample.1 with
  | none => none
  | some X1 =>
    let vflags1 : Nat → Bool := fun i => if i < cfg.pnum then false else st.vflags i
    let succ1 : Nat → Bool := fun i => if i < cfg.pnum then false else st.succ i
    let rsflags1 : Nat → Int := fun i => if i < cfg.pnum then 0 else st.rsflags i
    match SVclustering work X1 cfg.v cfg.kt cfg.pa ⟨st.snc, st.scls, st.svf⟩ with
    | none => none
    | some (_, out) =>
      let scls1 := clusteroneimage_offset out.cls nc1 cfg.bs
      let w := clusteroneimage_assign sample.2 scls1 cfg.bs st.cls vflags1
      some ⟨w.1, sample.2, scls1, out.nc, nc1, w.2, succ1, rsflags1, st.untc, out.svf, X1,
        uncls⟩

/-- The function `calrsflags(data, i, kt, pa, a, rsq, sum, X)`: the sphere distance of
pixel `i` by `calrsq`, answered with 2 when it exceeds `rsq` and 1 otherwise. -/
def calrsflags (kern : gsl_vector → gsl_vector → ℚ) (data : Nat → Nat → ℚ) (i : Nat)
    (a : Nat → ℚ) (rsq sum : ℚ) (X : gsl_matrix) : Int :=
  let px : gsl_vector := ⟨X.size1, fun j => data j i⟩
  if calrsq kern px a X sum > rsq then 2 else 1

/-- The loop over the neighbour list `kdex` of the seed `i` in the propagation step, at
entry `j` with `n` entries left: `vflags[ind]=true; cls[ind]=cls[i];` for every entry
`ind >= 0`, and the loop ends at the first negative entry. -/
def clusteroneimage_spread (kdex : Nat → Int) (i : Nat) :
    Nat → Nat → (Nat → Int) × (Nat → Bool) → (Nat → Int) × (Nat → Bool)
  | 0, _, s => s
  | n + 1, j, s =>
    if kdex j ≥ 0 then
      clusteroneimage_spread kdex i n (j + 1)
        (Function.update s.1 (kdex j).toNat (s.1 i), Function.update s.2 (kdex j).toNat true)
    else s

/-- One pass of the `do` loop of the propagation step: `succ` takes `vflags`, `vflags`
is cleared, and every seed `i` with `succ[i] && rsflags[i]!=2` spreads its label to the
pixels returned by `knnindex`.  The argument `knn` stands for `knnindex` on the state of
the moment: it answers with the list `kdex` and with `rsflags` as the call leaves it. -/
def clusteroneimage_sweep (knn : ImageState → Nat → (Nat → Int) × (Nat → Int))
    (cfg : ImageConfig) (st : ImageState) : ImageState :=
  (List.range cfg.pnum).foldl
    (fun (s : ImageState) (i : Nat) =>
      if s.succ i = true ∧ s.rsflags i ≠ 2 then
        let r := knn s i
        let w := clusteroneimage_spread r.1 i cfg.k 0 (s.cls, s.vflags)
        { s with cls := w.1, vflags := w.2, rsflags := r.2 }
      else s)
    { st with
      succ := fun i => if i < cfg.pnum then st.vflags i else st.succ i
      vflags := fun i => if i < cfg.pnum then false else st.vflags i }

/-- The count `cc` of the pixels with `vflags[i]` set. -/
def clusteroneimage_count (vflags : Nat → Bool) (pnum : Nat) : Nat :=
  ((List.range pnum).filter (fun i => vflags i)).length

/-- The `do ... while(cc>100)` loop of the propagation step, with `fuel` passes
available: `none` when they do not suffice. -/
def clusteroneimage_propagate (knn : ImageState → Nat → (Nat → Int) × (Nat → Int))
    (cfg : ImageConfig) : Nat → ImageState → Option ImageState
  | 0, _ => none
  | fuel + 1, st =>
    let s := clusteroneimage_sweep knn cfg st
    if clusteroneimage_count s.vflags cfg.pnum > 100 then
      clusteroneimage_propagate knn cfg fuel s
    else some s

/-- The variables of the boundary-test sweep. -/
structure BoundaryState where
  rsflags : Nat → Int
  untc : Nat → Nat
  uncls : Int
  cx1 : Nat

/-- The boundary-test sweep of a round over the pixels `h` with `cls[h]==0`: `uncls` is
counted, a pixel without a flag gets `calrsflags(data, ind, ...)` where `ind` holds
`cls[h]`, and a pixel with flag 1 is appended to `untc`. -/
def clusteroneimage_boundary (kern : gsl_vector → gsl_vector → ℚ) (cfg : ImageConfig)
    (st : ImageState) : BoundaryState :=
  (List.range cfg.pnum).foldl
    (fun (b : BoundaryState) (h : Nat) =>
      if st.cls h = 0 then
        let rs : Nat → Int :=
          if b.rsflags h = 0 then
            Function.update b.rsflags h
              (calrsflags kern cfg.data (st.cls h).toNat st.svf.a st.svf.rsq st.svf.sum st.X)
          else b.rsflags
        if rs h = 1 then ⟨rs, Function.update b.untc b.cx1 h, b.uncls + 1, b.cx1 + 1⟩
        else ⟨rs, b.untc, b.uncls + 1, b.cx1⟩
      else b)
    ⟨st.rsflags, st.untc, 0, 0⟩

/-- The straggler loop of a round: `for(h=0;h<cx1;h++) { i=untc[h]; j=checkcls(...);
if (j>0) cls[i]=tnc+j-1; }`.  The argument `ck` stands for `checkcls` on the record `svf`
and the matrix `X` of the last solver call. -/
def clusteroneimage_stragglers (ck : Nat → Int) (untc : Nat → Nat) (cx1 : Nat) (tnc : Int)
    (cls : Nat → Int) : Nat → Int :=
  (List.range cx1).foldl
    (fun (c : Nat → Int) (h : Nat) =>
      if ck (untc h) > 0 then Function.update c (untc h) (tnc + ck (untc h) - 1) else c)
    cls

/-- The opening part of a round of `clusteroneimage`: the propagation loop, the
boundary-test sweep and the straggler loop.  The result is the state before
`olduncls=uncls; nc+=snc-1;` together with `uncls`. -/
def clusteroneimage_pre (kern : gsl_vector → gsl_vector → ℚ)
    (knn : ImageState → Nat → (Nat → Int) × (Nat → Int))
    (ck : svminfo → gsl_matrix → Nat → Int) (cfg : ImageConfig) (fuel : Nat)
    (st : ImageState) : Option (Int × ImageState) :=
  match clusteroneimage_propagate knn cfg fuel st with
  | none => none
  | some s =>
    let b := clusteroneimage_boundary kern cfg s
    some (b.uncls,
      { s with
        cls := clusteroneimage_stragglers (ck s.svf s.X) b.untc b.cx1 s.nc s.cls
        rsflags := b.rsflags
        untc := b.untc })

/-- One round of the `while(true)` loop of `clusteroneimage` up to the test
`uncls<nsnum`: the opening part followed by the closing part. -/
def clusteroneimage_round
    (work : gsl_matrix → ℚ → Int → (Nat → ℚ) → SVout → Option SVout)
    (kern : gsl_vector → gsl_vector → ℚ)
    (knn : ImageState → Nat → (Nat → Int) × (Nat → Int))
    (ck : svminfo → gsl_matrix → Nat → Int) (cfg : ImageConfig) (sts : Nat → Nat)
    (fuel : Nat) (st : ImageState) : Option ImageState :=
  match clusteroneimage_pre kern knn ck cfg fuel st with
  | none => none
  | some (uncls, mid) => clusteroneimage_batch work cfg sts uncls mid

/-- The part of `clusteroneimage` before the `while(true)` loop.  `fresh` holds the
contents of the arrays and variables as allocated; `sts` is the permutation of
`samplingaset`.  After the Init loop the first batch is drawn, `X` is allocated with `m`
columns and filled, `SVclustering` runs, the labels of the `m` batch entries are written,
`succ` and `rsflags` are cleared, `vflags` is set for the `bs` entries with a positive
label, and `nc=1`. -/
def clusteroneimage_start
    (work : gsl_matrix → ℚ → Int → (Nat → ℚ) → SVout → Option SVout)
    (cfg : ImageConfig) (ivd : ℚ) (sts : Nat → Nat) (fresh : ImageState) :
    Option ImageState :=
  let ini := clusteroneimage_init cfg.data cfg.natb cfg.pnum ivd fresh.cls
  let sample := samplingaset sts ini.1 cfg.pnum fresh.idx cfg.bs
  let X : gsl_matrix := ⟨cfg.natb, sample.1, fun j i =>
    if i < sample.1 ∧ j < cfg.natb then cfg.data j (sample.2 i) else fresh.X.data j i⟩
  match SVclustering work X cfg.v cfg.kt cfg.pa ⟨fresh.snc, fresh.scls, fresh.svf⟩ with
  | none => none
  | some (_, out) =>
    some ⟨clusteroneimage_assign_first sample.2 out.cls sample.1 ini.1, sample.2, out.cls,
      out.nc, 1,
      (List.range cfg.bs).foldl
        (fun (f : Nat → Bool) (i : Nat) =>
          if out.cls i > 0 then Function.update f (sample.2 i) true else f) fresh.vflags,
      fun i => if i < cfg.pnum then false else fresh.succ i,
      fun i => if i < cfg.pnum then 0 else fresh.rsflags i,
      fresh.untc, out.svf, X, ini.2⟩

/-- Every label of the first `pnum` pixels is below `b`. -/
def LabelsBelow (cls : Nat → Int) (pnum : Nat) (b : Int) : Prop :=
  ∀ p, p < pnum → cls p < b

/-- The cut-off `nsnum=(int)(olduncls*.15)`: the product cut to an integer towards
zero. -/
def clusteroneimage_nsnum (olduncls : Int) : Int := Int.tdiv (olduncls * 15) 100

/-- The `while(true)` loop of `clusteroneimage` with `n` rounds available, at round
number `r`: after each round the test `if (uncls<nsnum) break;` ends the loop, where
`uncls` is the count of that round (kept in `olduncls`).  `sts r` is the permutation drawn
by `samplingexset` in round `r`; `none` when the rounds do not suffice or a round does
not return. -/
def clusteroneimage_loop
    (work : gsl_matrix → ℚ → Int → (Nat → ℚ) → SVout → Option SVout)
    (kern : gsl_vector → gsl_vector → ℚ)
    (knn : ImageState → Nat → (Nat → Int) × (Nat → Int))
    (ck : svminfo → gsl_matrix → Nat → Int) (cfg : ImageConfig) (sts : Nat → Nat → Nat)
    (fuel : Nat) (nsnum : Int) : Nat → Nat → ImageState → Option ImageState
  | 0, _, _ => none
  | n + 1, r, st =>
    match clusteroneimage_round work kern knn ck cfg (sts r) fuel st with
    | none => none
    | some st1 =>
      if st1.olduncls < nsnum then some st1
      else clusteroneimage_loop work kern knn ck cfg sts fuel nsnum n (r + 1) st1

/-- The function `clusteroneimage(data, natb, icol, irow, bs, v, kt, pa, nc, cls, ivd,
oimgfname)`: the part before the loop, `nsnum` from the count of the Init loop, and the
round loop; the result is the return value 0 with the outputs `nc` and `cls`.  `sts0` is
the permutation of `samplingaset`, `rounds` the number of rounds available. -/
def clusteroneimage
    (work : gsl_matrix → ℚ → Int → (Nat → ℚ) → SVout → Option SVout)
    (kern : gsl_vector → gsl_vector → ℚ)
    (knn : ImageState → Nat → (Nat → Int) × (Nat → Int))
    (ck : svminfo → gsl_matrix → Nat → Int) (cfg : ImageConfig) (ivd : ℚ)
    (sts0 : Nat → Nat) (sts : Nat → Nat → Nat) (fuel rounds : Nat) (fresh : ImageState) :
    Option (Int × Int × (Nat → Int)) :=
  match clusteroneimage_start work cfg ivd sts0 fresh with
  | none => none
  | some st =>
    match clusteroneimage_loop work kern knn ck cfg sts fuel
        (clusteroneimage_nsnum st.olduncls) rounds 0 st with
    | none => none
    | some st1 => some (0, st1.nc, st1.cls)

/-- The body of the boundary-test sweep for pixel `h`, as in
`clusteroneimage_boundary`. -/
def clusteroneimage_boundary_step (kern : gsl_vector → gsl_vector → ℚ) (cfg : ImageConfig)
    (st : ImageState) (b : BoundaryState) (h : Nat) : BoundaryState :=
  if st.cls h = 0 then
    let rs : Nat → Int :=
      if b.rsflags h = 0 then
        Function.update b.rsflags h
          (calrsflags kern cfg.data (st.cls h).toNat st.svf.a st.svf.rsq st.svf.sum st.X)
      else b.rsflags
    if rs h = 1 then ⟨rs, Function.update b.untc b.cx1 h, b.uncls + 1, b.cx1 + 1⟩
    else ⟨rs, b.untc, b.uncls + 1, b.cx1⟩
  else b

/-! ## Dual coefficient solver -/

/-- The function `hyperdistance(K, a, ind)`: the dot product of column `ind` of `K`
with the vector `a` (in `SVclustering` both have length `m`). -/
def hyperdistance (K : gsl_matrix) (a : gsl_vector) (ind : Nat) : ℚ :=
  gsl_blas_ddot (gsl_matrix_column K ind) a

/-- The variables of the sweep that fills `fw` in `SVclustering`. -/
structure HeightState where
  fw : Nat → ℚ
  maxph : ℚ

/-- The sweep of `SVclustering` before the solver loop: `maxph=-1`, and for every
`i < m`, `ph=hyperdistance(K, a, i)`, `maxph` takes `ph` when `ph>maxph && a[i]>0`, and
`fw[i]=ph`.  `fw0` is the content of the fresh array `fw`. -/
def SVclustering_heights (K : gsl_matrix) (a fw0 : Nat → ℚ) (m : Nat) : HeightState :=
  (List.range m).foldl
    (fun (s : HeightState) (i : Nat) =>
      let ph := hyperdistance K ⟨m, a⟩ i
      ⟨Function.update s.fw i ph, if ph > s.maxph ∧ a i > 0 then ph else s.maxph⟩)
    ⟨fw0, -1⟩

/-- The library call `gsl_stats_max_index(data, 1, n)`: the index of the largest of the
first `n` values, the first one among equals. -/
def gsl_stats_max_index (data : Nat → ℚ) (n : Nat) : Nat :=
  ((List.range n).foldl
    (fun (s : ℚ × Nat) (i : Nat) => if data i > s.1 then (data i, i) else s) (data 0, 0)).2

/-- The constant `esma=0.0000001` of `scan_kkt_v2`. -/
def scan_kkt_v2_esma : ℚ := 1 / 10000000

/-- The filled part of `list2` after the first loop of `scan_kkt_v2`: the samples `k < m`
with `fabs(ph-fw[k])>esma && a[k]>0 && a[k]<rvm`, in increasing order. -/
def scan_kkt_v2_list2 (m : Nat) (fw a : Nat → ℚ) (ph rvm : ℚ) : List Nat :=
  (List.range m).filter
    (fun k => decide (|ph - fw k| > scan_kkt_v2_esma ∧ a k > 0 ∧ a k < rvm))

/-- The filled part of `list1` before the pairing of `scan_kkt_v2`: the copy of `list2`,
followed for `ty==1` by the samples with `(a[k]==0 && fw[k]<ph) || (a[k]>rvm && fw[k]>ph)`,
in increasing order. -/
def scan_kkt_v2_list1 (ty : Int) (m : Nat) (fw a : Nat → ℚ) (ph rvm : ℚ) : List Nat :=
  scan_kkt_v2_list2 m fw a ph rvm ++
    (if ty = 1 then
      (List.range m).filter
        (fun k => decide ((a k = 0 ∧ fw k < ph) ∨ (a k > rvm ∧ fw k > ph)))
    else [])

/-- The second list of the pairing of `scan_kkt_v2`: `list2`, or the copy of `list1`
made when `cc2==0`. -/
def scan_kkt_v2_second (ty : Int) (m : Nat) (fw a : Nat → ℚ) (ph rvm : ℚ) : List Nat :=
  if (scan_kkt_v2_list2 m fw a ph rvm).length = 0 then scan_kkt_v2_list1 ty m fw a ph rvm
  else scan_kkt_v2_list2 m fw a ph rvm

/-- The array `phdf` of `scan_kkt_v2` after its double loop: the entry `k*cc2+p`, for
`k < cc1` and `p < cc2`, holds `fabs(fw[list1[k]]-fw[list2[p]])`; an index `n < cc1*cc2`
is written once, with `k = n / cc2` and `p = n % cc2`.  `phdf0` is the content of the
fresh array. -/
def scan_kkt_v2_phdf (fw : Nat → ℚ) (list1 list2 : List Nat) (phdf0 : Nat → ℚ) : Nat → ℚ :=
  fun n =>
    if n < list1.length * list2.length then
      |fw (list1.getD (n / list2.length) 0) - fw (list2.getD (n % list2.length) 0)|
    else phdf0 n

/-- The outputs of `scan_kkt_v2`: its return value and the references `i`, `j`. -/
structure ScanResult where
  found : Int
  i : Nat
  j : Nat

/-- The function `scan_kkt_v2(rng, ty, m, fw, a, ph, rvm, i, j)`.  With an empty `list2`
and at most one entry in `list1` it returns 0 and leaves `i`, `j` as they were (`i0`,
`j0`).  Otherwise `gd` is the index of the largest entry of `phdf`, `i=list1[gd/cc2]`,
`j=list2[gd%cc2]`, and the return value is 1 when `phdf[gd]>esma` and 0 otherwise. -/
def scan_kkt_v2 (ty : Int) (m : Nat) (fw a : Nat → ℚ) (ph rvm : ℚ) (i0 j0 : Nat) :
    ScanResult :=
  let list1 := scan_kkt_v2_list1 ty m fw a ph rvm
  if (scan_kkt_v2_list2 m fw a ph rvm).length = 0 ∧ ¬ list1.length > 1 then ⟨0, i0, j0⟩
  else
    let list2 := scan_kkt_v2_second ty m fw a ph rvm
    let phdf := scan_kkt_v2_phdf fw list1 list2 (fun _ => 0)
    let gd := gsl_stats_max_index phdf (list1.length * list2.length)
    ⟨if phdf gd > scan_kkt_v2_esma then 1 else 0,
      list1.getD (gd / list2.length) 0, list2.getD (gd % list2.length) 0⟩

/-- The variables of the solver loop of `SVclustering`. -/
structure SolverState where
  a : Nat → ℚ
  fw : Nat → ℚ
  ph : ℚ
  i : Nat
  j : Nat
  prg : Int
  stallcc : Int

/-- The inner `while(1)` of the solver loop, with `fuel` passes available: scan type 2,
`updatecoeffs` on the pair while a pair is found, and `break` when none is. -/
def SVclustering_inner (K : gsl_matrix) (m : Nat) (rvm : ℚ) :
    Nat → SolverState → Option SolverState
  | 0, _ => none
  | fuel + 1, s =>
    let r := scan_kkt_v2 2 m s.fw s.a s.ph rvm s.i s.j
    if r.found ≠ 0 then
      let u := updatecoeffs K s.a s.fw r.i r.j rvm s.ph
      SVclustering_inner K m rvm fuel ⟨u.a, u.fw, u.ph, r.i, r.j, u.ret, s.stallcc⟩
    else some { s with i := r.i, j := r.j }

/-- The distances `md[i]` of `checkcls`: `gsl_blas_dnrm2` of `px - py`, with `px` the
band values of pixel `ind` and `py` the column `svf->svind[i]` of `X`.  `nrm` is the
library function `gsl_blas_dnrm2`, the Euclidean norm. -/
def checkcls_md (nrm : gsl_vector → ℚ) (data : Nat → Nat → ℚ) (ind : Nat) (X : gsl_matrix)
    (svf : svminfo) : Nat → ℚ :=
  fun i =>
    nrm (gsl_vector_sub ⟨X.size1, fun r => data r ind⟩
      (gsl_matrix_column X (svf.svind i).toNat))

/-- The loop `for(lab=1;lab<nc;lab++)` of `checkcls` at `lab` with `n` values left: it
leaves at the first `lab` with `svcuts[lab-1] <= i < svcuts[lab]`; the result is `lab`
after the loop. -/
def checkcls_lab (svcuts : Nat → Int) (i : Int) : Nat → Nat → Nat
  | 0, lab => lab
  | n + 1, lab =>
    if svcuts (lab - 1) ≤ i ∧ i < svcuts lab then lab
    else checkcls_lab svcuts i n (lab + 1)

/-- The main loop of `checkcls` at position `h` of the sort order `sts` with `n`
positions left, on the variables `adj` and `lab`: `adjf i` is the answer of `adjcheck2v`
for the pixel and the support vector `svf->svind[i]`; at the first positive answer `lab`
is looked up and the loop ends. -/
def checkcls_loop (adjf : Nat → Bool) (sts : Nat → Nat) (svcuts : Nat → Int) (nc : Int) :
    Nat → Nat → Bool × Int → Bool × Int
  | 0, _, s => s
  | n + 1, h, s =>
    if adjf (sts h) then
      (true, ((checkcls_lab svcuts ((sts h : Nat) : Int) (nc - 1).toNat 1 : Nat) : Int))
    else checkcls_loop adjf sts svcuts nc n (h + 1) (false, s.2)

/-- The call `adjcheck2v(px, py, svf->a, kt, pa, sum, rsq, sam, X)` of `checkcls` for
position `i` of `svf->svind`: `px` holds the band values of pixel `ind`, `py` is the
column `svf->svind[i]` of `X`. -/
def checkcls_adj (kern : gsl_vector → gsl_vector → ℚ) (data : Nat → Nat → ℚ) (ind sam : Nat)
    (X : gsl_matrix) (svf : svminfo) (i : Nat) : Bool :=
  adjcheck2v kern ⟨X.size1, fun r => data r ind⟩ (gsl_matrix_column X (svf.svind i).toNat)
    svf.a svf.sum svf.rsq sam X

/-- The function `checkcls(data, ind, sam, kt, pa, X, svf)`.  `sts` is the permutation
written by `gsl_sort_index` on the distances `md`; `adj0` and `lab0` are what the local
variables `adj` and `lab` hold before any assignment.  The result is `lab` when `adj` is
set after the loop and 0 otherwise. -/
def checkcls (kern : gsl_vector → gsl_vector → ℚ) (sts : Nat → Nat) (adj0 : Bool)
    (lab0 : Int) (data : Nat → Nat → ℚ) (ind sam : Nat) (X : gsl_matrix) (svf : svminfo) :
    Int :=
  let r := checkcls_loop (checkcls_adj kern data ind sam X svf) sts svf.svcuts svf.nc
    svf.svnum.toNat 0 (adj0, lab0)
  if r.1 then r.2 else 0

/-- The list `svf->svind` is grouped by cluster with the cut offsets `svf->svcuts`: the
cuts start at 0, do not descend, and the cut `nc-1` is `svnum`; group `g` (for
`1 ≤ g < nc`) holds the positions from `svcuts[g-1]` up to `svcuts[g]`. -/
def SvfGrouped (svf : svminfo) : Prop :=
  1 ≤ svf.nc ∧ svf.svcuts 0 = 0 ∧ svf.svcuts (svf.nc - 1).toNat = svf.svnum ∧
    ∀ g : Nat, ((g : Int) + 1 < svf.nc) → svf.svcuts g ≤ svf.svcuts (g + 1)

/-! ## Region blocks: the ring search -/

/-- The cells `(i, j)` for which the double loop of `findNNblocks` writes a slot, in loop
order: `i` runs from `x-n` to `x+n`, `j` from `y-n` to `y+n`, and a cell is taken when
`tx==n || ty==n` with `tx = |i-x|` and `ty = |j-y|`. -/
def findNNblocks_cells (x y : Int) (n : Nat) : List (Int × Int) :=
  (List.range (2 * n + 1)).flatMap (fun (di : Nat) =>
    ((List.range (2 * n + 1)).map (fun (dj : Nat) => (x - (n : Int) + (di : Int),
      y - (n : Int) + (dj : Int)))).filter
      (fun c => decide (|c.1 - x| = (n : Int) ∨ |c.2 - y| = (n : Int))))

/-- The value `findNNblocks` stores for the cell `(i, j)`: -1 when
`i<0 || i>=nrow || j<0 || j>=ncol`, and `i*ncol+j` otherwise. -/
def findNNblocks_value (nrow ncol : Int) (c : Int × Int) : Int :=
  if c.1 < 0 ∨ c.1 ≥ nrow ∨ c.2 < 0 ∨ c.2 ≥ ncol then -1 else c.1 * ncol + c.2

/-- One write `perm[sts[cc]]=...; cc++` of `findNNblocks` on the pair `(perm, cc)`.  Both
arrays have `m` entries: a position `cc` or a slot `sts[cc]` beyond them is `none`. -/
def findNNblocks_step (nrow ncol : Int) (m : Nat) (sts : Nat → Nat)
    (s : Option ((Nat → Int) × Nat)) (c : Int × Int) : Option ((Nat → Int) × Nat) :=
  match s with
  | none => none
  | some (perm, cc) =>
    if cc < m ∧ sts cc < m then
      some (Function.update perm (sts cc) (findNNblocks_value nrow ncol c), cc + 1)
    else none

/-- The function `findNNblocks(x, y, nrow, ncol, n, rng)`.  `sts` is the permutation of
`m = 8*n` drawn by `randomperm` and `perm0` the content of the fresh array `perm`.  Every
slot below `m` is set to -1, then the cells of the ring are written through `sts`; the
result is the array `perm`. -/
def findNNblocks (x y nrow ncol : Int) (n : Nat) (sts : Nat → Nat) (perm0 : Nat → Int) :
    Option (Nat → Int) :=
  let m := 8 * n
  ((findNNblocks_cells x y n).foldl (findNNblocks_step nrow ncol m sts)
    (some (fun i => if i < m then -1 else perm0 i, 0))).map Prod.fst

/-! ## Spatial neighbour search `knnindex` -/

/-- The window bounds `r1`, `c1`, `r2`, `c2` of `knnindex`. -/
structure KnnWindow where
  r1 : Int
  c1 : Int
  r2 : Int
  c2 : Int

/-- The window of `knnindex` around the pixel `ind` of an image with `icol` columns and
`irow` rows: `r=ind/icol`, `c=ind%icol`; `r1=r-width` and `c1=c-width` are raised to 0,
`r2=r+width` and `c2=c+width` are lowered to `irow` and `icol`; then a side shorter than
`2*width` is stretched to that length, upwards from a lower bound 0 and downwards from
the upper bound otherwise. -/
def knnindex_window (icol irow ind width : Nat) : KnnWindow :=
  let r : Int := ((ind / icol : Nat) : Int)
  let c : Int := ((ind % icol : Nat) : Int)
  let r1 : Int := if r - (width : Int) < 0 then 0 else r - (width : Int)
  let c1 : Int := if c - (width : Int) < 0 then 0 else c - (width : Int)
  let r2 : Int := if r + (width : Int) > (irow : Int) then (irow : Int) else r + (width : Int)
  let c2 : Int := if c + (width : Int) > (icol : Int) then (icol : Int) else c + (width : Int)
  let cs : Int × Int :=
    if c2 - c1 < 2 * (width : Int) then
      (if c1 = 0 then (c1, c1 + 2 * (width : Int)) else (c2 - 2 * (width : Int), c2))
    else (c1, c2)
  let rs : Int × Int :=
    if r2 - r1 < 2 * (width : Int) then
      (if r1 = 0 then (r1, r1 + 2 * (width : Int)) else (r2 - 2 * (width : Int), r2))
    else (r1, r2)
  ⟨rs.1, cs.1, rs.2, cs.2⟩

/-- The entries written to `pxind` by the double loop of `knnindex`, in loop order:
`i*icol+j` for `i` from `r1` up to `r2` and `j` from `c1` up to `c2`. -/
def knnindex_pxind (icol : Nat) (w : KnnWindow) : List Int :=
  (List.range (w.r2 - w.r1).toNat).flatMap (fun (di : Nat) =>
    (List.range (w.c2 - w.c1).toNat).map (fun (dj : Nat) =>
      (w.r1 + (di : Int)) * (icol : Int) + (w.c1 + (dj : Int))))

/-- The arrays written by the first loop over the window in `knnindex`: the flags
`rsflags` and the distances `md`, where `none` stands for `DBL_MAX`. -/
structure KnnScan where
  rsflags : Nat → Int
  md : Nat → Option ℚ

/-- The sum `dsum` of the squared band differences between the pixels `ind` and `p`. -/
def knnindex_dsum (data : Nat → Nat → ℚ) (natb ind p : Nat) : ℚ :=
  (List.range natb).foldl
    (fun s j => s + (data j ind - data j p) * (data j ind - data j p)) 0

/-- The body of the first loop over the window in `knnindex` for position `h`, with
`i=pxind[h]`.  The arrays `cls`, `rsflags` and `data[j]` have `npix = irow*icol`
entries: an index outside them is `none`.  A pixel with `cls[i]==0 && i!=ind` gets its
flag from `calrsq` when it has none (2 when the distance exceeds `rsq`, 1 otherwise) and
its distance `dsum` when the flag is not 2; every other position gets `DBL_MAX`. -/
def knnindex_md_step (kern : gsl_vector → gsl_vector → ℚ) (data : Nat → Nat → ℚ)
    (natb npix ind : Nat) (cls : Nat → Int) (svf : svminfo) (X : gsl_matrix)
    (pxind : Nat → Int) (s : Option KnnScan) (h : Nat) : Option KnnScan :=
  match s with
  | none => none
  | some s =>
    let i := pxind h
    if i < 0 ∨ i ≥ (npix : Int) then none
    else
      let p := i.toNat
      if cls p = 0 ∧ p ≠ ind then
        let rs : Nat → Int :=
          if s.rsflags p = 0 then
            Function.update s.rsflags p
              (if calrsq kern ⟨natb, fun j => data j p⟩ svf.a X svf.sum > svf.rsq then 2 else 1)
          else s.rsflags
        if rs p ≠ 2 then some ⟨rs, Function.update s.md h (some (knnindex_dsum data natb ind p))⟩
        else some ⟨rs, Function.update s.md h none⟩
      else some ⟨s.rsflags, Function.update s.md h none⟩

/-- The first loop over the `pnum = (2*width)*(2*width)` window positions of `knnindex`.
The array `md` is written at every position; its content before is taken as
`DBL_MAX`. -/
def knnindex_scan (kern : gsl_vector → gsl_vector → ℚ) (data : Nat → Nat → ℚ)
    (natb npix ind pnum : Nat) (cls : Nat → Int) (svf : svminfo) (X : gsl_matrix)
    (pxind : Nat → Int) (rsflags : Nat → Int) : Option KnnScan :=
  (List.range pnum).foldl (knnindex_md_step kern data natb npix ind cls svf X pxind)
    (some ⟨rsflags, fun _ => none⟩)

/-- The order of the distances `md` with `DBL_MAX` (`none`) above every other value. -/
def knnindex_le (x y : Option ℚ) : Prop :=
  match x, y with
  | _, none => True
  | none, some _ => False
  | some u, some v => u ≤ v

/-- What `gsl_sort_index(sts, md, 1, pnum)` guarantees of the permutation it writes when
`md` holds distances and `DBL_MAX`: `sts` lists the indices `0..pnum-1`, each once, and
the values `md[sts[k]]` ascend with `k`. -/
def IsSortIndexMax (sts : Nat → Nat) (md : Nat → Option ℚ) (m : Nat) : Prop :=
  (∀ k, k < m → sts k < m) ∧
  (∀ k l, k < m → l < m → sts k = sts l → k = l) ∧
  (∀ k l, k ≤ l → l < m → knnindex_le (md (sts k)) (md (sts l)))

/-- The selection loop of `knnindex` at position `h` of the sort order with `n` positions
left, on the pair `(knnidx, cc)`: a position with a distance other than `DBL_MAX` whose
pixel `bp=pxind[i]` passes `adjcheck2v` against the seed (`adjf bp`) is stored in
`knnidx[cc]`, and the loop ends when `cc==k`.  The array `knnidx` has `k` entries: a
write at `cc ≥ k` is `none`. -/
def knnindex_select (adjf : Int → Bool) (sts : Nat → Nat) (md : Nat → Option ℚ)
    (pxind : Nat → Int) (k : Nat) : Nat → Nat → (Nat → Int) × Nat → Option ((Nat → Int) × Nat)
  | 0, _, s => some s
  | n + 1, h, s =>
    let i := sts h
    let s1 : Option ((Nat → Int) × Nat) :=
      if md i ≠ none ∧ adjf (pxind i) = true then
        (if s.2 < k then some (Function.update s.1 s.2 (pxind i), s.2 + 1) else none)
      else some s
    match s1 with
    | none => none
    | some t => if t.2 = k then some t else knnindex_select adjf sts md pxind k n (h + 1) t

/-- The function `knnindex(data, icol, irow, natb, ind, width, k, cls, sam, kt, pa, svf,
X, rsflags)`; `kern` is `calkernel(., ., kt, pa)` and `sts` the permutation written by
`gsl_sort_index`.  The array `pxind` is read at the `pnum` positions the double loop has
written.  The result is the array `knnidx` (every entry -1 before the selection loop)
together with `rsflags` as the call leaves it; `none` stands for a division by `icol = 0`
or an index outside an array. -/
def knnindex (kern : gsl_vector → gsl_vector → ℚ) (sts : Nat → Nat) (data : Nat → Nat → ℚ)
    (icol irow natb ind width k : Nat) (cls : Nat → Int) (sam : Nat) (svf : svminfo)
    (X : gsl_matrix) (rsflags : Nat → Int) : Option ((Nat → Int) × (Nat → Int)) :=
  if icol = 0 then none
  else
    let pnum := (2 * width) * (2 * width)
    let pxind : Nat → Int := fun h =>
      (knnindex_pxind icol (knnindex_window icol irow ind width)).getD h 0
    match knnindex_scan kern data natb (irow * icol) ind pnum cls svf X pxind rsflags with
    | none => none
    | some sc =>
      let adjf : Int → Bool := fun bp =>
        adjcheck2v kern ⟨natb, fun j => data j ind⟩ ⟨natb, fun j => data j bp.toNat⟩
          svf.a svf.sum svf.rsq sam X
      match knnindex_select adjf sts sc.md pxind k pnum 0 (fun _ => -1, 0) with
      | none => none
      | some r => some (r.1, sc.rsflags)

/-- The flag of pixel `p` after the block `if (rsflags[i]==0) { ... }` of `knnindex`: a
flag other than 0 stays, a pixel without a flag gets 2 when its distance by `calrsq`
exceeds `rsq` and 1 otherwise. -/
def knnindex_flag (kern : gsl_vector → gsl_vector → ℚ) (data : Nat → Nat → ℚ) (natb : Nat)
    (svf : svminfo) (X : gsl_matrix) (rsflags : Nat → Int) (p : Nat) : Int :=
  if rsflags p = 0 then
    (if calrsq kern ⟨natb, fun j => data j p⟩ svf.a X svf.sum > svf.rsq then 2 else 1)
  else rsflags p

/-- The state `(knnidx, cc)` of the selection loop of `knnindex` before position `H` of
the sort order: the entries from `cc` on are -1, and the entries below `cc` were taken at
ascending positions `pos j < H` whose distance is not `DBL_MAX` and whose pixel passed
`adjcheck2v`. -/
def KnnSelected (adjf : Int → Bool) (sts : Nat → Nat) (md : Nat → Option ℚ)
    (pxind : Nat → Int) (H : Nat) (kx : Nat → Int) (cc : Nat) : Prop :=
  (∀ j, cc ≤ j → kx j = -1) ∧
  ∃ pos : Nat → Nat,
    (∀ j, j < cc → pos j < H ∧ md (sts (pos j)) ≠ none ∧ adjf (pxind (sts (pos j))) = true ∧
      kx j = pxind (sts (pos j))) ∧
    (∀ j1 j2, j1 < j2 → j2 < cc → pos j1 < pos j2)

/-! ## Image-scale controller: the propagation loop in a given order -/

/-- The body of the propagation loop of `clusteroneimage` for the seed `i`, as in
`clusteroneimage_sweep`. -/
def clusteroneimage_sweep_step (knn : ImageState → Nat → (Nat → Int) × (Nat → Int))
    (cfg : ImageConfig) (s : ImageState) (i : Nat) : ImageState :=
  if s.succ i = true ∧ s.rsflags i ≠ 2 then
    let r := knn s i
    let w := clusteroneimage_spread r.1 i cfg.k 0 (s.cls, s.vflags)
    { s with cls := w.1, vflags := w.2, rsflags := r.2 }
  else s

/-- One pass of the propagation loop of `clusteroneimage` with its iterations run one
after the other in the order `order` (the loop is an OpenMP `parallel for` with dynamic
scheduling; `clusteroneimage_sweep` is the order `0, 1, ..., pnum-1`). -/
def clusteroneimage_sweep_order (knn : ImageState → Nat → (Nat → Int) × (Nat → Int))
    (cfg : ImageConfig) (order : List Nat) (st : ImageState) : ImageState :=
  order.foldl (clusteroneimage_sweep_step knn cfg)
    { st with
      succ := fun i => if i < cfg.pnum then st.vflags i else st.succ i
      vflags := fun i => if i < cfg.pnum then false else st.vflags i }

/-- The call `knnindex(data, icol, irow, natb, i, width, k, cls, sam, kt, pa, svf, X,
rsflags)` of the propagation loop of `clusteroneimage` on the state `s`, with `width=15`
and `sam=25`; `sts s i` is the permutation written by `gsl_sort_index` in that call.  A
call that leaves an array (`none` in `knnindex`) is given the answer without a neighbour
here. -/
def clusteroneimage_knn (kern : gsl_vector → gsl_vector → ℚ)
    (sts : ImageState → Nat → Nat → Nat) (icol irow : Nat) (cfg : ImageConfig) :
    ImageState → Nat → (Nat → Int) × (Nat → Int) :=
  fun s i =>
    (knnindex kern (sts s i) cfg.data icol irow cfg.natb i 15 cfg.k s.cls 25 s.svf s.X
      s.rsflags).getD (fun _ => -1, s.rsflags)


/-! ## Region blocks -/

/-- The conversion `(int)` of a `float`: the fraction is cut off towards zero. -/
def int_cast (q : ℚ) : Int := if 0 ≤ q then Int.floor q else Int.ceil q

/-- The record `Rblock`: the seed list `idx` with the squared norms `norms` (both of
length `seeds`, no array when `seeds` is 0), the count `vp` and the bounds `x1`, `x2`
(rows) and `y1`, `y2` (columns). -/
structure Rblock where
  idx : List Nat
  norms : List ℚ
  seeds : Nat
  vp : Nat
  x1 : Nat
  x2 : Nat
  y1 : Nat
  y2 : Nat

/-- The body of the double loop of `createRblock` for the pixel `ind` on the pair
`(vp, idx)`: with `cp=(int) wcls[ind]`, a pixel with `cp>=0` is counted in `vp` when
`cp==0 || cp>cth` and appended to `idx` otherwise. -/
def createRblock_step (wcls : Nat → ℚ) (cth : Int) (s : Nat × List Nat) (ind : Nat) :
    Nat × List Nat :=
  let cp := int_cast (wcls ind)
  if cp ≥ 0 then
    (if cp = 0 ∨ cp > cth then (s.1 + 1, s.2) else (s.1, s.2 ++ [ind]))
  else s

/-- The function `createRblock(px, py, rs, cs, icol, natb, data, wcls, cth)`: the double
loop over the rows `x1 ≤ i < x2` and the columns `y1 ≤ j < y2` with `ind = i*icol + j`,
then the squared norm `Σ_j data[j][ind]²` of every seed. -/
def createRblock (px py rs cs icol natb : Nat) (data : Nat → Nat → ℚ) (wcls : Nat → ℚ)
    (cth : Int) : Rblock :=
  let s := (List.range' px rs).foldl
    (fun (s : Nat × List Nat) (i : Nat) =>
      (List.range' py cs).foldl
        (fun (s : Nat × List Nat) (j : Nat) => createRblock_step wcls cth s (i * icol + j)) s)
    (0, [])
  ⟨s.2, s.2.map (fun ind => (List.range natb).foldl (fun sum j => sum + data j ind * data j ind) 0),
    s.2.length, s.1, px, px + rs, py, py + cs⟩

/-- The inner loop of `createRBlist` for the block row `i` on the pair `(py, RBlist)`:
block `j` is `cs = bsy+1` columns wide when `j<coff` and `bsy` otherwise, it is stored in
`RBlist[i*ncol+j]`, and `py` advances by `cs`. -/
def createRBlist_row (data : Nat → Nat → ℚ) (icol natb : Nat) (wcls : Nat → ℚ) (cth : Int)
    (ncol bsy coff i px rs : Nat) (R : Nat → Rblock) : Nat × (Nat → Rblock) :=
  (List.range ncol).foldl
    (fun (s : Nat × (Nat → Rblock)) (j : Nat) =>
      (s.1 + (if j < coff then bsy + 1 else bsy),
        Function.update s.2 (i * ncol + j)
          (createRblock px s.1 rs (if j < coff then bsy + 1 else bsy) icol natb data wcls cth)))
    (0, R)

/-- The function `createRBlist(data, irow, icol, natb, bs, wcls, cth, nb, nrow, ncol)`:
`nrow=irow/bs`, `ncol=icol/bs`, `bsx=irow/nrow`, `bsy=icol/ncol`, `roff=irow%nrow`,
`coff=icol%ncol` (a division by zero is `none`); block row `i` is `rs = bsx+1` rows high
when `i<roff` and `bsx` otherwise, and `px` advances by `rs`.  `R0` is the content of the
fresh array `RBlist`; the result is `RBlist` with the outputs `nb`, `nrow`, `ncol`. -/
def createRBlist (data : Nat → Nat → ℚ) (irow icol natb bs : Nat) (wcls : Nat → ℚ)
    (cth : Int) (R0 : Nat → Rblock) : Option ((Nat → Rblock) × Nat × Nat × Nat) :=
  if bs = 0 then none
  else
    let nrow := irow / bs
    let ncol := icol / bs
    if nrow = 0 ∨ ncol = 0 then none
    else
      let bsx := irow / nrow
      let bsy := icol / ncol
      let roff := irow % nrow
      let coff := icol % ncol
      let r := (List.range nrow).foldl
        (fun (s : Nat × (Nat → Rblock)) (i : Nat) =>
          (s.1 + (if i < roff then bsx + 1 else bsx),
            (createRBlist_row data icol natb wcls cth ncol bsy coff i s.1
              (if i < roff then bsx + 1 else bsx) s.2).2))
        (0, R0)
      some (r.2, nrow * ncol, nrow, ncol)

/-- The start `i*b + min(i, off)` of stripe `i` when the first `off` stripes are `b+1`
long and the others `b`. -/
def stripeStart (b off i : Nat) : Nat := i * b + min i off

/-- The pixel indices `i*icol + j` of a block, row by row. -/
def blockPixels (icol : Nat) (rb : Rblock) : List Nat :=
  (List.range' rb.x1 (rb.x2 - rb.x1)).flatMap (fun (i : Nat) =>
    (List.range' rb.y1 (rb.y2 - rb.y1)).map (fun (j : Nat) => i * icol + j))




/-! ## Region blocks: the seed search of `findYmatrix` -/

/-- The variables of the seed search of `findYmatrix`: the count `sds` and the first `sds`
entries of the buffers `idx` and `norms`. -/
structure YState where
  sds : Nat
  idx : List Nat
  norms : List ℚ

/-- The copy loop `for(j=0;j<rb->seeds;j++) { idx[sds]=rb->idx[j];
norms[sds]=rb->norms[j]; sds++; }` of `findYmatrix` for a block whose lists hold `seeds`
entries.  The buffers have `10*thd` entries: a write beyond them is `none`. -/
def findYmatrix_add (thd : Nat) (rb : Rblock) (s : YState) : Option YState :=
  if s.sds + rb.seeds ≤ 10 * thd then
    some ⟨s.sds + rb.seeds, s.idx ++ rb.idx.take rb.seeds, s.norms ++ rb.norms.take rb.seeds⟩
  else none

/-- The loop `for(i=0;i<m;i++)` of `findYmatrix` over the slots of `perm`, at slot `i`
with `k` slots left: a slot `ind>=0` whose block has seeds is copied, and `sds>thd` after
a copy ends the loop with `flag=false`.  The result is the state with `flag`; `none` is a
write beyond the buffers. -/
def findYmatrix_ring (rblist : Nat → Rblock) (thd : Nat) (perm : Nat → Int) :
    Nat → Nat → YState → Option (YState × Bool)
  | 0, _, s => some (s, true)
  | k + 1, i, s =>
    if perm i ≥ 0 then
      if (rblist (perm i).toNat).seeds > 0 then
        match findYmatrix_add thd (rblist (perm i).toNat) s with
        | none => none
        | some s1 =>
          if s1.sds > thd then some (s1, false)
          else findYmatrix_ring rblist thd perm k (i + 1) s1
      else findYmatrix_ring rblist thd perm k (i + 1) s
    else findYmatrix_ring rblist thd perm k (i + 1) s

/-- The loop `do { ... n++; } while(flag)` of `findYmatrix` at ring `n`, with `fuel` rings
available.  `sts n` is the permutation drawn by `randomperm` for ring `n` and `perm0 n`
the content of the fresh array `perm`.  The outer `none` says that the rings available do
not suffice, the inner `none` is an access beyond an array. -/
def findYmatrix_rings (rblist : Nat → Rblock) (x y nrow ncol : Int) (thd : Nat)
    (sts : Nat → Nat → Nat) (perm0 : Nat → Nat → Int) :
    Nat → Nat → YState → Option (Option YState)
  | 0, _, _ => none
  | fuel + 1, n, s =>
    match findNNblocks x y nrow ncol n (sts n) (perm0 n) with
    | none => some none
    | some perm =>
      match findYmatrix_ring rblist thd perm (8 * n) 0 s with
      | none => some none
      | some (s1, true) => findYmatrix_rings rblist x y nrow ncol thd sts perm0 fuel (n + 1) s1
      | some (s1, false) => some (some s1)

/-- The seed search of `findYmatrix(rblist, bid, natb, data, nrow, ncol, thd, ...)` with
`thd >= 0`, up to the end of the `do` loop: `x=bid/ncol`, `y=bid%ncol` (a division by zero
is an inner `none`), the seeds of the home block are copied when it has any, and the
rings `n = 1, 2, ...` are searched unless `sds>thd` holds after that copy. -/
def findYmatrix_search (rblist : Nat → Rblock) (bid nrow ncol thd : Nat)
    (sts : Nat → Nat → Nat) (perm0 : Nat → Nat → Int) (fuel : Nat) : Option (Option YState) :=
  if ncol = 0 then some none
  else if (rblist bid).seeds > 0 then
    match findYmatrix_add thd (rblist bid) ⟨0, [], []⟩ with
    | none => some none
    | some s =>
      if s.sds > thd then some (some s)
      else findYmatrix_rings rblist ((bid / ncol : Nat) : Int) ((bid % ncol : Nat) : Int)
        (nrow : Int) (ncol : Int) thd sts perm0 fuel 1 s
  else findYmatrix_rings rblist ((bid / ncol : Nat) : Int) ((bid % ncol : Nat) : Int)
    (nrow : Int) (ncol : Int) thd sts perm0 fuel 1 ⟨0, [], []⟩

/-- The function `findYmatrix`: after the seed search, `Y` has `natb` rows and `sds`
columns with `Y[j][i] = data[j][idx[i]]`, `ny[i] = norms[i]` and `ycls[i] = wcls[idx[i]]`;
`ycls0` is the content of the fresh array `ycls`.  The result is the return value `sds`
with the outputs `Y`, `ny` and `ycls`. -/
def findYmatrix (rblist : Nat → Rblock) (bid natb : Nat) (data : Nat → Nat → ℚ)
    (nrow ncol thd : Nat) (wcls : Nat → ℚ) (sts : Nat → Nat → Nat) (perm0 : Nat → Nat → Int)
    (ycls0 : Nat → ℚ) (fuel : Nat) :
    Option (Option (Nat × gsl_matrix × gsl_vector × (Nat → ℚ))) :=
  (findYmatrix_search rblist bid nrow ncol thd sts perm0 fuel).map (fun r =>
    r.map (fun s =>
      (s.sds,
        (⟨natb, s.sds, fun j i => data j (s.idx.getD i 0)⟩ : gsl_matrix),
        (⟨s.sds, fun i => s.norms.getD i 0⟩ : gsl_vector),
        fun i => if i < s.sds then wcls (s.idx.getD i 0) else ycls0 i)))

/-- The ring of block `b` around the home block `bid` in a grid of `ncol` block columns:
the larger of the row distance and the column distance. -/
def ringOf (ncol bid b : Nat) : Nat :=
  max (((b / ncol : Nat) : Int) - ((bid / ncol : Nat) : Int)).natAbs
    (((b % ncol : Nat) : Int) - ((bid % ncol : Nat) : Int)).natAbs

/-- The seeds of a slot of `perm`: those of the block `ind` when `ind>=0`, none
otherwise. -/
def slotSeeds (rblist : Nat → Rblock) (v : Int) : Nat :=
  if v ≥ 0 then (rblist v.toNat).seeds else 0


/-! ## Pairwise coefficient update: every divisor -/

/-- The statements of `updatecoeffs` after the clipping, for the clipped step `ahi`: when
`a[i]==ahi` nothing is written and 0 is returned; otherwise `ahj = gama - ahi`, every
`fw[k]`, `k < m = K->size1`, loses `a[i]*K[k,i] + a[j]*K[k,j]` and gains
`ahi*K[k,i] + ahj*K[k,j]`, `a[i]` and `a[j]` become `ahi` and `ahj`, `ph` is recomputed
from the new coefficients and heights, and 1 is returned. -/
def updatecoeffs_store (K : gsl_matrix) (a fw : Nat → ℚ) (i j : Nat) (rvm ph ahi : ℚ) :
    UpdateResult :=
  let m := K.size1
  let gama := a i + a j
  if a i = ahi then ⟨0, a, fw, ph⟩
  else
    let ahj := gama - ahi
    let fw1 : Nat → ℚ := fun k =>
      if k < m then
        let kki := gsl_matrix_get K k i
        let kkj := gsl_matrix_get K k j
        fw k - (a i * kki + a j * kkj) + (ahi * kki + ahj * kkj)
      else fw k
    let a1 := Function.update (Function.update a i ahi) j ahj
    let ph1 :=
      if a1 i > 0 ∧ a1 i < rvm then
        if a1 j > 0 ∧ a1 j < rvm then (fw1 i + fw1 j) / 2 else fw1 i
      else fw1 j
    ⟨1, a1, fw1, ph1⟩

/-- The clipped step `ahi` of `updatecoeffs` for every divisor `xx = kii + kjj - 2*kij`,
as the doubles of the code form it.  For `xx ≠ 0` it is `a[i] + (fw[j]-fw[i])/xx`, raised
to `L` and then lowered to `H`.  For `xx = 0` (the zero that the subtraction of equal
doubles gives) the quotient is `+inf` when `fw[j] > fw[i]`: `ahi<L` fails, `ahi>H` holds
and `ahi` becomes `H`; it is `-inf` when `fw[j] < fw[i]`: `ahi<L` holds and `ahi` becomes
`L`, which is lowered to `H` when `L > H`; and it is the NaN `0/0` when `fw[j] = fw[i]`:
both comparisons fail and `ahi` stays a NaN, which is no number: `none`. -/
def updatecoeffs_ieee_ahi (K : gsl_matrix) (a fw : Nat → ℚ) (i j : Nat) (rvm : ℚ) :
    Option ℚ :=
  let kii := gsl_matrix_get K i i
  let kjj := gsl_matrix_get K j j
  let kij := gsl_matrix_get K i j
  let xx := kii + kjj - 2 * kij
  let L := updatecoeffs_L a i j rvm
  let H := updatecoeffs_H a i j rvm
  if xx = 0 then
    if fw j - fw i > 0 then some H
    else if fw j - fw i < 0 then some (if L > H then H else L)
    else none
  else
    let ahi := a i + (fw j - fw i) / xx
    let ahi := if ahi < L then L else ahi
    some (if ahi > H then H else ahi)

/-- The function `updatecoeffs(K, a, fw, i, j, rvm, ph)` for every divisor.  With a step
that is a number the statements after the clipping run on it.  With the NaN of a quotient
`0/0` the test `a[i]==ahi` fails, the NaN is stored in `a[i]`, `a[j]`, every `fw[k]` and
`ph`, and 1 is returned: the arrays hold no numbers any more, which is `none`. -/
def updatecoeffs_ieee (K : gsl_matrix) (a fw : Nat → ℚ) (i j : Nat) (rvm ph : ℚ) :
    Option UpdateResult :=
  match updatecoeffs_ieee_ahi K a fw i j rvm with
  | none => none
  | some ahi => some (updatecoeffs_store K a fw i j rvm ph ahi)


/-! ## Cluster assignment: the search loop run by two threads -/

/-- The place of a thread of the parallel loop of `inducecluster_sv2` in the body of its
iteration: before `if (cls[i]<0)`, before the call `flag=adjcheck(...)` (at the test
`j<svcc`), before `if (flag)`, or past the body. -/
inductive SearchPlace where
  | enter
  | call
  | test
  | leave

/-- A thread of the parallel loop of `inducecluster_sv2`: its private variables `i` and `j`
and its place in the body. -/
structure SearchThread where
  i : Nat
  j : Nat
  place : SearchPlace

/-- The memory that the threads of the loop share: the array `cls` and the variable
`flag`, which is declared in the function and is not named in the clause
`private(i, j)`. -/
structure SearchShared where
  flag : Bool
  cls : Nat → Int

/-- One statement of a thread of the loop of `inducecluster_sv2`.  At `enter`:
`if (cls[i]<0) { cls[i]=0; j=0; ...`, and the body is left when the test fails.  At `call`:
`flag=adjcheck(X, i, svind[j], ...)` when `j<svcc`, and the body is left at `j==svcc`.  At
`test`: `if (flag) { cls[i]=svcls[j]; break; }`, and `j++` when `flag` is not set.  The
reads and writes of `flag` go to the shared variable. -/
def inducecluster_sv2_thread (kern : gsl_vector → gsl_vector → ℚ) (X : gsl_matrix)
    (svind : Nat → Nat) (svcls : Nat → Int) (svcc sam : Nat) (a : Nat → ℚ) (rsq sum : ℚ)
    (t : SearchThread) (s : SearchShared) : SearchThread × SearchShared :=
  match t.place with
  | SearchPlace.enter =>
    if s.cls t.i < 0 then (⟨t.i, 0, SearchPlace.call⟩, ⟨s.flag, Function.update s.cls t.i 0⟩)
    else (⟨t.i, t.j, SearchPlace.leave⟩, s)
  | SearchPlace.call =>
    if t.j < svcc then
      (⟨t.i, t.j, SearchPlace.test⟩, ⟨adjcheck kern X t.i (svind t.j) sam a rsq sum, s.cls⟩)
    else (⟨t.i, t.j, SearchPlace.leave⟩, s)
  | SearchPlace.test =>
    if s.flag = true then
      (⟨t.i, t.j, SearchPlace.leave⟩, ⟨s.flag, Function.update s.cls t.i (svcls t.j)⟩)
    else (⟨t.i, t.j + 1, SearchPlace.call⟩, s)
  | SearchPlace.leave => (t, s)

/-- One turn of a schedule of two threads of the loop of `inducecluster_sv2`: the second
thread executes its next statement when `b` is set, the first one otherwise. -/
def inducecluster_sv2_turn (kern : gsl_vector → gsl_vector → ℚ) (X : gsl_matrix)
    (svind : Nat → Nat) (svcls : Nat → Int) (svcc sam : Nat) (a : Nat → ℚ) (rsq sum : ℚ)
    (r : SearchThread × SearchThread × SearchShared) (b : Bool) :
    SearchThread × SearchThread × SearchShared :=
  if b = true then
    (r.1, (inducecluster_sv2_thread kern X svind svcls svcc sam a rsq sum r.2.1 r.2.2).1,
      (inducecluster_sv2_thread kern X svind svcls svcc sam a rsq sum r.2.1 r.2.2).2)
  else
    ((inducecluster_sv2_thread kern X svind svcls svcc sam a rsq sum r.1 r.2.2).1, r.2.1,
      (inducecluster_sv2_thread kern X svind svcls svcc sam a rsq sum r.1 r.2.2).2)

/-- Two threads of the parallel loop of `inducecluster_sv2`, each in the iteration of one
sample, executed statement by statement in the order of the schedule `sched`. -/
def inducecluster_sv2_threads (kern : gsl_vector → gsl_vector → ℚ) (X : gsl_matrix)
    (svind : Nat → Nat) (svcls : Nat → Int) (svcc sam : Nat) (a : Nat → ℚ) (rsq sum : ℚ)
    (sched : List Bool) (r : SearchThread × SearchThread × SearchShared) :
    SearchThread × SearchThread × SearchShared :=
  sched.foldl (inducecluster_sv2_turn kern X svind svcls svcc sam a rsq sum) r

/-! ## Inputs of the worked instances -/

/-- A one-band data matrix of `n` samples, all zero. -/
def zeroMatrix (n : Nat) : gsl_matrix := ⟨1, n, fun _ _ => 0⟩

/-- An `svminfo` record with every field zero. -/
def svminfo0 : svminfo := ⟨fun _ => 0, 0, 0, fun _ => 0, fun _ => 0, 0, 0⟩

/-- Caller outputs on entry: `nc = 7`, labels `5`, the zero record. -/
def out0 : SVout := ⟨7, fun _ => 5, svminfo0⟩

/-- A clustering body that returns with `nc = 2` and all labels 1. -/
def work0 : gsl_matrix → ℚ → Int → (Nat → ℚ) → SVout → Option SVout :=
  fun _ _ _ _ out => some ⟨2, fun _ => 1, out.svf⟩

/-- Two draws of `gsl_rng_uniform`: 3/4, then 1/4. -/
def draws3 : Nat → ℚ := fun i => if i = 0 then 3 / 4 else 1 / 4

/-- Forty-nine ascending draws of `gsl_rng_uniform`: `(i+1)(i+2)/20000`, from `1/10000` up
to `49/400`. -/
def drawsStuck : Nat → ℚ := fun i => (((i : ℚ) + 1) * ((i : ℚ) + 2)) / 20000

/-- The 3×3 unit kernel matrix. -/
def unitKernel3 : gsl_matrix := ⟨3, 3, fun i j => if i = j then 1 else 0⟩

/-- Three coefficients: 1/2, 1/4, 1/4. -/
def coeffs3 : Nat → ℚ := fun i => if i = 0 then 1 / 2 else 1 / 4

/-- The heights `fw = K a` of `coeffs3` under `unitKernel3`. -/
def heights3 : Nat → ℚ := fun i => if i = 0 then 1 / 2 else 1 / 4

/-- A graph on three vertices with the single edge 0 – 2. -/
def adjA : Nat → Nat → Bool := fun i j => (i == 0 && j == 2) || (i == 2 && j == 0)

/-- Two coefficients: 1/4 (a free support vector under the cap 1/2) and 3/4. -/
def coeffsB : Nat → ℚ := fun i => if i = 0 then 1 / 4 else 3 / 4

/-- A constant kernel. -/
def kernOne : gsl_vector → gsl_vector → ℚ := fun _ _ => 1

/-- One sample with label 2. -/
def labelTwo : Nat → Int := fun _ => 2

/-- Five samples with the labels 2, 0, 3, 3, 1. -/
def labels5 : Nat → Int := fun i =>
  if i = 0 then 2 else if i = 1 then 0 else if i = 2 then 3 else if i = 3 then 3 else 1

/-- The vector (1, 2). -/
def vecA : gsl_vector := ⟨2, fun i => if i = 0 then 1 else 2⟩

/-- The vector (3, 5). -/
def vecB : gsl_vector := ⟨2, fun i => if i = 0 then 3 else 5⟩

/-- Kernel parameters `pa[0] = 2`, `pa[1] = 1`. -/
def params2 : Nat → ℚ := fun i => if i = 0 then 2 else 1

/-- A kernel of polynomial kind on two-band vectors: `(<u,v> + 1)^2`. -/
def kernDot : gsl_vector → gsl_vector → ℚ :=
  fun u v => (u.data 0 * v.data 0 + u.data 1 * v.data 1 + 1) ^ 2

/-- A data matrix of two bands and three samples: (0,0), (1,0), (1,2). -/
def dataX3 : gsl_matrix :=
  ⟨2, 3, fun r c => if c = 0 then 0 else if r = 0 then 1 else if c = 1 then 0 else 2⟩

/-- The kernel matrix of `n` identical samples under an RBF kernel: all ones. -/
def onesKernel (n : Nat) : gsl_matrix := ⟨n, n, fun _ _ => 1⟩

/-- Fifty coefficients with no free support vector under the cap 1/25: the first 25 at
the cap, the others 0. -/
def coeffsPinned : Nat → ℚ := fun i => if i < 25 then 1 / 25 else 0

/-- The end of a solver run on 50 identical samples with the coefficients
`coeffsPinned`; the heights are `K·a = 1`. -/
def solverEndPinned : SolverEnd := ⟨onesKernel 50, coeffsPinned, fun _ => 1⟩

/-- A run environment: constant kernel, depth 20000, zero-filled fresh memory and the
identity as sort permutation. -/
def env0 : RunEnv := ⟨kernOne, 20000, 0, fun _ _ => false, fun _ => 0, fun _ => 0, id⟩

/-- An image of 60 one-band pixels, the first 50 with value 1 and the last ten with
value 5, for batches of 50 with `v = 1/2`, `kt = 1`, `pa[0] = 1` and `k = 10`. -/
def cfg60 : ImageConfig :=
  ⟨fun _ i => if i < 50 then 1 else 5, 1, 60, 50, 1 / 2, 1, fun _ => 1, 10⟩

/-- The batch matrix of `cfg60`: one row, 50 columns, all 1. -/
def batchOnes : gsl_matrix := ⟨1, 50, fun _ _ => 1⟩

/-- The head of the first round on `cfg60`: the first batch was the pixels 0..49, the
solver put them all in its cluster 1 (`snc = 2`), the other ten pixels are unlabelled. -/
def stateHead : ImageState :=
  ⟨fun p => if p < 50 then 1 else 0, id, fun _ => 1, 2, 1, fun p => decide (p < 50),
    fun _ => false, fun _ => 0, id, svminfo0, batchOnes, 60⟩

/-- A `knnindex` that finds no neighbour: all entries -1, `rsflags` as it was. -/
def knnNone : ImageState → Nat → (Nat → Int) × (Nat → Int) :=
  fun s _ => (fun _ => -1, s.rsflags)

/-- A `checkcls` that never finds a cluster. -/
def ckNone : svminfo → gsl_matrix → Nat → Int := fun _ _ _ => 0

/-- The count `uncls` of the first round from `stateHead`. -/
def unclsMid : Int :=
  ((clusteroneimage_pre kernOne knnNone ckNone cfg60 1 stateHead).getD (0, stateHead)).1

/-- The state after the opening part of the first round from `stateHead`. -/
def stateMid : ImageState :=
  ((clusteroneimage_pre kernOne knnNone ckNone cfg60 1 stateHead).getD (0, stateHead)).2

/-- The state after the first round from `stateHead`. -/
def stateNext : ImageState :=
  (clusteroneimage_batch work0 cfg60 id unclsMid stateMid).getD stateMid

/-- The first round on `cfg60` at `nc+=snc-1`: the pixels 0..49 carry the label 1 of the
first batch, `idx` still lists them, and the ten unlabelled pixels 50..59 are flagged
outside the sphere. -/
def stateShort : ImageState :=
  ⟨fun p => if p < 50 then 1 else 0, id, fun _ => 1, 2, 1, fun _ => false,
    fun p => decide (p < 50), fun p => if 50 ≤ p then 2 else 0, id, svminfo0, batchOnes, 60⟩

/-- The state after the closing part of the round from `stateShort`. -/
def stateShortNext : ImageState :=
  (clusteroneimage_batch work0 cfg60 id 10 stateShort).getD stateShort

/-- An image of two one-band pixels with value 0, for batches of 50 with `v = 1/2`. -/
def cfgInvalid : ImageConfig := ⟨fun _ _ => 0, 1, 2, 50, 1 / 2, 1, fun _ => 1, 10⟩

/-- Array contents before the Init loop: all zero. -/
def freshZero : ImageState :=
  ⟨fun _ => 0, fun _ => 0, fun _ => 0, 0, 0, fun _ => false, fun _ => false, fun _ => 0,
    fun _ => 0, svminfo0, zeroMatrix 0, 0⟩

/-- The kernel that multiplies the first entries of its arguments. -/
def kernLin : gsl_vector → gsl_vector → ℚ := fun u v => u.data 0 * v.data 0

/-- An image of two one-band pixels with the values 1 and 5. -/
def cfgTwo : ImageConfig :=
  ⟨fun _ i => if i = 0 then 1 else 5, 1, 2, 50, 1 / 2, 1, fun _ => 1, 10⟩

/-- A sphere around the single sample 1: coefficient 1, `sum = 1`, `rsq = 1`. -/
def svfUnit : svminfo :=
  ⟨fun i => if i = 0 then 1 else 0, 1, 1, fun _ => 0, fun _ => 0, 0, 2⟩

/-- A state of `cfgTwo` after propagation: pixel 0 carries label 1, pixel 1 is
unlabelled and has no flag. -/
def stateTwo : ImageState :=
  ⟨fun p => if p = 0 then 1 else 0, id, fun _ => 1, 2, 1, fun _ => false, fun _ => false,
    fun _ => 0, id, svfUnit, ⟨1, 1, fun _ _ => 1⟩, 2⟩

/-- Flags of three unlabelled pixels: pixel 0 outside the sphere (2), the others inside
(1). -/
def flagsOut0 : Nat → Int := fun p => if p = 0 then 2 else 1

/-- Heights of three samples: 1 for sample 0, 0 for the others. -/
def heightsCap : Nat → ℚ := fun k => if k = 0 then 1 else 0

/-- Three coefficients 1/2, 1/3, 1/6. -/
def coeffsStep : Nat → ℚ := fun k => if k = 0 then 1 / 2 else if k = 1 then 1 / 3 else 1 / 6

/-- A record as `getsvfsvind` leaves it when no support vector has a positive label:
`svnum = 0`, `nc = 1`, the single cut 0. -/
def svfEmpty : svminfo :=
  ⟨fun i => if i = 0 then 1 else 0, 1, 1, fun _ => 0, fun _ => 0, 0, 1⟩

/-- A record with one stored support vector, sample 0, in the single cluster 1: `nc = 2`,
cuts 0 and 1. -/
def svfOne : svminfo :=
  ⟨fun i => if i = 0 then 1 else 0, 1, 1, fun _ => 0, fun g => if g = 0 then 0 else 1, 1, 2⟩

/-- Three coefficients of total mass 1 with the first two above the cap 2/5: 11/20, 9/20
and 0. -/
def coeffsOver : Nat → ℚ := fun k => if k = 0 then 11 / 20 else if k = 1 then 9 / 20 else 0

/-- The permutation that exchanges 0 and 1. -/
def swap01 : Nat → Nat := fun h => if h = 0 then 1 else if h = 1 then 0 else h

/-- Labels of an image in which pixel 1 alone is unlabelled: pixel 2 carries the label 2,
every other pixel the label 1. -/
def labelsGap : Nat → Int := fun p => if p = 1 then 0 else if p = 2 then 2 else 1

/-- The batch matrix with the single one-band sample 1. -/
def batchUnit : gsl_matrix := ⟨1, 1, fun _ _ => 1⟩

/-- The sort order 1, 2, 3, 0 of four window positions. -/
def rot4 : Nat → Nat := fun h => if h < 3 then h + 1 else if h = 3 then 0 else h

/-- An image of 30×30 one-band pixels with the value 1, for batches of 50 with `v = 1/2`,
`kt = 1`, `pa[0] = 1` and `k = 10`. -/
def cfg900 : ImageConfig := ⟨fun _ _ => 1, 1, 900, 50, 1 / 2, 1, fun _ => 1, 10⟩

/-- A state of `cfg900` before a propagation pass: pixel 1 is unlabelled, pixel 2 carries
the label 2 and every other pixel the label 1; the pixels 0 and 2 were labelled last
(`vflags`), no pixel has a flag, and the last sphere is the one around the single sample
1. -/
def state900 : ImageState :=
  ⟨labelsGap, id, fun _ => 1, 3, 1, fun p => decide (p = 0 ∨ p = 2), fun _ => false,
    fun _ => 0, id, svfUnit, batchUnit, 900⟩

/-- The calls of `knnindex` in a propagation pass on `cfg900` under the kernel `u·v`, with
the permutation that exchanges 0 and 1 as sort order of every call. -/
def knn900 : ImageState → Nat → (Nat → Int) × (Nat → Int) :=
  clusteroneimage_knn kernLin (fun _ _ => swap01) 30 30 cfg900


/-- A label raster for the region blocks: pixel `p` carries the label `p - 1`. -/
def labelsRamp : Nat → ℚ := fun p => (p : ℚ) - 1

/-- A one-band image that is 1 everywhere. -/
def dataOnes : Nat → Nat → ℚ := fun _ _ => 1

/-- A block list whose entries are all the empty block. -/
def blocksEmpty : Nat → Rblock := fun _ => ⟨[], [], 0, 0, 0, 0, 0, 0⟩


/-- A block list in which every block holds the single seed 0. -/
def blocksOne : Nat → Rblock := fun _ => ⟨[0], [1], 1, 0, 0, 0, 0, 0⟩


/-- Three heights: 2, 1, 1. -/
def heightsTilt : Nat → ℚ := fun i => if i = 0 then 2 else 1

/-- A symmetric 3×3 matrix with the rows (1, 2, 0), (2, 3, 0), (0, 0, 1). -/
def kernelFlat : gsl_matrix :=
  ⟨3, 3, fun r c =>
    if r = 0 then (if c = 0 then 1 else if c = 1 then 2 else 0)
    else if r = 1 then (if c = 0 then 2 else if c = 1 then 3 else 0)
    else (if c = 2 then 1 else 0)⟩

/-- Three heights: 1, 7/4, 1/4. -/
def heightsFlat : Nat → ℚ := fun i => if i = 0 then 1 else if i = 1 then 7 / 4 else 1 / 4


/-- Three one-band samples with the values 1, 1 and 5. -/
def samples3 : gsl_matrix := ⟨1, 3, fun _ c => if c = 2 then 5 else 1⟩

/-- The labels of three samples at the parallel loop of `inducecluster_sv2`: the support
vector 0 carries label 1, the samples 1 and 2 are still at -1. -/
def labelsOpen : Nat → Int := fun p => if p = 0 then 1 else -1

/-! # Theorems -/

/-! ## Entry checks of `SVclustering` -/

/-- C1: whatever the clustering body is, a data matrix with fewer than 50 columns makes
`SVclustering` return -1 and one with more than 20000 columns makes it return -2, and in
both cases `nc`, `cls` and the `svminfo` record come back as they were on entry. -/
theorem SVclustering_sample_count_check
    (work : gsl_matrix → ℚ → Int → (Nat → ℚ) → SVout → Option SVout)
    (X : gsl_matrix) (v : ℚ) (kt : Int) (pa : Nat → ℚ) (out : SVout)
    (h : X.size2 < 50 ∨ 20000 < X.size2) :
    SVclustering work X v kt pa out = some (if X.size2 < 50 then -1 else -2, out) := by
  unfold SVclustering SVclustering_checks
  rcases h with h | h
  · simp [h]
  · have h1 : ¬ X.size2 < 50 := by omega
    simp [h1, h]

/-- C1, instance: 49 samples, return code -1, outputs untouched. -/
theorem SVclustering_sample_count_check_witness :
    ((zeroMatrix 49).size2 < 50 ∨ 20000 < (zeroMatrix 49).size2) ∧
    SVclustering work0 (zeroMatrix 49) (1 / 10) 1 (fun _ => 1) out0 =
      some (if (zeroMatrix 49).size2 < 50 then -1 else -2, out0) :=
  ⟨by simp [zeroMatrix],
   SVclustering_sample_count_check work0 (zeroMatrix 49) (1 / 10) 1 (fun _ => 1) out0
     (by simp [zeroMatrix])⟩

/-- C2, as stated, fails: with 50 samples and `v = -1/2` (not strictly between 0 and 1)
no check fires.  Whatever the clustering body does, the call is not answered with a
negative code: it is the clustering body, and 0 is the only value it can return. -/
theorem SVclustering_nu_check_counterexample :
    (50 ≤ (zeroMatrix 50).size2 ∧ (zeroMatrix 50).size2 ≤ 20000 ∧
      ¬ ((0 : ℚ) < -1 / 2 ∧ (-1 / 2 : ℚ) < 1)) ∧
    SVclustering_checks (zeroMatrix 50).size2 (-1 / 2) = none ∧
    (∀ work, SVclustering work (zeroMatrix 50) (-1 / 2) 1 (fun _ => 1) out0 =
      (work (zeroMatrix 50) (-1 / 2) 1 (fun _ => 1) out0).map (fun out1 => (0, out1))) ∧
    (∀ work (code : Int) (out1 : SVout),
      SVclustering work (zeroMatrix 50) (-1 / 2) 1 (fun _ => 1) out0 = some (code, out1) →
      ¬ code < 0) := by
  have hv : ¬ (1 : ℚ) ≤ -1 / 2 := by norm_num
  have hchecks : SVclustering_checks (zeroMatrix 50).size2 (-1 / 2) = none := by
    simp [SVclustering_checks, zeroMatrix, hv]
  refine ⟨⟨by simp [zeroMatrix], by simp [zeroMatrix], by norm_num⟩, hchecks, ?_, ?_⟩
  · intro work
    simp only [SVclustering, hchecks]
  · intro work code out1 hcode
    simp only [SVclustering, hchecks] at hcode
    cases hw : work (zeroMatrix 50) (-1 / 2) 1 (fun _ => 1) out0 with
    | none => rw [hw] at hcode; cases hcode
    | some o =>
      rw [hw] at hcode
      have h0 : (0 : Int) = code := congrArg Prod.fst (Option.some.inj hcode)
      omega

/-- C2, amended: with a sample count in [50, 20000], `SVclustering` returns -3 with the
outputs untouched when `v ≥ 1`; for every `v < 1` (zero and negative values included) no
check fires: the call is the clustering body, it does not return a negative code, and 0
is the only value it can return. -/
theorem SVclustering_nu_check
    (work : gsl_matrix → ℚ → Int → (Nat → ℚ) → SVout → Option SVout)
    (X : gsl_matrix) (v : ℚ) (kt : Int) (pa : Nat → ℚ) (out : SVout)
    (hlo : 50 ≤ X.size2) (hhi : X.size2 ≤ 20000) :
    (SVclustering work X v kt pa out =
      if 1 ≤ v then some (-3, out)
      else (work X v kt pa out).map (fun out1 => (0, out1))) ∧
    (v < 1 → ∀ (code : Int) (out1 : SVout),
      SVclustering work X v kt pa out = some (code, out1) →
        code = 0 ∧ work X v kt pa out = some out1) := by
  have h1 : ¬ X.size2 < 50 := by omega
  have h2 : ¬ X.size2 > 20000 := by omega
  have heq : SVclustering work X v kt pa out =
      if 1 ≤ v then some (-3, out)
      else (work X v kt pa out).map (fun out1 => (0, out1)) := by
    unfold SVclustering SVclustering_checks
    by_cases hv : 1 ≤ v
    · simp [h1, h2, hv]
    · simp [h1, h2, hv]
  refine ⟨heq, ?_⟩
  intro hv code out1 hcode
  rw [heq, if_neg (not_le.mpr hv)] at hcode
  cases hw : work X v kt pa out with
  | none => rw [hw] at hcode; cases hcode
  | some o =>
    rw [hw] at hcode
    have h := Option.some.inj hcode
    have h2 : o = out1 := congrArg Prod.snd h
    exact ⟨(congrArg Prod.fst h).symm, congrArg some h2⟩

/-- C2 amended, instance: 50 samples and `v = 3/2` give -3 with the outputs untouched. -/
theorem SVclustering_nu_check_witness :
    (50 ≤ (zeroMatrix 50).size2 ∧ (zeroMatrix 50).size2 ≤ 20000) ∧
    SVclustering work0 (zeroMatrix 50) (3 / 2) 1 (fun _ => 1) out0 =
      if (1 : ℚ) ≤ 3 / 2 then some (-3, out0)
      else (work0 (zeroMatrix 50) (3 / 2) 1 (fun _ => 1) out0).map (fun out1 => (0, out1)) :=
  ⟨⟨by simp [zeroMatrix], by simp [zeroMatrix]⟩,
   (SVclustering_nu_check work0 (zeroMatrix 50) (3 / 2) 1 (fun _ => 1) out0
     (by simp [zeroMatrix]) (by simp [zeroMatrix])).1⟩

/-! ## Coefficient initialisation -/

open Finset in
/-- Writing one entry of an array changes the sum over `0..m-1` by the difference. -/
theorem sum_range_update (f : Nat → ℚ) (m i : Nat) (b : ℚ) (hi : i < m) :
    ∑ x in range m, Function.update f i b x = ∑ x in range m, f x - f i + b := by
  have hmem : i ∈ range m := mem_range.mpr hi
  rw [sum_update_of_mem hmem, ← add_sum_erase (range m) f hmem, sdiff_singleton_eq_erase]
  ring

/-- Reading an array after a run of writes `acc[i] = g i` over the indices of `l`. -/
theorem foldl_update_apply (g : Nat → ℚ) (l : List Nat) (a : Nat → ℚ) (j : Nat) :
    (l.foldl (fun acc i => Function.update acc i (g i)) a) j = if j ∈ l then g j else a j := by
  induction l generalizing a with
  | nil => simp
  | cons x xs ih =>
    rw [List.foldl_cons, ih]
    by_cases hj : j ∈ xs
    · simp [hj]
    · by_cases hx : j = x
      · subst hx; simp [hj]
      · simp [hj, hx, Function.update_noteq hx]

/-- The entries written by `randomsimplex`, in closed form. -/
theorem randomsimplex_apply (u a : Nat → ℚ) (m : Nat) (hm : 2 ≤ m) (i : Nat) (hi : i < m) :
    randomsimplex u a m i =
      if i = m - 1 then 1 - sortedDraw u (m - 1) (m - 2)
      else if i = 0 then sortedDraw u (m - 1) 0
      else sortedDraw u (m - 1) i - sortedDraw u (m - 1) (i - 1) := by
  have h2 : ¬ m < 2 := by omega
  unfold randomsimplex sortedDraw
  simp only [h2, if_false]
  by_cases h1 : i = m - 1
  · subst h1
    simp [Nat.sub_sub]
  · rw [Function.update_noteq h1, foldl_update_apply]
    simp only [h1, if_false]
    by_cases h0 : i = 0
    · subst h0
      simp
    · have hmem : i ∈ List.range' 1 (m - 1 - 1) := by
        rw [List.mem_range']
        exact ⟨i - 1, by omega, by omega⟩
      simp [hmem, h0]

/-- The sorted draws have the length of the draws. -/
theorem gsl_sort_length (b : List ℚ) : (gsl_sort b).length = b.length := by
  unfold gsl_sort
  exact List.length_insertionSort _ b

/-- Every sorted draw is one of the draws. -/
theorem sortedDraw_mem (u : Nat → ℚ) (n k : Nat) (hk : k < n) :
    ∃ i, i < n ∧ sortedDraw u n k = u i := by
  unfold sortedDraw
  have hlen : k < (gsl_sort ((List.range n).map u)).length := by
    rw [gsl_sort_length]; simpa using hk
  have hmem : (gsl_sort ((List.range n).map u)).getD k 0 ∈ gsl_sort ((List.range n).map u) := by
    rw [List.getD_eq_getElem _ _ hlen]
    exact List.getElem_mem hlen
  have hperm : (gsl_sort ((List.range n).map u)).Perm ((List.range n).map u) :=
    List.perm_insertionSort _ _
  have := hperm.mem_iff.mp hmem
  rcases List.mem_map.mp this with ⟨i, hi, hiu⟩
  exact ⟨i, List.mem_range.mp hi, hiu.symm⟩

/-- The sorted draws ascend. -/
theorem sortedDraw_mono (u : Nat → ℚ) (n k l : Nat) (hkl : k ≤ l) (hl : l < n) :
    sortedDraw u n k ≤ sortedDraw u n l := by
  unfold sortedDraw
  have hlen : (gsl_sort ((List.range n).map u)).length = n := by
    rw [gsl_sort_length]; simp
  have hsorted : List.Sorted (fun x y : ℚ => x ≤ y) (gsl_sort ((List.range n).map u)) :=
    List.sorted_insertionSort _ _
  rw [List.getD_eq_getElem _ _ (by omega : k < _), List.getD_eq_getElem _ _ (by omega : l < _)]
  rcases Nat.eq_or_lt_of_le hkl with h | h
  · subst h; exact le_refl _
  · exact List.pairwise_iff_getElem.mp hsorted k l (by omega) (by omega) h

open Finset in
/-- The partial sums of the coefficients written by `randomsimplex` telescope. -/
theorem randomsimplex_partial_sum (u a : Nat → ℚ) (m : Nat) (hm : 2 ≤ m) (k : Nat)
    (hk : k + 1 ≤ m - 1) :
    ∑ i in range (k + 1), randomsimplex u a m i = sortedDraw u (m - 1) k := by
  induction k with
  | zero =>
    rw [sum_range_one, randomsimplex_apply u a m hm 0 (by omega)]
    have h : ¬ (0 = m - 1) := by omega
    simp [h]
  | succ k ih =>
    rw [sum_range_succ, ih (by omega), randomsimplex_apply u a m hm (k + 1) (by omega)]
    have h : ¬ (k + 1 = m - 1) := by omega
    simp [h]

open Finset in
/-- The coefficients written by `randomsimplex` sum to 1. -/
theorem randomsimplex_sum (u a : Nat → ℚ) (m : Nat) (hm : 2 ≤ m) :
    ∑ i in range m, randomsimplex u a m i = 1 := by
  obtain ⟨n, rfl⟩ : ∃ n, m = n + 2 := ⟨m - 2, by omega⟩
  rw [sum_range_succ, randomsimplex_partial_sum u a (n + 2) hm n (by omega),
    randomsimplex_apply u a (n + 2) hm (n + 1) (by omega)]
  simp

/-- The coefficients written by `randomsimplex` from draws in `[0,1)` are not negative. -/
theorem randomsimplex_nonneg (u a : Nat → ℚ) (m : Nat) (hm : 2 ≤ m)
    (hu : ∀ i, i < m - 1 → 0 ≤ u i ∧ u i < 1) (i : Nat) (hi : i < m) :
    0 ≤ randomsimplex u a m i := by
  rw [randomsimplex_apply u a m hm i hi]
  by_cases h1 : i = m - 1
  · simp only [h1, if_true]
    rcases sortedDraw_mem u (m - 1) (m - 2) (by omega) with ⟨t, ht, hteq⟩
    rw [hteq]
    linarith [(hu t ht).2]
  · simp only [h1, if_false]
    by_cases h0 : i = 0
    · simp only [h0, if_true]
      rcases sortedDraw_mem u (m - 1) 0 (by omega) with ⟨t, ht, hteq⟩
      rw [hteq]
      exact (hu t ht).1
    · simp only [h0, if_false]
      have := sortedDraw_mono u (m - 1) (i - 1) i (by omega) (by omega)
      linarith

open Finset in
/-- The clamp loop keeps the sum of the array, whatever the cap. -/
theorem clamp_loop_sum (sts : Nat → Nat) (rvm : ℚ) (m : Nat)
    (hsts : ∀ k, k < m → sts k < m) (r : Nat) (hr : r ≤ m) (cc : Nat) (a : Nat → ℚ) :
    ∑ i in range m, clamp_loop sts rvm m r cc a i = ∑ i in range m, a i := by
  induction r generalizing cc a with
  | zero => rfl
  | succ r ih =>
    unfold clamp_loop
    have hidx : m - (m - (r + 1)) - 1 = r := by omega
    simp only [hidx]
    by_cases hj : a (sts r) > rvm
    · simp only [hj, if_true]
      cases hfind : (List.range' cc (m - cc)).find?
          (fun k => decide (a (sts k) + a (sts r) < 2 * rvm)) with
      | none => exact ih (by omega) cc a
      | some k =>
        simp only []
        rw [ih (by omega)]
        have hk : k ∈ List.range' cc (m - cc) := List.mem_of_find?_eq_some hfind
        have hpk : a (sts k) + a (sts r) < 2 * rvm := by
          simpa using List.find?_some hfind
        have hkm : k < m := by
          rw [List.mem_range'] at hk
          rcases hk with ⟨t, ht, rfl⟩
          omega
        have hne : sts k ≠ sts r := by
          intro h
          rw [h] at hpk
          linarith
        rw [sum_range_update _ m (sts r) rvm (hsts r (by omega)),
          sum_range_update _ m (sts k) _ (hsts k hkm), Function.update_noteq (Ne.symm hne)]
        ring
    · simp only [hj, if_false]

open Finset in
/-- C3: for `m ≥ 2` and `m-1` draws in `[0,1)`, `randomsimplex` writes `m` non-negative
coefficients whose sum is exactly 1, and the clamp pass of `SVclustering` (moving
`a[j] - rvm` from an over-cap `j` into a receiver `p`, for any cap `rvm` and any index
array `sts` into the coefficients) keeps the sum of every array, so the sum is still 1
after it. -/
theorem randomsimplex_clamp_unit_mass (m : Nat) (hm : 2 ≤ m) (u : Nat → ℚ)
    (hu : ∀ i, i < m - 1 → 0 ≤ u i ∧ u i < 1) (a0 : Nat → ℚ) (sts : Nat → Nat)
    (hsts : ∀ k, k < m → sts k < m) (rvm : ℚ) :
    (∀ i, i < m → 0 ≤ randomsimplex u a0 m i) ∧
    ∑ i in range m, randomsimplex u a0 m i = 1 ∧
    (∀ a : Nat → ℚ, ∑ i in range m, clamp_pass sts rvm m a i = ∑ i in range m, a i) ∧
    ∑ i in range m, clamp_pass sts rvm m (randomsimplex u a0 m) i = 1 := by
  refine ⟨randomsimplex_nonneg u a0 m hm hu, randomsimplex_sum u a0 m hm, ?_, ?_⟩
  · intro a
    exact clamp_loop_sum sts rvm m hsts m (le_refl m) 0 a
  · unfold clamp_pass
    rw [clamp_loop_sum sts rvm m hsts m (le_refl m) 0, randomsimplex_sum u a0 m hm]

open Finset in
/-- C3, instance: three coefficients from the draws 3/4 and 1/4, cap 2/5. -/
theorem randomsimplex_clamp_unit_mass_witness :
    (2 ≤ 3 ∧ (∀ i, i < 3 - 1 → 0 ≤ draws3 i ∧ draws3 i < 1) ∧ ∀ k, k < 3 → id k < 3) ∧
    ((∀ i, i < 3 → 0 ≤ randomsimplex draws3 (fun _ => 0) 3 i) ∧
    ∑ i in range 3, randomsimplex draws3 (fun _ => 0) 3 i = 1 ∧
    (∀ a : Nat → ℚ, ∑ i in range 3, clamp_pass id (2 / 5) 3 a i = ∑ i in range 3, a i) ∧
    ∑ i in range 3, clamp_pass id (2 / 5) 3 (randomsimplex draws3 (fun _ => 0) 3) i = 1) :=
  have hu : ∀ i, i < 3 - 1 → 0 ≤ draws3 i ∧ draws3 i < 1 := by
    intro i _
    unfold draws3
    split_ifs <;> norm_num
  ⟨⟨le_refl 2 |>.trans (by decide), hu, fun _ hk => hk⟩,
   randomsimplex_clamp_unit_mass 3 (by decide) draws3 hu (fun _ => 0) id (fun _ hk => hk)
     (2 / 5)⟩

/-- On draws that already ascend, sorting changes nothing. -/
theorem sortedDraw_of_ascending (u : Nat → ℚ) (n : Nat)
    (hmono : ∀ i j, i < j → j < n → u i ≤ u j) (k : Nat) (hk : k < n) :
    sortedDraw u n k = u k := by
  have hsorted : List.Sorted (fun x y : ℚ => x ≤ y) ((List.range n).map u) := by
    unfold List.Sorted
    rw [List.pairwise_map]
    refine (List.pairwise_lt_range n).imp_of_mem ?_
    intro i j _ hj hij
    exact hmono i j hij (List.mem_range.mp hj)
  unfold sortedDraw gsl_sort
  rw [List.Sorted.insertionSort_eq hsorted,
    List.getD_eq_getElem _ _ (by simpa using hk)]
  simp

/-- When the largest coefficient is over the cap, no receiver can take its excess and
the second largest is not over the cap, the clamp pass returns the array as it was. -/
theorem clamp_pass_stuck (sts : Nat → Nat) (rvm : ℚ) (m : Nat) (a : Nat → ℚ) (hm : 2 ≤ m)
    (htop : a (sts (m - 1)) > rvm)
    (hnone : ∀ k, k < m → ¬ (a (sts k) + a (sts (m - 1)) < 2 * rvm))
    (hnext : ¬ a (sts (m - 2)) > rvm) :
    clamp_pass sts rvm m a = a := by
  obtain ⟨n, rfl⟩ : ∃ n, m = n + 2 := ⟨m - 2, by omega⟩
  have h1 : n + 2 - (n + 2 - (n + 1 + 1)) - 1 = n + 1 := by omega
  have h2 : n + 2 - (n + 2 - (n + 1)) - 1 = n := by omega
  have hfind : (List.range' 0 (n + 2 - 0)).find?
      (fun k => decide (a (sts k) + a (sts (n + 1)) < 2 * rvm)) = none := by
    rw [List.find?_eq_none]
    intro k hk
    rw [List.mem_range'] at hk
    rcases hk with ⟨t, ht, rfl⟩
    simpa using hnone (0 + 1 * t) (by omega)
  unfold clamp_pass
  rw [show n + 2 = n + 1 + 1 from rfl, clamp_loop]
  simp only [h1]
  simp only [show n + 1 + 1 - 1 = n + 1 from rfl] at htop
  simp only [htop, if_true, hfind]
  rw [clamp_loop]
  simp only [h2]
  simp only [show n + 1 + 1 - 2 = n from rfl] at hnext
  simp only [hnext, if_false]

/-- The coefficients `randomsimplex` writes from the draws `drawsStuck`. -/
theorem randomsimplex_drawsStuck (i : Nat) (hi : i < 50) :
    randomsimplex drawsStuck (fun _ => 0) 50 i =
      if i = 49 then 351 / 400 else ((i : ℚ) + 1) / 10000 := by
  have hmono : ∀ i j, i < j → j < 49 → drawsStuck i ≤ drawsStuck j := by
    intro i j hij _
    unfold drawsStuck
    have h : (i : ℚ) + 1 ≤ (j : ℚ) := by exact_mod_cast hij
    have hi0 : (0 : ℚ) ≤ (i : ℚ) := Nat.cast_nonneg i
    have : ((i : ℚ) + 1) * ((i : ℚ) + 2) ≤ ((j : ℚ) + 1) * ((j : ℚ) + 2) := by nlinarith
    linarith
  rw [randomsimplex_apply _ _ 50 (by decide) i hi]
  by_cases h1 : i = 49
  · subst h1
    rw [sortedDraw_of_ascending _ 49 hmono 48 (by decide)]
    unfold drawsStuck
    norm_num
  · have h1' : ¬ (i = 50 - 1) := by omega
    simp only [h1', h1, if_false]
    by_cases h0 : i = 0
    · subst h0
      rw [sortedDraw_of_ascending _ 49 hmono 0 (by decide)]
      unfold drawsStuck
      norm_num
    · simp only [h0, if_false]
      rw [sortedDraw_of_ascending _ 49 hmono i (by omega),
        sortedDraw_of_ascending _ 49 hmono (i - 1) (by omega)]
      unfold drawsStuck
      have hc : ((i - 1 : Nat) : ℚ) = (i : ℚ) - 1 := by
        rw [Nat.cast_sub (by omega)]; simp
      rw [hc]
      ring

/-- C4 fails on the code: with `m = 50`, `v = 1/2` (cap `1/25`) and the 49 ascending
draws `(i+1)(i+2)/20000`, `randomsimplex` writes the distinct coefficients `(i+1)/10000`
for `i < 49` and `351/400` for `i = 49`; they ascend strictly, so the sort index is the
identity.  No receiver `p` has `a[p] + a[49] < 2/25`, so the clamp pass moves nothing and
`a[49]` stays at `351/400`, above the cap. -/
theorem SVclustering_init_over_cap :
    ((50 : Nat) ≤ 50 ∧ (50 : Nat) ≤ 20000 ∧ (0 : ℚ) < 1 / 2 ∧ (1 / 2 : ℚ) < 1 ∧
      (∀ i, i < 49 → 0 ≤ drawsStuck i ∧ drawsStuck i < 1)) ∧
    IsSortIndex id (randomsimplex drawsStuck (fun _ => 0) 50) 50 ∧
    (∀ k l, k < l → l < 50 →
      randomsimplex drawsStuck (fun _ => 0) 50 k < randomsimplex drawsStuck (fun _ => 0) 50 l) ∧
    SVclustering_init drawsStuck (fun _ => 0) id (1 / 2) 50 49 = 351 / 400 ∧
    ¬ (SVclustering_init drawsStuck (fun _ => 0) id (1 / 2) 50 49 ≤ 1 / ((1 / 2) * (50 : Nat))) := by
  have hval := randomsimplex_drawsStuck
  have hnn : ∀ i, i < 50 → 0 ≤ randomsimplex drawsStuck (fun _ => 0) 50 i := by
    intro i hi
    rw [hval i hi]
    have hi0 : (0 : ℚ) ≤ (i : ℚ) := Nat.cast_nonneg i
    split_ifs
    · norm_num
    · positivity
  have hle : ∀ i, i < 49 → randomsimplex drawsStuck (fun _ => 0) 50 i ≤ 49 / 10000 := by
    intro i hi
    have h1 : ¬ (i = 49) := by omega
    rw [hval i (by omega)]
    simp only [h1, if_false]
    have : (i : ℚ) ≤ 48 := by exact_mod_cast (by omega : i ≤ 48)
    linarith
  have hinit : SVclustering_init drawsStuck (fun _ => 0) id (1 / 2) 50 =
      randomsimplex drawsStuck (fun _ => 0) 50 := by
    unfold SVclustering_init
    apply clamp_pass_stuck _ _ 50 _ (by decide)
    · rw [show id (50 - 1) = 49 from rfl, hval 49 (by decide)]
      norm_num
    · intro k hk
      have := hnn k hk
      rw [show id (50 - 1) = 49 from rfl, hval 49 (by decide)]
      simp only [id]
      norm_num
      linarith
    · have := hle 48 (by decide)
      rw [show id (50 - 2) = 48 from rfl]
      norm_num
      linarith
  refine ⟨⟨le_refl _, by decide, by norm_num, by norm_num, ?_⟩, ⟨fun _ hk => hk,
    fun _ _ _ _ h => h, ?_⟩, ?_, ?_, ?_⟩
  · intro i hi
    unfold drawsStuck
    have hi0 : (0 : ℚ) ≤ (i : ℚ) := Nat.cast_nonneg i
    have hi1 : (i : ℚ) ≤ 48 := by exact_mod_cast (by omega : i ≤ 48)
    constructor
    · positivity
    · rw [div_lt_one (by norm_num)]
      nlinarith
  · intro k l hkl hl
    simp only [id]
    rw [hval k (by omega), hval l hl]
    by_cases hl49 : l = 49
    · subst hl49
      by_cases hk49 : k = 49
      · simp [hk49]
      · simp only [hk49, if_false, if_true]
        have : (k : ℚ) ≤ 48 := by exact_mod_cast (by omega : k ≤ 48)
        linarith
    · have hk49 : ¬ (k = 49) := by omega
      simp only [hk49, hl49, if_false]
      have : (k : ℚ) ≤ (l : ℚ) := by exact_mod_cast hkl
      linarith
  · intro k l hkl hl
    rw [hval k (by omega), hval l hl]
    have hk49 : ¬ (k = 49) := by omega
    simp only [hk49, if_false]
    have hk48 : (k : ℚ) ≤ 48 := by exact_mod_cast (by omega : k ≤ 48)
    have hklq : (k : ℚ) < (l : ℚ) := by exact_mod_cast hkl
    split_ifs
    · linarith
    · linarith
  · rw [hinit, hval 49 (by decide)]
    simp
  · rw [hinit, hval 49 (by decide)]
    norm_num

/-! ## Pairwise coefficient update -/

/-- The coefficients after `updatecoeffs`, entry by entry, for `i ≠ j`: `a[i]` is the
clipped step, `a[j]` is `gama` minus it, the others are untouched (also on the early
return, where the clipped step is the old `a[i]`). -/
theorem updatecoeffs_a_apply (K : gsl_matrix) (a fw : Nat → ℚ) (i j : Nat) (rvm ph : ℚ)
    (hij : i ≠ j) (k : Nat) :
    (updatecoeffs K a fw i j rvm ph).a k =
      if k = j then a i + a j - updatecoeffs_ahi K a fw i j rvm
      else if k = i then updatecoeffs_ahi K a fw i j rvm
      else a k := by
  unfold updatecoeffs
  by_cases h : a i = updatecoeffs_ahi K a fw i j rvm
  · simp only [h, if_true]
    by_cases hkj : k = j
    · subst hkj
      simp only [if_true]
      rw [← h]; ring
    · simp only [hkj, if_false]
      by_cases hki : k = i
      · subst hki; simp only [if_true]; rw [← h]
      · simp only [hki, if_false]
  · simp only [h, if_false]
    by_cases hkj : k = j
    · subst hkj
      simp
    · simp only [hkj, if_false]
      rw [Function.update_noteq hkj]
      by_cases hki : k = i
      · subst hki; simp
      · simp only [hki, if_false]
        rw [Function.update_noteq hki]

/-- The clip interval of `updatecoeffs` is not empty and lies in `[0, rvm]` when both
coefficients do. -/
theorem updatecoeffs_interval (a : Nat → ℚ) (i j : Nat) (rvm : ℚ)
    (hi : 0 ≤ a i ∧ a i ≤ rvm) (hj : 0 ≤ a j ∧ a j ≤ rvm) :
    updatecoeffs_L a i j rvm = max 0 (a i + a j - rvm) ∧
    updatecoeffs_H a i j rvm = min rvm (a i + a j) ∧
    updatecoeffs_L a i j rvm ≤ updatecoeffs_H a i j rvm := by
  unfold updatecoeffs_L updatecoeffs_H
  refine ⟨?_, ?_, ?_⟩
  · simp only []
    split_ifs with h
    · rw [max_eq_left (le_of_lt h)]
    · rw [max_eq_right (not_lt.mp h)]
  · simp only []
    split_ifs with h
    · rw [min_eq_left (le_of_lt h)]
    · rw [min_eq_right (not_lt.mp h)]
  · simp only []
    split_ifs <;> linarith [hi.1, hi.2, hj.1, hj.2]

/-- C6: for `i ≠ j` with `a[i]`, `a[j]` in `[0, C]` and `K[i,i] + K[j,j] - 2K[i,j] > 0`,
`updatecoeffs` sets `a[i]` to `a[i] + (fw[j]-fw[i])/(K[i,i]+K[j,j]-2K[i,j])` clipped to
`[max(0, a_i+a_j-C), min(C, a_i+a_j)]`, and afterwards `a[i]` and `a[j]` lie in `[0, C]`. -/
theorem updatecoeffs_clipped_step (K : gsl_matrix) (a fw : Nat → ℚ) (i j : Nat) (C ph : ℚ)
    (hij : i ≠ j) (hi : 0 ≤ a i ∧ a i ≤ C) (hj : 0 ≤ a j ∧ a j ≤ C)
    (_hxx : 0 < gsl_matrix_get K i i + gsl_matrix_get K j j - 2 * gsl_matrix_get K i j) :
    (updatecoeffs K a fw i j C ph).a i =
      max (max 0 (a i + a j - C)) (min (min C (a i + a j))
        (a i + (fw j - fw i) /
          (gsl_matrix_get K i i + gsl_matrix_get K j j - 2 * gsl_matrix_get K i j))) ∧
    (0 ≤ (updatecoeffs K a fw i j C ph).a i ∧ (updatecoeffs K a fw i j C ph).a i ≤ C) ∧
    (0 ≤ (updatecoeffs K a fw i j C ph).a j ∧ (updatecoeffs K a fw i j C ph).a j ≤ C) := by
  have hap := updatecoeffs_a_apply K a fw i j C ph hij
  obtain ⟨hL, hH, hLH⟩ := updatecoeffs_interval a i j C hi hj
  have hclip : updatecoeffs_ahi K a fw i j C =
      max (updatecoeffs_L a i j C) (min (updatecoeffs_H a i j C)
        (a i + (fw j - fw i) /
          (gsl_matrix_get K i i + gsl_matrix_get K j j - 2 * gsl_matrix_get K i j))) := by
    unfold updatecoeffs_ahi
    simp only []
    generalize a i + (fw j - fw i) /
      (gsl_matrix_get K i i + gsl_matrix_get K j j - 2 * gsl_matrix_get K i j) = x
    generalize updatecoeffs_L a i j C = L at hLH
    generalize updatecoeffs_H a i j C = H at hLH
    by_cases h1 : x < L
    · simp only [h1, if_true]
      have h2 : ¬ (L > H) := not_lt.mpr hLH
      simp only [h2, if_false]
      rw [max_eq_left]
      exact le_trans (min_le_right _ _) (le_of_lt h1)
    · simp only [h1, if_false]
      by_cases h2 : x > H
      · simp only [h2, if_true]
        rw [min_eq_left (le_of_lt h2), max_eq_right hLH]
      · simp only [h2, if_false]
        rw [min_eq_right (not_lt.mp h2), max_eq_right (not_lt.mp h1)]
  have hlo : updatecoeffs_L a i j C ≤ updatecoeffs_ahi K a fw i j C := by
    rw [hclip]; exact le_max_left _ _
  have hhi : updatecoeffs_ahi K a fw i j C ≤ updatecoeffs_H a i j C := by
    rw [hclip]; exact max_le hLH (min_le_left _ _)
  have hL0 : 0 ≤ updatecoeffs_L a i j C := by rw [hL]; exact le_max_left _ _
  have hL1 : a i + a j - C ≤ updatecoeffs_L a i j C := by rw [hL]; exact le_max_right _ _
  have hH0 : updatecoeffs_H a i j C ≤ C := by rw [hH]; exact min_le_left _ _
  have hH1 : updatecoeffs_H a i j C ≤ a i + a j := by rw [hH]; exact min_le_right _ _
  refine ⟨?_, ⟨?_, ?_⟩, ⟨?_, ?_⟩⟩
  · rw [hap i]
    simp only [hij, if_false, if_true]
    rw [hclip, hL, hH]
  · rw [hap i]; simp only [hij, if_false, if_true]; linarith
  · rw [hap i]; simp only [hij, if_false, if_true]; linarith
  · rw [hap j]; simp only [if_true]; linarith
  · rw [hap j]; simp only [if_true]; linarith

/-- C6, instance: the pair (0, 1) under the 3×3 unit kernel with cap 1/2. -/
theorem updatecoeffs_clipped_step_witness :
    ((0 : Nat) ≠ 1 ∧ (0 ≤ coeffs3 0 ∧ coeffs3 0 ≤ 1 / 2) ∧ (0 ≤ coeffs3 1 ∧ coeffs3 1 ≤ 1 / 2) ∧
      0 < gsl_matrix_get unitKernel3 0 0 + gsl_matrix_get unitKernel3 1 1 -
        2 * gsl_matrix_get unitKernel3 0 1) ∧
    ((updatecoeffs unitKernel3 coeffs3 heights3 0 1 (1 / 2) 0).a 0 =
      max (max 0 (coeffs3 0 + coeffs3 1 - 1 / 2)) (min (min (1 / 2) (coeffs3 0 + coeffs3 1))
        (coeffs3 0 + (heights3 1 - heights3 0) /
          (gsl_matrix_get unitKernel3 0 0 + gsl_matrix_get unitKernel3 1 1 -
            2 * gsl_matrix_get unitKernel3 0 1))) ∧
    (0 ≤ (updatecoeffs unitKernel3 coeffs3 heights3 0 1 (1 / 2) 0).a 0 ∧
      (updatecoeffs unitKernel3 coeffs3 heights3 0 1 (1 / 2) 0).a 0 ≤ 1 / 2) ∧
    (0 ≤ (updatecoeffs unitKernel3 coeffs3 heights3 0 1 (1 / 2) 0).a 1 ∧
      (updatecoeffs unitKernel3 coeffs3 heights3 0 1 (1 / 2) 0).a 1 ≤ 1 / 2)) :=
  have h0 : 0 ≤ coeffs3 0 ∧ coeffs3 0 ≤ 1 / 2 := by
    unfold coeffs3; norm_num
  have h1 : 0 ≤ coeffs3 1 ∧ coeffs3 1 ≤ 1 / 2 := by
    unfold coeffs3; norm_num
  have hx : 0 < gsl_matrix_get unitKernel3 0 0 + gsl_matrix_get unitKernel3 1 1 -
      2 * gsl_matrix_get unitKernel3 0 1 := by
    unfold gsl_matrix_get unitKernel3; norm_num
  ⟨⟨by decide, h0, h1, hx⟩,
   updatecoeffs_clipped_step unitKernel3 coeffs3 heights3 0 1 (1 / 2) 0 (by decide) h0 h1 hx⟩

/-! ## Path adjacency -/

open Finset in
/-- A running sum over `0..m-1` written as a left fold is the sum. -/
theorem foldl_add_eq_sum (f : Nat → ℚ) (m : Nat) :
    (List.range m).foldl (fun wd i => wd + f i) 0 = ∑ i in range m, f i := by
  induction m with
  | zero => simp
  | succ m ih => rw [List.range_succ, List.foldl_append, ih, sum_range_succ]; simp

open Finset in
/-- The value computed by `calrsq`: `K(p,p) - 2·Σ_k a_k·K(p, x_k) + sum`. -/
theorem calrsq_eq (kern : gsl_vector → gsl_vector → ℚ) (px : gsl_vector) (a : Nat → ℚ)
    (X : gsl_matrix) (sum : ℚ) :
    calrsq kern px a X sum =
      kern px px - 2 * (∑ k in range X.size2, a k * kern px (gsl_matrix_column X k)) + sum := by
  unfold calrsq
  simp only []
  rw [foldl_add_eq_sum (fun i => a i * kern px (gsl_matrix_column X i))]
  ring

/-- The loop of `adjcheck2v` answers `true` exactly when no remaining point has
`dd > rsq`. -/
theorem adjcheck2v_loop_iff (kern : gsl_vector → gsl_vector → ℚ) (p_i p_j : gsl_vector)
    (a : Nat → ℚ) (sum rsq : ℚ) (ss : Nat) (X : gsl_matrix) (n k : Nat) :
    adjcheck2v_loop kern p_i p_j a sum rsq ss X n k = true ↔
      ∀ t, k ≤ t → t < k + n → calrsq kern (adjcheck2v_point p_i p_j ss t) a X sum ≤ rsq := by
  induction n generalizing k with
  | zero =>
    unfold adjcheck2v_loop
    simp only [true_iff]
    intro t h1 h2
    omega
  | succ n ih =>
    unfold adjcheck2v_loop
    simp only []
    by_cases hd : calrsq kern (adjcheck2v_point p_i p_j ss k) a X sum > rsq
    · simp only [hd, if_true]
      constructor
      · intro h; cases h
      · intro h
        exact absurd (h k (le_refl k) (by omega)) (not_le.mpr hd)
    · simp only [hd, if_false]
      rw [ih (k + 1)]
      constructor
      · intro h t h1 h2
        rcases Nat.eq_or_lt_of_le h1 with heq | hlt
        · subst heq; exact not_lt.mp hd
        · exact h t hlt (by omega)
      · intro h t h1 h2
        exact h t (by omega) (by omega)

/-- The answer of `adjcheck2v` in terms of the `ss` sampled points. -/
theorem adjcheck2v_iff (kern : gsl_vector → gsl_vector → ℚ) (p_i p_j : gsl_vector)
    (a : Nat → ℚ) (sum rsq : ℚ) (ss : Nat) (X : gsl_matrix) :
    adjcheck2v kern p_i p_j a sum rsq ss X = true ↔
      ∀ k, k < ss → calrsq kern (adjcheck2v_point p_i p_j ss k) a X sum ≤ rsq := by
  unfold adjcheck2v
  rw [adjcheck2v_loop_iff]
  constructor
  · intro h k hk; exact h k (Nat.zero_le k) (by omega)
  · intro h k _ hk; exact h k (by omega)

/-- The point sampled by `adjcheck2v` in iteration `k` is `α·p_i + (1-α)·p_j` with
`α = (k+1)/(ss+1)`. -/
theorem adjcheck2v_point_eq (p_i p_j : gsl_vector) (ss k : Nat) :
    adjcheck2v_point p_i p_j ss k =
      ⟨p_i.size, fun r => ((k : ℚ) + 1) / ((ss : ℚ) + 1) * p_i.data r +
        (1 - ((k : ℚ) + 1) / ((ss : ℚ) + 1)) * p_j.data r⟩ := by
  unfold adjcheck2v_point gsl_blas_daxpy gsl_vector_zero
  simp only [gsl_vector.mk.injEq, true_and]
  funext r
  ring

open Finset in
/-- C7: for every pair of vectors and every sample count `ss`, `adjcheck2v` returns true
if and only if each of the `ss` points `α_k·p_i + (1-α_k)·p_j`, `α_k = (k+1)/(ss+1)`,
`k = 0..ss-1`, has `d ≤ rsq`, where `d = K(p,p) - 2·Σ_c a_c·K(p, x_c) + sum` over all
columns `x_c` of `X` is the value `calrsq` computes. -/
theorem adjcheck2v_true_iff (kern : gsl_vector → gsl_vector → ℚ) (p_i p_j : gsl_vector)
    (a : Nat → ℚ) (sum rsq : ℚ) (ss : Nat) (X : gsl_matrix) :
    (∀ p : gsl_vector, calrsq kern p a X sum =
      kern p p - 2 * (∑ c in range X.size2, a c * kern p (gsl_matrix_column X c)) + sum) ∧
    (adjcheck2v kern p_i p_j a sum rsq ss X = true ↔
      ∀ k, k < ss →
        kern (⟨p_i.size, fun r => ((k : ℚ) + 1) / ((ss : ℚ) + 1) * p_i.data r +
            (1 - ((k : ℚ) + 1) / ((ss : ℚ) + 1)) * p_j.data r⟩ : gsl_vector)
          ⟨p_i.size, fun r => ((k : ℚ) + 1) / ((ss : ℚ) + 1) * p_i.data r +
            (1 - ((k : ℚ) + 1) / ((ss : ℚ) + 1)) * p_j.data r⟩
        - 2 * (∑ c in range X.size2, a c *
            kern (⟨p_i.size, fun r => ((k : ℚ) + 1) / ((ss : ℚ) + 1) * p_i.data r +
              (1 - ((k : ℚ) + 1) / ((ss : ℚ) + 1)) * p_j.data r⟩ : gsl_vector)
              (gsl_matrix_column X c))
        + sum ≤ rsq) := by
  refine ⟨fun p => calrsq_eq kern p a X sum, ?_⟩
  rw [adjcheck2v_iff]
  constructor
  · intro h k hk
    have := h k hk
    rw [calrsq_eq, adjcheck2v_point_eq] at this
    exact this
  · intro h k hk
    rw [calrsq_eq, adjcheck2v_point_eq]
    exact h k hk

/-- Swapping the end points of the path lists the same points in reverse order. -/
theorem adjcheck2v_point_swap (p_i p_j : gsl_vector) (hsize : p_i.size = p_j.size)
    (ss k : Nat) (hk : k < ss) :
    adjcheck2v_point p_j p_i ss (ss - 1 - k) = adjcheck2v_point p_i p_j ss k := by
  rw [adjcheck2v_point_eq, adjcheck2v_point_eq]
  simp only [gsl_vector.mk.injEq]
  refine ⟨hsize.symm, ?_⟩
  funext r
  have hc : ((ss - 1 - k : Nat) : ℚ) = (ss : ℚ) - 1 - (k : ℚ) := by
    rw [Nat.cast_sub (by omega), Nat.cast_sub (by omega)]; simp
  have hs : ((ss : ℚ) + 1) ≠ 0 := by positivity
  rw [hc]
  field_simp
  ring

/-- C8: the sampled-path adjacency test is symmetric: for every data matrix, coefficient
array, kernel, `rsq`, `sum`, pair of sample indices and sample count `ss` (in particular
every `ss ≥ 1`), `adjcheck(X, i, j, ss, …)` equals `adjcheck(X, j, i, ss, …)`: the weights
`(k+1)/(ss+1)` are closed under `α ↦ 1 - α`. -/
theorem adjcheck_symm (kern : gsl_vector → gsl_vector → ℚ) (X : gsl_matrix) (i j ss : Nat)
    (a : Nat → ℚ) (rsq sum : ℚ) :
    adjcheck kern X i j ss a rsq sum = adjcheck kern X j i ss a rsq sum := by
  have key : ∀ i j, adjcheck kern X i j ss a rsq sum = true →
      adjcheck kern X j i ss a rsq sum = true := by
    intro i j h
    unfold adjcheck at h ⊢
    rw [adjcheck2v_iff] at h ⊢
    intro k hk
    have := h (ss - 1 - k) (by omega)
    rw [adjcheck2v_point_swap (gsl_matrix_column X j) (gsl_matrix_column X i) rfl ss k hk] at this
    exact this
  cases h1 : adjcheck kern X i j ss a rsq sum with
  | true => exact (key i j h1).symm
  | false =>
    cases h2 : adjcheck kern X j i ss a rsq sum with
    | false => rfl
    | true => rw [key j i h2] at h1; cases h1

/-! ## Connected components -/

/-- A loop over `0..m-1` in which every iteration returns and re-establishes the
invariant returns with the invariant at `m`. -/
theorem foldlM_range_invariant {σ : Type} (f : σ → Nat → Option σ) (Inv : Nat → σ → Prop)
    (m : Nat) (s0 : σ) (h0 : Inv 0 s0)
    (hstep : ∀ n t, n < m → Inv n t → ∃ t1, f t n = some t1 ∧ Inv (n + 1) t1) :
    ∃ t, (List.range m).foldlM f s0 = some t ∧ Inv m t := by
  induction m with
  | zero => exact ⟨s0, rfl, h0⟩
  | succ m ih =>
    obtain ⟨t, ht, hinv⟩ := ih (fun n t hn => hstep n t (by omega))
    obtain ⟨t1, ht1, hinv1⟩ := hstep m t (by omega) hinv
    refine ⟨t1, ?_, hinv1⟩
    rw [List.range_succ, List.foldlM_append, ht]
    simp [ht1]

/-- Marking more vertices does not raise the number of unmarked ones. -/
theorem unmarked_mono (m : Nat) (c1 c2 : Nat → Bool) (h : ∀ v, c1 v = true → c2 v = true) :
    unmarked m c2 ≤ unmarked m c1 := by
  unfold unmarked
  apply Finset.card_le_card
  intro v hv
  rw [Finset.mem_filter] at hv ⊢
  refine ⟨hv.1, ?_⟩
  cases hc : c1 v with
  | false => rfl
  | true => rw [h v hc] at hv; exact absurd hv.2 (by simp)

/-- Marking an unmarked vertex lowers the number of unmarked ones. -/
theorem unmarked_update_lt (m : Nat) (c : Nat → Bool) (i : Nat) (hi : i < m)
    (hc : c i = false) : unmarked m (Function.update c i true) < unmarked m c := by
  unfold unmarked
  apply Finset.card_lt_card
  rw [Finset.ssubset_iff_of_subset]
  · refine ⟨i, ?_, ?_⟩
    · rw [Finset.mem_filter]; exact ⟨Finset.mem_range.mpr hi, hc⟩
    · rw [Finset.mem_filter]; simp
  · intro v hv
    rw [Finset.mem_filter] at hv ⊢
    refine ⟨hv.1, ?_⟩
    by_cases hvi : v = i
    · subst hvi; simp at hv
    · rw [Function.update_noteq hvi] at hv; exact hv.2

/-- With a recursion depth above the number of unmarked vertices, `findgroup` returns,
and the call has the effect described by `FindgroupPost`. -/
theorem findgroup_post (adj : Nat → Nat → Bool) (m : Nat) (d : Nat) :
    ∀ (h : Nat) (s : GroupState), h < m →
      unmarked m (Function.update s.chk h true) < d →
      ∃ s1, findgroup adj m d h s = some s1 ∧ FindgroupPost adj m h s s1 := by
  induction d with
  | zero => intro h s _ hd; omega
  | succ d ih =>
    intro h s hh hd
    unfold findgroup
    have hloop := foldlM_range_invariant
      (fun (t : GroupState) (i : Nat) =>
        if adj h i && !t.chk i then
          findgroup adj m d i ⟨t.pp + 1, Function.update t.cdex t.pp i, t.chk⟩
        else some t)
      (FindgroupInv adj m h s) m ⟨s.pp, s.cdex, Function.update s.chk h true⟩
      (by
        refine ⟨?_, le_refl _, fun _ _ => rfl, ?_, ?_, ?_, ?_⟩
        · intro v hv
          by_cases hvh : v = h
          · subst hvh; simp
          · rcases hv with hv | hv
            · exact absurd hv hvh
            · simp only []; rw [Function.update_noteq hvh]; exact hv
        · intro v hv
          by_cases hvh : v = h
          · exact Or.inr (Or.inl hvh)
          · simp only [] at hv; rw [Function.update_noteq hvh] at hv; exact Or.inl hv
        · intro k h1 h2; simp only [] at h2; omega
        · intro u _ hu
          by_cases huh : u = h
          · exact Or.inl (Or.inl huh)
          · simp only [] at hu; rw [Function.update_noteq huh] at hu
            exact Or.inl (Or.inr hu)
        · intro i hi; omega)
      (by
        intro n t hn hinv
        by_cases hcond : (adj h n && !t.chk n) = true
        · simp only [hcond, if_true]
          rw [Bool.and_eq_true] at hcond
          obtain ⟨hadj, hchk⟩ := hcond
          have hchk : t.chk n = false := by simpa using hchk
          have hlt : unmarked m (Function.update t.chk n true) < d := by
            have h1 := unmarked_update_lt m t.chk n hn hchk
            have h2 : unmarked m t.chk ≤ unmarked m (Function.update s.chk h true) := by
              apply unmarked_mono
              intro v hv
              apply hinv.mono
              by_cases hvh : v = h
              · exact Or.inl hvh
              · rw [Function.update_noteq hvh] at hv; exact Or.inr hv
            omega
          obtain ⟨t1, ht1, hpost⟩ :=
            ih n ⟨t.pp + 1, Function.update t.cdex t.pp n, t.chk⟩ hn hlt
          refine ⟨t1, ht1, ?_⟩
          have hpp : t.pp + 1 ≤ t1.pp := hpost.pp_le
          have hkeep : ∀ k, k < t.pp + 1 → t1.cdex k = Function.update t.cdex t.pp n k :=
            hpost.keep
          have hsold : ∀ v, t.chk v = false → s.chk v = false ∧ v ≠ h := by
            intro v hv
            constructor
            · cases hsv : s.chk v with
              | false => rfl
              | true => rw [hinv.mono v (Or.inr hsv)] at hv; cases hv
            · intro hvh
              rw [hinv.mono v (Or.inl hvh)] at hv; cases hv
          have hedge : Joined adj m h n := Relation.ReflTransGen.single ⟨hh, hn, hadj⟩
          refine ⟨?_, ?_, ?_, ?_, ?_, ?_, ?_⟩
          · intro v hv
            exact hpost.mono v (hinv.mono v hv)
          · have := hinv.pp_le; omega
          · intro k hk
            have h1 := hinv.pp_le
            rw [hkeep k (by omega), Function.update_noteq (by omega)]
            exact hinv.keep k hk
          · intro v hv
            rcases hpost.listed v hv with h1 | h1 | ⟨k, hk1, hk2, hk3⟩
            · rcases hinv.listed v h1 with h2 | h2 | ⟨k, hk1, hk2, hk3⟩
              · exact Or.inl h2
              · exact Or.inr (Or.inl h2)
              · refine Or.inr (Or.inr ⟨k, hk1, by omega, ?_⟩)
                rw [hkeep k (by omega), Function.update_noteq (by omega)]
                exact hk3
            · refine Or.inr (Or.inr ⟨t.pp, hinv.pp_le, by omega, ?_⟩)
              rw [hkeep t.pp (by omega), h1]
              simp
            · simp only [] at hk1
              exact Or.inr (Or.inr ⟨k, by have := hinv.pp_le; omega, hk2, hk3⟩)
          · intro k hk1 hk2
            by_cases hlt : k < t.pp
            · have heq : t1.cdex k = t.cdex k := by
                rw [hkeep k (by omega), Function.update_noteq (by omega)]
              rw [heq]
              obtain ⟨f1, f2, f3, f4⟩ := hinv.fresh k hk1 hlt
              exact ⟨f1, f2, hpost.mono _ f3, f4⟩
            · by_cases heq : k = t.pp
              · have hc : t1.cdex k = n := by
                  rw [hkeep k (by omega), heq]; simp
                rw [hc]
                exact ⟨hn, (hsold n hchk).1, hpost.root, hedge⟩
              · obtain ⟨f1, f2, f3, f4⟩ := hpost.fresh k (by simp only []; omega) hk2
                simp only [] at f2
                exact ⟨f1, (hsold _ f2).1, f3, hedge.trans f4⟩
          · intro u hu hu1
            rcases hpost.closed u hu hu1 with h1 | h1
            · simp only [] at h1
              rcases hinv.closed u hu h1 with h2 | h2
              · exact Or.inl h2
              · exact Or.inr (fun w hw hadjw => hpost.mono w (h2 w hw hadjw))
            · exact Or.inr h1
          · intro i hi hadji
            rcases Nat.lt_succ_iff_lt_or_eq.mp hi with hlt | heq
            · exact hpost.mono i (hinv.seen i hlt hadji)
            · rw [heq]; exact hpost.root
        · simp only [hcond]
          refine ⟨t, rfl, ⟨hinv.mono, hinv.pp_le, hinv.keep, hinv.listed, hinv.fresh,
            hinv.closed, ?_⟩⟩
          intro i hi hadji
          rcases Nat.lt_succ_iff_lt_or_eq.mp hi with hlt | heq
          · exact hinv.seen i hlt hadji
          · subst heq
            rw [hadji] at hcond
            simpa using hcond)
    obtain ⟨s1, hs1, hinv⟩ := hloop
    refine ⟨s1, hs1, ?_⟩
    refine ⟨fun v hv => hinv.mono v (Or.inr hv), hinv.mono h (Or.inl rfl), hinv.pp_le,
      hinv.keep, hinv.listed, hinv.fresh, ?_⟩
    intro u hu hu1
    rcases hinv.closed u hu hu1 with (h1 | h1) | h1
    · cases hsu : s.chk u with
      | true => exact Or.inl rfl
      | false =>
        right
        intro w hw hadjw
        rw [h1] at hadjw
        exact hinv.seen w hw hadjw
    · exact Or.inl h1
    · exact Or.inr h1

/-- With a symmetric matrix, being joined is symmetric. -/
theorem joined_symm (adj : Nat → Nat → Bool) (m : Nat)
    (hsym : ∀ i j, i < m → j < m → adj i j = adj j i) {u v : Nat} (h : Joined adj m u v) :
    Joined adj m v u := by
  induction h with
  | refl => exact Relation.ReflTransGen.refl
  | tail _ hbc ih =>
    obtain ⟨hb, hc, hadj⟩ := hbc
    have hedge : Edge adj m _ _ := ⟨hc, hb, by rw [hsym _ _ hc hb]; exact hadj⟩
    exact Relation.ReflTransGen.head hedge ih

/-- A set of marks closed under `adj` contains everything joined to a marked vertex. -/
theorem closed_joined (adj : Nat → Nat → Bool) (m : Nat) (chk : Nat → Bool)
    (hclosed : ∀ u w, u < m → w < m → chk u = true → adj u w = true → chk w = true)
    {u v : Nat} (hu : chk u = true) (h : Joined adj m u v) : chk v = true := by
  induction h with
  | refl => exact hu
  | tail _ hbc ih =>
    obtain ⟨hb, hc, hadj⟩ := hbc
    exact hclosed _ _ hb hc ih hadj

/-- Labelling a new group keeps the loop invariant: when the newly marked vertices are
all joined to an unmarked root `i`, the marks stay closed, the new vertices take the
label `nc` and the old ones keep theirs, the invariant holds with `nc + 1`. -/
theorem graphInv_add_group (adj : Nat → Nat → Bool) (m : Nat)
    (hsym : ∀ i j, i < m → j < m → adj i j = adj j i)
    (chk chk1 : Nat → Bool) (cls cls1 : Nat → Int) (nc : Int) (i : Nat)
    (hinv : GraphInv adj m chk cls nc)
    (hroot : chk i = false) (hroot1 : chk1 i = true)
    (hmono : ∀ v, chk v = true → chk1 v = true)
    (hnew : ∀ v, chk1 v = true → chk v = false → v < m ∧ Joined adj m i v)
    (hclosed : ∀ u w, u < m → w < m → chk1 u = true → adj u w = true → chk1 w = true)
    (hcls_new : ∀ v, chk1 v = true → chk v = false → cls1 v = nc)
    (hcls_old : ∀ v, chk v = true → cls1 v = cls v) :
    GraphInv adj m chk1 cls1 (nc + 1) := by
  have hnc := hinv.nc_pos
  refine ⟨?_, hclosed, ?_, ?_, ?_, by omega⟩
  · intro v hv
    cases hc : chk v with
    | true => exact hinv.marked_range v hc
    | false => exact (hnew v hv hc).1
  · intro v hv
    cases hc : chk v with
    | true =>
      rw [hcls_old v hc]
      have := hinv.label_range v hc
      omega
    | false =>
      rw [hcls_new v hv hc]
      omega
  · intro u v hu hv
    cases hcu : chk u with
    | true =>
      cases hcv : chk v with
      | true =>
        rw [hcls_old u hcu, hcls_old v hcv]
        exact hinv.label_iff u v hcu hcv
      | false =>
        rw [hcls_old u hcu, hcls_new v hv hcv]
        constructor
        · intro h
          have := hinv.label_range u hcu
          omega
        · intro h
          have := closed_joined adj m chk hinv.closed hcu h
          rw [hcv] at this; cases this
    | false =>
      cases hcv : chk v with
      | true =>
        rw [hcls_new u hu hcu, hcls_old v hcv]
        constructor
        · intro h
          have := hinv.label_range v hcv
          omega
        · intro h
          have := closed_joined adj m chk hinv.closed hcv (joined_symm adj m hsym h)
          rw [hcu] at this; cases this
      | false =>
        rw [hcls_new u hu hcu, hcls_new v hv hcv]
        simp only [true_iff]
        exact (joined_symm adj m hsym (hnew u hu hcu).2).trans (hnew v hv hcv).2
  · intro l hl1 hl2
    by_cases hl : l < nc
    · obtain ⟨v, hv, hvl⟩ := hinv.label_used l hl1 hl
      exact ⟨v, hmono v hv, by rw [hcls_old v hv]; exact hvl⟩
    · refine ⟨i, hroot1, ?_⟩
      rw [hcls_new i hroot1 hroot]
      omega

/-- The effect of the labelling loop of `clusterfromgraph` over the first `pp` entries of
`cdex`. -/
theorem clusterfromgraph_label_spec (pp : Nat) (g : GraphState) :
    (clusterfromgraph_label pp g).cdex = g.cdex ∧
    (clusterfromgraph_label pp g).nc = g.nc ∧
    (∀ v, (clusterfromgraph_label pp g).chk v = true ↔
      (g.chk v = true ∨ ∃ j, j < pp ∧ g.cdex j = v)) ∧
    (∀ v, (∃ j, j < pp ∧ g.cdex j = v) → (clusterfromgraph_label pp g).cls v = g.nc) ∧
    (∀ v, (¬ ∃ j, j < pp ∧ g.cdex j = v) → (clusterfromgraph_label pp g).cls v = g.cls v) := by
  induction pp with
  | zero =>
    unfold clusterfromgraph_label
    simp
  | succ pp ih =>
    have hstep : clusterfromgraph_label (pp + 1) g =
        ⟨(clusterfromgraph_label pp g).cdex,
         Function.update (clusterfromgraph_label pp g).chk
           ((clusterfromgraph_label pp g).cdex pp) true,
         Function.update (clusterfromgraph_label pp g).cls
           ((clusterfromgraph_label pp g).cdex pp) (clusterfromgraph_label pp g).nc,
         (clusterfromgraph_label pp g).nc⟩ := by
      unfold clusterfromgraph_label
      rw [List.range_succ, List.foldl_append]
      rfl
    obtain ⟨h1, h2, h3, h4, h5⟩ := ih
    rw [hstep]
    simp only [Function.update_apply, h1, h2]
    refine ⟨trivial, trivial, ?_, ?_, ?_⟩
    · intro v
      by_cases hv : v = g.cdex pp
      · simp only [hv, if_true, true_iff]
        exact Or.inr ⟨pp, by omega, rfl⟩
      · simp only [hv, if_false]
        rw [h3 v]
        constructor
        · rintro (h | ⟨j, hj, hjv⟩)
          · exact Or.inl h
          · exact Or.inr ⟨j, by omega, hjv⟩
        · rintro (h | ⟨j, hj, hjv⟩)
          · exact Or.inl h
          · rcases Nat.lt_succ_iff_lt_or_eq.mp hj with hlt | heq
            · exact Or.inr ⟨j, hlt, hjv⟩
            · subst heq; exact absurd hjv.symm hv
    · rintro v ⟨j, hj, hjv⟩
      by_cases hv : v = g.cdex pp
      · simp only [hv, if_true]
      · simp only [hv, if_false]
        rcases Nat.lt_succ_iff_lt_or_eq.mp hj with hlt | heq
        · exact h4 v ⟨j, hlt, hjv⟩
        · subst heq; exact absurd hjv.symm hv
    · intro v hv
      have hne : ¬ v = g.cdex pp := by
        intro h; exact hv ⟨pp, by omega, h.symm⟩
      simp only [hne, if_false]
      apply h5
      rintro ⟨j, hj, hjv⟩
      exact hv ⟨j, by omega, hjv⟩

/-- The number of unmarked vertices is at most the number of vertices. -/
theorem unmarked_le (m : Nat) (c : Nat → Bool) : unmarked m c ≤ m := by
  unfold unmarked
  calc ((Finset.range m).filter (fun v => c v = false)).card
      ≤ (Finset.range m).card := Finset.card_filter_le _ _
    _ = m := Finset.card_range m

/-- One iteration of the main loop of `clusterfromgraph` returns (with depth `≥ m`) and
keeps the invariant, with vertex `i` marked as well. -/
theorem clusterfromgraph_step_inv (adj : Nat → Nat → Bool) (m : Nat)
    (hsym : ∀ i j, i < m → j < m → adj i j = adj j i) (depth : Nat) (hdepth : m ≤ depth)
    (g : GraphState) (i : Nat) (hi : i < m)
    (hinv : GraphInv adj m g.chk g.cls g.nc) (hlt : ∀ v, v < i → g.chk v = true) :
    ∃ g1, clusterfromgraph_step adj m depth g i = some g1 ∧
      GraphInv adj m g1.chk g1.cls g1.nc ∧ ∀ v, v < i + 1 → g1.chk v = true := by
  unfold clusterfromgraph_step
  cases hci : g.chk i with
  | true =>
    refine ⟨g, by simp, hinv, ?_⟩
    intro v hv
    rcases Nat.lt_succ_iff_lt_or_eq.mp hv with h | h
    · exact hlt v h
    · rw [h]; exact hci
  | false =>
    have hfuel : unmarked m (Function.update g.chk i true) < depth := by
      have h1 := unmarked_update_lt m g.chk i hi hci
      have h2 := unmarked_le m g.chk
      omega
    obtain ⟨s1, hs1, hpost⟩ :=
      findgroup_post adj m depth i ⟨1, Function.update g.cdex 0 i, g.chk⟩ hi hfuel
    simp only [Bool.not_false, if_true, hs1]
    obtain ⟨_, l2, l3, l4, l5⟩ := clusterfromgraph_label_spec s1.pp ⟨s1.cdex, s1.chk, g.cls, g.nc⟩
    simp only [] at l2 l3 l4 l5
    have hpp : 1 ≤ s1.pp := hpost.pp_le
    have h0 : s1.cdex 0 = i := by
      rw [hpost.keep 0 (by simp only []; omega)]
      simp
    have hlisted : ∀ v, (∃ j, j < s1.pp ∧ s1.cdex j = v) ↔
        (s1.chk v = true ∧ g.chk v = false) := by
      intro v
      constructor
      · rintro ⟨j, hj, hjv⟩
        by_cases hj0 : j = 0
        · subst hj0
          rw [h0] at hjv
          subst hjv
          exact ⟨hpost.root, hci⟩
        · obtain ⟨_, f2, f3, _⟩ := hpost.fresh j (by simp only []; omega) hj
          rw [hjv] at f2 f3
          exact ⟨f3, f2⟩
      · rintro ⟨hv1, hv0⟩
        rcases hpost.listed v hv1 with h | h | ⟨k, _, hk2, hk3⟩
        · simp only [] at h; rw [hv0] at h; cases h
        · exact ⟨0, by omega, by rw [h0, h]⟩
        · exact ⟨k, hk2, hk3⟩
    have hchk : ∀ v, (clusterfromgraph_label s1.pp ⟨s1.cdex, s1.chk, g.cls, g.nc⟩).chk v = true ↔
        s1.chk v = true := by
      intro v
      rw [l3 v]
      constructor
      · rintro (h | h)
        · exact h
        · exact ((hlisted v).mp h).1
      · intro h; exact Or.inl h
    have hjoin : ∀ v, s1.chk v = true → g.chk v = false → v < m ∧ Joined adj m i v := by
      intro v hv1 hv0
      obtain ⟨j, hj, hjv⟩ := (hlisted v).mpr ⟨hv1, hv0⟩
      by_cases hj0 : j = 0
      · subst hj0
        rw [h0] at hjv
        subst hjv
        exact ⟨hi, Relation.ReflTransGen.refl⟩
      · obtain ⟨f1, _, _, f4⟩ := hpost.fresh j (by simp only []; omega) hj
        rw [hjv] at f1 f4
        exact ⟨f1, f4⟩
    have hnew := graphInv_add_group adj m hsym g.chk
      (clusterfromgraph_label s1.pp ⟨s1.cdex, s1.chk, g.cls, g.nc⟩).chk g.cls
      (clusterfromgraph_label s1.pp ⟨s1.cdex, s1.chk, g.cls, g.nc⟩).cls g.nc i hinv hci
      ((hchk i).mpr hpost.root)
      (fun v hv => (hchk v).mpr (hpost.mono v hv))
      (fun v hv1 hv0 => hjoin v ((hchk v).mp hv1) hv0)
      (by
        intro u w hu hw hu1 hadj
        rw [hchk] at hu1 ⊢
        rcases hpost.closed u hu hu1 with h | h
        · exact hpost.mono w (hinv.closed u w hu hw h hadj)
        · exact h w hw hadj)
      (fun v hv1 hv0 => l4 v ((hlisted v).mpr ⟨(hchk v).mp hv1, hv0⟩))
      (by
        intro v hv
        apply l5
        intro h
        have := ((hlisted v).mp h).2
        rw [hv] at this; cases this)
    refine ⟨_, rfl, ?_, ?_⟩
    · simp only [l2]
      exact hnew
    · intro v hv
      simp only []
      rw [hchk]
      rcases Nat.lt_succ_iff_lt_or_eq.mp hv with h | h
      · exact hpost.mono v (hlt v h)
      · rw [h]; exact hpost.root

open Classical in
/-- Once every vertex is marked, the loop invariant gives the component labelling:
labels lie in `1..nc-1`, are equal exactly for joined vertices, are all used, and `nc`
is the number of classes of joined vertices plus one. -/
theorem graphInv_components (adj : Nat → Nat → Bool) (m : Nat) (chk : Nat → Bool)
    (cls : Nat → Int) (nc : Int) (hinv : GraphInv adj m chk cls nc)
    (hall : ∀ v, v < m → chk v = true) :
    (∀ v, v < m → 1 ≤ cls v ∧ cls v ≤ nc - 1) ∧
    (∀ u v, u < m → v < m → (cls u = cls v ↔ Joined adj m u v)) ∧
    (∀ l, 1 ≤ l → l ≤ nc - 1 → ∃ v, v < m ∧ cls v = l) ∧
    nc = (((Finset.range m).image
      (fun v => (Finset.range m).filter (fun w => Joined adj m v w))).card : Int) + 1 := by
  have hA : ∀ v, v < m → 1 ≤ cls v ∧ cls v ≤ nc - 1 := by
    intro v hv
    have := hinv.label_range v (hall v hv)
    omega
  have hB : ∀ u v, u < m → v < m → (cls u = cls v ↔ Joined adj m u v) :=
    fun u v hu hv => hinv.label_iff u v (hall u hu) (hall v hv)
  have hC : ∀ l, 1 ≤ l → l ≤ nc - 1 → ∃ v, v < m ∧ cls v = l := by
    intro l h1 h2
    obtain ⟨v, hv, hvl⟩ := hinv.label_used l h1 (by omega)
    exact ⟨v, hinv.marked_range v hv, hvl⟩
  refine ⟨hA, hB, hC, ?_⟩
  have himg : (Finset.range m).image
      (fun v => (Finset.range m).filter (fun w => Joined adj m v w)) =
      (Finset.Icc (1 : Int) (nc - 1)).image
        (fun l => (Finset.range m).filter (fun w => cls w = l)) := by
    ext c
    simp only [Finset.mem_image, Finset.mem_range, Finset.mem_Icc]
    constructor
    · rintro ⟨v, hv, rfl⟩
      refine ⟨cls v, hA v hv, ?_⟩
      ext w
      simp only [Finset.mem_filter, Finset.mem_range]
      constructor
      · rintro ⟨hw, hwl⟩
        exact ⟨hw, (hB v w hv hw).mp hwl.symm⟩
      · rintro ⟨hw, hj⟩
        exact ⟨hw, ((hB v w hv hw).mpr hj).symm⟩
    · rintro ⟨l, ⟨hl1, hl2⟩, rfl⟩
      obtain ⟨v, hv, hvl⟩ := hC l hl1 hl2
      refine ⟨v, hv, ?_⟩
      ext w
      simp only [Finset.mem_filter, Finset.mem_range]
      constructor
      · rintro ⟨hw, hj⟩
        exact ⟨hw, by rw [← hvl]; exact ((hB v w hv hw).mpr hj).symm⟩
      · rintro ⟨hw, hwl⟩
        exact ⟨hw, (hB v w hv hw).mp (by rw [hvl, hwl])⟩
  have hinj : Set.InjOn (fun l => (Finset.range m).filter (fun w => cls w = l))
      (Finset.Icc (1 : Int) (nc - 1) : Set Int) := by
    intro l hl l1 _ heq
    simp only [Finset.coe_Icc, Set.mem_Icc] at hl
    obtain ⟨v, hv, hvl⟩ := hC l hl.1 hl.2
    have hmem : v ∈ (Finset.range m).filter (fun w => cls w = l) := by
      simp only [Finset.mem_filter, Finset.mem_range]
      exact ⟨hv, hvl⟩
    simp only [] at heq
    rw [heq] at hmem
    simp only [Finset.mem_filter, Finset.mem_range] at hmem
    rw [← hvl, hmem.2]
  rw [himg, Finset.card_image_of_injOn hinj, Int.card_Icc]
  have := hinv.nc_pos
  omega

/-- With `m ≥ 1` vertices, a symmetric matrix and recursion depth `≥ m`,
`clusterfromgraph` returns, and its result satisfies the loop invariant with every
vertex marked. -/
theorem clusterfromgraph_inv (adj : Nat → Nat → Bool) (m : Nat) (hm : 1 ≤ m)
    (hsym : ∀ i j, i < m → j < m → adj i j = adj j i) (depth : Nat) (hdepth : m ≤ depth)
    (cdex0 : Nat → Nat) (cls0 : Nat → Int) :
    ∃ nc cls chk, clusterfromgraph adj m depth cdex0 cls0 = some (nc, cls) ∧
      GraphInv adj m chk cls nc ∧ ∀ v, v < m → chk v = true := by
  obtain ⟨g, hg, hinv, hlt⟩ := foldlM_range_invariant (clusterfromgraph_step adj m depth)
    (fun n g => GraphInv adj m g.chk g.cls g.nc ∧ ∀ v, v < n → g.chk v = true) (m - 1)
    (⟨cdex0, fun _ => false, cls0, 1⟩ : GraphState)
    (by
      refine ⟨⟨?_, ?_, ?_, ?_, ?_, le_refl _⟩, ?_⟩
      · intro v hv; cases hv
      · intro u w _ _ hu; cases hu
      · intro v hv; cases hv
      · intro u v hu; cases hu
      · intro l h1 h2; simp only [] at h2; omega
      · intro v hv; omega)
    (by
      intro n t hn ht
      exact clusterfromgraph_step_inv adj m hsym depth hdepth t n (by omega) ht.1 ht.2)
  have hm0 : ¬ m = 0 := by omega
  unfold clusterfromgraph
  rw [hg]
  simp only [hm0, if_false]
  cases hlast : g.chk (m - 1) with
  | true =>
    refine ⟨g.nc, g.cls, g.chk, by simp, hinv, ?_⟩
    intro v hv
    by_cases h : v < m - 1
    · exact hlt v h
    · have : v = m - 1 := by omega
      rw [this]; exact hlast
  | false =>
    refine ⟨g.nc + 1, Function.update g.cls (m - 1) g.nc, Function.update g.chk (m - 1) true,
      by simp, ?_, ?_⟩
    · have hall : ∀ v, v < m → Function.update g.chk (m - 1) true v = true := by
        intro v hv
        by_cases h : v = m - 1
        · rw [h]; simp
        · rw [Function.update_noteq h]; exact hlt v (by omega)
      have hnew : ∀ v, Function.update g.chk (m - 1) true v = true → g.chk v = false →
          v = m - 1 := by
        intro v hv1 hv0
        by_contra h
        rw [Function.update_noteq h, hv0] at hv1
        cases hv1
      apply graphInv_add_group adj m hsym g.chk _ g.cls _ g.nc (m - 1) hinv hlast (by simp)
      · intro v hv
        by_cases h : v = m - 1
        · rw [h]; simp
        · rw [Function.update_noteq h]; exact hv
      · intro v hv1 hv0
        rw [hnew v hv1 hv0]
        exact ⟨by omega, Relation.ReflTransGen.refl⟩
      · intro u w _ hw _ _
        exact hall w hw
      · intro v hv1 hv0
        rw [hnew v hv1 hv0]; simp
      · intro v hv
        have h : v ≠ m - 1 := by
          intro h; rw [h, hlast] at hv; cases hv
        rw [Function.update_noteq h]
    · intro v hv
      by_cases h : v = m - 1
      · rw [h]; simp
      · rw [Function.update_noteq h]; exact hlt v (by omega)

open Classical in
/-- C9: for every `m ≥ 1` and every symmetric adjacency matrix over `m` vertices,
`clusterfromgraph` (with recursion depth at least `m` available to `findgroup`) returns
labels in `1..nc-1` such that two vertices have the same label if and only if a path of
`adj`-edges joins them, every label in `1..nc-1` is used, and the returned `nc` is the
number of connected components plus one. -/
theorem clusterfromgraph_components (adj : Nat → Nat → Bool) (m : Nat) (hm : 1 ≤ m)
    (hsym : ∀ i j, i < m → j < m → adj i j = adj j i) (depth : Nat) (hdepth : m ≤ depth)
    (cdex0 : Nat → Nat) (cls0 : Nat → Int) :
    ∃ nc cls, clusterfromgraph adj m depth cdex0 cls0 = some (nc, cls) ∧
      (∀ v, v < m → 1 ≤ cls v ∧ cls v ≤ nc - 1) ∧
      (∀ u v, u < m → v < m → (cls u = cls v ↔ Joined adj m u v)) ∧
      (∀ l, 1 ≤ l → l ≤ nc - 1 → ∃ v, v < m ∧ cls v = l) ∧
      nc = (((Finset.range m).image
        (fun v => (Finset.range m).filter (fun w => Joined adj m v w))).card : Int) + 1 := by
  obtain ⟨nc, cls, chk, hres, hinv, hall⟩ :=
    clusterfromgraph_inv adj m hm hsym depth hdepth cdex0 cls0
  exact ⟨nc, cls, hres, graphInv_components adj m chk cls nc hinv hall⟩

open Classical in
/-- C9, instance: three vertices with the single edge 0 – 2. -/
theorem clusterfromgraph_components_witness :
    (1 ≤ 3 ∧ (∀ i j, i < 3 → j < 3 → adjA i j = adjA j i) ∧ 3 ≤ 3) ∧
    ∃ nc cls, clusterfromgraph adjA 3 3 (fun _ => 0) (fun _ => 0) = some (nc, cls) ∧
      (∀ v, v < 3 → 1 ≤ cls v ∧ cls v ≤ nc - 1) ∧
      (∀ u v, u < 3 → v < 3 → (cls u = cls v ↔ Joined adjA 3 u v)) ∧
      (∀ l, 1 ≤ l → l ≤ nc - 1 → ∃ v, v < 3 ∧ cls v = l) ∧
      nc = (((Finset.range 3).image
        (fun v => (Finset.range 3).filter (fun w => Joined adjA 3 v w))).card : Int) + 1 :=
  have hsym : ∀ i j, i < 3 → j < 3 → adjA i j = adjA j i := by
    intro i j _ _
    unfold adjA
    rw [Bool.or_comm, Bool.and_comm (i == 2), Bool.and_comm (i == 0)]
  ⟨⟨by decide, hsym, le_refl 3⟩,
   clusterfromgraph_components adjA 3 (by decide) hsym 3 (le_refl 3) (fun _ => 0) (fun _ => 0)⟩

/-- The run of `clusterfromgraph` on the graph `adjA`: labels 1, 2, 1 and `nc = 3`. -/
theorem clusterfromgraph_adjA :
    (clusterfromgraph adjA 3 3 (fun _ => 0) (fun _ => 0)).map
      (fun r => (r.1, r.2 0, r.2 1, r.2 2)) = some (3, 1, 2, 1) := by
  decide

/-! ## Cluster assignment -/

/-- The search of `inducecluster_sv2` over the support vectors `j .. j+n-1`: the label of
the first one that passes `adjcheck`, and 0 when none passes. -/
theorem inducecluster_sv2_search_spec (kern : gsl_vector → gsl_vector → ℚ) (X : gsl_matrix)
    (svind : Nat → Nat) (svcls : Nat → Int) (sam : Nat) (a : Nat → ℚ) (rsq sum : ℚ)
    (i n : Nat) :
    ∀ j,
      (∀ j1, j ≤ j1 → j1 < j + n → adjcheck kern X i (svind j1) sam a rsq sum = true →
        (∀ j2, j ≤ j2 → j2 < j1 → adjcheck kern X i (svind j2) sam a rsq sum = false) →
        inducecluster_sv2_search kern X svind svcls sam a rsq sum i n j = svcls j1) ∧
      ((∀ j1, j ≤ j1 → j1 < j + n → adjcheck kern X i (svind j1) sam a rsq sum = false) →
        inducecluster_sv2_search kern X svind svcls sam a rsq sum i n j = 0) := by
  induction n with
  | zero =>
    intro j
    refine ⟨fun j1 h1 h2 => by omega, fun _ => rfl⟩
  | succ n ih =>
    intro j
    unfold inducecluster_sv2_search
    cases hadj : adjcheck kern X i (svind j) sam a rsq sum with
    | true =>
      simp only [if_true]
      constructor
      · intro j1 h1 _ _ hfirst
        rcases Nat.eq_or_lt_of_le h1 with h | h
        · rw [h]
        · have := hfirst j (le_refl j) h
          rw [hadj] at this; cases this
      · intro hnone
        have := hnone j (le_refl j) (by omega)
        rw [hadj] at this; cases this
    | false =>
      simp only [Bool.false_eq_true, if_false]
      obtain ⟨ih1, ih2⟩ := ih (j + 1)
      constructor
      · intro j1 h1 h2 hj1 hfirst
        rcases Nat.eq_or_lt_of_le h1 with h | h
        · rw [← h, hadj] at hj1; cases hj1
        · exact ih1 j1 h (by omega) hj1 (fun j2 h3 h4 => hfirst j2 (by omega) h4)
      · intro hnone
        exact ih2 (fun j1 h1 h2 => hnone j1 (by omega) (by omega))

/-- Writing the labels of the support vectors leaves every other sample as it was. -/
theorem foldl_update_labels_other (svind : Nat → Nat) (svcls : Nat → Int) (svcc : Nat)
    (cls : Nat → Int) (x : Nat) (hx : ∀ k, k < svcc → svind k ≠ x) :
    (List.range svcc).foldl
      (fun (c : Nat → Int) (i : Nat) => Function.update c (svind i) (svcls i)) cls x = cls x := by
  induction svcc with
  | zero => rfl
  | succ n ih =>
    rw [List.range_succ, List.foldl_append]
    simp only [List.foldl_cons, List.foldl_nil]
    rw [Function.update_noteq (Ne.symm (hx n (by omega)))]
    exact ih (fun k hk => hx k (by omega))

/-- The adjacency matrix built by `createcluster_v2` is symmetric. -/
theorem createcluster_v2_adj_symm (kern : gsl_vector → gsl_vector → ℚ) (X : gsl_matrix)
    (svind : Nat → Nat) (svcc sam : Nat) (a : Nat → ℚ) (rsq sum : ℚ)
    (adj0 : Nat → Nat → Bool) (i j : Nat) (hi : i < svcc) (hj : j < svcc) :
    createcluster_v2_adj kern X svind svcc sam a rsq sum adj0 i j =
      createcluster_v2_adj kern X svind svcc sam a rsq sum adj0 j i := by
  unfold createcluster_v2_adj
  rcases Nat.lt_trichotomy i j with h | h | h
  · have h1 : ¬ (j < i ∧ i < svcc) := by omega
    simp [h, hj, h1]
  · subst h; rfl
  · have h1 : ¬ (i < j ∧ j < svcc) := by omega
    simp [h, hi, h1]

/-- The array `svind` holds exactly the samples with `0 < a[i] < rvm`, in increasing
order. -/
theorem createcluster_v2_svind_spec (a : Nat → ℚ) (rvm : ℚ) (m : Nat) :
    (∀ k, k < createcluster_v2_svcc a rvm m →
      createcluster_v2_svind a rvm m k < m ∧ 0 < a (createcluster_v2_svind a rvm m k) ∧
        a (createcluster_v2_svind a rvm m k) < rvm) ∧
    (∀ k l, k < l → l < createcluster_v2_svcc a rvm m →
      createcluster_v2_svind a rvm m k < createcluster_v2_svind a rvm m l) ∧
    (∀ i, i < m → 0 < a i → a i < rvm →
      ∃ k, k < createcluster_v2_svcc a rvm m ∧ createcluster_v2_svind a rvm m k = i) := by
  unfold createcluster_v2_svcc createcluster_v2_svind
  refine ⟨?_, ?_, ?_⟩
  · intro k hk
    have hmem : (createcluster_v2_svlist a rvm m).getD k 0 ∈ createcluster_v2_svlist a rvm m := by
      rw [List.getD_eq_getElem _ _ hk]
      exact List.getElem_mem hk
    unfold createcluster_v2_svlist at hmem
    rw [List.mem_filter] at hmem
    obtain ⟨h1, h2⟩ := hmem
    have h2 := of_decide_eq_true h2
    exact ⟨List.mem_range.mp h1, h2.1, h2.2⟩
  · intro k l hkl hl
    have hpw : List.Pairwise (fun x y : Nat => x < y) (createcluster_v2_svlist a rvm m) :=
      (List.pairwise_lt_range m).sublist (List.filter_sublist _)
    rw [List.getD_eq_getElem _ _ (by omega : k < _), List.getD_eq_getElem _ _ hl]
    exact List.pairwise_iff_getElem.mp hpw k l (by omega) hl hkl
  · intro i hi h1 h2
    have hmem : i ∈ createcluster_v2_svlist a rvm m := by
      unfold createcluster_v2_svlist
      rw [List.mem_filter]
      exact ⟨List.mem_range.mpr hi, decide_eq_true ⟨h1, h2⟩⟩
    obtain ⟨k, hk, hki⟩ := List.getElem_of_mem hmem
    exact ⟨k, hk, by rw [List.getD_eq_getElem _ _ hk]; exact hki⟩

/-- The support vectors are at most as many as the samples. -/
theorem createcluster_v2_svcc_le (a : Nat → ℚ) (rvm : ℚ) (m : Nat) :
    createcluster_v2_svcc a rvm m ≤ m := by
  unfold createcluster_v2_svcc createcluster_v2_svlist
  calc ((List.range m).filter _).length ≤ (List.range m).length := List.length_filter_le _ _
    _ = m := List.length_range m

/-- The labels of `createcluster_v2` / `inducecluster_sv2` when the iterations of the
loop over the samples run one after the other.  When at least one free support vector
exists (and `findgroup` has recursion depth for all samples), the labels at the call of
`consolidate` are these: `svind` lists the free support vectors in increasing
index order and `clusterfromgraph` gives them the component labels `svcls`; a sample that
is neither a free support vector nor at the cap gets `svcls[j]` for the first `j` whose
`adjcheck` against `svind[j]` succeeds, and 0 when the test fails against every support
vector; a sample whose coefficient equals the cap gets 0. -/
theorem createcluster_v2_first_adjacent (kern : gsl_vector → gsl_vector → ℚ) (depth : Nat)
    (X : gsl_matrix) (a : Nat → ℚ) (sam : Nat) (rsq sum rvm : ℚ)
    (adj0 : Nat → Nat → Bool) (cdex0 : Nat → Nat) (svcls0 : Nat → Int) (cls : Nat → Int)
    (hsv : ∃ i, i < X.size2 ∧ 0 < a i ∧ a i < rvm) (hdepth : X.size2 ≤ depth) :
    ∃ nc svcls cls1,
      clusterfromgraph
        (createcluster_v2_adj kern X (createcluster_v2_svind a rvm X.size2)
          (createcluster_v2_svcc a rvm X.size2) sam a rsq sum adj0)
        (createcluster_v2_svcc a rvm X.size2) depth cdex0 svcls0 = some (nc, svcls) ∧
      createcluster_v2_labels kern depth X a sam rsq sum rvm adj0 cdex0 svcls0 cls =
        some (nc, cls1) ∧
      (∀ k l, k < l → l < createcluster_v2_svcc a rvm X.size2 →
        createcluster_v2_svind a rvm X.size2 k < createcluster_v2_svind a rvm X.size2 l) ∧
      (∀ i, i < X.size2 → ¬ (0 < a i ∧ a i < rvm) → a i ≠ rvm →
        (∀ j, j < createcluster_v2_svcc a rvm X.size2 →
          adjcheck kern X i (createcluster_v2_svind a rvm X.size2 j) sam a rsq sum = true →
          (∀ j2, j2 < j →
            adjcheck kern X i (createcluster_v2_svind a rvm X.size2 j2) sam a rsq sum = false) →
          cls1 i = svcls j) ∧
        ((∀ j, j < createcluster_v2_svcc a rvm X.size2 →
          adjcheck kern X i (createcluster_v2_svind a rvm X.size2 j) sam a rsq sum = false) →
          cls1 i = 0)) ∧
      (∀ i, i < X.size2 → a i = rvm → cls1 i = 0) := by
  obtain ⟨hsvA, hsvB, hsvC⟩ := createcluster_v2_svind_spec a rvm X.size2
  have hcc : 1 ≤ createcluster_v2_svcc a rvm X.size2 := by
    obtain ⟨i, hi, h1, h2⟩ := hsv
    obtain ⟨k, hk, _⟩ := hsvC i hi h1 h2
    omega
  have hle := createcluster_v2_svcc_le a rvm X.size2
  obtain ⟨nc, svcls, _, hres, _, _⟩ := clusterfromgraph_inv
    (createcluster_v2_adj kern X (createcluster_v2_svind a rvm X.size2)
      (createcluster_v2_svcc a rvm X.size2) sam a rsq sum adj0)
    (createcluster_v2_svcc a rvm X.size2) hcc
    (fun i j hi hj => createcluster_v2_adj_symm kern X _ _ sam a rsq sum adj0 i j hi hj)
    depth (by omega) cdex0 svcls0
  have hother : ∀ i, i < X.size2 → ¬ (0 < a i ∧ a i < rvm) →
      (List.range (createcluster_v2_svcc a rvm X.size2)).foldl
        (fun (c : Nat → Int) (k : Nat) =>
          Function.update c (createcluster_v2_svind a rvm X.size2 k) (svcls k))
        (createcluster_v2_cls a rvm X.size2 cls) i = if a i = rvm then 0 else -1 := by
    intro i hi hnot
    rw [foldl_update_labels_other]
    · unfold createcluster_v2_cls
      simp only [hi, if_true]
      have hnot1 : ¬ (a i > 0 ∧ a i < rvm) := hnot
      simp only [hnot1, if_false]
    · intro k hk heq
      have := hsvA k hk
      rw [heq] at this
      exact hnot ⟨this.2.1, this.2.2⟩
  have hlab : ∃ cls1, createcluster_v2_labels kern depth X a sam rsq sum rvm adj0 cdex0 svcls0
        cls = some (nc, cls1) ∧
      ∀ i, cls1 i =
        if i < X.size2 ∧ (List.range (createcluster_v2_svcc a rvm X.size2)).foldl
            (fun (c : Nat → Int) (k : Nat) =>
              Function.update c (createcluster_v2_svind a rvm X.size2 k) (svcls k))
            (createcluster_v2_cls a rvm X.size2 cls) i < 0 then
          inducecluster_sv2_search kern X (createcluster_v2_svind a rvm X.size2) svcls sam a rsq
            sum i (createcluster_v2_svcc a rvm X.size2) 0
        else (List.range (createcluster_v2_svcc a rvm X.size2)).foldl
            (fun (c : Nat → Int) (k : Nat) =>
              Function.update c (createcluster_v2_svind a rvm X.size2 k) (svcls k))
            (createcluster_v2_cls a rvm X.size2 cls) i := by
    unfold createcluster_v2_labels inducecluster_sv2_labels
    simp only [hres]
    exact ⟨_, rfl, fun i => rfl⟩
  obtain ⟨cls1, hlab, hcls1⟩ := hlab
  refine ⟨nc, svcls, cls1, hres, hlab, hsvB, ?_, ?_⟩
  · intro i hi hnot hne
    have hneg : (List.range (createcluster_v2_svcc a rvm X.size2)).foldl
        (fun (c : Nat → Int) (k : Nat) =>
          Function.update c (createcluster_v2_svind a rvm X.size2 k) (svcls k))
        (createcluster_v2_cls a rvm X.size2 cls) i < 0 := by
      rw [hother i hi hnot]
      simp [hne]
    obtain ⟨s1, s2⟩ := inducecluster_sv2_search_spec kern X
      (createcluster_v2_svind a rvm X.size2) svcls sam a rsq sum i
      (createcluster_v2_svcc a rvm X.size2) 0
    rw [hcls1 i]
    simp only [hi, hneg, and_self, if_true]
    constructor
    · intro j hj hadj hfirst
      exact s1 j (Nat.zero_le j) (by omega) hadj (fun j2 _ h => hfirst j2 h)
    · intro hnone
      exact s2 (fun j1 _ h => hnone j1 (by omega))
  · intro i hi hcap
    have hnot : ¬ (0 < a i ∧ a i < rvm) := by
      intro h; rw [hcap] at h; exact lt_irrefl _ h.2
    have h0 := hother i hi hnot
    simp only [hcap, if_true] at h0
    have hnn : ¬ ((List.range (createcluster_v2_svcc a rvm X.size2)).foldl
        (fun (c : Nat → Int) (k : Nat) =>
          Function.update c (createcluster_v2_svind a rvm X.size2 k) (svcls k))
        (createcluster_v2_cls a rvm X.size2 cls) i < 0) := by
      rw [h0]; simp
    rw [hcls1 i]
    simp only [hnn, and_false, if_false]
    exact h0

/-- Instance of `createcluster_v2_first_adjacent`: two samples with coefficients 1/4 (free
support vector) and 3/4 under the cap 1/2, constant kernel, two path points. -/
theorem createcluster_v2_first_adjacent_witness :
    ((∃ i, i < (zeroMatrix 2).size2 ∧ 0 < coeffsB i ∧ coeffsB i < 1 / 2) ∧
      (zeroMatrix 2).size2 ≤ 2) ∧
    ∃ nc svcls cls1,
      clusterfromgraph
        (createcluster_v2_adj kernOne (zeroMatrix 2)
          (createcluster_v2_svind coeffsB (1 / 2) (zeroMatrix 2).size2)
          (createcluster_v2_svcc coeffsB (1 / 2) (zeroMatrix 2).size2) 2 coeffsB 0 1
          (fun _ _ => false))
        (createcluster_v2_svcc coeffsB (1 / 2) (zeroMatrix 2).size2) 2 (fun _ => 0)
        (fun _ => 0) = some (nc, svcls) ∧
      createcluster_v2_labels kernOne 2 (zeroMatrix 2) coeffsB 2 0 1 (1 / 2)
        (fun _ _ => false) (fun _ => 0) (fun _ => 0) (fun _ => 0) = some (nc, cls1) ∧
      (∀ k l, k < l → l < createcluster_v2_svcc coeffsB (1 / 2) (zeroMatrix 2).size2 →
        createcluster_v2_svind coeffsB (1 / 2) (zeroMatrix 2).size2 k <
          createcluster_v2_svind coeffsB (1 / 2) (zeroMatrix 2).size2 l) ∧
      (∀ i, i < (zeroMatrix 2).size2 → ¬ (0 < coeffsB i ∧ coeffsB i < 1 / 2) →
        coeffsB i ≠ 1 / 2 →
        (∀ j, j < createcluster_v2_svcc coeffsB (1 / 2) (zeroMatrix 2).size2 →
          adjcheck kernOne (zeroMatrix 2) i
            (createcluster_v2_svind coeffsB (1 / 2) (zeroMatrix 2).size2 j) 2 coeffsB 0 1 = true →
          (∀ j2, j2 < j →
            adjcheck kernOne (zeroMatrix 2) i
              (createcluster_v2_svind coeffsB (1 / 2) (zeroMatrix 2).size2 j2) 2 coeffsB 0 1
                = false) →
          cls1 i = svcls j) ∧
        ((∀ j, j < createcluster_v2_svcc coeffsB (1 / 2) (zeroMatrix 2).size2 →
          adjcheck kernOne (zeroMatrix 2) i
            (createcluster_v2_svind coeffsB (1 / 2) (zeroMatrix 2).size2 j) 2 coeffsB 0 1
              = false) →
          cls1 i = 0)) ∧
      (∀ i, i < (zeroMatrix 2).size2 → coeffsB i = 1 / 2 → cls1 i = 0) :=
  have hsv : ∃ i, i < (zeroMatrix 2).size2 ∧ 0 < coeffsB i ∧ coeffsB i < 1 / 2 :=
    ⟨0, by simp [zeroMatrix], by unfold coeffsB; norm_num, by unfold coeffsB; norm_num⟩
  have hdepth : (zeroMatrix 2).size2 ≤ 2 := by simp [zeroMatrix]
  ⟨⟨hsv, hdepth⟩,
   createcluster_v2_first_adjacent kernOne 2 (zeroMatrix 2) coeffsB 2 0 1 (1 / 2)
     (fun _ _ => false) (fun _ => 0) (fun _ => 0) (fun _ => 0) hsv hdepth⟩

/-- Without a free support vector the graph has no vertex and `clusterfromgraph` tests
`chk[-1]`: the labels of `createcluster_v2` are not defined by the code. -/
theorem createcluster_v2_labels_no_support_vector (kern : gsl_vector → gsl_vector → ℚ)
    (depth : Nat) (X : gsl_matrix) (a : Nat → ℚ) (sam : Nat) (rsq sum rvm : ℚ)
    (adj0 : Nat → Nat → Bool) (cdex0 : Nat → Nat) (svcls0 : Nat → Int) (cls : Nat → Int)
    (hnone : ∀ i, i < X.size2 → ¬ (0 < a i ∧ a i < rvm)) :
    createcluster_v2_labels kern depth X a sam rsq sum rvm adj0 cdex0 svcls0 cls = none := by
  have hcc : createcluster_v2_svcc a rvm X.size2 = 0 := by
    by_contra h
    obtain ⟨h1, h2, h3⟩ := (createcluster_v2_svind_spec a rvm X.size2).1 0 (by omega)
    exact hnone _ h1 ⟨h2, h3⟩
  unfold createcluster_v2_labels inducecluster_sv2_labels clusterfromgraph
  simp [hcc]

/-! ## Consolidation -/

/-- The counting loop of `consolidate` counts, for every index `l`, the samples whose
label indexes `cnm[l]`. -/
theorem consolidate_cnm_eq (cls : Nat → Int) (m l : Nat) :
    consolidate_cnm cls m l =
      (((Finset.range m).filter (fun i => (cls i).toNat = l)).card : Int) := by
  induction m with
  | zero => simp [consolidate_cnm]
  | succ m ih =>
    have hstep : consolidate_cnm cls (m + 1) =
        Function.update (consolidate_cnm cls m) (cls m).toNat
          (consolidate_cnm cls m (cls m).toNat + 1) := by
      unfold consolidate_cnm
      rw [List.range_succ, List.foldl_append]
      rfl
    rw [hstep, Finset.range_succ, Finset.filter_insert, Function.update_apply]
    by_cases h : (cls m).toNat = l
    · subst h
      simp only [if_true]
      rw [Finset.card_insert_of_not_mem (by simp), ih]
      push_cast
      ring
    · have h1 : ¬ l = (cls m).toNat := fun e => h e.symm
      simp only [h, h1, if_false]
      exact ih

/-- With labels that are not negative, `cnm[L]` is the member count of label `L`. -/
theorem consolidate_cnm_memberCount (cls : Nat → Int) (m : Nat)
    (hnn : ∀ i, i < m → 0 ≤ cls i) (L : Nat) :
    consolidate_cnm cls m L = (memberCount cls m (L : Int) : Int) := by
  rw [consolidate_cnm_eq]
  unfold memberCount
  congr 2
  apply Finset.filter_congr
  intro i hi
  have := hnn i (Finset.mem_range.mp hi)
  omega

/-- The rank a label would get: 1 plus the number of labels `1 ≤ L1 < L` with
`cnm[L1] >= thd`; the state of the renumbering loop after the labels `1..n`. -/
theorem consolidate_map_fold (cnm : Nat → Int) (thd : Int) (n : Nat) :
    ((List.range' 1 n).foldl
      (fun (s : MapState) (i : Nat) =>
        if cnm i ≥ thd then ⟨Function.update s.map i s.cc, s.cc + 1⟩
        else ⟨Function.update s.map i 0, s.cc⟩)
      ⟨Function.update (fun _ => 0) 0 0, 1⟩).cc =
        (((Finset.Ico 1 (n + 1)).filter (fun L1 => thd ≤ cnm L1)).card : Int) + 1 ∧
    ∀ L, ((List.range' 1 n).foldl
      (fun (s : MapState) (i : Nat) =>
        if cnm i ≥ thd then ⟨Function.update s.map i s.cc, s.cc + 1⟩
        else ⟨Function.update s.map i 0, s.cc⟩)
      ⟨Function.update (fun _ => 0) 0 0, 1⟩).map L =
        if 1 ≤ L ∧ L ≤ n ∧ thd ≤ cnm L then
          (((Finset.Ico 1 L).filter (fun L1 => thd ≤ cnm L1)).card : Int) + 1
        else 0 := by
  induction n with
  | zero =>
    refine ⟨by simp, ?_⟩
    intro L
    have h : ¬ (1 ≤ L ∧ L ≤ 0 ∧ thd ≤ cnm L) := by omega
    simp only [List.range'_zero, List.foldl_nil, h, if_false]
    by_cases hL : L = 0
    · subst hL; simp
    · rw [Function.update_noteq hL]
  | succ n ih =>
    obtain ⟨ihc, ihm⟩ := ih
    rw [List.range'_concat, List.foldl_append]
    simp only [List.foldl_cons, List.foldl_nil, Nat.one_mul]
    have hIco : Finset.Ico 1 (n + 1 + 1) = insert (n + 1) (Finset.Ico 1 (n + 1)) := by
      ext x
      simp only [Finset.mem_Ico, Finset.mem_insert]
      omega
    have hcomm : 1 + n = n + 1 := by omega
    rw [hcomm]
    by_cases hs : cnm (n + 1) ≥ thd
    · simp only [hs, if_true]
      constructor
      · rw [ihc, hIco, Finset.filter_insert]
        have hs1 : thd ≤ cnm (n + 1) := hs
        simp only [hs1, if_true]
        rw [Finset.card_insert_of_not_mem (by simp)]
        push_cast
        ring
      · intro L
        by_cases hL : L = n + 1
        · subst hL
          have hc : 1 ≤ n + 1 ∧ n + 1 ≤ n + 1 ∧ thd ≤ cnm (n + 1) := ⟨by omega, le_refl _, hs⟩
          simp only [Function.update_same, hc, and_self, if_true]
          exact ihc
        · rw [Function.update_noteq hL, ihm L]
          by_cases hc : 1 ≤ L ∧ L ≤ n ∧ thd ≤ cnm L
          · have hc1 : 1 ≤ L ∧ L ≤ n + 1 ∧ thd ≤ cnm L := ⟨hc.1, by omega, hc.2.2⟩
            simp only [hc, hc1, and_self, if_true]
          · have hc1 : ¬ (1 ≤ L ∧ L ≤ n + 1 ∧ thd ≤ cnm L) := by
              rintro ⟨h1, h2, h3⟩
              exact hc ⟨h1, by omega, h3⟩
            simp only [hc, hc1, if_false]
    · simp only [hs, if_false]
      constructor
      · rw [ihc, hIco, Finset.filter_insert]
        have hs1 : ¬ thd ≤ cnm (n + 1) := hs
        simp only [hs1, if_false]
      · intro L
        by_cases hL : L = n + 1
        · subst hL
          have hc : ¬ (1 ≤ n + 1 ∧ n + 1 ≤ n + 1 ∧ thd ≤ cnm (n + 1)) := by
            rintro ⟨_, _, h3⟩
            exact hs h3
          simp only [Function.update_same, hc, if_false]
        · rw [Function.update_noteq hL, ihm L]
          by_cases hc : 1 ≤ L ∧ L ≤ n ∧ thd ≤ cnm L
          · have hc1 : 1 ≤ L ∧ L ≤ n + 1 ∧ thd ≤ cnm L := ⟨hc.1, by omega, hc.2.2⟩
            simp only [hc, hc1, and_self, if_true]
          · have hc1 : ¬ (1 ≤ L ∧ L ≤ n + 1 ∧ thd ≤ cnm L) := by
              rintro ⟨h1, h2, h3⟩
              exact hc ⟨h1, by omega, h3⟩
            simp only [hc, hc1, if_false]

/-- With `nc ≥ 1` and labels in `[0, nc)`, `consolidate` returns: the new `nc` is the
number of surviving labels plus one and every sample gets `consolidate_label` of its
label. -/
theorem consolidate_eq (cls : Nat → Int) (m : Nat) (thd nc : Int) (hnc : 1 ≤ nc)
    (hrange : ∀ i, i < m → 0 ≤ cls i ∧ cls i < nc) :
    consolidate cls m thd nc =
      some ((survivorsBelow cls m thd nc.toNat : Int) + 1,
        fun i => if i < m then consolidate_label cls m thd (cls i) else cls i) := by
  have hnn : ∀ i, i < m → 0 ≤ cls i := fun i hi => (hrange i hi).1
  have hcnm := consolidate_cnm_memberCount cls m hnn
  have hall : (List.range m).all (fun i => decide (0 ≤ cls i ∧ cls i < nc)) = true := by
    rw [List.all_eq_true]
    intro i hi
    exact decide_eq_true (hrange i (List.mem_range.mp hi))
  have hfilter : ∀ L : Nat,
      (Finset.Ico 1 L).filter (fun L1 => thd ≤ consolidate_cnm cls m L1) =
      (Finset.Ico 1 L).filter
        (fun (L1 : Nat) => thd ≤ ((memberCount cls m (L1 : Int) : Nat) : Int)) := by
    intro L
    apply Finset.filter_congr
    intro L1 _
    rw [hcnm L1]
  obtain ⟨hcc, hmap⟩ := consolidate_map_fold (consolidate_cnm cls m) thd (nc.toNat - 1)
  have hnc1 : nc.toNat - 1 + 1 = nc.toNat := by omega
  unfold consolidate
  have hnc0 : ¬ nc < 1 := by omega
  simp only [hnc0, if_false, hall, if_true]
  unfold consolidate_map
  rw [hcc, hnc1, hfilter]
  congr 2
  funext i
  by_cases hi : i < m
  · simp only [hi, if_true]
    rw [hmap, hfilter, hcnm]
    obtain ⟨h0, h1⟩ := hrange i hi
    have hcast : (((cls i).toNat : Nat) : Int) = cls i := Int.toNat_of_nonneg h0
    unfold consolidate_label survivorsBelow
    rw [hcast]
    by_cases hc : 1 ≤ cls i ∧ thd ≤ (memberCount cls m (cls i) : Int)
    · have hc1 : 1 ≤ (cls i).toNat ∧ (cls i).toNat ≤ nc.toNat - 1 ∧
          thd ≤ (memberCount cls m (cls i) : Int) := ⟨by omega, by omega, hc.2⟩
      simp only [hc, hc1, and_self, if_true]
    · have hc1 : ¬ (1 ≤ (cls i).toNat ∧ (cls i).toNat ≤ nc.toNat - 1 ∧
          thd ≤ (memberCount cls m (cls i) : Int)) := by
        rintro ⟨h2, _, h3⟩
        exact hc ⟨by omega, h3⟩
      simp only [hc, hc1, if_false]
  · simp only [hi, if_false]

/-- C11: for labels in `[0, nc)` (with `nc ≥ 1`) and every threshold `thd`, `consolidate`
maps each sample whose label is 0 or whose cluster has fewer than `thd` members to 0,
maps each sample of a surviving cluster `L` (member count `≥ thd`) to 1 plus the number of
surviving clusters with original label smaller than `L`, and sets and returns `nc` =
(number of surviving clusters among the labels `1..nc-1`) + 1. -/
theorem consolidate_renumbers (cls : Nat → Int) (m : Nat) (thd nc : Int) (hnc : 1 ≤ nc)
    (hrange : ∀ i, i < m → 0 ≤ cls i ∧ cls i < nc) :
    ∃ cls1, consolidate cls m thd nc =
        some ((survivorsBelow cls m thd nc.toNat : Int) + 1, cls1) ∧
      (∀ i, i < m → (cls i = 0 ∨ (memberCount cls m (cls i) : Int) < thd) → cls1 i = 0) ∧
      (∀ i, i < m → cls i ≠ 0 → thd ≤ (memberCount cls m (cls i) : Int) →
        cls1 i = (survivorsBelow cls m thd (cls i).toNat : Int) + 1) := by
  refine ⟨_, consolidate_eq cls m thd nc hnc hrange, ?_, ?_⟩
  · intro i hi h
    simp only [hi, if_true]
    unfold consolidate_label
    have hc : ¬ (1 ≤ cls i ∧ thd ≤ (memberCount cls m (cls i) : Int)) := by
      rintro ⟨h1, h2⟩
      rcases h with h | h
      · omega
      · omega
    simp only [hc, if_false]
  · intro i hi h0 hthd
    have := (hrange i hi).1
    simp only [hi, if_true]
    unfold consolidate_label
    have hc : 1 ≤ cls i ∧ thd ≤ (memberCount cls m (cls i) : Int) := ⟨by omega, hthd⟩
    simp only [hc, and_self, if_true]

/-- One more label: the count of survivors grows by one exactly at a surviving label. -/
theorem survivorsBelow_succ (cls : Nat → Int) (m : Nat) (thd : Int) (N : Nat) :
    survivorsBelow cls m thd (N + 1) =
      survivorsBelow cls m thd N +
        (if 1 ≤ N ∧ thd ≤ (memberCount cls m (N : Int) : Int) then 1 else 0) := by
  unfold survivorsBelow
  by_cases hN : 1 ≤ N
  · have hIco : Finset.Ico 1 (N + 1) = insert N (Finset.Ico 1 N) := by
      ext x
      simp only [Finset.mem_Ico, Finset.mem_insert]
      omega
    rw [hIco, Finset.filter_insert]
    by_cases hs : thd ≤ (memberCount cls m (N : Int) : Int)
    · simp only [hs, hN, and_self, if_true]
      rw [Finset.card_insert_of_not_mem (by simp)]
    · simp only [hs, and_false, if_false, Nat.add_zero]
  · have hN0 : N = 0 := by omega
    subst hN0
    simp

/-- The count of survivors below a label does not decrease with the label. -/
theorem survivorsBelow_mono (cls : Nat → Int) (m : Nat) (thd : Int) (a b : Nat)
    (hab : a ≤ b) : survivorsBelow cls m thd a ≤ survivorsBelow cls m thd b := by
  unfold survivorsBelow
  apply Finset.card_le_card
  apply Finset.filter_subset_filter
  intro x hx
  simp only [Finset.mem_Ico] at hx ⊢
  omega

/-- There are fewer than `N` survivors below `N`. -/
theorem survivorsBelow_le (cls : Nat → Int) (m : Nat) (thd : Int) (N : Nat) :
    survivorsBelow cls m thd N ≤ N - 1 := by
  unfold survivorsBelow
  calc ((Finset.Ico 1 N).filter _).card ≤ (Finset.Ico 1 N).card := Finset.card_filter_le _ _
    _ = N - 1 := by simp

/-- Every new label `1..(number of survivors below N)` is the rank of a surviving old
label below `N`. -/
theorem survivorsBelow_surj (cls : Nat → Int) (m : Nat) (thd : Int) (N k : Nat)
    (hk1 : 1 ≤ k) (hk : k ≤ survivorsBelow cls m thd N) :
    ∃ L, 1 ≤ L ∧ L < N ∧ thd ≤ (memberCount cls m (L : Int) : Int) ∧
      survivorsBelow cls m thd L + 1 = k := by
  induction N with
  | zero =>
    have := survivorsBelow_le cls m thd 0
    omega
  | succ N ih =>
    rw [survivorsBelow_succ] at hk
    by_cases hle : k ≤ survivorsBelow cls m thd N
    · obtain ⟨L, h1, h2, h3, h4⟩ := ih hle
      exact ⟨L, h1, by omega, h3, h4⟩
    · by_cases hs : 1 ≤ N ∧ thd ≤ (memberCount cls m (N : Int) : Int)
      · simp only [hs, and_self, if_true] at hk
        exact ⟨N, hs.1, by omega, hs.2, by omega⟩
      · simp only [hs, if_false] at hk
        omega

/-- The labels written by `consolidate` lie in `[0, survivors + 1)`. -/
theorem consolidate_label_range (cls : Nat → Int) (m : Nat) (thd nc : Int) (L : Int)
    (hL : 0 ≤ L ∧ L < nc) :
    0 ≤ consolidate_label cls m thd L ∧
      consolidate_label cls m thd L < (survivorsBelow cls m thd nc.toNat : Int) + 1 := by
  unfold consolidate_label
  by_cases hc : 1 ≤ L ∧ thd ≤ (memberCount cls m L : Int)
  · simp only [hc, and_self, if_true]
    have h1 := survivorsBelow_succ cls m thd L.toNat
    have hcast : ((L.toNat : Nat) : Int) = L := Int.toNat_of_nonneg hL.1
    have hc1 : 1 ≤ L.toNat ∧ thd ≤ (memberCount cls m ((L.toNat : Nat) : Int) : Int) := by
      rw [hcast]; exact ⟨by omega, hc.2⟩
    simp only [hc1, and_self, if_true] at h1
    have h2 := survivorsBelow_mono cls m thd (L.toNat + 1) nc.toNat (by omega)
    omega
  · simp only [hc, if_false]
    omega

/-- A surviving old label is carried to its rank: the members of `L` are members of the
new label. -/
theorem consolidate_label_members (cls : Nat → Int) (m : Nat) (thd : Int) (L : Nat)
    (hL : 1 ≤ L) (hs : thd ≤ (memberCount cls m (L : Int) : Int)) (i : Nat)
    (hi : cls i = (L : Int)) :
    consolidate_label cls m thd (cls i) = (survivorsBelow cls m thd L : Int) + 1 := by
  unfold consolidate_label
  rw [hi]
  have hc : 1 ≤ (L : Int) ∧ thd ≤ (memberCount cls m (L : Int) : Int) := ⟨by omega, hs⟩
  simp only [hc, and_self, if_true, Int.toNat_ofNat]

/-- C12, as stated, fails: one sample with label 2, `nc = 3` and threshold 0.  Both
labels 1 and 2 have at least 0 members, so `consolidate` keeps `nc = 3` and the sample
keeps label 2: the value 1 of the range `1..nc-1` is carried by no sample. -/
theorem consolidate_dense_counterexample :
    (∀ i, i < 1 → 0 ≤ labelTwo i ∧ labelTwo i < 3) ∧
    (consolidate labelTwo 1 0 3).map (fun r => (r.1, r.2 0)) = some (3, 2) ∧
    ¬ (∀ nc1 cls1, consolidate labelTwo 1 0 3 = some (nc1, cls1) →
        ∀ l, 1 ≤ l → l < nc1 → ∃ i, i < 1 ∧ cls1 i = l) := by
  have hrun : (consolidate labelTwo 1 0 3).map (fun r => (r.1, r.2 0)) = some (3, 2) := by
    decide
  refine ⟨fun i _ => by unfold labelTwo; omega, hrun, ?_⟩
  intro h
  cases hc : consolidate labelTwo 1 0 3 with
  | none => rw [hc] at hrun; cases hrun
  | some r =>
    obtain ⟨nc1, cls1⟩ := r
    rw [hc] at hrun
    simp only [Option.map_some', Option.some.injEq, Prod.mk.injEq] at hrun
    obtain ⟨i, hi, hil⟩ := h nc1 cls1 hc 1 (le_refl 1) (by omega)
    have hi0 : i = 0 := by omega
    subst hi0
    omega

/-- C12, amended: for labels in `[0, nc)` (with `nc ≥ 1`) and a threshold `thd ≥ 1` (or
any threshold when each label `1..nc-1` has a member), after `consolidate` every sample
carries exactly one label, that label lies in `[0, nc1)` for the returned count `nc1`,
and every value in `1..nc1-1` is carried by at least one sample. -/
theorem consolidate_dense (cls : Nat → Int) (m : Nat) (thd nc : Int) (hnc : 1 ≤ nc)
    (hrange : ∀ i, i < m → 0 ≤ cls i ∧ cls i < nc)
    (hthd : 1 ≤ thd ∨ ∀ L, 1 ≤ L → L < nc → ∃ i, i < m ∧ cls i = L) :
    ∃ nc1 cls1, consolidate cls m thd nc = some (nc1, cls1) ∧
      (∀ i, i < m → ∃! l, cls1 i = l ∧ 0 ≤ l ∧ l < nc1) ∧
      (∀ l, 1 ≤ l → l < nc1 → ∃ i, i < m ∧ cls1 i = l) := by
  refine ⟨_, _, consolidate_eq cls m thd nc hnc hrange, ?_, ?_⟩
  · intro i hi
    simp only [hi, if_true]
    have hr := consolidate_label_range cls m thd nc (cls i) (hrange i hi)
    exact ⟨_, ⟨rfl, hr.1, hr.2⟩, fun l hl => hl.1.symm⟩
  · intro l hl1 hl2
    obtain ⟨L, hL1, hL2, hs, hrank⟩ :=
      survivorsBelow_surj cls m thd nc.toNat l.toNat (by omega) (by omega)
    have hmem : ∃ i, i < m ∧ cls i = (L : Int) := by
      rcases hthd with h | h
      · have hpos : 0 < memberCount cls m (L : Int) := by omega
        unfold memberCount at hpos
        obtain ⟨i, hi⟩ := Finset.card_pos.mp hpos
        rw [Finset.mem_filter, Finset.mem_range] at hi
        exact ⟨i, hi.1, hi.2⟩
      · exact h L (by omega) (by omega)
    obtain ⟨i, hi, hiL⟩ := hmem
    refine ⟨i, hi, ?_⟩
    simp only [hi, if_true]
    rw [consolidate_label_members cls m thd L hL1 hs i hiL]
    omega

/-- After `consolidate`, every new label `1..nc1-1` has at least `thd` members. -/
theorem consolidate_new_counts (cls : Nat → Int) (m : Nat) (thd nc : Int) (l : Nat)
    (hl1 : 1 ≤ l) (hl2 : l ≤ survivorsBelow cls m thd nc.toNat) :
    thd ≤ (memberCount (fun i => if i < m then consolidate_label cls m thd (cls i) else cls i)
      m (l : Int) : Int) := by
  obtain ⟨L, hL1, _, hs, hrank⟩ := survivorsBelow_surj cls m thd nc.toNat l hl1 hl2
  have hsub : memberCount cls m (L : Int) ≤
      memberCount (fun i => if i < m then consolidate_label cls m thd (cls i) else cls i)
        m (l : Int) := by
    unfold memberCount
    apply Finset.card_le_card
    intro i hi
    rw [Finset.mem_filter, Finset.mem_range] at hi ⊢
    refine ⟨hi.1, ?_⟩
    simp only [hi.1, if_true]
    rw [consolidate_label_members cls m thd L hL1 hs i hi.2]
    omega
  omega

/-- When every label below `k` survives, there are `k - 1` survivors below `k`. -/
theorem survivorsBelow_all (cls : Nat → Int) (m : Nat) (thd : Int) (k : Nat)
    (hall : ∀ l, 1 ≤ l → l < k → thd ≤ (memberCount cls m (l : Int) : Int)) :
    survivorsBelow cls m thd k = k - 1 := by
  unfold survivorsBelow
  rw [Finset.filter_true_of_mem]
  · simp
  · intro l hl
    rw [Finset.mem_Ico] at hl
    exact hall l hl.1 hl.2

/-- C13: consolidation is idempotent: for labels in `[0, nc)` (with `nc ≥ 1`) and every
threshold `thd`, `consolidate` returns, and running it again with the same `thd` and the
returned `nc` leaves both the label array and `nc` as the first run returned them. -/
theorem consolidate_idempotent (cls : Nat → Int) (m : Nat) (thd nc : Int) (hnc : 1 ≤ nc)
    (hrange : ∀ i, i < m → 0 ≤ cls i ∧ cls i < nc) :
    ∃ nc1 cls1, consolidate cls m thd nc = some (nc1, cls1) ∧
      consolidate cls1 m thd nc1 = some (nc1, cls1) := by
  refine ⟨_, _, consolidate_eq cls m thd nc hnc hrange, ?_⟩
  have hrange1 : ∀ i, i < m →
      0 ≤ (fun i => if i < m then consolidate_label cls m thd (cls i) else cls i) i ∧
      (fun i => if i < m then consolidate_label cls m thd (cls i) else cls i) i <
        (survivorsBelow cls m thd nc.toNat : Int) + 1 := by
    intro i hi
    simp only [hi, if_true]
    exact consolidate_label_range cls m thd nc (cls i) (hrange i hi)
  rw [consolidate_eq _ m thd _ (by omega) hrange1]
  have hsurv : ∀ l : Nat, 1 ≤ l → l ≤ survivorsBelow cls m thd nc.toNat →
      thd ≤ (memberCount (fun i => if i < m then consolidate_label cls m thd (cls i)
        else cls i) m (l : Int) : Int) :=
    fun l h1 h2 => consolidate_new_counts cls m thd nc l h1 h2
  have hrank : ∀ k : Nat, k ≤ survivorsBelow cls m thd nc.toNat + 1 →
      survivorsBelow (fun i => if i < m then consolidate_label cls m thd (cls i) else cls i)
        m thd k = k - 1 := by
    intro k hk
    apply survivorsBelow_all
    intro l h1 h2
    exact hsurv l h1 (by omega)
  have hval : ∀ i, i < m →
      (fun i => if i < m then consolidate_label cls m thd (cls i) else cls i) i =
        consolidate_label cls m thd (cls i) := by
    intro i hi
    simp only [hi, if_true]
  have hout : ∀ i, ¬ i < m →
      (fun i => if i < m then consolidate_label cls m thd (cls i) else cls i) i = cls i := by
    intro i hi
    simp only [hi, if_false]
  generalize (fun i => if i < m then consolidate_label cls m thd (cls i) else cls i) = c1
    at hrange1 hsurv hrank hval hout
  congr 2
  · have h := hrank (survivorsBelow cls m thd nc.toNat + 1) (le_refl _)
    have hcast : ((survivorsBelow cls m thd nc.toNat : Int) + 1).toNat =
        survivorsBelow cls m thd nc.toNat + 1 := by omega
    rw [hcast, h]
    simp
  · funext i
    by_cases hi : i < m
    · simp only [hi, if_true]
      rw [← hval i hi]
      obtain ⟨h0, h1⟩ := hrange1 i hi
      generalize c1 i = l at h0 h1
      unfold consolidate_label
      by_cases hl : 1 ≤ l
      · have hcast : ((l.toNat : Nat) : Int) = l := Int.toNat_of_nonneg h0
        have hs := hsurv l.toNat (by omega) (by omega)
        rw [hcast] at hs
        have hc : 1 ≤ l ∧ thd ≤ (memberCount c1 m l : Int) := ⟨hl, hs⟩
        simp only [hc, and_self, if_true]
        rw [hrank l.toNat (by omega)]
        omega
      · have hc : ¬ (1 ≤ l ∧ thd ≤ (memberCount c1 m l : Int)) := fun h => hl h.1
        simp only [hc, if_false]
        omega
    · simp only [hi, if_false]
      exact (hout i hi).symm

/-- C11, instance: the labels 2, 0, 3, 3, 1 with `nc = 4` and threshold 2. -/
theorem consolidate_renumbers_witness :
    ((1 : Int) ≤ 4 ∧ ∀ i, i < 5 → 0 ≤ labels5 i ∧ labels5 i < 4) ∧
    ∃ cls1, consolidate labels5 5 2 4 =
        some ((survivorsBelow labels5 5 2 (4 : Int).toNat : Int) + 1, cls1) ∧
      (∀ i, i < 5 → (labels5 i = 0 ∨ (memberCount labels5 5 (labels5 i) : Int) < 2) →
        cls1 i = 0) ∧
      (∀ i, i < 5 → labels5 i ≠ 0 → 2 ≤ (memberCount labels5 5 (labels5 i) : Int) →
        cls1 i = (survivorsBelow labels5 5 2 (labels5 i).toNat : Int) + 1) :=
  have hr : ∀ i, i < 5 → 0 ≤ labels5 i ∧ labels5 i < 4 := by
    intro i _
    unfold labels5
    split_ifs <;> omega
  ⟨⟨by decide, hr⟩, consolidate_renumbers labels5 5 2 4 (by decide) hr⟩

/-- The run of `consolidate` on the labels 2, 0, 3, 3, 1 with threshold 2: only label 3
survives; the result is `nc = 2` and the labels 0, 0, 1, 1, 0. -/
theorem consolidate_labels5 :
    (consolidate labels5 5 2 4).map (fun r => (r.1, r.2 0, r.2 1, r.2 2, r.2 3, r.2 4)) =
      some (2, 0, 0, 1, 1, 0) := by
  decide

/-- C12 amended, instance: the labels 2, 0, 3, 3, 1 with `nc = 4` and threshold 2. -/
theorem consolidate_dense_witness :
    ((1 : Int) ≤ 4 ∧ (∀ i, i < 5 → 0 ≤ labels5 i ∧ labels5 i < 4) ∧
      ((1 : Int) ≤ 2 ∨ ∀ L, 1 ≤ L → L < 4 → ∃ i, i < 5 ∧ labels5 i = L)) ∧
    ∃ nc1 cls1, consolidate labels5 5 2 4 = some (nc1, cls1) ∧
      (∀ i, i < 5 → ∃! l, cls1 i = l ∧ 0 ≤ l ∧ l < nc1) ∧
      (∀ l, 1 ≤ l → l < nc1 → ∃ i, i < 5 ∧ cls1 i = l) :=
  have hr : ∀ i, i < 5 → 0 ≤ labels5 i ∧ labels5 i < 4 := by
    intro i _
    unfold labels5
    split_ifs <;> omega
  ⟨⟨by decide, hr, Or.inl (by decide)⟩,
   consolidate_dense labels5 5 2 4 (by decide) hr (Or.inl (by decide))⟩

/-- C13, instance: the labels 2, 0, 3, 3, 1 with `nc = 4` and threshold 2. -/
theorem consolidate_idempotent_witness :
    ((1 : Int) ≤ 4 ∧ ∀ i, i < 5 → 0 ≤ labels5 i ∧ labels5 i < 4) ∧
    ∃ nc1 cls1, consolidate labels5 5 2 4 = some (nc1, cls1) ∧
      consolidate cls1 5 2 nc1 = some (nc1, cls1) :=
  have hr : ∀ i, i < 5 → 0 ≤ labels5 i ∧ labels5 i < 4 := by
    intro i _
    unfold labels5
    split_ifs <;> omega
  ⟨⟨by decide, hr⟩, consolidate_idempotent labels5 5 2 4 (by decide) hr⟩

/-! ## Kernel engine -/

open Finset in
/-- The dot product computed by `gsl_blas_ddot` is the sum of the products. -/
theorem gsl_blas_ddot_eq (x y : gsl_vector) :
    gsl_blas_ddot x y = ∑ i in range x.size, x.data i * y.data i := by
  unfold gsl_blas_ddot
  exact foldl_add_eq_sum (fun i => x.data i * y.data i) x.size

open Finset in
/-- C16: for vectors of equal length, `calkernel` returns `exp(-γ·‖v1-v2‖²)` with
`γ = pa[0]` when `kt = 1` and `(<v1,v2> + c)^d` with `d = pa[0]`, `c = pa[1]` when
`kt = 2` (`exp`, `pow` being the library functions); `calkernel(v1, v2)` equals
`calkernel(v2, v1)` for both kinds, and `calkernel(v, v) = 1` for the first kind, as
`exp(0) = 1`. -/
theorem calkernel_values (expf : ℚ → ℚ) (powf : ℚ → ℚ → ℚ) (v1 v2 : gsl_vector)
    (pa : Nat → ℚ) (hsize : v1.size = v2.size) (hexp : expf 0 = 1) :
    calkernel expf powf v1 v2 1 pa =
      some (expf (-(pa 0 * ∑ i in range v1.size, (v1.data i - v2.data i) ^ 2))) ∧
    calkernel expf powf v1 v2 2 pa =
      some (powf ((∑ i in range v1.size, v1.data i * v2.data i) + pa 1) (pa 0)) ∧
    calkernel expf powf v1 v2 1 pa = calkernel expf powf v2 v1 1 pa ∧
    calkernel expf powf v1 v2 2 pa = calkernel expf powf v2 v1 2 pa ∧
    calkernel expf powf v1 v1 1 pa = some 1 := by
  have h1 : ∀ a b : gsl_vector, a.size = b.size → calkernel expf powf a b 1 pa =
      some (expf (-(pa 0 * ∑ i in range a.size, (a.data i - b.data i) ^ 2))) := by
    intro a b hab
    unfold calkernel
    simp only [if_true, hab]
    rw [gsl_blas_ddot_eq]
    simp only [gsl_vector_sub]
    congr 2
    rw [hab, neg_mul, mul_comm]
    congr 2
    apply Finset.sum_congr rfl
    intro i _
    ring
  have h2 : ∀ a b : gsl_vector, a.size = b.size → calkernel expf powf a b 2 pa =
      some (powf ((∑ i in range a.size, a.data i * b.data i) + pa 1) (pa 0)) := by
    intro a b hab
    unfold calkernel
    have h21 : ¬ ((2 : Int) = 1) := by decide
    simp only [h21, if_false, if_true, hab]
    rw [gsl_blas_ddot_eq, hab]
  refine ⟨h1 v1 v2 hsize, h2 v1 v2 hsize, ?_, ?_, ?_⟩
  · rw [h1 v1 v2 hsize, h1 v2 v1 hsize.symm, hsize]
    congr 4
    apply Finset.sum_congr rfl
    intro i _
    ring
  · rw [h2 v1 v2 hsize, h2 v2 v1 hsize.symm, hsize]
    congr 3
    apply Finset.sum_congr rfl
    intro i _
    ring
  · rw [h1 v1 v1 rfl]
    simp [hexp]

open Finset in
/-- C16, instance: the vectors (1, 2) and (3, 5), `pa = (2, 1)`, with the second-order
Taylor polynomial standing in for `exp` and the integer power for `pow`. -/
theorem calkernel_values_witness :
    (vecA.size = vecB.size ∧ (fun x : ℚ => 1 + x + x ^ 2 / 2) 0 = 1) ∧
    (calkernel (fun x => 1 + x + x ^ 2 / 2) (fun x d => x ^ d.num.toNat) vecA vecB 1 params2 =
      some ((fun x : ℚ => 1 + x + x ^ 2 / 2)
        (-(params2 0 * ∑ i in range vecA.size, (vecA.data i - vecB.data i) ^ 2))) ∧
    calkernel (fun x => 1 + x + x ^ 2 / 2) (fun x d => x ^ d.num.toNat) vecA vecB 2 params2 =
      some ((fun x d : ℚ => x ^ d.num.toNat)
        ((∑ i in range vecA.size, vecA.data i * vecB.data i) + params2 1) (params2 0)) ∧
    calkernel (fun x => 1 + x + x ^ 2 / 2) (fun x d => x ^ d.num.toNat) vecA vecB 1 params2 =
      calkernel (fun x => 1 + x + x ^ 2 / 2) (fun x d => x ^ d.num.toNat) vecB vecA 1 params2 ∧
    calkernel (fun x => 1 + x + x ^ 2 / 2) (fun x d => x ^ d.num.toNat) vecA vecB 2 params2 =
      calkernel (fun x => 1 + x + x ^ 2 / 2) (fun x d => x ^ d.num.toNat) vecB vecA 2 params2 ∧
    calkernel (fun x => 1 + x + x ^ 2 / 2) (fun x d => x ^ d.num.toNat) vecA vecA 1 params2 = some 1) :=
  ⟨⟨rfl, by norm_num⟩,
   calkernel_values (fun x => 1 + x + x ^ 2 / 2) (fun x d => x ^ d.num.toNat) vecA vecB params2 rfl
     (by norm_num)⟩

open Finset in
/-- The row total of `findakernel` is the sum of the row. -/
theorem findakernel_rowsum_eq (K : gsl_matrix) (icol i : Nat) :
    findakernel_rowsum K icol i = ∑ j in range icol, gsl_matrix_get K i j := by
  unfold findakernel_rowsum
  exact foldl_add_eq_sum (fun j => gsl_matrix_get K i j) icol

/-- The entries of the matrix filled by `findakernel`, for a symmetric kernel. -/
theorem findakernel_K_get (kern : gsl_vector → gsl_vector → ℚ) (X : gsl_matrix)
    (hsym : ∀ u v, kern u v = kern v u) (i j : Nat) (hi : i < X.size2) (hj : j < X.size2) :
    gsl_matrix_get (findakernel_K kern X) i j =
      kern (gsl_matrix_column X i) (gsl_matrix_column X j) := by
  unfold gsl_matrix_get findakernel_K
  simp only [hi, hj, and_self, if_true]
  by_cases h : i ≤ j
  · simp only [h, if_true]
  · simp only [h, if_false]
    exact hsym _ _

open Finset in
/-- C17: for a data matrix `X` with `m` columns and the (symmetric) kernel
`calkernel(., ., kt, pa)`, `findakernel` with `centred = false` returns the symmetric
`m×m` matrix `K[i,j] = calkernel(x_i, x_j)`; with `centred = true` it returns
`K1[i,j] = K[i,j] - rowMean[i] - rowMean[j] + grandMean`, also symmetric, and outputs
`colsum[i] = (1/m)·Σ_j K[i,j]` and `sum = (1/m²)·Σ_i Σ_j K[i,j]`. -/
theorem findakernel_values (kern : gsl_vector → gsl_vector → ℚ) (X : gsl_matrix)
    (hsym : ∀ u v, kern u v = kern v u) (sum0 : ℚ) (colsum0 : Nat → ℚ) :
    ((findakernel kern X false sum0 colsum0).K.size1 = X.size2 ∧
      (findakernel kern X false sum0 colsum0).K.size2 = X.size2 ∧
      ∀ i j, i < X.size2 → j < X.size2 →
        gsl_matrix_get (findakernel kern X false sum0 colsum0).K i j =
          kern (gsl_matrix_column X i) (gsl_matrix_column X j) ∧
        gsl_matrix_get (findakernel kern X false sum0 colsum0).K i j =
          gsl_matrix_get (findakernel kern X false sum0 colsum0).K j i) ∧
    ((findakernel kern X true sum0 colsum0).K.size1 = X.size2 ∧
      (findakernel kern X true sum0 colsum0).K.size2 = X.size2 ∧
      (∀ i, i < X.size2 → (findakernel kern X true sum0 colsum0).colsum i =
        (1 / (X.size2 : ℚ)) *
          ∑ j in range X.size2, kern (gsl_matrix_column X i) (gsl_matrix_column X j)) ∧
      (findakernel kern X true sum0 colsum0).sum =
        (1 / (X.size2 : ℚ) ^ 2) * ∑ i in range X.size2, ∑ j in range X.size2,
          kern (gsl_matrix_column X i) (gsl_matrix_column X j) ∧
      ∀ i j, i < X.size2 → j < X.size2 →
        gsl_matrix_get (findakernel kern X true sum0 colsum0).K i j =
          kern (gsl_matrix_column X i) (gsl_matrix_column X j)
            - (findakernel kern X true sum0 colsum0).colsum i
            - (findakernel kern X true sum0 colsum0).colsum j
            + (findakernel kern X true sum0 colsum0).sum ∧
        gsl_matrix_get (findakernel kern X true sum0 colsum0).K i j =
          gsl_matrix_get (findakernel kern X true sum0 colsum0).K j i) := by
  have hK := findakernel_K_get kern X hsym
  have hrow : ∀ i, i < X.size2 → findakernel_rowsum (findakernel_K kern X) X.size2 i =
      ∑ j in range X.size2, kern (gsl_matrix_column X i) (gsl_matrix_column X j) := by
    intro i hi
    rw [findakernel_rowsum_eq]
    apply Finset.sum_congr rfl
    intro j hj
    exact hK i j hi (Finset.mem_range.mp hj)
  have hcol : ∀ i, i < X.size2 → (findakernel kern X true sum0 colsum0).colsum i =
      (1 / (X.size2 : ℚ)) *
        ∑ j in range X.size2, kern (gsl_matrix_column X i) (gsl_matrix_column X j) := by
    intro i hi
    simp only [findakernel, if_true, hi]
    rw [hrow i hi]
    ring
  have hsum : (findakernel kern X true sum0 colsum0).sum =
      (1 / (X.size2 : ℚ) ^ 2) * ∑ i in range X.size2, ∑ j in range X.size2,
        kern (gsl_matrix_column X i) (gsl_matrix_column X j) := by
    simp only [findakernel, if_true]
    rw [foldl_add_eq_sum (fun i => findakernel_rowsum (findakernel_K kern X) X.size2 i)]
    rw [Finset.sum_congr rfl (fun i hi => hrow i (Finset.mem_range.mp hi))]
    push_cast
    ring
  have hKP : ∀ i j, i < X.size2 → j < X.size2 →
      gsl_matrix_get (findakernel kern X true sum0 colsum0).K i j =
        kern (gsl_matrix_column X i) (gsl_matrix_column X j)
          - (findakernel kern X true sum0 colsum0).colsum i
          - (findakernel kern X true sum0 colsum0).colsum j
          + (findakernel kern X true sum0 colsum0).sum := by
    intro i j hi hj
    have e1 := hK i j hi hj
    have e2 := hK j i hj hi
    simp only [findakernel, if_true, gsl_matrix_get, hi, hj, and_self] at e1 e2 ⊢
    by_cases h : i ≤ j
    · simp only [h, if_true]
      rw [e1]
      ring
    · simp only [h, if_false]
      rw [e2, hsym (gsl_matrix_column X j) (gsl_matrix_column X i)]
      ring
  refine ⟨⟨rfl, rfl, ?_⟩, ⟨rfl, rfl, hcol, hsum, ?_⟩⟩
  · intro i j hi hj
    have e1 : gsl_matrix_get (findakernel kern X false sum0 colsum0).K i j =
        kern (gsl_matrix_column X i) (gsl_matrix_column X j) := hK i j hi hj
    have e2 : gsl_matrix_get (findakernel kern X false sum0 colsum0).K j i =
        kern (gsl_matrix_column X j) (gsl_matrix_column X i) := hK j i hj hi
    exact ⟨e1, by rw [e1, e2, hsym]⟩
  · intro i j hi hj
    refine ⟨hKP i j hi hj, ?_⟩
    rw [hKP i j hi hj, hKP j i hj hi, hsym (gsl_matrix_column X i) (gsl_matrix_column X j)]
    ring

open Finset in
/-- C17, instance: a 2-band matrix of three samples under a polynomial kernel. -/
theorem findakernel_values_witness :
    (∀ u v, kernDot u v = kernDot v u) ∧
    (((findakernel kernDot dataX3 false 0 (fun _ => 0)).K.size1 = dataX3.size2 ∧
      (findakernel kernDot dataX3 false 0 (fun _ => 0)).K.size2 = dataX3.size2 ∧
      ∀ i j, i < dataX3.size2 → j < dataX3.size2 →
        gsl_matrix_get (findakernel kernDot dataX3 false 0 (fun _ => 0)).K i j =
          kernDot (gsl_matrix_column dataX3 i) (gsl_matrix_column dataX3 j) ∧
        gsl_matrix_get (findakernel kernDot dataX3 false 0 (fun _ => 0)).K i j =
          gsl_matrix_get (findakernel kernDot dataX3 false 0 (fun _ => 0)).K j i) ∧
    ((findakernel kernDot dataX3 true 0 (fun _ => 0)).K.size1 = dataX3.size2 ∧
      (findakernel kernDot dataX3 true 0 (fun _ => 0)).K.size2 = dataX3.size2 ∧
      (∀ i, i < dataX3.size2 → (findakernel kernDot dataX3 true 0 (fun _ => 0)).colsum i =
        (1 / (dataX3.size2 : ℚ)) *
          ∑ j in range dataX3.size2,
            kernDot (gsl_matrix_column dataX3 i) (gsl_matrix_column dataX3 j)) ∧
      (findakernel kernDot dataX3 true 0 (fun _ => 0)).sum =
        (1 / (dataX3.size2 : ℚ) ^ 2) * ∑ i in range dataX3.size2, ∑ j in range dataX3.size2,
          kernDot (gsl_matrix_column dataX3 i) (gsl_matrix_column dataX3 j) ∧
      ∀ i j, i < dataX3.size2 → j < dataX3.size2 →
        gsl_matrix_get (findakernel kernDot dataX3 true 0 (fun _ => 0)).K i j =
          kernDot (gsl_matrix_column dataX3 i) (gsl_matrix_column dataX3 j)
            - (findakernel kernDot dataX3 true 0 (fun _ => 0)).colsum i
            - (findakernel kernDot dataX3 true 0 (fun _ => 0)).colsum j
            + (findakernel kernDot dataX3 true 0 (fun _ => 0)).sum ∧
        gsl_matrix_get (findakernel kernDot dataX3 true 0 (fun _ => 0)).K i j =
          gsl_matrix_get (findakernel kernDot dataX3 true 0 (fun _ => 0)).K j i)) :=
  have hsym : ∀ u v, kernDot u v = kernDot v u := by
    intro u v
    unfold kernDot
    ring
  ⟨hsym, findakernel_values kernDot dataX3 hsym 0 (fun _ => 0)⟩

/-! ## Radius and hand-over to cluster assignment -/

open Finset in
/-- The double loop of `SVclustering` computes `Σ_k Σ_p a_p a_k K[k,p]`. -/
theorem SVclustering_sum_eq (K : gsl_matrix) (a : Nat → ℚ) (m : Nat) :
    SVclustering_sum K a m =
      ∑ k in range m, ∑ p in range m, a p * a k * gsl_matrix_get K k p := by
  have hinner : ∀ (k n : Nat) (s : ℚ),
      (List.range n).foldl (fun s1 p => s1 + a p * a k * gsl_matrix_get K k p) s =
        s + ∑ p in range n, a p * a k * gsl_matrix_get K k p := by
    intro k n s
    induction n with
    | zero => simp
    | succ n ih => rw [List.range_succ, List.foldl_append, ih, sum_range_succ]; simp; ring
  unfold SVclustering_sum
  generalize m = n at *
  have houter : ∀ n1 : Nat,
      (List.range n1).foldl
        (fun s k => (List.range n).foldl
          (fun s1 p => s1 + a p * a k * gsl_matrix_get K k p) s) 0 =
        ∑ k in range n1, ∑ p in range n, a p * a k * gsl_matrix_get K k p := by
    intro n1
    induction n1 with
    | zero => simp
    | succ n1 ih =>
      rw [List.range_succ, List.foldl_append, ih, sum_range_succ]
      simp only [List.foldl_cons, List.foldl_nil]
      rw [hinner]
  exact houter n

/-- The radius loop returns the value at the first sample in the open margin interval,
and nothing when there is none. -/
theorem SVclustering_rsq_loop_spec (K : gsl_matrix) (a fw : Nat → ℚ) (rvm sum : ℚ)
    (n : Nat) :
    ∀ i0,
      (∀ i, i0 ≤ i → i < i0 + n → (a i > 1 / 10000 ∧ a i < rvm - 1 / 10000) →
        (∀ j, i0 ≤ j → j < i → ¬ (a j > 1 / 10000 ∧ a j < rvm - 1 / 10000)) →
        SVclustering_rsq_loop K a fw rvm sum n i0 =
          some (gsl_matrix_get K i i - 2 * fw i + sum)) ∧
      ((∀ i, i0 ≤ i → i < i0 + n → ¬ (a i > 1 / 10000 ∧ a i < rvm - 1 / 10000)) →
        SVclustering_rsq_loop K a fw rvm sum n i0 = none) := by
  induction n with
  | zero =>
    intro i0
    exact ⟨fun i h1 h2 => by omega, fun _ => rfl⟩
  | succ n ih =>
    intro i0
    obtain ⟨ih1, ih2⟩ := ih (i0 + 1)
    unfold SVclustering_rsq_loop
    by_cases hc : a i0 > 1 / 10000 ∧ a i0 < rvm - 1 / 10000
    · simp only [hc, and_self, if_true]
      constructor
      · intro i h1 _ _ hfirst
        rcases Nat.eq_or_lt_of_le h1 with h | h
        · rw [h]
        · exact absurd hc (hfirst i0 (le_refl _) h)
      · intro hnone
        exact absurd hc (hnone i0 (le_refl _) (by omega))
    · simp only [hc, if_false]
      constructor
      · intro i h1 h2 hi hfirst
        rcases Nat.eq_or_lt_of_le h1 with h | h
        · rw [← h] at hi; exact absurd hi hc
        · exact ih1 i h (by omega) hi (fun j h3 h4 => hfirst j (by omega) h4)
      · intro hnone
        exact ih2 (fun i h1 h2 => hnone i (by omega) (by omega))

open Finset in
/-- The radius value is a quadratic form: with a symmetric `K` and `fw = K·a`,
`K[i,i] - 2·fw[i] + Σ_k Σ_p a_p a_k K[k,p]` is the form of `K` at the vector `e_i - a`. -/
theorem radius_quadratic_form (K : gsl_matrix) (a fw : Nat → ℚ) (m i : Nat) (hi : i < m)
    (hsym : ∀ p q, p < m → q < m → gsl_matrix_get K p q = gsl_matrix_get K q p)
    (hfw : fw i = ∑ j in range m, gsl_matrix_get K i j * a j) :
    gsl_matrix_get K i i - 2 * fw i +
        ∑ k in range m, ∑ p in range m, a p * a k * gsl_matrix_get K k p =
      ∑ p in range m, ∑ q in range m,
        ((if p = i then 1 else 0) - a p) * ((if q = i then 1 else 0) - a q) *
          gsl_matrix_get K p q := by
  have hmem : i ∈ range m := mem_range.mpr hi
  have e1 : ∑ p in range m, ∑ q in range m,
      (if p = i then (1 : ℚ) else 0) * (if q = i then 1 else 0) * gsl_matrix_get K p q =
      gsl_matrix_get K i i := by
    rw [Finset.sum_eq_single i]
    · rw [Finset.sum_eq_single i]
      · simp
      · intro q _ hq; simp [hq]
      · intro h; exact absurd hmem h
    · intro p _ hp; simp [hp]
    · intro h; exact absurd hmem h
  have e2 : ∑ p in range m, ∑ q in range m,
      (if p = i then (1 : ℚ) else 0) * a q * gsl_matrix_get K p q = fw i := by
    rw [Finset.sum_eq_single i]
    · rw [hfw]
      apply Finset.sum_congr rfl
      intro q _
      simp; ring
    · intro p _ hp; simp [hp]
    · intro h; exact absurd hmem h
  have e3 : ∑ p in range m, ∑ q in range m,
      a p * (if q = i then (1 : ℚ) else 0) * gsl_matrix_get K p q = fw i := by
    rw [hfw]
    apply Finset.sum_congr rfl
    intro p hp
    rw [Finset.sum_eq_single i]
    · rw [hsym p i (mem_range.mp hp) hi]
      simp; ring
    · intro q _ hq; simp [hq]
    · intro h; exact absurd hmem h
  have e4 : ∑ p in range m, ∑ q in range m, a p * a q * gsl_matrix_get K p q =
      ∑ k in range m, ∑ p in range m, a p * a k * gsl_matrix_get K k p := by
    apply Finset.sum_congr rfl
    intro k _
    apply Finset.sum_congr rfl
    intro p _
    ring
  have hexp : ∀ p q, ((if p = i then (1 : ℚ) else 0) - a p) * ((if q = i then 1 else 0) - a q) *
        gsl_matrix_get K p q =
      (if p = i then (1 : ℚ) else 0) * (if q = i then 1 else 0) * gsl_matrix_get K p q
        - (if p = i then (1 : ℚ) else 0) * a q * gsl_matrix_get K p q
        - a p * (if q = i then (1 : ℚ) else 0) * gsl_matrix_get K p q
        + a p * a q * gsl_matrix_get K p q := by
    intro p q; ring
  simp only [hexp, Finset.sum_add_distrib, Finset.sum_sub_distrib]
  rw [e1, e2, e3, e4]
  ring

/-- C14, as stated, fails: with 10000 samples and `v = 1/2` the cap is `1/5000`; the
coefficients `a[i] = 1/10000` (sum 1, heights `K·a = 1` under the all-ones kernel matrix)
are all free support vectors (`0 < a[i] < C`), but no coefficient of any array can lie
above `0.0001` and below `C - 0.0001 = 0.0001`, so the radius loop ends without assigning
`rsq`. -/
theorem SVclustering_rsq_counterexample :
    ((1 : ℚ) / ((1 / 2) * ((10000 : Nat) : ℚ)) = 1 / 5000 ∧
      ∀ i, i < 10000 → 0 < (fun _ : Nat => (1 / 10000 : ℚ)) i ∧
        (fun _ : Nat => (1 / 10000 : ℚ)) i < 1 / 5000) ∧
    SVclustering_rsq (onesKernel 10000) (fun _ => 1 / 10000) (fun _ => 1) (1 / 5000)
      (SVclustering_sum (onesKernel 10000) (fun _ => 1 / 10000) 10000) 10000 = none ∧
    (∀ (K : gsl_matrix) (a fw : Nat → ℚ) (sum : ℚ) (m : Nat),
      SVclustering_rsq K a fw (1 / 5000) sum m = none) := by
  have hgen : ∀ (K : gsl_matrix) (a fw : Nat → ℚ) (sum : ℚ) (m : Nat),
      SVclustering_rsq K a fw (1 / 5000) sum m = none := by
    intro K a fw sum m
    unfold SVclustering_rsq
    apply (SVclustering_rsq_loop_spec _ _ _ _ _ m 0).2
    intro i _ _ h
    have h1 := h.1
    have h2 := h.2
    norm_num at h1 h2
    linarith
  refine ⟨⟨by norm_num, fun i _ => ⟨by norm_num, by norm_num⟩⟩, hgen _ _ _ _ _, hgen⟩

open Finset in
/-- C14, amended: whenever a sample with `0.0001 < a_i < C - 0.0001` exists when the
solver loop of `SVclustering` ends, `rsq` is assigned `K[i,i] - 2·fw[i] + sum` for the
first such `i`, with `sum = Σ_k Σ_p a_p a_k K[k,p]`, and that value is `≥ 0` for a
symmetric positive-semidefinite kernel matrix `K` and `fw = K·a`. -/
theorem SVclustering_rsq_assigned (K : gsl_matrix) (a fw : Nat → ℚ) (C : ℚ) (m : Nat)
    (hfree : ∃ i, i < m ∧ 1 / 10000 < a i ∧ a i < C - 1 / 10000)
    (hsym : ∀ p q, p < m → q < m → gsl_matrix_get K p q = gsl_matrix_get K q p)
    (hpsd : ∀ x : Nat → ℚ,
      0 ≤ ∑ p in range m, ∑ q in range m, x p * x q * gsl_matrix_get K p q)
    (hfw : ∀ k, k < m → fw k = ∑ j in range m, gsl_matrix_get K k j * a j) :
    SVclustering_sum K a m =
      ∑ k in range m, ∑ p in range m, a p * a k * gsl_matrix_get K k p ∧
    ∃ i, i < m ∧ (1 / 10000 < a i ∧ a i < C - 1 / 10000) ∧
      (∀ j, j < i → ¬ (1 / 10000 < a j ∧ a j < C - 1 / 10000)) ∧
      SVclustering_rsq K a fw C (SVclustering_sum K a m) m =
        some (gsl_matrix_get K i i - 2 * fw i + SVclustering_sum K a m) ∧
      0 ≤ gsl_matrix_get K i i - 2 * fw i + SVclustering_sum K a m := by
  refine ⟨SVclustering_sum_eq K a m, ?_⟩
  have hex : ∃ i, i < m ∧ 1 / 10000 < a i ∧ a i < C - 1 / 10000 := hfree
  classical
  let i := Nat.find hex
  have hi : i < m ∧ 1 / 10000 < a i ∧ a i < C - 1 / 10000 := Nat.find_spec hex
  have hmin : ∀ j, j < i → ¬ (1 / 10000 < a j ∧ a j < C - 1 / 10000) := by
    intro j hj hcj
    exact Nat.find_min hex hj ⟨by omega, hcj⟩
  refine ⟨i, hi.1, hi.2, hmin, ?_, ?_⟩
  · unfold SVclustering_rsq
    exact (SVclustering_rsq_loop_spec K a fw C _ m 0).1 i (Nat.zero_le i) (by omega) hi.2
      (fun j _ hj => hmin j hj)
  · rw [SVclustering_sum_eq, radius_quadratic_form K a fw m i hi.1 hsym (hfw i hi.1)]
    exact hpsd _

open Finset in
/-- C14 amended, instance: three samples under the unit kernel matrix, coefficients
1/2, 1/4, 1/4 and cap 1. -/
theorem SVclustering_rsq_assigned_witness :
    ((∃ i, i < 3 ∧ 1 / 10000 < coeffs3 i ∧ coeffs3 i < 1 - 1 / 10000) ∧
      (∀ p q, p < 3 → q < 3 → gsl_matrix_get unitKernel3 p q = gsl_matrix_get unitKernel3 q p) ∧
      (∀ x : Nat → ℚ,
        0 ≤ ∑ p in range 3, ∑ q in range 3, x p * x q * gsl_matrix_get unitKernel3 p q) ∧
      (∀ k, k < 3 → heights3 k = ∑ j in range 3, gsl_matrix_get unitKernel3 k j * coeffs3 j)) ∧
    (SVclustering_sum unitKernel3 coeffs3 3 =
      ∑ k in range 3, ∑ p in range 3, coeffs3 p * coeffs3 k * gsl_matrix_get unitKernel3 k p ∧
    ∃ i, i < 3 ∧ (1 / 10000 < coeffs3 i ∧ coeffs3 i < 1 - 1 / 10000) ∧
      (∀ j, j < i → ¬ (1 / 10000 < coeffs3 j ∧ coeffs3 j < 1 - 1 / 10000)) ∧
      SVclustering_rsq unitKernel3 coeffs3 heights3 1 (SVclustering_sum unitKernel3 coeffs3 3) 3 =
        some (gsl_matrix_get unitKernel3 i i - 2 * heights3 i +
          SVclustering_sum unitKernel3 coeffs3 3) ∧
      0 ≤ gsl_matrix_get unitKernel3 i i - 2 * heights3 i +
        SVclustering_sum unitKernel3 coeffs3 3) :=
  have hfree : ∃ i, i < 3 ∧ 1 / 10000 < coeffs3 i ∧ coeffs3 i < 1 - 1 / 10000 :=
    ⟨0, by decide, by unfold coeffs3; norm_num, by unfold coeffs3; norm_num⟩
  have hsym : ∀ p q, p < 3 → q < 3 →
      gsl_matrix_get unitKernel3 p q = gsl_matrix_get unitKernel3 q p := by
    intro p q _ _
    unfold gsl_matrix_get unitKernel3
    by_cases h : p = q
    · subst h; rfl
    · have h1 : ¬ q = p := fun e => h e.symm
      simp only [h, h1, if_false]
  have hpsd : ∀ x : Nat → ℚ,
      0 ≤ ∑ p in range 3, ∑ q in range 3, x p * x q * gsl_matrix_get unitKernel3 p q := by
    intro x
    simp only [Finset.sum_range_succ, Finset.sum_range_zero, gsl_matrix_get, unitKernel3]
    norm_num
    nlinarith [mul_self_nonneg (x 0), mul_self_nonneg (x 1), mul_self_nonneg (x 2)]
  have hfw : ∀ k, k < 3 →
      heights3 k = ∑ j in range 3, gsl_matrix_get unitKernel3 k j * coeffs3 j := by
    intro k hk
    simp only [Finset.sum_range_succ, Finset.sum_range_zero, gsl_matrix_get, unitKernel3,
      heights3, coeffs3]
    interval_cases k <;> norm_num
  ⟨⟨hfree, hsym, hpsd, hfw⟩, SVclustering_rsq_assigned unitKernel3 coeffs3 heights3 1 3 hfree
    hsym hpsd hfw⟩

/-- Without a free support vector the radius loop assigns nothing, and `SVclustering`
goes on all the same: the unassigned `rsq` is copied into `svf`, `createcluster_v3` is
called and `clusterfromgraph` is asked to label a graph without vertices, indexing
`chk[-1]`; no error code is returned. -/
theorem SVclustering_finish_no_free (env : RunEnv) (X : gsl_matrix) (e : SolverEnd)
    (rvm : ℚ) (out : SVout) (hnone : ∀ i, i < X.size2 → ¬ (0 < e.a i ∧ e.a i < rvm)) :
    SVclustering_rsq e.K e.a e.fw rvm (SVclustering_sum e.K e.a X.size2) X.size2 = none ∧
    SVclustering_finish env X e rvm out = none := by
  constructor
  · unfold SVclustering_rsq
    apply (SVclustering_rsq_loop_spec _ _ _ _ _ X.size2 0).2
    intro i _ hi h
    apply hnone i (by omega)
    constructor
    · linarith [h.1]
    · linarith [h.2]
  · unfold SVclustering_finish createcluster_v3
    simp only []
    rw [createcluster_v2_labels_no_support_vector]
    intro i hi
    simp only [hi, if_true]
    exact hnone i hi

/-- C15 fails on the code: 50 samples, `v = 1/2` (cap `1/25`), and a solver loop that
ends with 25 coefficients at the cap and 25 at zero, so that no coefficient lies strictly
between 0 and the cap.  The radius loop assigns nothing; `SVclustering` performs no test
and returns no error code: the unassigned `rsq` goes to `createcluster_v3`, whose call of
`clusterfromgraph` with `m = 0` indexes `chk[-1]`. -/
theorem SVclustering_unguarded_radius :
    ((50 ≤ (zeroMatrix 50).size2 ∧ (zeroMatrix 50).size2 ≤ 20000 ∧ (0 : ℚ) < 1 / 2 ∧
        (1 / 2 : ℚ) < 1) ∧
      (1 : ℚ) / ((1 / 2) * (((zeroMatrix 50).size2 : Nat) : ℚ)) = 1 / 25 ∧
      ∀ i, i < (zeroMatrix 50).size2 →
        ¬ (0 < solverEndPinned.a i ∧ solverEndPinned.a i < 1 / 25)) ∧
    SVclustering_rsq solverEndPinned.K solverEndPinned.a solverEndPinned.fw (1 / 25)
      (SVclustering_sum solverEndPinned.K solverEndPinned.a 50) 50 = none ∧
    SVclustering_finish env0 (zeroMatrix 50) solverEndPinned (1 / 25) out0 = none ∧
    SVclustering (SVclustering_body env0 (fun _ _ _ _ => some solverEndPinned))
      (zeroMatrix 50) (1 / 2) 1 (fun _ => 1) out0 = none ∧
    ¬ ∃ code : Int, code < 0 ∧
      SVclustering (SVclustering_body env0 (fun _ _ _ _ => some solverEndPinned))
        (zeroMatrix 50) (1 / 2) 1 (fun _ => 1) out0 = some (code, out0) := by
  have hrvm : (1 : ℚ) / ((1 / 2) * (((zeroMatrix 50).size2 : Nat) : ℚ)) = 1 / 25 := by
    simp only [zeroMatrix]; norm_num
  have hpin : ∀ i, i < (zeroMatrix 50).size2 →
      ¬ (0 < solverEndPinned.a i ∧ solverEndPinned.a i < 1 / 25) := by
    intro i _ h
    simp only [solverEndPinned, coeffsPinned] at h
    by_cases hi : i < 25
    · simp only [hi, if_true] at h; exact lt_irrefl _ h.2
    · simp only [hi, if_false] at h; exact lt_irrefl _ h.1
  obtain ⟨h1, h2⟩ := SVclustering_finish_no_free env0 (zeroMatrix 50) solverEndPinned (1 / 25)
    out0 hpin
  have hrun : SVclustering (SVclustering_body env0 (fun _ _ _ _ => some solverEndPinned))
      (zeroMatrix 50) (1 / 2) 1 (fun _ => 1) out0 = none := by
    have hv : ¬ (1 : ℚ) ≤ 1 / 2 := by norm_num
    have hchecks : SVclustering_checks (zeroMatrix 50).size2 (1 / 2) = none := by
      unfold SVclustering_checks zeroMatrix
      simp only [hv, if_false]
      rfl
    simp only [SVclustering, hchecks, SVclustering_body, hrvm, h2]
    rfl
  refine ⟨⟨⟨by simp [zeroMatrix], by simp [zeroMatrix], by norm_num, by norm_num⟩, hrvm,
    hpin⟩, h1, h2, hrun, ?_⟩
  rintro ⟨code, _, hcode⟩
  rw [hrun] at hcode
  cases hcode

/-! ## Image-scale controller: the Init step -/

/-- The validity test is true exactly when no band from `j` on is at or below `ivd`. -/
theorem clusteroneimage_valid_iff (data : Nat → Nat → ℚ) (ivd : ℚ) (i : Nat) (n j : Nat) :
    clusteroneimage_valid data ivd i n j = true ↔ ∀ t, t < n → ¬ data (j + t) i ≤ ivd := by
  induction n generalizing j with
  | zero => simp [clusteroneimage_valid]
  | succ n ih =>
    unfold clusteroneimage_valid
    by_cases h : data j i ≤ ivd
    · simp only [h, if_true]
      constructor
      · intro hf; exact absurd hf (by simp)
      · intro hall; exact absurd h (by simpa using hall 0 (Nat.succ_pos n))
    · simp only [h, if_false]
      rw [ih (j + 1)]
      constructor
      · intro hall t ht
        cases t with
        | zero => simpa using h
        | succ t =>
          have := hall t (by omega)
          have e : j + 1 + t = j + (t + 1) := by omega
          rwa [e] at this
      · intro hall t ht
        have := hall (t + 1) (by omega)
        have e : j + 1 + t = j + (t + 1) := by omega
        rwa [e]

/-- The state of the Init loop after `k` pixels. -/
theorem clusteroneimage_init_fold (data : Nat → Nat → ℚ) (natb : Nat) (ivd : ℚ)
    (cls0 : Nat → Int) (k : Nat) :
    clusteroneimage_init data natb k ivd cls0 =
      (fun i => if i < k then (if clusteroneimage_valid data ivd i natb 0 then 0 else -999)
        else cls0 i,
       (((Finset.range k).filter
          (fun i => clusteroneimage_valid data ivd i natb 0 = true)).card : Int)) := by
  induction k with
  | zero =>
    simp [clusteroneimage_init]
  | succ k ih =>
    unfold clusteroneimage_init at ih ⊢
    rw [List.range_succ, List.foldl_append, ih]
    simp only [List.foldl_cons, List.foldl_nil]
    rw [Finset.range_succ, Finset.filter_insert]
    by_cases hv : clusteroneimage_valid data ivd k natb 0 = true
    · simp only [hv, if_true]
      rw [Finset.card_insert_of_not_mem (by simp)]
      refine Prod.ext ?_ (by push_cast; ring)
      funext i
      simp only [Function.update_apply]
      by_cases hik : i = k
      · subst hik; simp [hv]
      · simp only [hik, if_false]
        by_cases hlt : i < k
        · have : i < k + 1 := by omega
          simp [hlt, this]
        · have : ¬ i < k + 1 := by omega
          simp [hlt, this]
    · simp only [hv, if_false]
      refine Prod.ext ?_ rfl
      funext i
      simp only [Function.update_apply]
      by_cases hik : i = k
      · subst hik; simp [hv]
      · by_cases hlt : i < k
        · have : i < k + 1 := by omega
          simp [hik, hlt, this]
        · have : ¬ i < k + 1 := by omega
          simp [hik, hlt, this]

/-- C18: after the Init loop of `clusteroneimage`, every pixel `i < pnum` carries the
label -999 if and only if one of its `natb` band values is at or below `ivd`, and the
label 0 otherwise; the count `olduncls` equals the number of pixels labelled 0. -/
theorem clusteroneimage_init_labels (data : Nat → Nat → ℚ) (natb pnum : Nat) (ivd : ℚ)
    (cls0 : Nat → Int) :
    (∀ i, i < pnum →
      ((clusteroneimage_init data natb pnum ivd cls0).1 i = -999 ↔
        ∃ j, j < natb ∧ data j i ≤ ivd) ∧
      ((clusteroneimage_init data natb pnum ivd cls0).1 i = 0 ↔
        ¬ ∃ j, j < natb ∧ data j i ≤ ivd)) ∧
    (clusteroneimage_init data natb pnum ivd cls0).2 =
      (((Finset.range pnum).filter
        (fun i => (clusteroneimage_init data natb pnum ivd cls0).1 i = 0)).card : Int) := by
  rw [clusteroneimage_init_fold]
  have hval : ∀ i, clusteroneimage_valid data ivd i natb 0 = true ↔
      ¬ ∃ j, j < natb ∧ data j i ≤ ivd := by
    intro i
    rw [clusteroneimage_valid_iff]
    constructor
    · rintro h ⟨j, hj, hle⟩
      have := h j hj
      rw [Nat.zero_add] at this
      exact this hle
    · intro h t ht hle
      rw [Nat.zero_add] at hle
      exact h ⟨t, ht, hle⟩
  constructor
  · intro i hi
    simp only [hi, if_true]
    by_cases hv : clusteroneimage_valid data ivd i natb 0 = true
    · have hn := (hval i).mp hv
      rw [if_pos hv]
      constructor
      · constructor
        · intro h; exact absurd h (by decide)
        · intro h; exact absurd h hn
      · exact ⟨fun _ => hn, fun _ => rfl⟩
    · have hn : ¬ ¬ ∃ j, j < natb ∧ data j i ≤ ivd := fun h => hv ((hval i).mpr h)
      rw [if_neg hv]
      constructor
      · exact ⟨fun _ => not_not.mp hn, fun _ => rfl⟩
      · constructor
        · intro h; exact absurd h (by decide)
        · intro h; exact absurd h hn
  · simp only
    congr 1
    congr 1
    apply Finset.filter_congr
    intro i hi
    have hi2 : i < pnum := Finset.mem_range.mp hi
    simp only [hi2, if_true]
    by_cases hv : clusteroneimage_valid data ivd i natb 0 = true
    · simp [hv]
    · simp [hv]

/-! ## Image-scale controller: the writes of a round -/

/-- A property of the state that every step of a fold keeps holds at its end. -/
theorem foldl_preserves {σ β : Type} (P : σ → Prop) (f : σ → β → σ) (l : List β) (s : σ)
    (h0 : P s) (hstep : ∀ t x, x ∈ l → P t → P (f t x)) : P (l.foldl f s) := by
  induction l generalizing s with
  | nil => exact h0
  | cons x l ih =>
    rw [List.foldl_cons]
    apply ih
    · exact hstep s x (List.mem_cons_self x l) h0
    · intro t y hy ht
      exact hstep t y (List.mem_cons_of_mem x hy) ht

/-- The neighbour loop leaves the label of the seed alone, and every label after it is
the one before or the label of the seed. -/
theorem clusteroneimage_spread_cases (kdex : Nat → Int) (i : Nat) (n j : Nat)
    (s : (Nat → Int) × (Nat → Bool)) :
    (clusteroneimage_spread kdex i n j s).1 i = s.1 i ∧
      ∀ p, (clusteroneimage_spread kdex i n j s).1 p = s.1 p ∨
        (clusteroneimage_spread kdex i n j s).1 p = s.1 i := by
  induction n generalizing j s with
  | zero =>
    unfold clusteroneimage_spread
    exact ⟨rfl, fun p => Or.inl rfl⟩
  | succ n ih =>
    unfold clusteroneimage_spread
    by_cases hk : kdex j ≥ 0
    · rw [if_pos hk]
      have h := ih (j + 1)
        (Function.update s.1 (kdex j).toNat (s.1 i), Function.update s.2 (kdex j).toNat true)
      have hseed : Function.update s.1 (kdex j).toNat (s.1 i) i = s.1 i := by
        rw [Function.update_apply]
        by_cases hq : i = (kdex j).toNat
        · simp [hq]
        · simp [hq]
      simp only [hseed] at h
      refine ⟨h.1, ?_⟩
      intro p
      rcases h.2 p with hp | hp
      · rw [hp, Function.update_apply]
        by_cases hq : p = (kdex j).toNat
        · right; simp [hq]
        · left; simp [hq]
      · right; exact hp
    · rw [if_neg hk]
      exact ⟨rfl, fun p => Or.inl rfl⟩

/-- One propagation pass keeps every label below a bound that held before, and does not
touch `nc`, `snc`, `svf`, `X`, `idx` or `scls`. -/
theorem clusteroneimage_sweep_keeps (knn : ImageState → Nat → (Nat → Int) × (Nat → Int))
    (cfg : ImageConfig) (st : ImageState) (b : Int)
    (hb : LabelsBelow st.cls cfg.pnum b) :
    LabelsBelow (clusteroneimage_sweep knn cfg st).cls cfg.pnum b ∧
      (clusteroneimage_sweep knn cfg st).nc = st.nc ∧
      (clusteroneimage_sweep knn cfg st).snc = st.snc ∧
      (clusteroneimage_sweep knn cfg st).svf = st.svf ∧
      (clusteroneimage_sweep knn cfg st).X = st.X ∧
      (clusteroneimage_sweep knn cfg st).idx = st.idx ∧
      (clusteroneimage_sweep knn cfg st).scls = st.scls := by
  unfold clusteroneimage_sweep
  apply foldl_preserves
    (fun (s : ImageState) => LabelsBelow s.cls cfg.pnum b ∧ s.nc = st.nc ∧ s.snc = st.snc ∧
      s.svf = st.svf ∧ s.X = st.X ∧ s.idx = st.idx ∧ s.scls = st.scls)
  · exact ⟨hb, rfl, rfl, rfl, rfl, rfl, rfl⟩
  · intro t i hi ht
    have hip : i < cfg.pnum := List.mem_range.mp hi
    by_cases hc : t.succ i = true ∧ t.rsflags i ≠ 2
    · rw [if_pos hc]
      refine ⟨?_, ht.2⟩
      intro p hp
      have h := clusteroneimage_spread_cases (knn t i).1 i cfg.k 0 (t.cls, t.vflags)
      rcases h.2 p with hq | hq
      · show (clusteroneimage_spread (knn t i).1 i cfg.k 0 (t.cls, t.vflags)).1 p < b
        rw [hq]; exact ht.1 p hp
      · show (clusteroneimage_spread (knn t i).1 i cfg.k 0 (t.cls, t.vflags)).1 p < b
        rw [hq]; exact ht.1 i hip
    · rw [if_neg hc]
      exact ht

/-- The propagation loop keeps every label below a bound that held before, and does not
touch `nc`, `snc`, `svf`, `X`, `idx` or `scls`. -/
theorem clusteroneimage_propagate_keeps
    (knn : ImageState → Nat → (Nat → Int) × (Nat → Int))
    (cfg : ImageConfig) (b : Int) (fuel : Nat) (st s : ImageState)
    (hb : LabelsBelow st.cls cfg.pnum b)
    (hs : clusteroneimage_propagate knn cfg fuel st = some s) :
    LabelsBelow s.cls cfg.pnum b ∧ s.nc = st.nc ∧ s.snc = st.snc ∧ s.svf = st.svf ∧
      s.X = st.X ∧ s.idx = st.idx ∧ s.scls = st.scls := by
  induction fuel generalizing st with
  | zero => simp [clusteroneimage_propagate] at hs
  | succ fuel ih =>
    unfold clusteroneimage_propagate at hs
    have hk := clusteroneimage_sweep_keeps knn cfg st b hb
    by_cases hc : clusteroneimage_count (clusteroneimage_sweep knn cfg st).vflags cfg.pnum > 100
    · simp only [hc, if_true] at hs
      have h := ih (clusteroneimage_sweep knn cfg st) hk.1 hs
      obtain ⟨h1, h2, h3, h4, h5, h6, h7⟩ := h
      obtain ⟨_, k2, k3, k4, k5, k6, k7⟩ := hk
      exact ⟨h1, h2.trans k2, h3.trans k3, h4.trans k4, h5.trans k5, h6.trans k6,
        h7.trans k7⟩
    · simp only [hc, if_false, Option.some.injEq] at hs
      rw [← hs]
      exact hk

/-- The propagation loop ends with its first pass on an image of at most 100 pixels. -/
theorem clusteroneimage_propagate_small
    (knn : ImageState → Nat → (Nat → Int) × (Nat → Int))
    (cfg : ImageConfig) (fuel : Nat) (st : ImageState) (hp : cfg.pnum ≤ 100) :
    clusteroneimage_propagate knn cfg (fuel + 1) st =
      some (clusteroneimage_sweep knn cfg st) := by
  unfold clusteroneimage_propagate
  have hc : ¬ clusteroneimage_count (clusteroneimage_sweep knn cfg st).vflags cfg.pnum
      > 100 := by
    unfold clusteroneimage_count
    have h := List.length_filter_le (fun i => (clusteroneimage_sweep knn cfg st).vflags i)
      (List.range cfg.pnum)
    rw [List.length_range] at h
    omega
  simp only [hc, if_false]

/-- The straggler loop keeps every label below `tnc + snc - 1` when `checkcls` answers
below `snc`. -/
theorem clusteroneimage_stragglers_keeps (ck : Nat → Int) (untc : Nat → Nat) (cx1 : Nat)
    (tnc snc : Int) (cls : Nat → Int) (pnum : Nat)
    (hck : ∀ p, ck p < snc) (hb : LabelsBelow cls pnum (tnc + snc - 1)) :
    LabelsBelow (clusteroneimage_stragglers ck untc cx1 tnc cls) pnum (tnc + snc - 1) := by
  unfold clusteroneimage_stragglers
  apply foldl_preserves (fun (c : Nat → Int) => LabelsBelow c pnum (tnc + snc - 1))
  · exact hb
  · intro c h _ hc
    by_cases hpos : ck (untc h) > 0
    · rw [if_pos hpos]
      intro p hp
      rw [Function.update_apply]
      by_cases hq : p = untc h
      · simp only [hq, if_true]
        have := hck (untc h)
        omega
      · simp only [hq, if_false]
        exact hc p hp
    · rw [if_neg hpos]
      exact hc

/-- The opening part of a round keeps every label below `nc + snc - 1` when `checkcls`
answers below `snc`, and does not touch `nc`, `snc`, `svf`, `X`, `idx` or `scls`. -/
theorem clusteroneimage_pre_keeps (kern : gsl_vector → gsl_vector → ℚ)
    (knn : ImageState → Nat → (Nat → Int) × (Nat → Int))
    (ck : svminfo → gsl_matrix → Nat → Int) (cfg : ImageConfig) (fuel : Nat)
    (st mid : ImageState) (uncls : Int)
    (hck : ∀ p, ck st.svf st.X p < st.snc)
    (hb : LabelsBelow st.cls cfg.pnum (st.nc + st.snc - 1))
    (hpre : clusteroneimage_pre kern knn ck cfg fuel st = some (uncls, mid)) :
    LabelsBelow mid.cls cfg.pnum (st.nc + st.snc - 1) ∧ mid.nc = st.nc ∧
      mid.snc = st.snc ∧ mid.svf = st.svf ∧ mid.X = st.X ∧ mid.idx = st.idx ∧
      mid.scls = st.scls := by
  unfold clusteroneimage_pre at hpre
  cases hprop : clusteroneimage_propagate knn cfg fuel st with
  | none => rw [hprop] at hpre; simp at hpre
  | some s =>
    rw [hprop] at hpre
    simp only [Option.some.injEq, Prod.mk.injEq] at hpre
    obtain ⟨h1, h2, h3, h4, h5, h6, h7⟩ :=
      clusteroneimage_propagate_keeps knn cfg (st.nc + st.snc - 1) fuel st s hb hprop
    rw [← hpre.2]
    refine ⟨?_, h2, h3, h4, h5, h6, h7⟩
    show LabelsBelow (clusteroneimage_stragglers (ck s.svf s.X) _ _ s.nc s.cls) cfg.pnum
      (st.nc + st.snc - 1)
    rw [← h2, ← h3]
    apply clusteroneimage_stragglers_keeps
    · intro p
      rw [h4, h5, h3]
      exact hck p
    · rw [h2, h3]
      exact h1

/-- The sampling loop never lets `m` pass `bs` when it starts below it. -/
theorem sampling_loop_le (test : Nat → Bool) (sts : Nat → Nat) (bs : Nat) (n i m : Nat)
    (idx : Nat → Nat) (hm : m < bs) : (sampling_loop test sts bs n i m idx).1 ≤ bs := by
  induction n generalizing i m idx with
  | zero => unfold sampling_loop; exact Nat.le_of_lt hm
  | succ n ih =>
    unfold sampling_loop
    by_cases ht : test (sts i) = true
    · simp only [ht, if_true]
      by_cases he : m + 1 = bs
      · simp only [he, if_true]; exact Nat.le_refl bs
      · simp only [he, if_false]
        exact ih (i + 1) (m + 1) _ (by omega)
    · simp only [ht, if_false]
      exact ih (i + 1) m idx hm

/-- The sampling loop returns at least the `m` it starts with, and leaves the entries
of `idx` from the returned `m` on as they were. -/
theorem sampling_loop_stale (test : Nat → Bool) (sts : Nat → Nat) (bs : Nat) (n i m : Nat)
    (idx : Nat → Nat) :
    m ≤ (sampling_loop test sts bs n i m idx).1 ∧
      ∀ q, (sampling_loop test sts bs n i m idx).1 ≤ q →
        (sampling_loop test sts bs n i m idx).2 q = idx q := by
  induction n generalizing i m idx with
  | zero => unfold sampling_loop; exact ⟨Nat.le_refl m, fun q _ => rfl⟩
  | succ n ih =>
    unfold sampling_loop
    by_cases ht : test (sts i) = true
    · simp only [ht, if_true]
      by_cases he : m + 1 = bs
      · simp only [he, if_true]
        refine ⟨by omega, ?_⟩
        intro q hq
        rw [Function.update_apply]
        have : q ≠ m := by omega
        simp [this]
      · simp only [he, if_false]
        have h := ih (i + 1) (m + 1) (Function.update idx m (sts i))
        refine ⟨by omega, ?_⟩
        intro q hq
        rw [h.2 q hq, Function.update_apply]
        have : q ≠ m := by omega
        simp [this]
    · simp only [ht, if_false]
      exact ih (i + 1) m idx

/-- After the assignment loop of a round the pixel `idx[i]` of an entry `i < bs` with a
positive `scls[i]` carries a positive entry of `scls`. -/
theorem clusteroneimage_assign_written (idx : Nat → Nat) (scls : Nat → Int) (bs : Nat)
    (cls : Nat → Int) (vflags : Nat → Bool) (i : Nat) (hi : i < bs) (hpos : 0 < scls i) :
    ∃ l, l < bs ∧ 0 < scls l ∧
      (clusteroneimage_assign idx scls bs cls vflags).1 (idx i) = scls l := by
  unfold clusteroneimage_assign
  induction bs with
  | zero => omega
  | succ bs ih =>
    rw [List.range_succ, List.foldl_append]
    simp only [List.foldl_cons, List.foldl_nil]
    by_cases hlast : scls bs > 0
    · rw [if_pos hlast]
      simp only [Function.update_apply]
      by_cases hq : idx i = idx bs
      · exact ⟨bs, Nat.lt_succ_self bs, hlast, by simp [hq]⟩
      · simp only [hq, if_false]
        have hib : i < bs := by
          rcases Nat.lt_succ_iff_lt_or_eq.mp hi with h | h
          · exact h
          · exact absurd (by rw [h]) hq
        obtain ⟨l, hl, hp, h⟩ := ih hib
        exact ⟨l, Nat.lt_succ_of_lt hl, hp, h⟩
    · rw [if_neg hlast]
      have hib : i < bs := by
        rcases Nat.lt_succ_iff_lt_or_eq.mp hi with h | h
        · exact h
        · rw [h] at hpos; exact absurd hpos hlast
      obtain ⟨l, hl, hp, h⟩ := ih hib
      exact ⟨l, Nat.lt_succ_of_lt hl, hp, h⟩

/-- With the entry checks passed, `SVclustering` is its clustering work with code 0. -/
theorem SVclustering_of_checks
    (work : gsl_matrix → ℚ → Int → (Nat → ℚ) → SVout → Option SVout)
    (X : gsl_matrix) (v : ℚ) (kt : Int) (pa : Nat → ℚ) (out : SVout)
    (hlo : 50 ≤ X.size2) (hhi : X.size2 ≤ 20000) (hv : v < 1) :
    SVclustering work X v kt pa out = (work X v kt pa out).map (fun o => (0, o)) := by
  have hc : SVclustering_checks X.size2 v = none := by
    unfold SVclustering_checks
    have h1 : ¬ X.size2 < 50 := by omega
    have h2 : ¬ X.size2 > 20000 := by omega
    have h3 : ¬ v ≥ 1 := not_le.mpr hv
    simp only [h1, h2, h3, if_false]
  unfold SVclustering
  rw [hc]

/-- What the closing part of a round leaves when it returns, for a matrix `X` of `bs`
columns and passed entry checks: the solver outputs `out` behind the new state. -/
theorem clusteroneimage_batch_unfold
    (work : gsl_matrix → ℚ → Int → (Nat → ℚ) → SVout → Option SVout)
    (cfg : ImageConfig) (sts : Nat → Nat) (uncls : Int) (st st1 : ImageState)
    (hlo : 50 ≤ cfg.bs) (hhi : cfg.bs ≤ 20000) (hv : cfg.v < 1)
    (hX : st.X.size2 = cfg.bs)
    (hbatch : clusteroneimage_batch work cfg sts uncls st = some st1) :
    ∃ X1 out, X1.size2 = cfg.bs ∧
      work X1 cfg.v cfg.kt cfg.pa ⟨st.snc, st.scls, st.svf⟩ = some out ∧
      st1.nc = st.nc + st.snc - 1 ∧ st1.snc = out.nc ∧
      st1.scls = clusteroneimage_offset out.cls (st.nc + st.snc - 1) cfg.bs ∧
      st1.idx = (samplingexset sts st.cls cfg.pnum st.idx cfg.bs st.rsflags).2 ∧
      st1.X = X1 ∧
      st1.cls = (clusteroneimage_assign st1.idx st1.scls cfg.bs st.cls
        (fun i => if i < cfg.pnum then false else st.vflags i)).1 := by
  unfold clusteroneimage_batch at hbatch
  simp only at hbatch
  cases hfill : clusteroneimage_fill cfg st.X
      (samplingexset sts st.cls cfg.pnum st.idx cfg.bs st.rsflags).2
      (samplingexset sts st.cls cfg.pnum st.idx cfg.bs st.rsflags).1 with
  | none => rw [hfill] at hbatch; simp at hbatch
  | some X1 =>
    rw [hfill] at hbatch
    simp only at hbatch
    have hsize : X1.size2 = cfg.bs := by
      unfold clusteroneimage_fill at hfill
      split at hfill
      · simp only [Option.some.injEq] at hfill
        rw [← hfill]; exact hX
      · simp at hfill
    rw [SVclustering_of_checks work X1 cfg.v cfg.kt cfg.pa _ (by omega) (by omega) hv]
      at hbatch
    cases hw : work X1 cfg.v cfg.kt cfg.pa ⟨st.snc, st.scls, st.svf⟩ with
    | none => rw [hw] at hbatch; simp at hbatch
    | some out =>
      rw [hw] at hbatch
      simp only [Option.map_some', Option.some.injEq] at hbatch
      refine ⟨X1, out, hsize, hw, ?_⟩
      rw [← hbatch]
      exact ⟨rfl, rfl, rfl, rfl, rfl, rfl⟩

/-- The closing part of a round returns when `X` has `bs` columns, the entry checks pass
and the clustering work returns. -/
theorem clusteroneimage_batch_returns
    (work : gsl_matrix → ℚ → Int → (Nat → ℚ) → SVout → Option SVout)
    (cfg : ImageConfig) (sts : Nat → Nat) (uncls : Int) (st : ImageState)
    (hlo : 50 ≤ cfg.bs) (hhi : cfg.bs ≤ 20000) (hv : cfg.v < 1)
    (hX : st.X.size2 = cfg.bs)
    (hw : ∀ X out, (work X cfg.v cfg.kt cfg.pa out).isSome = true) :
    (clusteroneimage_batch work cfg sts uncls st).isSome = true := by
  unfold clusteroneimage_batch
  simp only
  have hm : (samplingexset sts st.cls cfg.pnum st.idx cfg.bs st.rsflags).1 ≤ st.X.size2 := by
    rw [hX]
    unfold samplingexset
    exact sampling_loop_le _ sts cfg.bs cfg.pnum 0 0 st.idx (by omega)
  have hfill : clusteroneimage_fill cfg st.X
      (samplingexset sts st.cls cfg.pnum st.idx cfg.bs st.rsflags).2
      (samplingexset sts st.cls cfg.pnum st.idx cfg.bs st.rsflags).1 =
      some ⟨st.X.size1, st.X.size2, fun j i =>
        if i < (samplingexset sts st.cls cfg.pnum st.idx cfg.bs st.rsflags).1 ∧ j < cfg.natb
        then cfg.data j ((samplingexset sts st.cls cfg.pnum st.idx cfg.bs st.rsflags).2 i)
        else st.X.data j i⟩ := by
    unfold clusteroneimage_fill
    rw [if_pos (Or.inl hm)]
  rw [hfill]
  simp only
  rw [SVclustering_of_checks work _ cfg.v cfg.kt cfg.pa _ (by simp only; omega)
    (by simp only; omega) hv]
  have h := hw ⟨st.X.size1, st.X.size2, fun j i =>
        if i < (samplingexset sts st.cls cfg.pnum st.idx cfg.bs st.rsflags).1 ∧ j < cfg.natb
        then cfg.data j ((samplingexset sts st.cls cfg.pnum st.idx cfg.bs st.rsflags).2 i)
        else st.X.data j i⟩ ⟨st.snc, st.scls, st.svf⟩
  obtain ⟨o, ho⟩ := Option.isSome_iff_exists.mp h
  rw [ho]
  rfl

/-- An option that is some value is its own default-free content. -/
theorem option_eq_some_getD {α : Type} (o : Option α) (d : α) (h : o.isSome = true) :
    o = some (o.getD d) := by
  cases o with
  | none => simp at h
  | some x => rfl

/-- C19: the closing part of a round rewrites the pixel behind a stale batch entry.  When
`samplingexset` returns `m < bs`, an entry `i` with `m ≤ i < bs` still holds the pixel
`idx[i]` of an earlier batch; when the solver labels entry `i` positive, that pixel, which
carries a positive label below `nc + snc - 1`, ends the round with a different, larger
label. -/
theorem clusteroneimage_batch_stale_relabel
    (work : gsl_matrix → ℚ → Int → (Nat → ℚ) → SVout → Option SVout)
    (cfg : ImageConfig) (sts : Nat → Nat) (uncls : Int) (st st1 : ImageState) (i : Nat)
    (hlo : 50 ≤ cfg.bs) (hhi : cfg.bs ≤ 20000) (hv : cfg.v < 1)
    (hX : st.X.size2 = cfg.bs)
    (hbatch : clusteroneimage_batch work cfg sts uncls st = some st1)
    (hm : (samplingexset sts st.cls cfg.pnum st.idx cfg.bs st.rsflags).1 ≤ i)
    (hi : i < cfg.bs)
    (hpos : 0 < st1.scls i)
    (hlab : 0 < st.cls (st.idx i))
    (hold : st.cls (st.idx i) < st.nc + st.snc - 1) :
    st1.idx i = st.idx i ∧ 0 < st.cls (st.idx i) ∧
      st.cls (st.idx i) < st1.cls (st.idx i) ∧
      st1.cls (st.idx i) ≠ st.cls (st.idx i) := by
  obtain ⟨X1, out, _, _, h1, _, h3, h4, _, h6⟩ :=
    clusteroneimage_batch_unfold work cfg sts uncls st st1 hlo hhi hv hX hbatch
  have hidx : st1.idx i = st.idx i := by
    rw [h4]
    unfold samplingexset
    unfold samplingexset at hm
    exact (sampling_loop_stale _ sts cfg.bs cfg.pnum 0 0 st.idx).2 i hm
  obtain ⟨l, hl, hlpos, hw⟩ := clusteroneimage_assign_written st1.idx st1.scls cfg.bs st.cls
    (fun q => if q < cfg.pnum then false else st.vflags q) i hi hpos
  rw [← h6, hidx] at hw
  have hge : st1.nc ≤ st1.scls l := by
    have hl2 := hlpos
    rw [h3] at hl2 ⊢
    unfold clusteroneimage_offset at hl2 ⊢
    by_cases hc : l < cfg.bs ∧ out.cls l > 0
    · rw [if_pos hc]
      rw [h1]
      have := hc.2
      omega
    · rw [if_neg hc] at hl2
      exact absurd ⟨hl, hl2⟩ hc
  have hlt : st.cls (st.idx i) < st1.cls (st.idx i) := by
    rw [hw]
    rw [h1] at hge
    omega
  exact ⟨hidx, hlab, hlt, ne_of_gt hlt⟩

/-- C19, instance: on `stateShort` the next batch has ten pixels, entry 10 is stale, and
pixel 10 goes from label 1 to a larger label. -/
theorem clusteroneimage_batch_stale_relabel_witness :
    (50 ≤ cfg60.bs ∧ cfg60.bs ≤ 20000 ∧ cfg60.v < 1 ∧ stateShort.X.size2 = cfg60.bs ∧
      clusteroneimage_batch work0 cfg60 id 10 stateShort = some stateShortNext ∧
      (samplingexset id stateShort.cls cfg60.pnum stateShort.idx cfg60.bs
        stateShort.rsflags).1 ≤ 10 ∧
      10 < cfg60.bs ∧ 0 < stateShortNext.scls 10 ∧ 0 < stateShort.cls (stateShort.idx 10) ∧
      stateShort.cls (stateShort.idx 10) < stateShort.nc + stateShort.snc - 1) ∧
    (stateShortNext.idx 10 = stateShort.idx 10 ∧ 0 < stateShort.cls (stateShort.idx 10) ∧
      stateShort.cls (stateShort.idx 10) < stateShortNext.cls (stateShort.idx 10) ∧
      stateShortNext.cls (stateShort.idx 10) ≠ stateShort.cls (stateShort.idx 10)) :=
  have hlo : 50 ≤ cfg60.bs := by decide
  have hhi : cfg60.bs ≤ 20000 := by decide
  have hv : cfg60.v < 1 := by
    show (1 / 2 : ℚ) < 1
    norm_num
  have hX : stateShort.X.size2 = cfg60.bs := rfl
  have hbatch : clusteroneimage_batch work0 cfg60 id 10 stateShort = some stateShortNext :=
    option_eq_some_getD _ stateShort
      (clusteroneimage_batch_returns work0 cfg60 id 10 stateShort hlo hhi hv hX
        (fun _ _ => rfl))
  have hm : (samplingexset id stateShort.cls cfg60.pnum stateShort.idx cfg60.bs
      stateShort.rsflags).1 ≤ 10 := by decide
  have hi : 10 < cfg60.bs := by decide
  have hpos : 0 < stateShortNext.scls 10 := by
    obtain ⟨X1, out, _, hw, _, _, h3, _⟩ :=
      clusteroneimage_batch_unfold work0 cfg60 id 10 stateShort stateShortNext hlo hhi hv hX
        hbatch
    have ho : out.cls = fun _ => 1 := by
      unfold work0 at hw
      simp only [Option.some.injEq] at hw
      rw [← hw]
    rw [h3, ho]
    decide
  have hlab : 0 < stateShort.cls (stateShort.idx 10) := by decide
  have hold : stateShort.cls (stateShort.idx 10) < stateShort.nc + stateShort.snc - 1 := by
    decide
  ⟨⟨hlo, hhi, hv, hX, hbatch, hm, hi, hpos, hlab, hold⟩,
    clusteroneimage_batch_stale_relabel work0 cfg60 id 10 stateShort stateShortNext 10 hlo hhi
      hv hX hbatch hm hi hpos hlab hold⟩

/-- When `consolidate` returns, the labels it leaves for the `m` samples lie in
`[0, nc)` for the `nc` it returns. -/
theorem consolidate_some_range (cls : Nat → Int) (m : Nat) (thd nc nc2 : Int)
    (cls2 : Nat → Int) (h : consolidate cls m thd nc = some (nc2, cls2)) :
    ∀ i, i < m → 0 ≤ cls2 i ∧ cls2 i < nc2 := by
  have hnc : 1 ≤ nc := by
    by_contra hlt
    unfold consolidate at h
    rw [if_pos (by omega)] at h
    simp at h
  have hall : (List.range m).all (fun i => decide (0 ≤ cls i ∧ cls i < nc)) = true := by
    by_contra hf
    unfold consolidate at h
    rw [if_neg (by omega), if_neg hf] at h
    simp at h
  have hrange : ∀ i, i < m → 0 ≤ cls i ∧ cls i < nc := by
    intro i hi
    rw [List.all_eq_true] at hall
    exact of_decide_eq_true (hall i (List.mem_range.mpr hi))
  rw [consolidate_eq cls m thd nc hnc hrange] at h
  simp only [Option.some.injEq, Prod.mk.injEq] at h
  intro i hi
  rw [← h.1, ← h.2]
  simp only [hi, if_true]
  exact consolidate_label_range cls m thd nc (cls i) (hrange i hi)

/-- When `createcluster_v3` returns, the labels of the `m = X->size2` samples lie in
`[0, nc)` for the `nc` it returns. -/
theorem createcluster_v3_label_range (env : RunEnv) (X : gsl_matrix) (sam : Nat) (rvm : ℚ)
    (cls : Nat → Int) (svf : svminfo) (nc2 : Int) (cls2 : Nat → Int) (svf2 : svminfo)
    (h : createcluster_v3 env X sam rvm cls svf = some (nc2, cls2, svf2)) :
    ∀ i, i < X.size2 → 0 ≤ cls2 i ∧ cls2 i < nc2 := by
  unfold createcluster_v3 at h
  simp only at h
  split at h
  · exact absurd h (by simp)
  · split at h
    · exact absurd h (by simp)
    · rename_i hcons
      simp only [Option.some.injEq, Prod.mk.injEq] at h
      rw [← h.1, ← h.2.1]
      exact consolidate_some_range _ X.size2 _ _ _ _ hcons

/-- When the modelled body of `SVclustering` returns, the labels of the `m = X->size2`
samples lie in `[0, nc)` for the `nc` it returns. -/
theorem SVclustering_body_label_range (env : RunEnv)
    (solve : gsl_matrix → ℚ → Int → (Nat → ℚ) → Option SolverEnd)
    (X : gsl_matrix) (v : ℚ) (kt : Int) (pa : Nat → ℚ) (out out1 : SVout)
    (h : SVclustering_body env solve X v kt pa out = some out1) :
    ∀ i, i < X.size2 → 0 ≤ out1.cls i ∧ out1.cls i < out1.nc := by
  unfold SVclustering_body at h
  split at h
  · exact absurd h (by simp)
  · obtain ⟨r, hr, hr2⟩ := Option.map_eq_some'.mp h
    unfold SVclustering_finish at hr
    simp only at hr
    split at hr
    · exact absurd hr (by simp)
    · rename_i hc
      simp only [Option.some.injEq] at hr
      rw [← hr2, ← hr]
      exact createcluster_v3_label_range _ _ _ _ _ _ _ _ _ hc

/-- After the first assignment loop a label is the one before or an entry of `scls`
among the first `m`. -/
theorem clusteroneimage_assign_first_cases (idx : Nat → Nat) (scls : Nat → Int) (m : Nat)
    (cls : Nat → Int) (p : Nat) :
    clusteroneimage_assign_first idx scls m cls p = cls p ∨
      ∃ i, i < m ∧ clusteroneimage_assign_first idx scls m cls p = scls i := by
  unfold clusteroneimage_assign_first
  induction m with
  | zero => left; rfl
  | succ m ih =>
    rw [List.range_succ, List.foldl_append]
    simp only [List.foldl_cons, List.foldl_nil, Function.update_apply]
    by_cases hq : p = idx m
    · right
      exact ⟨m, Nat.lt_succ_self m, by simp [hq]⟩
    · simp only [hq, if_false]
      rcases ih with h | ⟨i, hi, h⟩
      · left; exact h
      · right; exact ⟨i, Nat.lt_succ_of_lt hi, h⟩

/-- The state at the head of the first round: when the first batch is full, the entry
checks pass and the solver labels lie in `[0, snc)`, every label of the raster is below
`nc + snc - 1` with `nc = 1`, and `X` has `bs` columns. -/
theorem clusteroneimage_start_labels
    (work : gsl_matrix → ℚ → Int → (Nat → ℚ) → SVout → Option SVout)
    (cfg : ImageConfig) (ivd : ℚ) (sts : Nat → Nat) (fresh st : ImageState)
    (hlo : 50 ≤ cfg.bs) (hhi : cfg.bs ≤ 20000) (hv : cfg.v < 1)
    (hwork : ∀ X out out1, work X cfg.v cfg.kt cfg.pa out = some out1 →
      ∀ i, i < X.size2 → 0 ≤ out1.cls i ∧ out1.cls i < out1.nc)
    (hfull : (samplingaset sts (clusteroneimage_init cfg.data cfg.natb cfg.pnum ivd
      fresh.cls).1 cfg.pnum fresh.idx cfg.bs).1 = cfg.bs)
    (hst : clusteroneimage_start work cfg ivd sts fresh = some st) :
    st.nc = 1 ∧ st.X.size2 = cfg.bs ∧ LabelsBelow st.cls cfg.pnum (st.nc + st.snc - 1) := by
  unfold clusteroneimage_start at hst
  simp only at hst
  rw [SVclustering_of_checks work _ cfg.v cfg.kt cfg.pa _ (by simp only [hfull]; omega)
    (by simp only [hfull]; omega) hv] at hst
  cases hw : work ⟨cfg.natb, (samplingaset sts (clusteroneimage_init cfg.data cfg.natb
      cfg.pnum ivd fresh.cls).1 cfg.pnum fresh.idx cfg.bs).1, fun j i =>
      if i < (samplingaset sts (clusteroneimage_init cfg.data cfg.natb cfg.pnum ivd
          fresh.cls).1 cfg.pnum fresh.idx cfg.bs).1 ∧ j < cfg.natb
      then cfg.data j ((samplingaset sts (clusteroneimage_init cfg.data cfg.natb cfg.pnum
          ivd fresh.cls).1 cfg.pnum fresh.idx cfg.bs).2 i)
      else fresh.X.data j i⟩ cfg.v cfg.kt cfg.pa ⟨fresh.snc, fresh.scls, fresh.svf⟩ with
  | none => rw [hw] at hst; simp at hst
  | some out =>
    rw [hw] at hst
    simp only [Option.map_some', Option.some.injEq] at hst
    have hr := hwork _ _ _ hw
    simp only [hfull] at hr
    have hnc : 1 ≤ out.nc := by
      have := hr 0 (by omega)
      omega
    rw [← hst]
    refine ⟨rfl, hfull, ?_⟩
    intro p hp
    show clusteroneimage_assign_first _ out.cls _ _ p < 1 + out.nc - 1
    rcases clusteroneimage_assign_first_cases
      (samplingaset sts (clusteroneimage_init cfg.data cfg.natb cfg.pnum ivd fresh.cls).1
        cfg.pnum fresh.idx cfg.bs).2 out.cls
      (samplingaset sts (clusteroneimage_init cfg.data cfg.natb cfg.pnum ivd fresh.cls).1
        cfg.pnum fresh.idx cfg.bs).1
      (clusteroneimage_init cfg.data cfg.natb cfg.pnum ivd fresh.cls).1 p with h | ⟨i, hi, h⟩
    · rw [h, clusteroneimage_init_fold]
      simp only [hp, if_true]
      split
      · omega
      · omega
    · rw [h]
      rw [hfull] at hi
      have := hr i hi
      omega

/-- The opening part of a round returns on an image of at most 100 pixels when one pass
of the propagation loop is available. -/
theorem clusteroneimage_pre_small (kern : gsl_vector → gsl_vector → ℚ)
    (knn : ImageState → Nat → (Nat → Int) × (Nat → Int))
    (ck : svminfo → gsl_matrix → Nat → Int) (cfg : ImageConfig) (fuel : Nat)
    (st : ImageState) (hp : cfg.pnum ≤ 100) (hf : 1 ≤ fuel) :
    (clusteroneimage_pre kern knn ck cfg fuel st).isSome = true := by
  obtain ⟨f, rfl⟩ : ∃ f, fuel = f + 1 := ⟨fuel - 1, by omega⟩
  unfold clusteroneimage_pre
  rw [clusteroneimage_propagate_small knn cfg f st hp]
  rfl

/-- The boundary-test sweep is the fold of its body over the pixels. -/
theorem clusteroneimage_boundary_eq (kern : gsl_vector → gsl_vector → ℚ)
    (cfg : ImageConfig) (st : ImageState) :
    clusteroneimage_boundary kern cfg st =
      (List.range cfg.pnum).foldl (clusteroneimage_boundary_step kern cfg st)
        ⟨st.rsflags, st.untc, 0, 0⟩ := rfl

/-- One step of the boundary-test sweep: the flag of pixel `h` is written when the pixel
has label 0 and no flag, no other flag changes, and `uncls` counts the pixel when it has
label 0. -/
theorem clusteroneimage_boundary_step_spec (kern : gsl_vector → gsl_vector → ℚ)
    (cfg : ImageConfig) (st : ImageState) (b : BoundaryState) (h : Nat) :
    (∀ q, (clusteroneimage_boundary_step kern cfg st b h).rsflags q =
      if q = h ∧ st.cls h = 0 ∧ b.rsflags h = 0 then
        calrsflags kern cfg.data (st.cls h).toNat st.svf.a st.svf.rsq st.svf.sum st.X
      else b.rsflags q) ∧
    (clusteroneimage_boundary_step kern cfg st b h).uncls =
      b.uncls + (if st.cls h = 0 then 1 else 0) := by
  unfold clusteroneimage_boundary_step
  by_cases hc : st.cls h = 0
  · rw [if_pos hc]
    by_cases hf : b.rsflags h = 0
    · simp only [hf, if_true]
      split
      · refine ⟨fun q => ?_, by simp [hc]⟩
        simp only [Function.update_apply, hc, and_true]
      · refine ⟨fun q => ?_, by simp [hc]⟩
        simp only [Function.update_apply, hc, and_true]
    · simp only [hf, if_false]
      split
      · exact ⟨fun q => by simp [hf], by simp [hc]⟩
      · exact ⟨fun q => by simp [hf], by simp [hc]⟩
  · rw [if_neg hc]
    exact ⟨fun q => by simp [hc], by simp [hc]⟩

/-- The boundary-test sweep: a pixel `h < pnum` with label 0 and no flag holds the answer
of `calrsflags` for the pixel with index `cls[h]`, every other flag is as before, and
`uncls` counts the pixels with label 0. -/
theorem clusteroneimage_boundary_fold (kern : gsl_vector → gsl_vector → ℚ)
    (cfg : ImageConfig) (st : ImageState) :
    (∀ h, (clusteroneimage_boundary kern cfg st).rsflags h =
      if h < cfg.pnum ∧ st.cls h = 0 ∧ st.rsflags h = 0 then
        calrsflags kern cfg.data (st.cls h).toNat st.svf.a st.svf.rsq st.svf.sum st.X
      else st.rsflags h) ∧
    (clusteroneimage_boundary kern cfg st).uncls =
      (((Finset.range cfg.pnum).filter (fun h => st.cls h = 0)).card : Int) := by
  rw [clusteroneimage_boundary_eq]
  generalize cfg.pnum = k
  induction k with
  | zero =>
    refine ⟨fun h => ?_, ?_⟩
    · simp
    · simp
  | succ k ih =>
    rw [List.range_succ, List.foldl_append]
    simp only [List.foldl_cons, List.foldl_nil]
    obtain ⟨ih1, ih2⟩ := ih
    obtain ⟨s1, s2⟩ := clusteroneimage_boundary_step_spec kern cfg st
      ((List.range k).foldl (clusteroneimage_boundary_step kern cfg st)
        ⟨st.rsflags, st.untc, 0, 0⟩) k
    constructor
    · intro h
      rw [s1 h, ih1 k, ih1 h]
      have hk : ¬ k < k := Nat.lt_irrefl k
      simp only [hk, false_and, if_false]
      by_cases hhk : h = k
      · subst hhk
        simp [hk]
      · have e : (h < k + 1) = (h < k) := by
          apply propext
          omega
        simp only [hhk, false_and, if_false, e]
    · rw [s2, ih2, Finset.range_succ, Finset.filter_insert]
      by_cases hc : st.cls k = 0
      · simp only [hc, if_true]
        rw [Finset.card_insert_of_not_mem (by simp)]
        push_cast
        ring
      · simp only [hc, if_false, add_zero]

/-- The count `uncls` of the boundary-test sweep is not negative. -/
theorem clusteroneimage_boundary_uncls_nonneg (kern : gsl_vector → gsl_vector → ℚ)
    (cfg : ImageConfig) (st : ImageState) :
    0 ≤ (clusteroneimage_boundary kern cfg st).uncls := by
  rw [(clusteroneimage_boundary_fold kern cfg st).2]
  exact Int.natCast_nonneg _

/-- The closing part of a round, when it returns, leaves its argument `uncls` in
`olduncls`. -/
theorem clusteroneimage_batch_olduncls
    (work : gsl_matrix → ℚ → Int → (Nat → ℚ) → SVout → Option SVout)
    (cfg : ImageConfig) (sts : Nat → Nat) (uncls : Int) (st st1 : ImageState)
    (h : clusteroneimage_batch work cfg sts uncls st = some st1) : st1.olduncls = uncls := by
  unfold clusteroneimage_batch at h
  simp only at h
  split at h
  · exact absurd h (by simp)
  · split at h
    · exact absurd h (by simp)
    · simp only [Option.some.injEq] at h
      rw [← h]

/-- A round, when it returns, leaves in `olduncls` the count of the pixels with label 0
after its propagation loop. -/
theorem clusteroneimage_round_olduncls
    (work : gsl_matrix → ℚ → Int → (Nat → ℚ) → SVout → Option SVout)
    (kern : gsl_vector → gsl_vector → ℚ)
    (knn : ImageState → Nat → (Nat → Int) × (Nat → Int))
    (ck : svminfo → gsl_matrix → Nat → Int) (cfg : ImageConfig) (sts : Nat → Nat)
    (fuel : Nat) (st st1 : ImageState)
    (h : clusteroneimage_round work kern knn ck cfg sts fuel st = some st1) :
    ∃ s, clusteroneimage_propagate knn cfg fuel st = some s ∧
      st1.olduncls = (((Finset.range cfg.pnum).filter (fun p => s.cls p = 0)).card : Int) := by
  unfold clusteroneimage_round clusteroneimage_pre at h
  cases hp : clusteroneimage_propagate knn cfg fuel st with
  | none => rw [hp] at h; simp at h
  | some s =>
    rw [hp] at h
    simp only at h
    refine ⟨s, rfl, ?_⟩
    rw [clusteroneimage_batch_olduncls work cfg sts _ _ st1 h]
    exact (clusteroneimage_boundary_fold kern cfg s).2

/-- With `nsnum = 0` the round loop never ends: the count `uncls` is never below 0. -/
theorem clusteroneimage_loop_zero
    (work : gsl_matrix → ℚ → Int → (Nat → ℚ) → SVout → Option SVout)
    (kern : gsl_vector → gsl_vector → ℚ)
    (knn : ImageState → Nat → (Nat → Int) × (Nat → Int))
    (ck : svminfo → gsl_matrix → Nat → Int) (cfg : ImageConfig) (sts : Nat → Nat → Nat)
    (fuel : Nat) (n r : Nat) (st : ImageState) :
    clusteroneimage_loop work kern knn ck cfg sts fuel 0 n r st = none := by
  induction n generalizing r st with
  | zero => rfl
  | succ n ih =>
    unfold clusteroneimage_loop
    cases hr : clusteroneimage_round work kern knn ck cfg (sts r) fuel st with
    | none => rfl
    | some st1 =>
      simp only
      obtain ⟨s, _, hs⟩ := clusteroneimage_round_olduncls work kern knn ck cfg (sts r) fuel
        st st1 hr
      have hnn : ¬ st1.olduncls < 0 := by
        rw [hs]
        exact not_lt.mpr (Int.natCast_nonneg _)
      rw [if_neg hnn]
      exact ih (r + 1) st1

/-- The sampling loop takes nothing from positions whose pixels fail the test. -/
theorem sampling_loop_none (test : Nat → Bool) (sts : Nat → Nat) (bs : Nat) (n i m : Nat)
    (idx : Nat → Nat) (h : ∀ t, t < n → test (sts (i + t)) = false) :
    sampling_loop test sts bs n i m idx = (m, idx) := by
  induction n generalizing i with
  | zero => rfl
  | succ n ih =>
    unfold sampling_loop
    have h0 := h 0 (Nat.succ_pos n)
    rw [Nat.add_zero] at h0
    simp only [h0, Bool.false_eq_true, if_false]
    apply ih
    intro t ht
    have := h (t + 1) (by omega)
    have e : i + 1 + t = i + (t + 1) := by omega
    rw [e]
    exact this

/-- C21: on a raster in which every pixel is invalid the Init loop labels every pixel
-999 and counts no valid pixel, the first batch is empty, `SVclustering` is called all the
same on the matrix without columns (and returns -1 from its first check), and the round
loop never ends: `nsnum` is 0 and the count `uncls` is never below it. -/
theorem clusteroneimage_all_invalid
    (work : gsl_matrix → ℚ → Int → (Nat → ℚ) → SVout → Option SVout)
    (kern : gsl_vector → gsl_vector → ℚ)
    (knn : ImageState → Nat → (Nat → Int) × (Nat → Int))
    (ck : svminfo → gsl_matrix → Nat → Int) (cfg : ImageConfig) (ivd : ℚ)
    (sts0 : Nat → Nat) (sts : Nat → Nat → Nat) (fuel : Nat) (fresh : ImageState)
    (hinv : ∀ i, i < cfg.pnum → ∃ j, j < cfg.natb ∧ cfg.data j i ≤ ivd)
    (hsts : ∀ i, i < cfg.pnum → sts0 i < cfg.pnum) :
    (∀ i, i < cfg.pnum →
      (clusteroneimage_init cfg.data cfg.natb cfg.pnum ivd fresh.cls).1 i = -999) ∧
    (clusteroneimage_init cfg.data cfg.natb cfg.pnum ivd fresh.cls).2 = 0 ∧
    (samplingaset sts0 (clusteroneimage_init cfg.data cfg.natb cfg.pnum ivd fresh.cls).1
      cfg.pnum fresh.idx cfg.bs).1 = 0 ∧
    (∃ st, clusteroneimage_start work cfg ivd sts0 fresh = some st ∧ st.X.size2 = 0 ∧
      SVclustering work st.X cfg.v cfg.kt cfg.pa ⟨fresh.snc, fresh.scls, fresh.svf⟩ =
        some (-1, ⟨fresh.snc, fresh.scls, fresh.svf⟩) ∧
      (∀ i, i < cfg.pnum → st.cls i = -999) ∧ clusteroneimage_nsnum st.olduncls = 0) ∧
    ∀ rounds, clusteroneimage work kern knn ck cfg ivd sts0 sts fuel rounds fresh = none := by
  have hval : ∀ i, i < cfg.pnum → ¬ clusteroneimage_valid cfg.data ivd i cfg.natb 0 = true := by
    intro i hi hv
    rw [clusteroneimage_valid_iff] at hv
    obtain ⟨j, hj, hle⟩ := hinv i hi
    have := hv j hj
    rw [Nat.zero_add] at this
    exact this hle
  have hlab : ∀ i, i < cfg.pnum →
      (clusteroneimage_init cfg.data cfg.natb cfg.pnum ivd fresh.cls).1 i = -999 := by
    intro i hi
    rw [clusteroneimage_init_fold]
    simp only [hi, if_true]
    rw [if_neg (hval i hi)]
  have hcount : (clusteroneimage_init cfg.data cfg.natb cfg.pnum ivd fresh.cls).2 = 0 := by
    rw [clusteroneimage_init_fold]
    simp only
    have : (Finset.range cfg.pnum).filter
        (fun i => clusteroneimage_valid cfg.data ivd i cfg.natb 0 = true) = ∅ := by
      apply Finset.filter_eq_empty_iff.mpr
      intro i hi
      exact hval i (Finset.mem_range.mp hi)
    rw [this]
    rfl
  have hsam : samplingaset sts0 (clusteroneimage_init cfg.data cfg.natb cfg.pnum ivd
      fresh.cls).1 cfg.pnum fresh.idx cfg.bs = (0, fresh.idx) := by
    unfold samplingaset
    apply sampling_loop_none
    intro t ht
    rw [Nat.zero_add]
    apply decide_eq_false
    rw [hlab (sts0 t) (hsts t ht)]
    decide
  have hchk : ∀ X : gsl_matrix, X.size2 = 0 → ∀ out : SVout,
      SVclustering work X cfg.v cfg.kt cfg.pa out = some (-1, out) := by
    intro X hX out
    unfold SVclustering SVclustering_checks
    simp [hX]
  have hstart : ∃ st, clusteroneimage_start work cfg ivd sts0 fresh = some st ∧
      st.X.size2 = 0 ∧
      SVclustering work st.X cfg.v cfg.kt cfg.pa ⟨fresh.snc, fresh.scls, fresh.svf⟩ =
        some (-1, ⟨fresh.snc, fresh.scls, fresh.svf⟩) ∧
      (∀ i, i < cfg.pnum → st.cls i = -999) ∧ clusteroneimage_nsnum st.olduncls = 0 := by
    unfold clusteroneimage_start
    simp only [hsam]
    rw [hchk _ rfl]
    refine ⟨_, rfl, rfl, hchk _ rfl _, ?_, ?_⟩
    · intro i hi
      show clusteroneimage_assign_first fresh.idx fresh.scls 0 _ i = -999
      unfold clusteroneimage_assign_first
      simp only [List.range_zero, List.foldl_nil]
      exact hlab i hi
    · show clusteroneimage_nsnum
        (clusteroneimage_init cfg.data cfg.natb cfg.pnum ivd fresh.cls).2 = 0
      rw [hcount]
      rfl
  refine ⟨hlab, hcount, by rw [hsam], hstart, ?_⟩
  intro rounds
  obtain ⟨st, hst, _, _, _, hns⟩ := hstart
  unfold clusteroneimage
  rw [hst]
  simp only [hns]
  rw [clusteroneimage_loop_zero]

/-- C21, instance: two pixels with band value 0 and `ivd = 0`. -/
theorem clusteroneimage_all_invalid_witness :
    ((∀ i, i < cfgInvalid.pnum → ∃ j, j < cfgInvalid.natb ∧ cfgInvalid.data j i ≤ 0) ∧
      (∀ i, i < cfgInvalid.pnum → (id : Nat → Nat) i < cfgInvalid.pnum)) ∧
    ((∀ i, i < cfgInvalid.pnum →
      (clusteroneimage_init cfgInvalid.data cfgInvalid.natb cfgInvalid.pnum 0
        freshZero.cls).1 i = -999) ∧
    (clusteroneimage_init cfgInvalid.data cfgInvalid.natb cfgInvalid.pnum 0
      freshZero.cls).2 = 0 ∧
    (samplingaset id (clusteroneimage_init cfgInvalid.data cfgInvalid.natb cfgInvalid.pnum 0
      freshZero.cls).1 cfgInvalid.pnum freshZero.idx cfgInvalid.bs).1 = 0 ∧
    (∃ st, clusteroneimage_start work0 cfgInvalid 0 id freshZero = some st ∧
      st.X.size2 = 0 ∧
      SVclustering work0 st.X cfgInvalid.v cfgInvalid.kt cfgInvalid.pa
          ⟨freshZero.snc, freshZero.scls, freshZero.svf⟩ =
        some (-1, ⟨freshZero.snc, freshZero.scls, freshZero.svf⟩) ∧
      (∀ i, i < cfgInvalid.pnum → st.cls i = -999) ∧
      clusteroneimage_nsnum st.olduncls = 0) ∧
    ∀ rounds, clusteroneimage work0 kernOne knnNone ckNone cfgInvalid 0 id (fun _ => id) 1
      rounds freshZero = none) :=
  have hinv : ∀ i, i < cfgInvalid.pnum →
      ∃ j, j < cfgInvalid.natb ∧ cfgInvalid.data j i ≤ 0 :=
    fun _ _ => ⟨0, by decide, le_refl (0 : ℚ)⟩
  have hsts : ∀ i, i < cfgInvalid.pnum → (id : Nat → Nat) i < cfgInvalid.pnum :=
    fun _ hi => hi
  ⟨⟨hinv, hsts⟩,
    clusteroneimage_all_invalid work0 kernOne knnNone ckNone cfgInvalid 0 id (fun _ => id) 1
      freshZero hinv hsts⟩

/-- The cut-off `nsnum` of a count that is not negative is the integer part of 0.15
times the count. -/
theorem clusteroneimage_nsnum_floor (c : Nat) :
    clusteroneimage_nsnum (c : Int) = ⌊(15 / 100 : ℚ) * (c : ℚ)⌋ := by
  unfold clusteroneimage_nsnum
  rw [Int.tdiv_eq_ediv (by positivity) (by decide)]
  have h := Rat.floor_intCast_div_natCast ((c : Int) * 15) 100
  rw [show ((100 : Nat) : Int) = 100 from rfl] at h
  rw [← h]
  congr 1
  push_cast
  ring

/-- C22: the round loop of `clusteroneimage` ends at the end of a round if and only if
the number of pixels with label 0, counted after the propagation loop of that round, is
below `nsnum`, the integer part of 0.15 times the number of valid pixels counted by the
Init loop; otherwise the next round starts. -/
theorem clusteroneimage_exit_test
    (work : gsl_matrix → ℚ → Int → (Nat → ℚ) → SVout → Option SVout)
    (kern : gsl_vector → gsl_vector → ℚ)
    (knn : ImageState → Nat → (Nat → Int) × (Nat → Int))
    (ck : svminfo → gsl_matrix → Nat → Int) (cfg : ImageConfig) (ivd : ℚ)
    (cls0 : Nat → Int) (sts : Nat → Nat → Nat) (fuel n r : Nat) (st st1 : ImageState)
    (hround : clusteroneimage_round work kern knn ck cfg (sts r) fuel st = some st1) :
    clusteroneimage_nsnum (clusteroneimage_init cfg.data cfg.natb cfg.pnum ivd cls0).2 =
      ⌊(15 / 100 : ℚ) * (((Finset.range cfg.pnum).filter
        (fun i => ∀ j, j < cfg.natb → ivd < cfg.data j i)).card : ℚ)⌋ ∧
    ∃ s, clusteroneimage_propagate knn cfg fuel st = some s ∧
      ((((Finset.range cfg.pnum).filter (fun p => s.cls p = 0)).card : Int) <
          clusteroneimage_nsnum (clusteroneimage_init cfg.data cfg.natb cfg.pnum ivd cls0).2 →
        clusteroneimage_loop work kern knn ck cfg sts fuel
          (clusteroneimage_nsnum (clusteroneimage_init cfg.data cfg.natb cfg.pnum ivd cls0).2)
          (n + 1) r st = some st1) ∧
      (¬ (((Finset.range cfg.pnum).filter (fun p => s.cls p = 0)).card : Int) <
          clusteroneimage_nsnum (clusteroneimage_init cfg.data cfg.natb cfg.pnum ivd cls0).2 →
        clusteroneimage_loop work kern knn ck cfg sts fuel
          (clusteroneimage_nsnum (clusteroneimage_init cfg.data cfg.natb cfg.pnum ivd cls0).2)
          (n + 1) r st =
        clusteroneimage_loop work kern knn ck cfg sts fuel
          (clusteroneimage_nsnum (clusteroneimage_init cfg.data cfg.natb cfg.pnum ivd cls0).2)
          n (r + 1) st1) := by
  constructor
  · rw [clusteroneimage_init_fold]
    simp only
    rw [clusteroneimage_nsnum_floor]
    congr 4
    apply Finset.filter_congr
    intro i _
    rw [clusteroneimage_valid_iff]
    constructor
    · intro h j hj
      have := h j hj
      rw [Nat.zero_add] at this
      exact not_le.mp this
    · intro h j hj
      rw [Nat.zero_add]
      exact not_le.mpr (h j hj)
  · obtain ⟨s, hs, hcount⟩ :=
      clusteroneimage_round_olduncls work kern knn ck cfg (sts r) fuel st st1 hround
    refine ⟨s, hs, ?_, ?_⟩
    · intro hlt
      rw [← hcount] at hlt
      unfold clusteroneimage_loop
      rw [hround]
      simp only
      rw [if_pos hlt]
    · intro hge
      rw [← hcount] at hge
      conv_lhs => unfold clusteroneimage_loop
      rw [hround]
      simp only
      rw [if_neg hge]

/-- The first round on `cfg60` from `stateHead` returns `stateNext`. -/
theorem clusteroneimage_round_stateHead :
    clusteroneimage_round work0 kernOne knnNone ckNone cfg60 id 1 stateHead =
      some stateNext := by
  have hlo : 50 ≤ cfg60.bs := by decide
  have hhi : cfg60.bs ≤ 20000 := by decide
  have hv : cfg60.v < 1 := by
    show (1 / 2 : ℚ) < 1
    norm_num
  have hck : ∀ p, ckNone stateHead.svf stateHead.X p < stateHead.snc := by
    intro p
    show (0 : Int) < 2
    decide
  have hinv : LabelsBelow stateHead.cls cfg60.pnum (stateHead.nc + stateHead.snc - 1) := by
    intro p _
    show (if p < 50 then (1 : Int) else 0) < 1 + 2 - 1
    split
    · decide
    · decide
  have hpre : clusteroneimage_pre kernOne knnNone ckNone cfg60 1 stateHead =
      some (unclsMid, stateMid) := by
    have h := option_eq_some_getD _ (0, stateHead)
      (clusteroneimage_pre_small kernOne knnNone ckNone cfg60 1 stateHead (by decide)
        (by decide))
    unfold unclsMid stateMid
    rw [Prod.mk.eta]
    exact h
  have hmidX : stateMid.X.size2 = cfg60.bs := by
    have h := clusteroneimage_pre_keeps kernOne knnNone ckNone cfg60 1 stateHead stateMid
      unclsMid hck hinv hpre
    rw [h.2.2.2.2.1]
    rfl
  have hbatch : clusteroneimage_batch work0 cfg60 id unclsMid stateMid = some stateNext := by
    have h := option_eq_some_getD _ stateMid
      (clusteroneimage_batch_returns work0 cfg60 id unclsMid stateMid hlo hhi hv hmidX
        (fun _ _ => rfl))
    unfold stateNext
    exact h
  unfold clusteroneimage_round
  rw [hpre]
  exact hbatch

/-- C22, instance: the first round on `cfg60` from `stateHead`. -/
theorem clusteroneimage_exit_test_witness :
    clusteroneimage_round work0 kernOne knnNone ckNone cfg60 ((fun _ => id) 0) 1 stateHead =
      some stateNext ∧
    (clusteroneimage_nsnum (clusteroneimage_init cfg60.data cfg60.natb cfg60.pnum 0
        (fun _ => 0)).2 =
      ⌊(15 / 100 : ℚ) * (((Finset.range cfg60.pnum).filter
        (fun i => ∀ j, j < cfg60.natb → 0 < cfg60.data j i)).card : ℚ)⌋ ∧
    ∃ s, clusteroneimage_propagate knnNone cfg60 1 stateHead = some s ∧
      ((((Finset.range cfg60.pnum).filter (fun p => s.cls p = 0)).card : Int) <
          clusteroneimage_nsnum (clusteroneimage_init cfg60.data cfg60.natb cfg60.pnum 0
            (fun _ => 0)).2 →
        clusteroneimage_loop work0 kernOne knnNone ckNone cfg60 (fun _ => id) 1
          (clusteroneimage_nsnum (clusteroneimage_init cfg60.data cfg60.natb cfg60.pnum 0
            (fun _ => 0)).2)
          (0 + 1) 0 stateHead = some stateNext) ∧
      (¬ (((Finset.range cfg60.pnum).filter (fun p => s.cls p = 0)).card : Int) <
          clusteroneimage_nsnum (clusteroneimage_init cfg60.data cfg60.natb cfg60.pnum 0
            (fun _ => 0)).2 →
        clusteroneimage_loop work0 kernOne knnNone ckNone cfg60 (fun _ => id) 1
          (clusteroneimage_nsnum (clusteroneimage_init cfg60.data cfg60.natb cfg60.pnum 0
            (fun _ => 0)).2)
          (0 + 1) 0 stateHead =
        clusteroneimage_loop work0 kernOne knnNone ckNone cfg60 (fun _ => id) 1
          (clusteroneimage_nsnum (clusteroneimage_init cfg60.data cfg60.natb cfg60.pnum 0
            (fun _ => 0)).2)
          0 (0 + 1) stateNext)) :=
  ⟨clusteroneimage_round_stateHead,
    clusteroneimage_exit_test work0 kernOne knnNone ckNone cfg60 0 (fun _ => 0) (fun _ => id)
      1 0 0 stateHead stateNext clusteroneimage_round_stateHead⟩

/-- C23: in the boundary-test sweep a pixel `h` with label 0 and no flag gets the answer
of `calrsflags` for pixel 0, the pixel whose index is the label `cls[h] = 0` that the call
passes, and not the answer for its own band values; a flag already there is kept. -/
theorem clusteroneimage_boundary_flag_of_pixel_zero (kern : gsl_vector → gsl_vector → ℚ)
    (cfg : ImageConfig) (st : ImageState) (h : Nat) (hh : h < cfg.pnum)
    (hc : st.cls h = 0) :
    (st.rsflags h = 0 → (clusteroneimage_boundary kern cfg st).rsflags h =
      calrsflags kern cfg.data 0 st.svf.a st.svf.rsq st.svf.sum st.X) ∧
    (st.rsflags h ≠ 0 → (clusteroneimage_boundary kern cfg st).rsflags h = st.rsflags h) := by
  have hf := (clusteroneimage_boundary_fold kern cfg st).1 h
  constructor
  · intro h0
    rw [hf, if_pos ⟨hh, hc, h0⟩, hc]
    rfl
  · intro h0
    rw [hf, if_neg (fun hx => h0 hx.2.2)]

/-- C23, instance: pixel 1 of `cfgTwo` lies outside the sphere of `stateTwo` (its
distance is 16, above `rsq = 1`, so its own flag would be 2), pixel 0 lies inside, and the
sweep stores the flag 1 for pixel 1. -/
theorem clusteroneimage_boundary_flag_of_pixel_zero_witness :
    (1 < cfgTwo.pnum ∧ stateTwo.cls 1 = 0) ∧
    (calrsq kernLin ⟨stateTwo.X.size1, fun j => cfgTwo.data j 1⟩ stateTwo.svf.a stateTwo.X
        stateTwo.svf.sum = 16 ∧
      calrsflags kernLin cfgTwo.data 1 stateTwo.svf.a stateTwo.svf.rsq stateTwo.svf.sum
        stateTwo.X = 2 ∧
      calrsflags kernLin cfgTwo.data 0 stateTwo.svf.a stateTwo.svf.rsq stateTwo.svf.sum
        stateTwo.X = 1 ∧
      (clusteroneimage_boundary kernLin cfgTwo stateTwo).rsflags 1 = 1) ∧
    ((stateTwo.rsflags 1 = 0 → (clusteroneimage_boundary kernLin cfgTwo stateTwo).rsflags 1 =
      calrsflags kernLin cfgTwo.data 0 stateTwo.svf.a stateTwo.svf.rsq stateTwo.svf.sum
        stateTwo.X) ∧
    (stateTwo.rsflags 1 ≠ 0 →
      (clusteroneimage_boundary kernLin cfgTwo stateTwo).rsflags 1 = stateTwo.rsflags 1)) :=
  have hh : 1 < cfgTwo.pnum := by decide
  have hc : stateTwo.cls 1 = 0 := by decide
  have hd : calrsq kernLin ⟨stateTwo.X.size1, fun j => cfgTwo.data j 1⟩ stateTwo.svf.a
      stateTwo.X stateTwo.svf.sum = 16 := by
    have hr : List.range 1 = [0] := rfl
    simp [calrsq, kernLin, stateTwo, svfUnit, cfgTwo, gsl_matrix_column, hr]
    norm_num
  have h1 : calrsflags kernLin cfgTwo.data 1 stateTwo.svf.a stateTwo.svf.rsq
      stateTwo.svf.sum stateTwo.X = 2 := by
    unfold calrsflags
    simp only
    rw [hd]
    simp [stateTwo, svfUnit]
  have h0 : calrsflags kernLin cfgTwo.data 0 stateTwo.svf.a stateTwo.svf.rsq
      stateTwo.svf.sum stateTwo.X = 1 := by
    have hr : List.range 1 = [0] := rfl
    simp [calrsflags, calrsq, kernLin, stateTwo, svfUnit, cfgTwo, gsl_matrix_column, hr]
  have hthm := clusteroneimage_boundary_flag_of_pixel_zero kernLin cfgTwo stateTwo 1 hh hc
  ⟨⟨hh, hc⟩, ⟨hd, h1, h0, by rw [hthm.1 rfl, h0]⟩, hthm⟩

/-- The sampling loop from position `i` with `n` positions left and `m < bs` entries
taken: it takes the pixels that pass the test, in the order of `sts`, until `bs` entries
are there. -/
theorem sampling_loop_spec (test : Nat → Bool) (sts : Nat → Nat) (bs : Nat) (n i m : Nat)
    (idx : Nat → Nat) (hm : m < bs) :
    (sampling_loop test sts bs n i m idx).1 =
      min bs (m + (((List.range' i n).map sts).filter test).length) ∧
    (∀ k, m ≤ k → k < (sampling_loop test sts bs n i m idx).1 →
      (sampling_loop test sts bs n i m idx).2 k =
        (((List.range' i n).map sts).filter test).getD (k - m) 0) ∧
    (∀ k, k < m → (sampling_loop test sts bs n i m idx).2 k = idx k) := by
  induction n generalizing i m idx with
  | zero =>
    unfold sampling_loop
    simp only [List.range'_zero, List.map_nil, List.filter_nil, List.length_nil, Nat.add_zero]
    refine ⟨(Nat.min_eq_right (Nat.le_of_lt hm)).symm, ?_, fun k _ => trivial⟩
    intro k h1 h2
    omega
  | succ n ih =>
    unfold sampling_loop
    rw [List.range'_succ, List.map_cons]
    by_cases ht : test (sts i) = true
    · simp only [ht, if_true]
      rw [List.filter_cons_of_pos ht, List.length_cons]
      by_cases he : m + 1 = bs
      · simp only [he, if_true]
        refine ⟨?_, ?_, ?_⟩
        · rw [Nat.min_eq_left (by omega)]
        · intro k h1 h2
          have hk : k = m := by omega
          subst hk
          simp
        · intro k hk
          rw [Function.update_apply]
          have : k ≠ m := by omega
          simp [this]
      · simp only [he, if_false]
        obtain ⟨h1, h2, h3⟩ := ih (i + 1) (m + 1) (Function.update idx m (sts i)) (by omega)
        refine ⟨?_, ?_, ?_⟩
        · rw [h1]
          congr 1
          omega
        · intro k hk1 hk2
          by_cases hkm : k = m
          · subst hkm
            rw [h3 k (Nat.lt_succ_self k)]
            simp
          · rw [h2 k (by omega) hk2]
            have e : k - m = (k - (m + 1)) + 1 := by omega
            rw [e, List.getD_cons_succ]
        · intro k hk
          rw [h3 k (by omega), Function.update_apply]
          have : k ≠ m := by omega
          simp [this]
    · simp only [ht, if_false]
      rw [List.filter_cons_of_neg ht]
      exact ih (i + 1) m idx hm

/-- C24, as stated, fails: three unlabelled pixels, pixel 0 flagged outside the sphere and
the two others flagged inside, for a batch of two.  The two pixels that are not flagged
outside would fill the batch, yet `samplingexset` returns one index, the outside pixel. -/
theorem samplingexset_counterexample :
    (flagsOut0 0 = 2 ∧ flagsOut0 1 ≠ 2 ∧ flagsOut0 2 ≠ 2) ∧
    (samplingexset id (fun _ => 0) 3 (fun _ => 7) 2 flagsOut0).1 = 1 ∧
    (samplingexset id (fun _ => 0) 3 (fun _ => 7) 2 flagsOut0).2 0 = 0 := by
  decide

/-- C24, amended: `samplingexset` takes exactly the pixels with label 0 that are flagged
outside the sphere (`rsflags = 2`), in the order of the permutation, until `bs` of them
are in the batch; a pixel that is not flagged outside is never taken. -/
theorem samplingexset_takes_outside (sts : Nat → Nat) (cls : Nat → Int) (pnum : Nat)
    (idx : Nat → Nat) (bs : Nat) (rsflags : Nat → Int) (hbs : 0 < bs) :
    (samplingexset sts cls pnum idx bs rsflags).1 =
      min bs ((((List.range pnum).map sts).filter
        (fun p => decide (cls p = 0 ∧ rsflags p = 2))).length) ∧
    ∀ k, k < (samplingexset sts cls pnum idx bs rsflags).1 →
      (samplingexset sts cls pnum idx bs rsflags).2 k =
        (((List.range pnum).map sts).filter
          (fun p => decide (cls p = 0 ∧ rsflags p = 2))).getD k 0 ∧
      cls ((samplingexset sts cls pnum idx bs rsflags).2 k) = 0 ∧
      rsflags ((samplingexset sts cls pnum idx bs rsflags).2 k) = 2 := by
  unfold samplingexset
  obtain ⟨h1, h2, _⟩ := sampling_loop_spec (fun ind => decide (cls ind = 0 ∧ rsflags ind = 2))
    sts bs pnum 0 0 idx hbs
  rw [← List.range_eq_range'] at h1 h2
  rw [Nat.zero_add] at h1
  refine ⟨h1, ?_⟩
  intro k hk
  have hget := h2 k (Nat.zero_le k) hk
  rw [Nat.sub_zero] at hget
  refine ⟨hget, ?_⟩
  rw [h1] at hk
  have hlen : k < (((List.range pnum).map sts).filter
      (fun p => decide (cls p = 0 ∧ rsflags p = 2))).length :=
    lt_of_lt_of_le hk (Nat.min_le_right _ _)
  have hmem : (((List.range pnum).map sts).filter
      (fun p => decide (cls p = 0 ∧ rsflags p = 2))).getD k 0 ∈
      ((List.range pnum).map sts).filter (fun p => decide (cls p = 0 ∧ rsflags p = 2)) := by
    rw [List.getD_eq_getElem _ _ hlen]
    exact List.getElem_mem _
  rw [hget]
  exact of_decide_eq_true (List.mem_filter.mp hmem).2

/-- C24 amended, instance: the three pixels of the counterexample. -/
theorem samplingexset_takes_outside_witness :
    (0 < 2) ∧
    ((samplingexset id (fun _ => 0) 3 (fun _ => 7) 2 flagsOut0).1 =
      min 2 ((((List.range 3).map id).filter
        (fun p => decide ((fun _ => (0 : Int)) p = 0 ∧ flagsOut0 p = 2))).length) ∧
    ∀ k, k < (samplingexset id (fun _ => 0) 3 (fun _ => 7) 2 flagsOut0).1 →
      (samplingexset id (fun _ => 0) 3 (fun _ => 7) 2 flagsOut0).2 k =
        (((List.range 3).map id).filter
          (fun p => decide ((fun _ => (0 : Int)) p = 0 ∧ flagsOut0 p = 2))).getD k 0 ∧
      (fun _ => (0 : Int)) ((samplingexset id (fun _ => 0) 3 (fun _ => 7) 2 flagsOut0).2 k) = 0 ∧
      flagsOut0 ((samplingexset id (fun _ => 0) 3 (fun _ => 7) 2 flagsOut0).2 k) = 2) :=
  ⟨by decide, samplingexset_takes_outside id (fun _ => 0) 3 (fun _ => 7) 2 flagsOut0 (by decide)⟩

/-! ## Dual coefficient solver -/

open Finset in
/-- The value of `hyperdistance` is the sum of `K[r, ind] * a[r]` over the rows. -/
theorem hyperdistance_eq (K : gsl_matrix) (a : gsl_vector) (ind : Nat) :
    hyperdistance K a ind = ∑ r in range K.size1, gsl_matrix_get K r ind * a.data r := by
  unfold hyperdistance
  rw [gsl_blas_ddot_eq]
  rfl

/-- The sweep before the solver loop leaves `hyperdistance(K, a, k)` in `fw[k]`. -/
theorem SVclustering_heights_fw (K : gsl_matrix) (a fw0 : Nat → ℚ) (m k : Nat) (hk : k < m) :
    (SVclustering_heights K a fw0 m).fw k = hyperdistance K ⟨m, a⟩ k := by
  unfold SVclustering_heights
  have key : ∀ n, ∀ q, ((List.range n).foldl
      (fun (s : HeightState) (i : Nat) =>
        (⟨Function.update s.fw i (hyperdistance K ⟨m, a⟩ i),
          if hyperdistance K ⟨m, a⟩ i > s.maxph ∧ a i > 0 then hyperdistance K ⟨m, a⟩ i
          else s.maxph⟩ : HeightState))
      ⟨fw0, -1⟩).fw q = if q < n then hyperdistance K ⟨m, a⟩ q else fw0 q := by
    intro n
    induction n with
    | zero => intro q; simp
    | succ n ih =>
      intro q
      rw [List.range_succ, List.foldl_append]
      simp only [List.foldl_cons, List.foldl_nil, Function.update_apply]
      by_cases hq : q = n
      · subst hq
        simp
      · rw [ih q]
        have e : (q < n + 1) = (q < n) := by
          apply propext
          omega
        simp only [hq, if_false, e]
  have h := key m k
  simp only [hk, if_true] at h
  exact h

/-- C27: on scan type 1 the candidate set `list1` of `scan_kkt_v2` holds the samples with
`0 < a_k < rvm` and `|ph - fw[k]| > 1e-7`, the samples with `a_k = 0` and `fw[k] < ph`,
and the samples with `a_k > rvm` and `fw[k] > ph`: the test on the third group is
`a[k]>rvm`, so a sample pinned at the cap (`a_k = rvm > 0`) is no candidate, whatever its
height. -/
theorem scan_kkt_v2_candidates (m : Nat) (fw a : Nat → ℚ) (ph rvm : ℚ) :
    (∀ k, k ∈ scan_kkt_v2_list1 1 m fw a ph rvm ↔
      k < m ∧ ((0 < a k ∧ a k < rvm ∧ |ph - fw k| > 1 / 10000000) ∨
        (a k = 0 ∧ fw k < ph) ∨ (a k > rvm ∧ fw k > ph))) ∧
    (∀ k, 0 < rvm → a k = rvm → k ∉ scan_kkt_v2_list1 1 m fw a ph rvm) := by
  have hmem : ∀ k, k ∈ scan_kkt_v2_list1 1 m fw a ph rvm ↔
      k < m ∧ ((0 < a k ∧ a k < rvm ∧ |ph - fw k| > 1 / 10000000) ∨
        (a k = 0 ∧ fw k < ph) ∨ (a k > rvm ∧ fw k > ph)) := by
    intro k
    unfold scan_kkt_v2_list1 scan_kkt_v2_list2 scan_kkt_v2_esma
    simp only [if_true, List.mem_append, List.mem_filter, List.mem_range,
      decide_eq_true_eq]
    constructor
    · rintro (⟨hk, h1, h2, h3⟩ | ⟨hk, h⟩)
      · exact ⟨hk, Or.inl ⟨h2, h3, h1⟩⟩
      · exact ⟨hk, Or.inr h⟩
    · rintro ⟨hk, ⟨h2, h3, h1⟩ | h⟩
      · exact Or.inl ⟨hk, h1, h2, h3⟩
      · exact Or.inr ⟨hk, h⟩
  refine ⟨hmem, ?_⟩
  intro k hr hk hin
  obtain ⟨_, h⟩ := (hmem k).mp hin
  rcases h with ⟨_, h2, _⟩ | ⟨h1, _⟩ | ⟨h1, _⟩
  · rw [hk] at h2; exact lt_irrefl _ h2
  · rw [hk] at h1; rw [h1] at hr; exact lt_irrefl _ hr
  · rw [hk] at h1; exact lt_irrefl _ h1

/-- C27, instance: three coefficients 1/2, 1/4, 1/4 under the cap 1/2 with `ph = 1/2`;
sample 0 is pinned at the cap with height 1 above `ph` and is no candidate. -/
theorem scan_kkt_v2_candidates_witness :
    ((0 : ℚ) < 1 / 2 ∧ coeffs3 0 = 1 / 2 ∧ heightsCap 0 > 1 / 2) ∧
    0 ∉ scan_kkt_v2_list1 1 3 heightsCap coeffs3 (1 / 2) (1 / 2) :=
  ⟨⟨by norm_num, by simp [coeffs3], by simp [heightsCap]; norm_num⟩,
    (scan_kkt_v2_candidates 3 heightsCap coeffs3 (1 / 2) (1 / 2)).2 0 (by norm_num)
      (by simp [coeffs3])⟩

/-- The index returned by `gsl_stats_max_index` lies below `n` and no value among the
first `n` is larger than the value there. -/
theorem gsl_stats_max_index_spec (data : Nat → ℚ) (n : Nat) (hn : 1 ≤ n) :
    gsl_stats_max_index data n < n ∧
      ∀ x, x < n → data x ≤ data (gsl_stats_max_index data n) := by
  unfold gsl_stats_max_index
  have key : ∀ t, (((List.range t).foldl
      (fun (s : ℚ × Nat) (i : Nat) => if data i > s.1 then (data i, i) else s)
      (data 0, 0)).1 = data ((List.range t).foldl
      (fun (s : ℚ × Nat) (i : Nat) => if data i > s.1 then (data i, i) else s)
      (data 0, 0)).2) ∧
      ((List.range t).foldl
      (fun (s : ℚ × Nat) (i : Nat) => if data i > s.1 then (data i, i) else s)
      (data 0, 0)).2 ≤ t - 1 ∧
      ∀ x, x < t → data x ≤ data ((List.range t).foldl
      (fun (s : ℚ × Nat) (i : Nat) => if data i > s.1 then (data i, i) else s)
      (data 0, 0)).2 := by
    intro t
    induction t with
    | zero =>
      refine ⟨rfl, Nat.le_refl 0, ?_⟩
      intro x hx
      omega
    | succ t ih =>
      rw [List.range_succ, List.foldl_append]
      simp only [List.foldl_cons, List.foldl_nil]
      obtain ⟨h1, h2, h3⟩ := ih
      by_cases hgt : data t > ((List.range t).foldl
          (fun (s : ℚ × Nat) (i : Nat) => if data i > s.1 then (data i, i) else s)
          (data 0, 0)).1
      · rw [if_pos hgt]
        refine ⟨rfl, by simp, ?_⟩
        intro x hx
        show data x ≤ data t
        rcases Nat.lt_succ_iff_lt_or_eq.mp hx with h | h
        · have := h3 x h
          rw [← h1] at this
          exact le_of_lt (lt_of_le_of_lt this hgt)
        · rw [h]
      · rw [if_neg hgt]
        refine ⟨h1, by omega, ?_⟩
        intro x hx
        rcases Nat.lt_succ_iff_lt_or_eq.mp hx with h | h
        · exact h3 x h
        · rw [h, ← h1]
          exact not_lt.mp hgt
  obtain ⟨_, h2, h3⟩ := key n
  exact ⟨by omega, h3⟩

/-- An entry of a list below its length is a member. -/
theorem list_getD_mem (l : List Nat) (k : Nat) (hk : k < l.length) : l.getD k 0 ∈ l := by
  rw [List.getD_eq_getElem _ _ hk]
  exact List.getElem_mem _

/-- C28: when `scan_kkt_v2` does not return early, the pair `(i, j)` it writes is taken
from its first list and its second list, no pair of these lists has a larger
`|fw[i] - fw[j]|`, the return value is 1 if and only if that difference exceeds `1e-7`
and 0 otherwise, and on a scan type other than 1 both `a[i]` and `a[j]` lie strictly
between 0 and `rvm`. -/
theorem scan_kkt_v2_max_pair (ty : Int) (m : Nat) (fw a : Nat → ℚ) (ph rvm : ℚ)
    (i0 j0 : Nat)
    (hpair : ¬ ((scan_kkt_v2_list2 m fw a ph rvm).length = 0 ∧
      ¬ (scan_kkt_v2_list1 ty m fw a ph rvm).length > 1)) :
    (scan_kkt_v2 ty m fw a ph rvm i0 j0).i ∈ scan_kkt_v2_list1 ty m fw a ph rvm ∧
    (scan_kkt_v2 ty m fw a ph rvm i0 j0).j ∈ scan_kkt_v2_second ty m fw a ph rvm ∧
    (∀ x, x ∈ scan_kkt_v2_list1 ty m fw a ph rvm →
      ∀ y, y ∈ scan_kkt_v2_second ty m fw a ph rvm →
        |fw x - fw y| ≤ |fw (scan_kkt_v2 ty m fw a ph rvm i0 j0).i -
          fw (scan_kkt_v2 ty m fw a ph rvm i0 j0).j|) ∧
    ((scan_kkt_v2 ty m fw a ph rvm i0 j0).found = 1 ↔
      |fw (scan_kkt_v2 ty m fw a ph rvm i0 j0).i -
        fw (scan_kkt_v2 ty m fw a ph rvm i0 j0).j| > 1 / 10000000) ∧
    ((scan_kkt_v2 ty m fw a ph rvm i0 j0).found = 1 ∨
      (scan_kkt_v2 ty m fw a ph rvm i0 j0).found = 0) ∧
    (ty ≠ 1 →
      (0 < a (scan_kkt_v2 ty m fw a ph rvm i0 j0).i ∧
        a (scan_kkt_v2 ty m fw a ph rvm i0 j0).i < rvm) ∧
      (0 < a (scan_kkt_v2 ty m fw a ph rvm i0 j0).j ∧
        a (scan_kkt_v2 ty m fw a ph rvm i0 j0).j < rvm)) := by
  have hsub : (scan_kkt_v2_list2 m fw a ph rvm).length ≤
      (scan_kkt_v2_list1 ty m fw a ph rvm).length := by
    unfold scan_kkt_v2_list1
    rw [List.length_append]
    omega
  have hc2 : 1 ≤ (scan_kkt_v2_second ty m fw a ph rvm).length := by
    unfold scan_kkt_v2_second
    by_cases h0 : (scan_kkt_v2_list2 m fw a ph rvm).length = 0
    · rw [if_pos h0]
      by_contra hlt
      exact hpair ⟨h0, by omega⟩
    · rw [if_neg h0]
      omega
  have hc1 : 1 ≤ (scan_kkt_v2_list1 ty m fw a ph rvm).length := by
    by_cases h0 : (scan_kkt_v2_list2 m fw a ph rvm).length = 0
    · by_contra hlt
      exact hpair ⟨h0, by omega⟩
    · omega
  have hss : 1 ≤ (scan_kkt_v2_list1 ty m fw a ph rvm).length *
      (scan_kkt_v2_second ty m fw a ph rvm).length := Nat.mul_pos hc1 hc2
  obtain ⟨hgd, hmax⟩ := gsl_stats_max_index_spec
    (scan_kkt_v2_phdf fw (scan_kkt_v2_list1 ty m fw a ph rvm)
      (scan_kkt_v2_second ty m fw a ph rvm) (fun _ => 0)) _ hss
  have hk : gsl_stats_max_index
      (scan_kkt_v2_phdf fw (scan_kkt_v2_list1 ty m fw a ph rvm)
        (scan_kkt_v2_second ty m fw a ph rvm) (fun _ => 0))
      ((scan_kkt_v2_list1 ty m fw a ph rvm).length *
        (scan_kkt_v2_second ty m fw a ph rvm).length) /
      (scan_kkt_v2_second ty m fw a ph rvm).length <
      (scan_kkt_v2_list1 ty m fw a ph rvm).length :=
    (Nat.div_lt_iff_lt_mul hc2).mpr hgd
  have hp : gsl_stats_max_index
      (scan_kkt_v2_phdf fw (scan_kkt_v2_list1 ty m fw a ph rvm)
        (scan_kkt_v2_second ty m fw a ph rvm) (fun _ => 0))
      ((scan_kkt_v2_list1 ty m fw a ph rvm).length *
        (scan_kkt_v2_second ty m fw a ph rvm).length) %
      (scan_kkt_v2_second ty m fw a ph rvm).length <
      (scan_kkt_v2_second ty m fw a ph rvm).length := Nat.mod_lt _ hc2
  have hval : scan_kkt_v2_phdf fw (scan_kkt_v2_list1 ty m fw a ph rvm)
      (scan_kkt_v2_second ty m fw a ph rvm) (fun _ => 0)
      (gsl_stats_max_index
        (scan_kkt_v2_phdf fw (scan_kkt_v2_list1 ty m fw a ph rvm)
          (scan_kkt_v2_second ty m fw a ph rvm) (fun _ => 0))
        ((scan_kkt_v2_list1 ty m fw a ph rvm).length *
          (scan_kkt_v2_second ty m fw a ph rvm).length)) =
      |fw (scan_kkt_v2 ty m fw a ph rvm i0 j0).i -
        fw (scan_kkt_v2 ty m fw a ph rvm i0 j0).j| := by
    have hphdf : ∀ n, n < (scan_kkt_v2_list1 ty m fw a ph rvm).length *
        (scan_kkt_v2_second ty m fw a ph rvm).length →
        scan_kkt_v2_phdf fw (scan_kkt_v2_list1 ty m fw a ph rvm)
          (scan_kkt_v2_second ty m fw a ph rvm) (fun _ => 0) n =
        |fw ((scan_kkt_v2_list1 ty m fw a ph rvm).getD
            (n / (scan_kkt_v2_second ty m fw a ph rvm).length) 0) -
          fw ((scan_kkt_v2_second ty m fw a ph rvm).getD
            (n % (scan_kkt_v2_second ty m fw a ph rvm).length) 0)| := by
      intro n hn
      unfold scan_kkt_v2_phdf
      rw [if_pos hn]
    unfold scan_kkt_v2
    simp only [if_neg hpair]
    exact hphdf _ hgd
  have hi : (scan_kkt_v2 ty m fw a ph rvm i0 j0).i ∈ scan_kkt_v2_list1 ty m fw a ph rvm := by
    unfold scan_kkt_v2
    simp only [if_neg hpair]
    exact list_getD_mem _ _ hk
  have hj : (scan_kkt_v2 ty m fw a ph rvm i0 j0).j ∈
      scan_kkt_v2_second ty m fw a ph rvm := by
    unfold scan_kkt_v2
    simp only [if_neg hpair]
    exact list_getD_mem _ _ hp
  have hfound : (scan_kkt_v2 ty m fw a ph rvm i0 j0).found =
      if |fw (scan_kkt_v2 ty m fw a ph rvm i0 j0).i -
        fw (scan_kkt_v2 ty m fw a ph rvm i0 j0).j| > 1 / 10000000 then 1 else 0 := by
    rw [← hval]
    unfold scan_kkt_v2
    simp only [if_neg hpair]
    rfl
  refine ⟨hi, hj, ?_, ?_, ?_, ?_⟩
  · intro x hx y hy
    obtain ⟨k, hk1, hkx⟩ := List.getElem_of_mem hx
    obtain ⟨p, hp1, hpy⟩ := List.getElem_of_mem hy
    have hn : k * (scan_kkt_v2_second ty m fw a ph rvm).length + p <
        (scan_kkt_v2_list1 ty m fw a ph rvm).length *
          (scan_kkt_v2_second ty m fw a ph rvm).length := by
      calc k * (scan_kkt_v2_second ty m fw a ph rvm).length + p
          < k * (scan_kkt_v2_second ty m fw a ph rvm).length +
              (scan_kkt_v2_second ty m fw a ph rvm).length := by omega
        _ = (k + 1) * (scan_kkt_v2_second ty m fw a ph rvm).length := by ring
        _ ≤ (scan_kkt_v2_list1 ty m fw a ph rvm).length *
              (scan_kkt_v2_second ty m fw a ph rvm).length :=
            Nat.mul_le_mul_right _ hk1
    have h := hmax _ hn
    rw [hval] at h
    have hdiv : (k * (scan_kkt_v2_second ty m fw a ph rvm).length + p) /
        (scan_kkt_v2_second ty m fw a ph rvm).length = k := by
      rw [Nat.mul_comm, Nat.mul_add_div hc2, Nat.div_eq_of_lt hp1, Nat.add_zero]
    have hmod : (k * (scan_kkt_v2_second ty m fw a ph rvm).length + p) %
        (scan_kkt_v2_second ty m fw a ph rvm).length = p := by
      rw [Nat.mul_comm, Nat.mul_add_mod, Nat.mod_eq_of_lt hp1]
    have hv : scan_kkt_v2_phdf fw (scan_kkt_v2_list1 ty m fw a ph rvm)
        (scan_kkt_v2_second ty m fw a ph rvm) (fun _ => 0)
        (k * (scan_kkt_v2_second ty m fw a ph rvm).length + p) = |fw x - fw y| := by
      unfold scan_kkt_v2_phdf
      rw [if_pos hn, hdiv, hmod, List.getD_eq_getElem _ _ hk1, List.getD_eq_getElem _ _ hp1,
        hkx, hpy]
    rw [hv] at h
    exact h
  · rw [hfound]
    constructor
    · intro h
      by_contra hc
      rw [if_neg hc] at h
      exact absurd h (by decide)
    · intro h
      rw [if_pos h]
  · rw [hfound]
    split
    · left; rfl
    · right; rfl
  · intro hty
    have h1 : scan_kkt_v2_list1 ty m fw a ph rvm = scan_kkt_v2_list2 m fw a ph rvm := by
      unfold scan_kkt_v2_list1
      rw [if_neg hty, List.append_nil]
    have h0 : ¬ (scan_kkt_v2_list2 m fw a ph rvm).length = 0 := by
      intro h0
      apply hpair
      refine ⟨h0, ?_⟩
      rw [h1, h0]
      omega
    have h2 : scan_kkt_v2_second ty m fw a ph rvm = scan_kkt_v2_list2 m fw a ph rvm := by
      unfold scan_kkt_v2_second
      rw [if_neg h0]
    rw [h1] at hi
    rw [h2] at hj
    have hfree : ∀ k, k ∈ scan_kkt_v2_list2 m fw a ph rvm → 0 < a k ∧ a k < rvm := by
      intro k hk
      unfold scan_kkt_v2_list2 at hk
      have := of_decide_eq_true (List.mem_filter.mp hk).2
      exact ⟨this.2.1, this.2.2⟩
    exact ⟨hfree _ hi, hfree _ hj⟩

/-- Sample 1 of the coefficients 1/2, 1/3, 1/6, with heights equal to the coefficients,
`ph = 1/2` and cap 1, is in `list2`. -/
theorem scan_kkt_v2_list2_coeffsStep :
    1 ∈ scan_kkt_v2_list2 3 coeffsStep coeffsStep (1 / 2) 1 := by
  unfold scan_kkt_v2_list2
  rw [List.mem_filter]
  refine ⟨List.mem_range.mpr (by decide), decide_eq_true ⟨?_, ?_, ?_⟩⟩
  · have h : (1 / 2 : ℚ) - coeffsStep 1 = 1 / 6 := by
      simp [coeffsStep]
      norm_num
    rw [h, abs_of_pos (by norm_num)]
    unfold scan_kkt_v2_esma
    norm_num
  · simp [coeffsStep]
  · simp [coeffsStep]
    norm_num

/-- C28, instance: the coefficients 1/2, 1/3, 1/6 with heights equal to the
coefficients, `ph = 1/2` and cap 1, on scan type 1. -/
theorem scan_kkt_v2_max_pair_witness :
    (¬ ((scan_kkt_v2_list2 3 coeffsStep coeffsStep (1 / 2) 1).length = 0 ∧
      ¬ (scan_kkt_v2_list1 1 3 coeffsStep coeffsStep (1 / 2) 1).length > 1)) ∧
    ((scan_kkt_v2 1 3 coeffsStep coeffsStep (1 / 2) 1 0 0).i ∈
      scan_kkt_v2_list1 1 3 coeffsStep coeffsStep (1 / 2) 1 ∧
    (scan_kkt_v2 1 3 coeffsStep coeffsStep (1 / 2) 1 0 0).j ∈
      scan_kkt_v2_second 1 3 coeffsStep coeffsStep (1 / 2) 1 ∧
    (∀ x, x ∈ scan_kkt_v2_list1 1 3 coeffsStep coeffsStep (1 / 2) 1 →
      ∀ y, y ∈ scan_kkt_v2_second 1 3 coeffsStep coeffsStep (1 / 2) 1 →
        |coeffsStep x - coeffsStep y| ≤
          |coeffsStep (scan_kkt_v2 1 3 coeffsStep coeffsStep (1 / 2) 1 0 0).i -
            coeffsStep (scan_kkt_v2 1 3 coeffsStep coeffsStep (1 / 2) 1 0 0).j|) ∧
    ((scan_kkt_v2 1 3 coeffsStep coeffsStep (1 / 2) 1 0 0).found = 1 ↔
      |coeffsStep (scan_kkt_v2 1 3 coeffsStep coeffsStep (1 / 2) 1 0 0).i -
        coeffsStep (scan_kkt_v2 1 3 coeffsStep coeffsStep (1 / 2) 1 0 0).j| > 1 / 10000000) ∧
    ((scan_kkt_v2 1 3 coeffsStep coeffsStep (1 / 2) 1 0 0).found = 1 ∨
      (scan_kkt_v2 1 3 coeffsStep coeffsStep (1 / 2) 1 0 0).found = 0) ∧
    ((1 : Int) ≠ 1 →
      (0 < coeffsStep (scan_kkt_v2 1 3 coeffsStep coeffsStep (1 / 2) 1 0 0).i ∧
        coeffsStep (scan_kkt_v2 1 3 coeffsStep coeffsStep (1 / 2) 1 0 0).i < 1) ∧
      (0 < coeffsStep (scan_kkt_v2 1 3 coeffsStep coeffsStep (1 / 2) 1 0 0).j ∧
        coeffsStep (scan_kkt_v2 1 3 coeffsStep coeffsStep (1 / 2) 1 0 0).j < 1))) :=
  have hpair : ¬ ((scan_kkt_v2_list2 3 coeffsStep coeffsStep (1 / 2) 1).length = 0 ∧
      ¬ (scan_kkt_v2_list1 1 3 coeffsStep coeffsStep (1 / 2) 1).length > 1) := by
    intro h
    have hnil := List.length_eq_zero.mp h.1
    have hmem := scan_kkt_v2_list2_coeffsStep
    rw [hnil] at hmem
    exact absurd hmem (List.not_mem_nil 1)
  ⟨hpair, scan_kkt_v2_max_pair 1 3 coeffsStep coeffsStep (1 / 2) 1 0 0 hpair⟩

/-- The inner loop ends with a scan of type 2 that finds no pair. -/
theorem SVclustering_inner_end (K : gsl_matrix) (m : Nat) (rvm : ℚ) (fuel : Nat)
    (s s1 : SolverState) (h : SVclustering_inner K m rvm fuel s = some s1) (i0 j0 : Nat) :
    (scan_kkt_v2 2 m s1.fw s1.a s1.ph rvm i0 j0).found = 0 := by
  have hfound : ∀ (fw a : Nat → ℚ) (ph : ℚ) (x y x1 y1 : Nat),
      (scan_kkt_v2 2 m fw a ph rvm x y).found = (scan_kkt_v2 2 m fw a ph rvm x1 y1).found := by
    intro fw a ph x y x1 y1
    unfold scan_kkt_v2
    simp only
    split <;> rfl
  induction fuel generalizing s with
  | zero => simp [SVclustering_inner] at h
  | succ fuel ih =>
    unfold SVclustering_inner at h
    simp only at h
    split at h
    · exact ih _ h
    · rename_i hnf
      simp only [Option.some.injEq] at h
      rw [← h]
      simp only
      rw [hfound s.fw s.a s.ph i0 j0 s.i s.j]
      exact not_not.mp hnf

/-- The first scan from `stateStep` finds the pair (1, 2). -/
theorem scan_kkt_v2_stateStep (i0 j0 : Nat) :
    scan_kkt_v2 1 3 coeffsStep coeffsStep (1 / 2) 1 i0 j0 = ⟨1, 1, 2⟩ := by
  have hr : List.range 3 = [0, 1, 2] := rfl
  have hl2 : scan_kkt_v2_list2 3 coeffsStep coeffsStep (1 / 2) 1 = [1, 2] := by
    unfold scan_kkt_v2_list2
    rw [hr]
    simp [List.filter_cons, coeffsStep, scan_kkt_v2_esma]
    norm_num [abs_of_pos]
  have hl1 : scan_kkt_v2_list1 1 3 coeffsStep coeffsStep (1 / 2) 1 = [1, 2] := by
    unfold scan_kkt_v2_list1
    rw [hl2, hr]
    simp [List.filter_cons, coeffsStep]
    norm_num
  have hs : scan_kkt_v2_second 1 3 coeffsStep coeffsStep (1 / 2) 1 = [1, 2] := by
    unfold scan_kkt_v2_second
    rw [hl2, hl1]
    rfl
  have hr4 : List.range 4 = [0, 1, 2, 3] := rfl
  unfold scan_kkt_v2
  simp only [hl2, hl1, hs]
  simp [scan_kkt_v2_phdf, gsl_stats_max_index, hr4, coeffsStep, scan_kkt_v2_esma]
  norm_num [abs_of_pos, abs_of_neg]

/-- C30: with no stored support vector (`svf->svnum = 0`) the loop of `checkcls` does not
run and the function answers from the variables `adj` and `lab` as they were before any
assignment: it returns `lab` when `adj` happens to hold true, although no support vector
passes the adjacency test, and 0 only when `adj` happens to hold false. -/
theorem checkcls_no_support_vector (kern : gsl_vector → gsl_vector → ℚ) (sts : Nat → Nat)
    (lab0 : Int) (data : Nat → Nat → ℚ) (ind sam : Nat) (X : gsl_matrix) (svf : svminfo)
    (hps : svf.svnum = 0) :
    checkcls kern sts true lab0 data ind sam X svf = lab0 ∧
    checkcls kern sts false lab0 data ind sam X svf = 0 := by
  unfold checkcls
  simp only [hps, Int.toNat_zero]
  constructor
  · unfold checkcls_loop
    simp
  · unfold checkcls_loop
    simp

/-- C30, instance: the record `svfEmpty` (grouped, without support vectors) and `lab`
holding 7: `checkcls` returns 7 for pixel 1 of `cfgTwo`. -/
theorem checkcls_no_support_vector_witness :
    (svfEmpty.svnum = 0 ∧ SvfGrouped svfEmpty) ∧
    (checkcls kernLin id true 7 cfgTwo.data 1 30 ⟨1, 1, fun _ _ => 1⟩ svfEmpty = 7 ∧
    checkcls kernLin id false 7 cfgTwo.data 1 30 ⟨1, 1, fun _ _ => 1⟩ svfEmpty = 0) :=
  have hg : SvfGrouped svfEmpty := by
    refine ⟨by decide, rfl, rfl, ?_⟩
    intro g hg
    exact le_refl _
  ⟨⟨rfl, hg⟩,
    checkcls_no_support_vector kernLin id 7 cfgTwo.data 1 30 ⟨1, 1, fun _ _ => 1⟩ svfEmpty rfl⟩

/-- A sort permutation reaches every index below `m`. -/
theorem isSortIndex_surj (sts : Nat → Nat) (a : Nat → ℚ) (m : Nat)
    (h : IsSortIndex sts a m) (i : Nat) (hi : i < m) : ∃ k, k < m ∧ sts k = i := by
  obtain ⟨h1, h2, _⟩ := h
  have himg : (Finset.range m).image sts = Finset.range m := by
    apply Finset.eq_of_subset_of_card_le
    · intro x hx
      rw [Finset.mem_image] at hx
      obtain ⟨k, hk, rfl⟩ := hx
      exact Finset.mem_range.mpr (h1 k (Finset.mem_range.mp hk))
    · rw [Finset.card_image_of_injOn]
      intro x hx y hy hxy
      exact h2 x y (Finset.mem_range.mp hx) (Finset.mem_range.mp hy) hxy
  have hmem : i ∈ (Finset.range m).image sts := by
    rw [himg]
    exact Finset.mem_range.mpr hi
  rw [Finset.mem_image] at hmem
  obtain ⟨k, hk, hki⟩ := hmem
  exact ⟨k, Finset.mem_range.mp hk, hki⟩

/-- The label loop of `checkcls` from `lab` with `n` values: it stops at the first value
whose cut range holds `i`, and it ends at `lab + n` when there is none. -/
theorem checkcls_lab_spec (svcuts : Nat → Int) (i : Int) (n lab : Nat) :
    (lab ≤ checkcls_lab svcuts i n lab ∧ checkcls_lab svcuts i n lab < lab + n ∧
      (svcuts (checkcls_lab svcuts i n lab - 1) ≤ i ∧
        i < svcuts (checkcls_lab svcuts i n lab)) ∧
      ∀ g, lab ≤ g → g < checkcls_lab svcuts i n lab →
        ¬ (svcuts (g - 1) ≤ i ∧ i < svcuts g)) ∨
    (checkcls_lab svcuts i n lab = lab + n ∧
      ∀ g, lab ≤ g → g < lab + n → ¬ (svcuts (g - 1) ≤ i ∧ i < svcuts g)) := by
  induction n generalizing lab with
  | zero =>
    right
    unfold checkcls_lab
    exact ⟨rfl, fun g h1 h2 => by omega⟩
  | succ n ih =>
    unfold checkcls_lab
    by_cases hc : svcuts (lab - 1) ≤ i ∧ i < svcuts lab
    · rw [if_pos hc]
      left
      exact ⟨le_refl _, by omega, hc, fun g h1 h2 => by omega⟩
    · rw [if_neg hc]
      rcases ih (lab + 1) with ⟨h1, h2, h3, h4⟩ | ⟨h1, h2⟩
      · left
        refine ⟨by omega, by omega, h3, ?_⟩
        intro g hg1 hg2
        rcases Nat.eq_or_lt_of_le hg1 with he | hl
        · rw [← he]; exact hc
        · exact h4 g hl hg2
      · right
        refine ⟨by omega, ?_⟩
        intro g hg1 hg2
        rcases Nat.eq_or_lt_of_le hg1 with he | hl
        · rw [← he]; exact hc
        · exact h2 g hl (by omega)

/-- The cuts of a grouped record ascend over any distance. -/
theorem svfGrouped_mono (svf : svminfo) (hg : SvfGrouped svf) (g g1 : Nat) (hle : g ≤ g1)
    (hlt : (g1 : Int) < svf.nc) : svf.svcuts g ≤ svf.svcuts g1 := by
  induction g1 with
  | zero =>
    have : g = 0 := by omega
    rw [this]
  | succ k ih =>
    rcases Nat.eq_or_lt_of_le hle with he | hl
    · rw [he]
    · have h1 := ih (by omega) (by push_cast at hlt; omega)
      have h2 := hg.2.2.2 k (by push_cast at hlt; omega)
      exact le_trans h1 h2

/-- On a grouped record the label loop of `checkcls` finds, for a position `i` below
`svnum`, the one group `lab` in `1..nc-1` whose cut range holds `i`. -/
theorem checkcls_lab_grouped (svf : svminfo) (hg : SvfGrouped svf) (i : Nat)
    (hi : (i : Int) < svf.svnum) :
    1 ≤ checkcls_lab svf.svcuts (i : Int) (svf.nc - 1).toNat 1 ∧
    ((checkcls_lab svf.svcuts (i : Int) (svf.nc - 1).toNat 1 : Nat) : Int) < svf.nc ∧
    svf.svcuts (checkcls_lab svf.svcuts (i : Int) (svf.nc - 1).toNat 1 - 1) ≤ (i : Int) ∧
    (i : Int) < svf.svcuts (checkcls_lab svf.svcuts (i : Int) (svf.nc - 1).toNat 1) ∧
    ∀ g : Nat, 1 ≤ g → (g : Int) < svf.nc → svf.svcuts (g - 1) ≤ (i : Int) →
      (i : Int) < svf.svcuts g →
      g = checkcls_lab svf.svcuts (i : Int) (svf.nc - 1).toNat 1 := by
  obtain ⟨hnc, h0, hlast, _⟩ := hg
  have hex : ∃ g, 1 ≤ g ∧ (i : Int) < svf.svcuts g := by
    refine ⟨(svf.nc - 1).toNat, ?_, by rw [hlast]; exact hi⟩
    by_contra hlt
    have hz : (svf.nc - 1).toNat = 0 := by omega
    rw [hz, h0] at hlast
    have : (0 : Int) ≤ (i : Int) := Int.natCast_nonneg i
    omega
  classical
  have hfind := Nat.find_spec hex
  have hmin : ∀ g, g < Nat.find hex → ¬ (1 ≤ g ∧ (i : Int) < svf.svcuts g) :=
    fun g hgl => Nat.find_min hex hgl
  have hle : Nat.find hex ≤ (svf.nc - 1).toNat := by
    apply Nat.find_min'
    refine ⟨?_, by rw [hlast]; exact hi⟩
    by_contra hlt
    have hz : (svf.nc - 1).toNat = 0 := by omega
    rw [hz, h0] at hlast
    have : (0 : Int) ≤ (i : Int) := Int.natCast_nonneg i
    omega
  have hcond : svf.svcuts (Nat.find hex - 1) ≤ (i : Int) ∧ (i : Int) < svf.svcuts (Nat.find hex) := by
    refine ⟨?_, hfind.2⟩
    by_cases h1 : Nat.find hex - 1 = 0
    · rw [h1, h0]
      exact Int.natCast_nonneg i
    · have := hmin (Nat.find hex - 1) (by omega)
      by_contra hc
      exact this ⟨by omega, not_le.mp hc⟩
  have hfound : checkcls_lab svf.svcuts (i : Int) (svf.nc - 1).toNat 1 < 1 + (svf.nc - 1).toNat ∧
      (svf.svcuts (checkcls_lab svf.svcuts (i : Int) (svf.nc - 1).toNat 1 - 1) ≤ (i : Int) ∧
        (i : Int) < svf.svcuts (checkcls_lab svf.svcuts (i : Int) (svf.nc - 1).toNat 1)) ∧
      1 ≤ checkcls_lab svf.svcuts (i : Int) (svf.nc - 1).toNat 1 := by
    rcases checkcls_lab_spec svf.svcuts (i : Int) (svf.nc - 1).toNat 1 with
      ⟨h1, h2, h3, _⟩ | ⟨_, h2⟩
    · exact ⟨h2, h3, h1⟩
    · exact absurd hcond (h2 (Nat.find hex) hfind.1 (by omega))
  obtain ⟨hr1, hr2, hr3⟩ := hfound
  refine ⟨hr3, by omega, hr2.1, hr2.2, ?_⟩
  intro g hg1 hg2 hc1 hc2
  have hmono : ∀ x y : Nat, x ≤ y → (y : Int) < svf.nc → svf.svcuts x ≤ svf.svcuts y :=
    fun x y hxy hy => svfGrouped_mono svf ⟨hnc, h0, hlast, by assumption⟩ x y hxy hy
  rcases Nat.lt_trichotomy g (checkcls_lab svf.svcuts (i : Int) (svf.nc - 1).toNat 1) with
    h | h | h
  · have := hmono g (checkcls_lab svf.svcuts (i : Int) (svf.nc - 1).toNat 1 - 1) (by omega)
      (by omega)
    omega
  · exact h
  · have := hmono (checkcls_lab svf.svcuts (i : Int) (svf.nc - 1).toNat 1) (g - 1) (by omega)
      (by omega)
    omega

/-- The main loop of `checkcls` over `n` positions from `h`: when no position passes it
leaves `adj` false (and `lab` alone) after at least one pass; otherwise it stops at the
first position that passes, with `adj` true and `lab` the group of that support vector. -/
theorem checkcls_loop_spec (adjf : Nat → Bool) (sts : Nat → Nat) (svcuts : Nat → Int)
    (nc : Int) (n h : Nat) (s : Bool × Int) (hn : 1 ≤ n) :
    ((∀ k, k < n → adjf (sts (h + k)) = false) ∧
      checkcls_loop adjf sts svcuts nc n h s = (false, s.2)) ∨
    (∃ k, k < n ∧ adjf (sts (h + k)) = true ∧
      (∀ k1, k1 < k → adjf (sts (h + k1)) = false) ∧
      checkcls_loop adjf sts svcuts nc n h s =
        (true, ((checkcls_lab svcuts ((sts (h + k) : Nat) : Int) (nc - 1).toNat 1 : Nat) :
          Int))) := by
  induction n generalizing h s with
  | zero => omega
  | succ n ih =>
    unfold checkcls_loop
    by_cases hc : adjf (sts h) = true
    · rw [if_pos hc]
      right
      exact ⟨0, Nat.succ_pos n, by rw [Nat.add_zero]; exact hc, fun k1 hk1 => by omega,
        by rw [Nat.add_zero]⟩
    · rw [if_neg hc]
      have hf : adjf (sts h) = false := by
        cases hv : adjf (sts h) with
        | true => exact absurd hv hc
        | false => rfl
      rcases Nat.eq_zero_or_pos n with hz | hpos
      · left
        subst hz
        refine ⟨?_, ?_⟩
        · intro k hk
          have : k = 0 := by omega
          rw [this, Nat.add_zero]
          exact hf
        · unfold checkcls_loop
          rfl
      · rcases ih (h + 1) (false, s.2) hpos with ⟨h1, h2⟩ | ⟨k, hk, h1, h2, h3⟩
        · left
          refine ⟨?_, h2⟩
          intro k hk
          cases k with
          | zero => rw [Nat.add_zero]; exact hf
          | succ k =>
            have := h1 k (by omega)
            have e : h + 1 + k = h + (k + 1) := by omega
            rw [e] at this
            exact this
        · right
          have e : h + 1 + k = h + (k + 1) := by omega
          refine ⟨k + 1, by omega, by rw [← e]; exact h1, ?_, by rw [← e]; exact h3⟩
          intro k1 hk1
          cases k1 with
          | zero => rw [Nat.add_zero]; exact hf
          | succ k1 =>
            have := h2 k1 (by omega)
            have e1 : h + 1 + k1 = h + (k1 + 1) := by omega
            rw [e1] at this
            exact this

/-- With at least one stored support vector, on a grouped record and for the sort order
of the distances `md`: `checkcls` returns 0 when the adjacency test fails for every
stored support vector; otherwise it returns the group (in `1..nc-1`) of a stored support
vector that passes the test and is no farther from the pixel than any other that
passes. -/
theorem checkcls_nearest (kern : gsl_vector → gsl_vector → ℚ) (nrm : gsl_vector → ℚ)
    (sts : Nat → Nat) (adj0 : Bool) (lab0 : Int) (data : Nat → Nat → ℚ) (ind sam : Nat)
    (X : gsl_matrix) (svf : svminfo) (hps : 1 ≤ svf.svnum) (hg : SvfGrouped svf)
    (hsort : IsSortIndex sts (checkcls_md nrm data ind X svf) svf.svnum.toNat) :
    ((∀ i, i < svf.svnum.toNat → checkcls_adj kern data ind sam X svf i = false) →
      checkcls kern sts adj0 lab0 data ind sam X svf = 0) ∧
    ((∃ i, i < svf.svnum.toNat ∧ checkcls_adj kern data ind sam X svf i = true) →
      ∃ i : Nat, i < svf.svnum.toNat ∧ checkcls_adj kern data ind sam X svf i = true ∧
        (∀ i1, i1 < svf.svnum.toNat → checkcls_adj kern data ind sam X svf i1 = true →
          checkcls_md nrm data ind X svf i ≤ checkcls_md nrm data ind X svf i1) ∧
        ∃ lab : Nat, checkcls kern sts adj0 lab0 data ind sam X svf = (lab : Int) ∧
          1 ≤ lab ∧ (lab : Int) < svf.nc ∧
          svf.svcuts (lab - 1) ≤ (i : Int) ∧ (i : Int) < svf.svcuts lab ∧
          ∀ g : Nat, 1 ≤ g → (g : Int) < svf.nc → svf.svcuts (g - 1) ≤ (i : Int) →
            (i : Int) < svf.svcuts g → g = lab) := by
  have hn : 1 ≤ svf.svnum.toNat := by omega
  obtain ⟨hs1, hs2, hs3⟩ := hsort
  have hspec := checkcls_loop_spec (checkcls_adj kern data ind sam X svf) sts svf.svcuts
    svf.nc svf.svnum.toNat 0 (adj0, lab0) hn
  simp only [Nat.zero_add] at hspec
  constructor
  · intro hall
    unfold checkcls
    rcases hspec with ⟨_, h2⟩ | ⟨k, hk, h1, _, _⟩
    · rw [h2]
      simp
    · rw [hall (sts k) (hs1 k hk)] at h1
      exact absurd h1 (by decide)
  · rintro ⟨i0, hi0, hadj0⟩
    rcases hspec with ⟨h1, _⟩ | ⟨k, hk, h1, h2, h3⟩
    · obtain ⟨k0, hk0, hki⟩ := isSortIndex_surj sts _ _ ⟨hs1, hs2, hs3⟩ i0 hi0
      have := h1 k0 hk0
      rw [hki, hadj0] at this
      exact absurd this (by decide)
    · have hik : ((sts k : Nat) : Int) < svf.svnum := by
        have := hs1 k hk
        omega
      obtain ⟨g1, g2, g3, g4, g5⟩ := checkcls_lab_grouped svf hg (sts k) hik
      refine ⟨sts k, hs1 k hk, h1, ?_, checkcls_lab svf.svcuts ((sts k : Nat) : Int)
        (svf.nc - 1).toNat 1, ?_, g1, g2, g3, g4, g5⟩
      · intro i1 hi1 hadj1
        obtain ⟨k1, hk1, hki1⟩ := isSortIndex_surj sts _ _ ⟨hs1, hs2, hs3⟩ i1 hi1
        rw [← hki1]
        apply hs3 k k1 _ hk1
        by_contra hlt
        have := h2 k1 (by omega)
        rw [hki1, hadj1] at this
        exact absurd this (by decide)
      · unfold checkcls
        rw [h3]
        simp

/-- An instance of `checkcls_nearest`: the record `svfOne`, pixel 1 of `cfgTwo`, the
absolute value of the first entry as norm and the identity as sort order. -/
theorem checkcls_nearest_svfOne (adj0 : Bool) (lab0 : Int) :
    (1 ≤ svfOne.svnum ∧ SvfGrouped svfOne ∧
      IsSortIndex id (checkcls_md (fun v => |v.data 0|) cfgTwo.data 1 ⟨1, 1, fun _ _ => 1⟩
        svfOne) svfOne.svnum.toNat) ∧
    ((∀ i, i < svfOne.svnum.toNat →
        checkcls_adj kernLin cfgTwo.data 1 30 ⟨1, 1, fun _ _ => 1⟩ svfOne i = false) →
      checkcls kernLin id adj0 lab0 cfgTwo.data 1 30 ⟨1, 1, fun _ _ => 1⟩ svfOne = 0) := by
  have hg : SvfGrouped svfOne := by
    refine ⟨by decide, rfl, rfl, ?_⟩
    intro g hg
    have h2 : (2 : Int) = svfOne.nc := rfl
    rw [← h2] at hg
    have hg0 : g = 0 := by omega
    subst hg0
    decide
  have hsort : IsSortIndex id (checkcls_md (fun v => |v.data 0|) cfgTwo.data 1
      ⟨1, 1, fun _ _ => 1⟩ svfOne) svfOne.svnum.toNat := by
    have h1 : svfOne.svnum.toNat = 1 := rfl
    rw [h1]
    refine ⟨fun k hk => hk, fun k l _ _ h => h, ?_⟩
    intro k l hkl hl
    have hl0 : l = 0 := by omega
    have hk0 : k = 0 := by omega
    rw [hl0, hk0]
  have hps : 1 ≤ svfOne.svnum := by decide
  exact ⟨⟨hps, hg, hsort⟩,
    (checkcls_nearest kernLin (fun v => |v.data 0|) id adj0 lab0 cfgTwo.data 1 30
      ⟨1, 1, fun _ _ => 1⟩ svfOne hps hg hsort).1⟩

/-! ## Kernel engine: centring -/

/-- The matrix filled by the first loop nest of `findakernel` is symmetric. -/
theorem findakernel_K_symm (kern : gsl_vector → gsl_vector → ℚ) (X : gsl_matrix)
    (i j : Nat) :
    gsl_matrix_get (findakernel_K kern X) i j = gsl_matrix_get (findakernel_K kern X) j i := by
  unfold gsl_matrix_get findakernel_K
  simp only []
  by_cases hi : i < X.size2
  · by_cases hj : j < X.size2
    · simp only [hi, hj, and_self, if_true]
      rcases lt_trichotomy i j with h | h | h
      · have h1 : i ≤ j := le_of_lt h
        have h2 : ¬ j ≤ i := not_le.mpr h
        simp only [h1, h2, if_true, if_false]
      · subst h
        rfl
      · have h1 : j ≤ i := le_of_lt h
        have h2 : ¬ i ≤ j := not_le.mpr h
        simp only [h1, h2, if_true, if_false]
    · simp only [hi, hj, and_false, false_and, if_false]
  · simp only [hi, and_false, false_and, if_false]

/-- The entries of the centred matrix of `findakernel` in terms of the uncentred one:
`K[i][j] - colsum[i] - colsum[j] + sum`. -/
theorem findakernel_centred_get (kern : gsl_vector → gsl_vector → ℚ) (X : gsl_matrix)
    (sum0 : ℚ) (colsum0 : Nat → ℚ) (i j : Nat) (hi : i < X.size2) (hj : j < X.size2) :
    gsl_matrix_get (findakernel kern X true sum0 colsum0).K i j =
      gsl_matrix_get (findakernel_K kern X) i j
        - (findakernel kern X true sum0 colsum0).colsum i
        - (findakernel kern X true sum0 colsum0).colsum j
        + (findakernel kern X true sum0 colsum0).sum := by
  have hs := findakernel_K_symm kern X i j
  simp only [findakernel, if_true, gsl_matrix_get, hi, hj, and_self] at hs ⊢
  by_cases h : i ≤ j
  · simp only [h, if_true]
    ring
  · simp only [h, if_false]
    rw [hs]
    ring

open Finset in
/-- C39: the matrix returned by `findakernel` with `centred = true` is double-centred.
For every data matrix `X` with `icol` columns and every `i < icol`, the entries of row
`i` of the returned matrix add up to 0, and so do the entries of column `i` (in exact
arithmetic). -/
theorem findakernel_double_centred (kern : gsl_vector → gsl_vector → ℚ) (X : gsl_matrix)
    (sum0 : ℚ) (colsum0 : Nat → ℚ) (i : Nat) (hi : i < X.size2) :
    (∑ j in range X.size2, gsl_matrix_get (findakernel kern X true sum0 colsum0).K i j = 0) ∧
    (∑ j in range X.size2, gsl_matrix_get (findakernel kern X true sum0 colsum0).K j i = 0) := by
  have hn : (X.size2 : ℚ) ≠ 0 := by
    have : 0 < X.size2 := Nat.lt_of_le_of_lt (Nat.zero_le i) hi
    exact_mod_cast Nat.pos_iff_ne_zero.mp this
  have hcol : ∀ k, k < X.size2 → (findakernel kern X true sum0 colsum0).colsum k =
      (∑ j in range X.size2, gsl_matrix_get (findakernel_K kern X) k j) / (X.size2 : ℚ) := by
    intro k hk
    simp only [findakernel, if_true, hk]
    rw [findakernel_rowsum_eq]
  have hsum : (findakernel kern X true sum0 colsum0).sum =
      (∑ k in range X.size2, ∑ j in range X.size2,
        gsl_matrix_get (findakernel_K kern X) k j) / ((X.size2 : ℚ) * (X.size2 : ℚ)) := by
    simp only [findakernel, if_true]
    rw [foldl_add_eq_sum (fun k => findakernel_rowsum (findakernel_K kern X) X.size2 k)]
    rw [Finset.sum_congr rfl (fun k _ => findakernel_rowsum_eq (findakernel_K kern X) X.size2 k)]
    push_cast
    rfl
  have hrow : ∑ j in range X.size2,
      gsl_matrix_get (findakernel kern X true sum0 colsum0).K i j = 0 := by
    rw [Finset.sum_congr rfl (fun j hj =>
      findakernel_centred_get kern X sum0 colsum0 i j hi (Finset.mem_range.mp hj))]
    rw [Finset.sum_add_distrib, Finset.sum_sub_distrib, Finset.sum_sub_distrib]
    rw [Finset.sum_const, Finset.sum_const, Finset.card_range]
    rw [Finset.sum_congr rfl (fun j hj => hcol j (Finset.mem_range.mp hj))]
    rw [← Finset.sum_div, hcol i hi, hsum]
    simp only [nsmul_eq_mul]
    field_simp
    ring
  refine ⟨hrow, ?_⟩
  have hsymm : ∀ j, j ∈ range X.size2 →
      gsl_matrix_get (findakernel kern X true sum0 colsum0).K j i =
        gsl_matrix_get (findakernel kern X true sum0 colsum0).K i j := by
    intro j hj
    rw [findakernel_centred_get kern X sum0 colsum0 j i (Finset.mem_range.mp hj) hi,
      findakernel_centred_get kern X sum0 colsum0 i j hi (Finset.mem_range.mp hj),
      findakernel_K_symm kern X j i]
    ring
  rw [Finset.sum_congr rfl hsymm]
  exact hrow

open Finset in
/-- C39, instance: the first row and column of the centred kernel matrix of three
two-band samples under a polynomial kernel. -/
theorem findakernel_double_centred_witness :
    0 < dataX3.size2 ∧
    (∑ j in range dataX3.size2,
      gsl_matrix_get (findakernel kernDot dataX3 true 0 (fun _ => 0)).K 0 j = 0) ∧
    (∑ j in range dataX3.size2,
      gsl_matrix_get (findakernel kernDot dataX3 true 0 (fun _ => 0)).K j 0 = 0) :=
  ⟨by decide, findakernel_double_centred kernDot dataX3 0 (fun _ => 0) 0 (by decide)⟩

/-! ## Region blocks: the ring search -/

/-- The cells written by `findNNblocks` are the cells at Chebyshev distance `n` from
`(x, y)`. -/
theorem findNNblocks_cells_mem (x y : Int) (n : Nat) (i j : Int) :
    (i, j) ∈ findNNblocks_cells x y n ↔ max |i - x| |j - y| = (n : Int) := by
  unfold findNNblocks_cells
  rw [List.mem_flatMap]
  constructor
  · rintro ⟨di, hdi, hc⟩
    rw [List.mem_filter, List.mem_map] at hc
    obtain ⟨⟨dj, hdj, he⟩, h⟩ := hc
    rw [List.mem_range] at hdi hdj
    rw [Prod.mk.injEq] at he
    obtain ⟨h1, h2⟩ := he
    simp only [decide_eq_true_eq] at h
    have hi : |i - x| ≤ (n : Int) := by rw [abs_le]; constructor <;> omega
    have hj : |j - y| ≤ (n : Int) := by rw [abs_le]; constructor <;> omega
    rcases h with h | h
    · rw [max_eq_left (by rw [h]; exact hj)]; exact h
    · rw [max_eq_right (by rw [h]; exact hi)]; exact h
  · intro h
    have hi : |i - x| ≤ (n : Int) := by rw [← h]; exact le_max_left _ _
    have hj : |j - y| ≤ (n : Int) := by rw [← h]; exact le_max_right _ _
    have hi2 := abs_le.mp hi
    have hj2 := abs_le.mp hj
    refine ⟨(i - x + n).toNat, List.mem_range.mpr (by omega), ?_⟩
    rw [List.mem_filter, List.mem_map]
    refine ⟨⟨(j - y + n).toNat, List.mem_range.mpr (by omega), ?_⟩, ?_⟩
    · rw [Prod.mk.injEq]
      constructor <;> omega
    · simp only [decide_eq_true_eq]
      rcases max_choice |i - x| |j - y| with e | e
      · left; rw [← e]; exact h
      · right; rw [← e]; exact h

/-- A sum over `0..2n` of a function that takes the value `A` at both ends and `B` in
between. -/
theorem sum_range_ends (g : Nat → Nat) (n A B : Nat) (hn : 1 ≤ n) (h0 : g 0 = A)
    (h2 : g (2 * n) = A) (hmid : ∀ d, 0 < d → d < 2 * n → g d = B) :
    ((List.range (2 * n + 1)).map g).sum = 2 * A + (2 * n - 1) * B := by
  have key : ∀ t, 1 ≤ t → t ≤ 2 * n → ((List.range t).map g).sum = A + (t - 1) * B := by
    intro t ht
    induction t with
    | zero => omega
    | succ t ih =>
      intro hle
      rw [List.range_succ, List.map_append, List.sum_append]
      simp only [List.map_cons, List.map_nil, List.sum_cons, List.sum_nil, Nat.add_zero]
      by_cases ht0 : t = 0
      · subst ht0
        simp [h0]
      · rw [ih (by omega) (by omega), hmid t (by omega) (by omega)]
        have e : t + 1 - 1 = (t - 1) + 1 := by omega
        rw [e, Nat.add_mul]
        omega
  rw [List.range_succ, List.map_append, List.sum_append, key (2 * n) (by omega) (le_refl _)]
  simp only [List.map_cons, List.map_nil, List.sum_cons, List.sum_nil, Nat.add_zero, h2]
  omega

/-- The number of columns a row of the ring contributes: all `2n+1` in the first and the
last row, the two end columns in the others. -/
theorem findNNblocks_row_length (x y : Int) (n : Nat) (hn : 1 ≤ n) (di : Nat)
    (hdi : di < 2 * n + 1) :
    (((List.range (2 * n + 1)).map (fun (dj : Nat) => (x - (n : Int) + (di : Int),
      y - (n : Int) + (dj : Int)))).filter
      (fun c => decide (|c.1 - x| = (n : Int) ∨ |c.2 - y| = (n : Int)))).length =
      if di = 0 ∨ di = 2 * n then 2 * n + 1 else 2 := by
  rw [← List.countP_eq_length_filter, List.countP_map]
  have habs : ∀ d : Nat, d < 2 * n + 1 →
      (|(x - (n : Int) + (d : Int)) - x| = (n : Int) ↔ (d = 0 ∨ d = 2 * n)) := by
    intro d hd
    constructor
    · intro h
      rcases abs_cases ((x - (n : Int) + (d : Int)) - x) with ⟨e, _⟩ | ⟨e, _⟩
      · rw [e] at h; right; omega
      · rw [e] at h; left; omega
    · rintro (h | h)
      · subst h
        have e : x - (n : Int) + ((0 : Nat) : Int) - x = -(n : Int) := by push_cast; ring
        rw [e, abs_neg]
        exact abs_of_nonneg (Int.ofNat_nonneg n)
      · subst h
        have e : x - (n : Int) + ((2 * n : Nat) : Int) - x = (n : Int) := by push_cast; ring
        rw [e]
        exact abs_of_nonneg (Int.ofNat_nonneg n)
  have habs2 : ∀ d : Nat, d < 2 * n + 1 →
      (|(y - (n : Int) + (d : Int)) - y| = (n : Int) ↔ (d = 0 ∨ d = 2 * n)) := by
    intro d hd
    have h := habs d hd
    have e : x - (n : Int) + (d : Int) - x = y - (n : Int) + (d : Int) - y := by ring
    rw [e] at h
    exact h
  by_cases hc : di = 0 ∨ di = 2 * n
  · rw [if_pos hc]
    have hall : ∀ dj ∈ List.range (2 * n + 1),
        ((fun c : Int × Int => decide (|c.1 - x| = (n : Int) ∨ |c.2 - y| = (n : Int))) ∘
          (fun (dj : Nat) => (x - (n : Int) + (di : Int), y - (n : Int) + (dj : Int)))) dj
          = true := by
      intro dj _
      simp only [Function.comp, decide_eq_true_eq]
      left
      exact (habs di hdi).mpr hc
    rw [List.countP_eq_length.mpr hall, List.length_range]
  · rw [if_neg hc]
    have hcongr : ∀ dj ∈ List.range (2 * n + 1),
        (((fun c : Int × Int => decide (|c.1 - x| = (n : Int) ∨ |c.2 - y| = (n : Int))) ∘
          (fun (dj : Nat) => (x - (n : Int) + (di : Int), y - (n : Int) + (dj : Int)))) dj
          = true ↔ (fun (dj : Nat) => decide (dj = 0 ∨ dj = 2 * n)) dj = true) := by
      intro dj hdj
      rw [List.mem_range] at hdj
      simp only [Function.comp, decide_eq_true_eq]
      constructor
      · rintro (h | h)
        · exact absurd ((habs di hdi).mp h) hc
        · exact (habs2 dj hdj).mp h
      · intro h
        right
        exact (habs2 dj hdj).mpr h
    rw [List.countP_congr hcongr]
    have key : ∀ t, 1 ≤ t → t ≤ 2 * n →
        List.countP (fun (dj : Nat) => decide (dj = 0 ∨ dj = 2 * n)) (List.range t) = 1 := by
      intro t ht
      induction t with
      | zero => omega
      | succ t ih =>
        intro hle
        rw [List.range_succ, List.countP_append]
        by_cases ht0 : t = 0
        · subst ht0
          simp
        · rw [ih (by omega) (by omega)]
          have hf : ¬ (t = 0 ∨ t = 2 * n) := by omega
          simp [hf]
    rw [List.range_succ, List.countP_append, key (2 * n) (by omega) (le_refl _)]
    simp

/-- The ring written by `findNNblocks` has `8*n` cells. -/
theorem findNNblocks_cells_length (x y : Int) (n : Nat) (hn : 1 ≤ n) :
    (findNNblocks_cells x y n).length = 8 * n := by
  unfold findNNblocks_cells
  rw [List.length_flatMap]
  have hmap : List.map (List.length ∘ fun (di : Nat) =>
      ((List.range (2 * n + 1)).map (fun (dj : Nat) => (x - (n : Int) + (di : Int),
        y - (n : Int) + (dj : Int)))).filter
        (fun c => decide (|c.1 - x| = (n : Int) ∨ |c.2 - y| = (n : Int))))
      (List.range (2 * n + 1)) =
      List.map (fun di => if di = 0 ∨ di = 2 * n then 2 * n + 1 else 2)
        (List.range (2 * n + 1)) := by
    apply List.map_congr_left
    intro di hdi
    exact findNNblocks_row_length x y n hn di (List.mem_range.mp hdi)
  rw [hmap, sum_range_ends _ n (2 * n + 1) 2 hn]
  · have e : (2 * n - 1) * 2 = 4 * n - 2 := by omega
    rw [e]
    omega
  · simp
  · simp
  · intro d h1 h2
    have hf : ¬ (d = 0 ∨ d = 2 * n) := by omega
    simp only [hf, if_false]

/-- No cell is written twice by `findNNblocks`. -/
theorem findNNblocks_cells_nodup (x y : Int) (n : Nat) :
    (findNNblocks_cells x y n).Nodup := by
  unfold findNNblocks_cells
  rw [List.nodup_flatMap]
  constructor
  · intro di _
    apply List.Nodup.filter
    apply List.Nodup.map
    · intro a b hab
      rw [Prod.mk.injEq] at hab
      omega
    · exact List.nodup_range _
  · apply List.Pairwise.imp _ (List.nodup_range (2 * n + 1))
    intro a b hab
    show List.Disjoint _ _
    intro c hca hcb
    rw [List.mem_filter, List.mem_map] at hca hcb
    obtain ⟨⟨_, _, e1⟩, _⟩ := hca
    obtain ⟨⟨_, _, e2⟩, _⟩ := hcb
    rw [← e2, Prod.mk.injEq] at e1
    apply hab
    omega

/-- An injection of `0..m-1` into itself reaches every index below `m`. -/
theorem injOn_range_surj (sts : Nat → Nat) (m : Nat) (h1 : ∀ k, k < m → sts k < m)
    (h2 : ∀ k l, k < m → l < m → sts k = sts l → k = l) (i : Nat) (hi : i < m) :
    ∃ k, k < m ∧ sts k = i := by
  have himg : (Finset.range m).image sts = Finset.range m := by
    apply Finset.eq_of_subset_of_card_le
    · intro x hx
      rw [Finset.mem_image] at hx
      obtain ⟨k, hk, rfl⟩ := hx
      exact Finset.mem_range.mpr (h1 k (Finset.mem_range.mp hk))
    · rw [Finset.card_image_of_injOn]
      intro x hx y hy hxy
      exact h2 x y (Finset.mem_range.mp hx) (Finset.mem_range.mp hy) hxy
  have hmem : i ∈ (Finset.range m).image sts := by
    rw [himg]
    exact Finset.mem_range.mpr hi
  rw [Finset.mem_image] at hmem
  obtain ⟨k, hk, hki⟩ := hmem
  exact ⟨k, Finset.mem_range.mp hk, hki⟩

/-- The writes of `findNNblocks` for a list of cells from position `c0`: the loop runs
through, the slot `sts[c0+k]` receives the value of cell `k`, and the other slots keep
what they held. -/
theorem findNNblocks_fold (nrow ncol : Int) (m : Nat) (sts : Nat → Nat)
    (hsts : ∀ c, c < m → sts c < m)
    (hinj : ∀ c d, c < m → d < m → sts c = sts d → c = d)
    (L : List (Int × Int)) (c0 : Nat) (perm : Nat → Int) (hlen : c0 + L.length ≤ m) :
    ∃ perm1, L.foldl (findNNblocks_step nrow ncol m sts) (some (perm, c0)) =
        some (perm1, c0 + L.length) ∧
      (∀ k, k < L.length →
        perm1 (sts (c0 + k)) = findNNblocks_value nrow ncol (L.getD k (0, 0))) ∧
      (∀ s, (∀ k, k < L.length → sts (c0 + k) ≠ s) → perm1 s = perm s) := by
  induction L generalizing c0 perm with
  | nil =>
    refine ⟨perm, rfl, ?_, ?_⟩
    · intro k hk
      simp at hk
    · intro s _
      rfl
  | cons c L ih =>
    rw [List.length_cons] at hlen
    have hc0 : c0 < m := by omega
    have hstep : findNNblocks_step nrow ncol m sts (some (perm, c0)) c =
        some (Function.update perm (sts c0) (findNNblocks_value nrow ncol c), c0 + 1) := by
      unfold findNNblocks_step
      simp only []
      rw [if_pos ⟨hc0, hsts c0 hc0⟩]
    obtain ⟨perm1, h1, h2, h3⟩ :=
      ih (c0 + 1) (Function.update perm (sts c0) (findNNblocks_value nrow ncol c)) (by omega)
    refine ⟨perm1, ?_, ?_, ?_⟩
    · rw [List.foldl_cons, hstep, h1, List.length_cons]
      congr 2
      omega
    · intro k hk
      cases k with
      | zero =>
        rw [Nat.add_zero, h3 (sts c0)]
        · rw [Function.update_same]
          rfl
        · intro k hk2 he
          have := hinj (c0 + 1 + k) c0 (by omega) hc0 he
          omega
      | succ k =>
        rw [List.length_cons] at hk
        have h := h2 k (by omega)
        have e : c0 + (k + 1) = c0 + 1 + k := by omega
        rw [e, h]
        rfl
    · intro s hs
      rw [h3 s]
      · rw [Function.update_apply]
        have hne : s ≠ sts c0 := by
          intro he
          exact hs 0 (by simp) (by rw [Nat.add_zero]; exact he.symm)
        rw [if_neg hne]
      · intro k hk he
        apply hs (k + 1) (by rw [List.length_cons]; omega)
        have e : c0 + (k + 1) = c0 + 1 + k := by omega
        rw [e]
        exact he

/-- C40: for every `n ≥ 1` and every block position `(x, y)`, the cells written by
`findNNblocks` are the cells at Chebyshev distance `n` from `(x, y)`, each listed once,
and there are `8·n` of them; with a permutation `sts` of `0..8n-1` the call returns, every
slot `s < 8·n` is written for exactly one position `cc` of the ring (the one with
`sts[cc] = s`), and it holds -1 when the cell `(i, j)` of that position lies outside the
`nrow × ncol` grid and `i·ncol + j` when it lies inside. -/
theorem findNNblocks_ring (x y nrow ncol : Int) (n : Nat) (sts : Nat → Nat)
    (perm0 : Nat → Int) (hn : 1 ≤ n) (hsts : ∀ c, c < 8 * n → sts c < 8 * n)
    (hinj : ∀ c d, c < 8 * n → d < 8 * n → sts c = sts d → c = d) :
    (∀ i j, (i, j) ∈ findNNblocks_cells x y n ↔ max |i - x| |j - y| = (n : Int)) ∧
    (findNNblocks_cells x y n).Nodup ∧
    (findNNblocks_cells x y n).length = 8 * n ∧
    ∃ perm, findNNblocks x y nrow ncol n sts perm0 = some perm ∧
      ∀ s, s < 8 * n → ∃ cc, cc < 8 * n ∧ sts cc = s ∧
        (∀ d, d < 8 * n → sts d = s → d = cc) ∧
        ∃ i j, (findNNblocks_cells x y n).getD cc (0, 0) = (i, j) ∧
          max |i - x| |j - y| = (n : Int) ∧
          (((i < 0 ∨ nrow ≤ i ∨ j < 0 ∨ ncol ≤ j) ∧ perm s = -1) ∨
            ((0 ≤ i ∧ i < nrow ∧ 0 ≤ j ∧ j < ncol) ∧ perm s = i * ncol + j)) := by
  have hlen := findNNblocks_cells_length x y n hn
  refine ⟨findNNblocks_cells_mem x y n, findNNblocks_cells_nodup x y n, hlen, ?_⟩
  obtain ⟨perm, h1, h2, _⟩ := findNNblocks_fold nrow ncol (8 * n) sts hsts hinj
    (findNNblocks_cells x y n) 0 (fun i => if i < 8 * n then -1 else perm0 i)
    (by rw [hlen]; omega)
  refine ⟨perm, ?_, ?_⟩
  · unfold findNNblocks
    simp only []
    rw [h1]
    rfl
  · intro s hs
    obtain ⟨cc, hcc, hcs⟩ := injOn_range_surj sts (8 * n) hsts hinj s hs
    refine ⟨cc, hcc, hcs, ?_, ?_⟩
    · intro d hd hds
      exact hinj d cc hd hcc (hds.trans hcs.symm)
    · have hv := h2 cc (by rw [hlen]; exact hcc)
      rw [Nat.zero_add, hcs] at hv
      have hmem : (findNNblocks_cells x y n).getD cc (0, 0) ∈ findNNblocks_cells x y n := by
        rw [List.getD_eq_getElem _ _ (by rw [hlen]; exact hcc)]
        exact List.getElem_mem _
      generalize (findNNblocks_cells x y n).getD cc (0, 0) = c at hv hmem
      obtain ⟨i, j⟩ := c
      refine ⟨i, j, rfl, (findNNblocks_cells_mem x y n i j).mp hmem, ?_⟩
      unfold findNNblocks_value at hv
      simp only [] at hv
      by_cases hout : i < 0 ∨ i ≥ nrow ∨ j < 0 ∨ j ≥ ncol
      · rw [if_pos hout] at hv
        left
        exact ⟨hout, hv⟩
      · rw [if_neg hout] at hv
        right
        refine ⟨?_, hv⟩
        omega

/-- C40, instance: the first ring around block (0, 0) of a 2×2 grid with the identity
permutation. -/
theorem findNNblocks_ring_witness :
    (1 ≤ 1 ∧ (∀ c, c < 8 * 1 → id c < 8 * 1) ∧
      (∀ c d, c < 8 * 1 → d < 8 * 1 → id c = id d → c = d)) ∧
    (findNNblocks_cells 0 0 1).length = 8 * 1 :=
  ⟨⟨le_refl 1, fun _ h => h, fun _ _ _ _ h => h⟩,
    (findNNblocks_ring 0 0 2 2 1 id (fun _ => 0) (le_refl 1) (fun _ h => h)
      (fun _ _ _ _ h => h)).2.2.1⟩

/-! ## Dual coefficient solver: the kernel energy -/

open Finset in
/-- A sum against the direction `e_i - e_j` picks the difference of two entries. -/
theorem sum_direction (f : Nat → ℚ) (m i j : Nat) (hi : i < m) (hj : j < m) :
    ∑ k in range m, ((if k = i then (1 : ℚ) else 0) - (if k = j then (1 : ℚ) else 0)) * f k =
      f i - f j := by
  have e : ∀ k, ((if k = i then (1 : ℚ) else 0) - (if k = j then (1 : ℚ) else 0)) * f k =
      (if k = i then f k else 0) - (if k = j then f k else 0) := by
    intro k
    rw [sub_mul, ite_mul, ite_mul, one_mul, zero_mul]
  rw [Finset.sum_congr rfl (fun k _ => e k), Finset.sum_sub_distrib, Finset.sum_ite_eq',
    Finset.sum_ite_eq', if_pos (Finset.mem_range.mpr hi), if_pos (Finset.mem_range.mpr hj)]

open Finset in
/-- The kernel energy `Σ_k Σ_p a_p·a_k·K[k,p]` along the direction `e_i - e_j`: for a
symmetric `K` and heights `fw = K·a`, moving `t` from `a[j]` to `a[i]` changes it by
`2t·(fw[i] - fw[j]) + t²·(K[i,i] + K[j,j] - 2K[i,j])`. -/
theorem SVclustering_sum_step (K : gsl_matrix) (a fw : Nat → ℚ) (m i j : Nat) (t : ℚ)
    (hsym : ∀ p q, p < m → q < m → gsl_matrix_get K p q = gsl_matrix_get K q p)
    (hfw : ∀ k, k < m → fw k = ∑ p in range m, a p * gsl_matrix_get K k p)
    (hi : i < m) (hj : j < m) (hij : i ≠ j) :
    SVclustering_sum K (Function.update (Function.update a i (a i + t)) j (a j - t)) m =
      SVclustering_sum K a m + 2 * t * (fw i - fw j) +
        t ^ 2 * (gsl_matrix_get K i i + gsl_matrix_get K j j - 2 * gsl_matrix_get K i j) := by
  have ha : ∀ p, Function.update (Function.update a i (a i + t)) j (a j - t) p =
      a p + t * ((if p = i then (1 : ℚ) else 0) - (if p = j then (1 : ℚ) else 0)) := by
    intro p
    rw [Function.update_apply, Function.update_apply]
    by_cases h2 : p = j
    · have h1 : ¬ p = i := by rw [h2]; exact fun h => hij h.symm
      rw [if_pos h2, if_neg h1, if_pos h2, h2]
      ring
    · by_cases h1 : p = i
      · rw [if_neg h2, if_pos h1, if_pos h1, if_neg h2, h1]
        ring
      · rw [if_neg h2, if_neg h1, if_neg h1, if_neg h2]
        ring
  rw [SVclustering_sum_eq, SVclustering_sum_eq]
  simp only [ha]
  have hexp : ∀ k p : Nat,
      (a p + t * ((if p = i then (1 : ℚ) else 0) - (if p = j then (1 : ℚ) else 0))) *
        (a k + t * ((if k = i then (1 : ℚ) else 0) - (if k = j then (1 : ℚ) else 0))) *
        gsl_matrix_get K k p =
      a p * a k * gsl_matrix_get K k p +
      t * (((if k = i then (1 : ℚ) else 0) - (if k = j then (1 : ℚ) else 0)) *
        (a p * gsl_matrix_get K k p)) +
      t * (((if p = i then (1 : ℚ) else 0) - (if p = j then (1 : ℚ) else 0)) *
        (a k * gsl_matrix_get K k p)) +
      t ^ 2 * (((if k = i then (1 : ℚ) else 0) - (if k = j then (1 : ℚ) else 0)) *
        (((if p = i then (1 : ℚ) else 0) - (if p = j then (1 : ℚ) else 0)) *
          gsl_matrix_get K k p)) := by
    intro k p
    ring
  simp only [hexp, Finset.sum_add_distrib, ← Finset.mul_sum]
  -- first linear term
  have h1 : ∑ k in range m, ((if k = i then (1 : ℚ) else 0) - (if k = j then (1 : ℚ) else 0)) *
      ∑ p in range m, a p * gsl_matrix_get K k p = fw i - fw j := by
    rw [sum_direction (fun k => ∑ p in range m, a p * gsl_matrix_get K k p) m i j hi hj]
    rw [hfw i hi, hfw j hj]
  -- second linear term
  have h2 : ∑ k in range m, ∑ p in range m,
      ((if p = i then (1 : ℚ) else 0) - (if p = j then (1 : ℚ) else 0)) *
        (a k * gsl_matrix_get K k p) = fw i - fw j := by
    rw [Finset.sum_comm]
    simp only [← Finset.mul_sum]
    rw [sum_direction (fun p => ∑ k in range m, a k * gsl_matrix_get K k p) m i j hi hj]
    rw [hfw i hi, hfw j hj]
    have e : ∀ q, q < m → ∑ k in range m, a k * gsl_matrix_get K k q =
        ∑ k in range m, a k * gsl_matrix_get K q k := by
      intro q hq
      apply Finset.sum_congr rfl
      intro k hk
      rw [hsym k q (Finset.mem_range.mp hk) hq]
    rw [e i hi, e j hj]
  -- quadratic term
  have h3 : ∑ k in range m, ((if k = i then (1 : ℚ) else 0) - (if k = j then (1 : ℚ) else 0)) *
      ∑ p in range m, ((if p = i then (1 : ℚ) else 0) - (if p = j then (1 : ℚ) else 0)) *
        gsl_matrix_get K k p =
      gsl_matrix_get K i i + gsl_matrix_get K j j - 2 * gsl_matrix_get K i j := by
    have e : ∀ k, ∑ p in range m,
        ((if p = i then (1 : ℚ) else 0) - (if p = j then (1 : ℚ) else 0)) *
          gsl_matrix_get K k p = gsl_matrix_get K k i - gsl_matrix_get K k j := by
      intro k
      exact sum_direction (fun p => gsl_matrix_get K k p) m i j hi hj
    simp only [e]
    rw [sum_direction (fun k => gsl_matrix_get K k i - gsl_matrix_get K k j) m i j hi hj]
    rw [hsym j i hj hi]
    ring
  rw [h1, h2, h3]
  ring

/-- The 3×3 unit kernel matrix is symmetric. -/
theorem unitKernel3_symm (p q : Nat) :
    gsl_matrix_get unitKernel3 p q = gsl_matrix_get unitKernel3 q p := by
  unfold gsl_matrix_get unitKernel3
  by_cases h : p = q
  · subst h; rfl
  · have h1 : ¬ q = p := fun e => h e.symm
    simp only [h, h1, if_false]

open Finset in
/-- Under the unit kernel matrix the heights `K·a` are the coefficients. -/
theorem unitKernel3_heights (a : Nat → ℚ) (k : Nat) (hk : k < 3) :
    a k = ∑ p in range 3, a p * gsl_matrix_get unitKernel3 k p := by
  simp only [Finset.sum_range_succ, Finset.sum_range_zero, gsl_matrix_get, unitKernel3]
  interval_cases k <;> simp

open Finset in
/-- Under the unit kernel matrix the kernel energy is the sum of the squares. -/
theorem unitKernel3_sum (a : Nat → ℚ) :
    SVclustering_sum unitKernel3 a 3 = a 0 ^ 2 + a 1 ^ 2 + a 2 ^ 2 := by
  rw [SVclustering_sum_eq]
  simp only [Finset.sum_range_succ, Finset.sum_range_zero, gsl_matrix_get, unitKernel3]
  simp
  ring

open Finset in
/-- C34, as stated, fails: under the 3×3 unit kernel with the coefficients 11/20, 9/20, 0
(heights `K·a` equal to them) and the cap 2/5, the update of the pair (0, 1) has
`L = 3/5 > H = 2/5`, sets `a[0] = 2/5`, `a[1] = 3/5`, and the kernel energy rises from
101/200 to 13/25. -/
theorem updatecoeffs_energy_counterexample :
    (∀ p q, p < 3 → q < 3 → gsl_matrix_get unitKernel3 p q = gsl_matrix_get unitKernel3 q p) ∧
    (∀ k, k < 3 → coeffsOver k = ∑ p in range 3, coeffsOver p * gsl_matrix_get unitKernel3 k p) ∧
    gsl_matrix_get unitKernel3 0 0 + gsl_matrix_get unitKernel3 1 1
      - 2 * gsl_matrix_get unitKernel3 0 1 > 0 ∧
    SVclustering_sum unitKernel3 coeffsOver 3 = 101 / 200 ∧
    SVclustering_sum unitKernel3
      (updatecoeffs unitKernel3 coeffsOver coeffsOver 0 1 (2 / 5) 0).a 3 = 13 / 25 ∧
    ¬ SVclustering_sum unitKernel3
        (updatecoeffs unitKernel3 coeffsOver coeffsOver 0 1 (2 / 5) 0).a 3 ≤
      SVclustering_sum unitKernel3 coeffsOver 3 := by
  have hahi : updatecoeffs_ahi unitKernel3 coeffsOver coeffsOver 0 1 (2 / 5) = 2 / 5 := by
    simp [updatecoeffs_ahi, updatecoeffs_L, updatecoeffs_H, unitKernel3, coeffsOver,
      gsl_matrix_get]
    norm_num
  have hne : ¬ coeffsOver 0 = 2 / 5 := by
    simp [coeffsOver]
    norm_num
  have ha : (updatecoeffs unitKernel3 coeffsOver coeffsOver 0 1 (2 / 5) 0).a =
      Function.update (Function.update coeffsOver 0 (2 / 5)) 1
        (coeffsOver 0 + coeffsOver 1 - 2 / 5) := by
    unfold updatecoeffs
    rw [hahi, if_neg hne]
  have h1 : SVclustering_sum unitKernel3 coeffsOver 3 = 101 / 200 := by
    rw [unitKernel3_sum]
    simp [coeffsOver]
    norm_num
  have h2 : SVclustering_sum unitKernel3
      (updatecoeffs unitKernel3 coeffsOver coeffsOver 0 1 (2 / 5) 0).a 3 = 13 / 25 := by
    rw [ha, unitKernel3_sum]
    simp [coeffsOver, Function.update_apply]
    norm_num
  refine ⟨fun p q _ _ => unitKernel3_symm p q, unitKernel3_heights coeffsOver, ?_, h1, h2, ?_⟩
  · simp [gsl_matrix_get, unitKernel3]
  · rw [h1, h2]
    norm_num

open Finset in
/-- C34, amended: an update of a feasible pair never increases the kernel energy.  For a
symmetric `m×m` matrix `K`, heights `fw = K·a`, a pair `i ≠ j` below `m` with
`K[i,i] + K[j,j] - 2K[i,j] > 0` and both `a[i]` and `a[j]` between 0 and `rvm`, the sum
`Σ_k Σ_p a_p·a_k·K[k,p]` of the coefficients after `updatecoeffs` is at most its value
before the call. -/
theorem updatecoeffs_energy (K : gsl_matrix) (a fw : Nat → ℚ) (m i j : Nat) (rvm ph : ℚ)
    (hsym : ∀ p q, p < m → q < m → gsl_matrix_get K p q = gsl_matrix_get K q p)
    (hfw : ∀ k, k < m → fw k = ∑ p in range m, a p * gsl_matrix_get K k p)
    (hi : i < m) (hj : j < m) (hij : i ≠ j)
    (hxx : gsl_matrix_get K i i + gsl_matrix_get K j j - 2 * gsl_matrix_get K i j > 0)
    (hai : 0 ≤ a i ∧ a i ≤ rvm) (haj : 0 ≤ a j ∧ a j ≤ rvm) :
    SVclustering_sum K (updatecoeffs K a fw i j rvm ph).a m ≤ SVclustering_sum K a m := by
  unfold updatecoeffs
  simp only []
  by_cases he : a i = updatecoeffs_ahi K a fw i j rvm
  · rw [if_pos he]
  · rw [if_neg he]
    show SVclustering_sum K (Function.update (Function.update a i (updatecoeffs_ahi K a fw i j rvm))
      j (a i + a j - updatecoeffs_ahi K a fw i j rvm)) m ≤ SVclustering_sum K a m
    have e1 : updatecoeffs_ahi K a fw i j rvm = a i + (updatecoeffs_ahi K a fw i j rvm - a i) := by
      ring
    have e2 : a i + a j - updatecoeffs_ahi K a fw i j rvm =
        a j - (updatecoeffs_ahi K a fw i j rvm - a i) := by ring
    rw [e2]
    nth_rewrite 1 [e1]
    rw [SVclustering_sum_step K a fw m i j _ hsym hfw hi hj hij]
    -- the sign of the change
    have hL : updatecoeffs_L a i j rvm ≤ a i := by
      unfold updatecoeffs_L
      simp only []
      split
      · exact hai.1
      · linarith [haj.2]
    have hH : a i ≤ updatecoeffs_H a i j rvm := by
      unfold updatecoeffs_H
      simp only []
      split
      · exact hai.2
      · linarith [haj.1]
    generalize hxxd : gsl_matrix_get K i i + gsl_matrix_get K j j - 2 * gsl_matrix_get K i j = xx
      at hxx ⊢
    have hts : fw i - fw j = -(((fw j - fw i) / xx) * xx) := by
      field_simp
    have hcl : ∀ t : ℚ, (0 ≤ t ∧ t ≤ (fw j - fw i) / xx) ∨ ((fw j - fw i) / xx ≤ t ∧ t ≤ 0) →
        2 * t * (fw i - fw j) + t ^ 2 * xx ≤ 0 := by
      intro t ht
      rw [hts]
      have e : 2 * t * -((fw j - fw i) / xx * xx) + t ^ 2 * xx =
          xx * (t * (t - 2 * ((fw j - fw i) / xx))) := by ring
      rw [e]
      apply mul_nonpos_of_nonneg_of_nonpos (le_of_lt hxx)
      rcases ht with ⟨h1, h2⟩ | ⟨h1, h2⟩
      · apply mul_nonpos_of_nonneg_of_nonpos h1
        linarith
      · apply mul_nonpos_of_nonpos_of_nonneg h2
        linarith
    have hstep : (0 ≤ updatecoeffs_ahi K a fw i j rvm - a i ∧
        updatecoeffs_ahi K a fw i j rvm - a i ≤ (fw j - fw i) / xx) ∨
        ((fw j - fw i) / xx ≤ updatecoeffs_ahi K a fw i j rvm - a i ∧
          updatecoeffs_ahi K a fw i j rvm - a i ≤ 0) := by
      unfold updatecoeffs_ahi
      simp only []
      rw [hxxd]
      by_cases c1 : a i + (fw j - fw i) / xx < updatecoeffs_L a i j rvm
      · rw [if_pos c1]
        have c2 : ¬ updatecoeffs_L a i j rvm > updatecoeffs_H a i j rvm := by
          intro h
          linarith
        rw [if_neg c2]
        right
        constructor <;> linarith
      · rw [if_neg c1]
        by_cases c2 : a i + (fw j - fw i) / xx > updatecoeffs_H a i j rvm
        · rw [if_pos c2]
          left
          constructor <;> linarith
        · rw [if_neg c2]
          rcases le_total 0 ((fw j - fw i) / xx) with h | h
          · left
            constructor <;> linarith
          · right
            constructor <;> linarith
    have := hcl _ hstep
    linarith

open Finset in
/-- C34, instance: the coefficients 1/2, 1/4, 1/4 under the 3×3 unit kernel and the cap
1/2, pair (0, 1). -/
theorem updatecoeffs_energy_witness :
    ((∀ p q, p < 3 → q < 3 → gsl_matrix_get unitKernel3 p q = gsl_matrix_get unitKernel3 q p) ∧
      (∀ k, k < 3 → coeffs3 k = ∑ p in range 3, coeffs3 p * gsl_matrix_get unitKernel3 k p) ∧
      0 < 3 ∧ 1 < 3 ∧ (0 : Nat) ≠ 1 ∧
      gsl_matrix_get unitKernel3 0 0 + gsl_matrix_get unitKernel3 1 1
        - 2 * gsl_matrix_get unitKernel3 0 1 > 0 ∧
      (0 ≤ coeffs3 0 ∧ coeffs3 0 ≤ 1 / 2) ∧ (0 ≤ coeffs3 1 ∧ coeffs3 1 ≤ 1 / 2)) ∧
    SVclustering_sum unitKernel3 (updatecoeffs unitKernel3 coeffs3 coeffs3 0 1 (1 / 2) 0).a 3 ≤
      SVclustering_sum unitKernel3 coeffs3 3 :=
  have hxx : gsl_matrix_get unitKernel3 0 0 + gsl_matrix_get unitKernel3 1 1
      - 2 * gsl_matrix_get unitKernel3 0 1 > 0 := by
    simp [gsl_matrix_get, unitKernel3]
  have h0 : 0 ≤ coeffs3 0 ∧ coeffs3 0 ≤ 1 / 2 := by
    simp [coeffs3]
  have h1 : 0 ≤ coeffs3 1 ∧ coeffs3 1 ≤ 1 / 2 := by
    simp [coeffs3]
    norm_num
  ⟨⟨fun p q _ _ => unitKernel3_symm p q, unitKernel3_heights coeffs3, by decide, by decide,
      by decide, hxx, h0, h1⟩,
    updatecoeffs_energy unitKernel3 coeffs3 coeffs3 3 0 1 (1 / 2) 0
      (fun p q _ _ => unitKernel3_symm p q) (unitKernel3_heights coeffs3) (by decide)
      (by decide) (by decide) hxx h0 h1⟩

/-- Every entry of the candidate lists of `scan_kkt_v2` is a sample index below `m`. -/
theorem scan_kkt_v2_lists_lt (ty : Int) (m : Nat) (fw a : Nat → ℚ) (ph rvm : ℚ) (k : Nat) :
    (k ∈ scan_kkt_v2_list2 m fw a ph rvm → k < m) ∧
    (k ∈ scan_kkt_v2_list1 ty m fw a ph rvm → k < m) ∧
    (k ∈ scan_kkt_v2_second ty m fw a ph rvm → k < m) := by
  have h2 : k ∈ scan_kkt_v2_list2 m fw a ph rvm → k < m := by
    intro h
    unfold scan_kkt_v2_list2 at h
    exact List.mem_range.mp (List.mem_filter.mp h).1
  have h1 : k ∈ scan_kkt_v2_list1 ty m fw a ph rvm → k < m := by
    intro h
    unfold scan_kkt_v2_list1 at h
    rcases List.mem_append.mp h with h | h
    · exact h2 h
    · split at h
      · exact List.mem_range.mp (List.mem_filter.mp h).1
      · simp at h
  refine ⟨h2, h1, ?_⟩
  intro h
  unfold scan_kkt_v2_second at h
  split at h
  · exact h1 h
  · exact h2 h

/-- A pair returned by `scan_kkt_v2` with the return value 1 consists of two sample
indices below `m` whose heights differ by more than `esma`. -/
theorem scan_kkt_v2_found_pair (ty : Int) (m : Nat) (fw a : Nat → ℚ) (ph rvm : ℚ)
    (i0 j0 : Nat) (h : (scan_kkt_v2 ty m fw a ph rvm i0 j0).found = 1) :
    (scan_kkt_v2 ty m fw a ph rvm i0 j0).i < m ∧ (scan_kkt_v2 ty m fw a ph rvm i0 j0).j < m ∧
      |fw (scan_kkt_v2 ty m fw a ph rvm i0 j0).i - fw (scan_kkt_v2 ty m fw a ph rvm i0 j0).j|
        > scan_kkt_v2_esma := by
  by_cases hpair : (scan_kkt_v2_list2 m fw a ph rvm).length = 0 ∧
      ¬ (scan_kkt_v2_list1 ty m fw a ph rvm).length > 1
  · unfold scan_kkt_v2 at h
    simp only [if_pos hpair] at h
    exact absurd h (by decide)
  · have hsub : (scan_kkt_v2_list2 m fw a ph rvm).length ≤
        (scan_kkt_v2_list1 ty m fw a ph rvm).length := by
      unfold scan_kkt_v2_list1
      rw [List.length_append]
      omega
    have hc2 : 1 ≤ (scan_kkt_v2_second ty m fw a ph rvm).length := by
      unfold scan_kkt_v2_second
      by_cases h0 : (scan_kkt_v2_list2 m fw a ph rvm).length = 0
      · rw [if_pos h0]
        by_contra hlt
        exact hpair ⟨h0, by omega⟩
      · rw [if_neg h0]
        omega
    have hc1 : 1 ≤ (scan_kkt_v2_list1 ty m fw a ph rvm).length := by
      by_cases h0 : (scan_kkt_v2_list2 m fw a ph rvm).length = 0
      · by_contra hlt
        exact hpair ⟨h0, by omega⟩
      · omega
    obtain ⟨hgd, _⟩ := gsl_stats_max_index_spec
      (scan_kkt_v2_phdf fw (scan_kkt_v2_list1 ty m fw a ph rvm)
        (scan_kkt_v2_second ty m fw a ph rvm) (fun _ => 0)) _ (Nat.mul_pos hc1 hc2)
    generalize hg : gsl_stats_max_index
      (scan_kkt_v2_phdf fw (scan_kkt_v2_list1 ty m fw a ph rvm)
        (scan_kkt_v2_second ty m fw a ph rvm) (fun _ => 0))
      ((scan_kkt_v2_list1 ty m fw a ph rvm).length *
        (scan_kkt_v2_second ty m fw a ph rvm).length) = gd at hgd
    have hk : gd / (scan_kkt_v2_second ty m fw a ph rvm).length <
        (scan_kkt_v2_list1 ty m fw a ph rvm).length := (Nat.div_lt_iff_lt_mul hc2).mpr hgd
    have hp : gd % (scan_kkt_v2_second ty m fw a ph rvm).length <
        (scan_kkt_v2_second ty m fw a ph rvm).length := Nat.mod_lt _ hc2
    have hres : scan_kkt_v2 ty m fw a ph rvm i0 j0 =
        ⟨if scan_kkt_v2_phdf fw (scan_kkt_v2_list1 ty m fw a ph rvm)
            (scan_kkt_v2_second ty m fw a ph rvm) (fun _ => 0) gd > scan_kkt_v2_esma
          then 1 else 0,
          (scan_kkt_v2_list1 ty m fw a ph rvm).getD
            (gd / (scan_kkt_v2_second ty m fw a ph rvm).length) 0,
          (scan_kkt_v2_second ty m fw a ph rvm).getD
            (gd % (scan_kkt_v2_second ty m fw a ph rvm).length) 0⟩ := by
      unfold scan_kkt_v2
      simp only [if_neg hpair]
      rw [hg]
    rw [hres] at h ⊢
    simp only [] at h ⊢
    refine ⟨(scan_kkt_v2_lists_lt ty m fw a ph rvm _).2.1 (list_getD_mem _ _ hk),
      (scan_kkt_v2_lists_lt ty m fw a ph rvm _).2.2 (list_getD_mem _ _ hp), ?_⟩
    have hv : scan_kkt_v2_phdf fw (scan_kkt_v2_list1 ty m fw a ph rvm)
        (scan_kkt_v2_second ty m fw a ph rvm) (fun _ => 0) gd =
        |fw ((scan_kkt_v2_list1 ty m fw a ph rvm).getD
            (gd / (scan_kkt_v2_second ty m fw a ph rvm).length) 0) -
          fw ((scan_kkt_v2_second ty m fw a ph rvm).getD
            (gd % (scan_kkt_v2_second ty m fw a ph rvm).length) 0)| := by
      unfold scan_kkt_v2_phdf
      rw [if_pos hgd]
    rw [← hv]
    by_contra hc
    rw [if_neg hc] at h
    exact absurd h (by decide)

open Finset in
/-- C35: the division in `updatecoeffs` is never by zero on a pair chosen by the scan.
For a symmetric positive-semidefinite `m×m` matrix `K` (`Σ_k Σ_p v_p·v_k·K[k,p] ≥ 0`
for every `v`) and heights `fw = K·a`, whenever `scan_kkt_v2` returns 1 with the pair
`(i, j)`, then `i ≠ j`, both lie below `m`, and `K[i,i] + K[j,j] - 2K[i,j] > 0`. -/
theorem scan_kkt_v2_pair_divisor (K : gsl_matrix) (ty : Int) (m : Nat) (fw a : Nat → ℚ)
    (ph rvm : ℚ) (i0 j0 : Nat)
    (hsym : ∀ p q, p < m → q < m → gsl_matrix_get K p q = gsl_matrix_get K q p)
    (hpsd : ∀ v : Nat → ℚ, 0 ≤ SVclustering_sum K v m)
    (hfw : ∀ k, k < m → fw k = ∑ p in range m, a p * gsl_matrix_get K k p)
    (hfound : (scan_kkt_v2 ty m fw a ph rvm i0 j0).found = 1) :
    (scan_kkt_v2 ty m fw a ph rvm i0 j0).i ≠ (scan_kkt_v2 ty m fw a ph rvm i0 j0).j ∧
    (scan_kkt_v2 ty m fw a ph rvm i0 j0).i < m ∧ (scan_kkt_v2 ty m fw a ph rvm i0 j0).j < m ∧
    gsl_matrix_get K (scan_kkt_v2 ty m fw a ph rvm i0 j0).i (scan_kkt_v2 ty m fw a ph rvm i0 j0).i
      + gsl_matrix_get K (scan_kkt_v2 ty m fw a ph rvm i0 j0).j
          (scan_kkt_v2 ty m fw a ph rvm i0 j0).j
      - 2 * gsl_matrix_get K (scan_kkt_v2 ty m fw a ph rvm i0 j0).i
          (scan_kkt_v2 ty m fw a ph rvm i0 j0).j > 0 := by
  obtain ⟨hi, hj, hd⟩ := scan_kkt_v2_found_pair ty m fw a ph rvm i0 j0 hfound
  generalize (scan_kkt_v2 ty m fw a ph rvm i0 j0).i = i at hi hd ⊢
  generalize (scan_kkt_v2 ty m fw a ph rvm i0 j0).j = j at hj hd ⊢
  have hpos : (0 : ℚ) < scan_kkt_v2_esma := by
    unfold scan_kkt_v2_esma
    norm_num
  have hne : fw i - fw j ≠ 0 := by
    intro h0
    rw [h0, abs_zero] at hd
    exact absurd hd (not_lt.mpr (le_of_lt hpos))
  have hij : i ≠ j := by
    intro h
    apply hne
    rw [h, sub_self]
  refine ⟨hij, hi, hj, ?_⟩
  -- the energy along the direction `e_i - e_j`
  have hstep := fun t : ℚ => SVclustering_sum_step K a fw m i j t hsym hfw hi hj hij
  have hzero : ∀ p, p < m → (0 : ℚ) = ∑ q in range m, (fun _ => (0 : ℚ)) q * gsl_matrix_get K p q := by
    intro p _
    simp
  have hstep0 := SVclustering_sum_step K (fun _ => 0) (fun _ => 0) m i j 1 hsym hzero hi hj hij
  simp only [sub_self, mul_zero, add_zero, one_pow, one_mul] at hstep0
  have hS0 : SVclustering_sum K (fun _ => 0) m = 0 := by
    rw [SVclustering_sum_eq]
    simp
  have hge : 0 ≤ gsl_matrix_get K i i + gsl_matrix_get K j j - 2 * gsl_matrix_get K i j := by
    have h1 := hpsd (Function.update (Function.update (fun _ => (0 : ℚ)) i ((0 : ℚ) + 1)) j
      ((0 : ℚ) - 1))
    rw [hstep0, hS0] at h1
    linarith
  rcases lt_or_eq_of_le hge with h | h
  · exact h
  · exfalso
    have hlin : ∀ t : ℚ, 0 ≤ SVclustering_sum K a m + 2 * t * (fw i - fw j) := by
      intro t
      have h1 := hstep t
      rw [← h, mul_zero, add_zero] at h1
      rw [← h1]
      exact hpsd _
    have h2 := hlin (-(SVclustering_sum K a m + 1) / (2 * (fw i - fw j)))
    have e : 2 * (-(SVclustering_sum K a m + 1) / (2 * (fw i - fw j))) * (fw i - fw j) =
        -(SVclustering_sum K a m + 1) := by
      field_simp
      ring
    rw [e] at h2
    linarith

open Finset in
/-- The 3×3 unit kernel matrix is positive semidefinite. -/
theorem unitKernel3_psd (v : Nat → ℚ) : 0 ≤ SVclustering_sum unitKernel3 v 3 := by
  rw [unitKernel3_sum]
  positivity

open Finset in
/-- C35, instance: a type-1 scan of the coefficients 1/2, 1/3, 1/6 under the 3×3 unit
kernel, with heights equal to the coefficients, `ph = 1/2` and the cap 1. -/
theorem scan_kkt_v2_pair_divisor_witness :
    ((∀ p q, p < 3 → q < 3 → gsl_matrix_get unitKernel3 p q = gsl_matrix_get unitKernel3 q p) ∧
      (∀ v : Nat → ℚ, 0 ≤ SVclustering_sum unitKernel3 v 3) ∧
      (∀ k, k < 3 →
        coeffsStep k = ∑ p in range 3, coeffsStep p * gsl_matrix_get unitKernel3 k p) ∧
      (scan_kkt_v2 1 3 coeffsStep coeffsStep (1 / 2) 1 0 0).found = 1) ∧
    (scan_kkt_v2 1 3 coeffsStep coeffsStep (1 / 2) 1 0 0).i ≠
      (scan_kkt_v2 1 3 coeffsStep coeffsStep (1 / 2) 1 0 0).j :=
  have hfound : (scan_kkt_v2 1 3 coeffsStep coeffsStep (1 / 2) 1 0 0).found = 1 := by
    rw [scan_kkt_v2_stateStep 0 0]
  ⟨⟨fun p q _ _ => unitKernel3_symm p q, unitKernel3_psd, unitKernel3_heights coeffsStep,
      hfound⟩,
    (scan_kkt_v2_pair_divisor unitKernel3 1 3 coeffsStep coeffsStep (1 / 2) 1 0 0
      (fun p q _ _ => unitKernel3_symm p q) unitKernel3_psd (unitKernel3_heights coeffsStep)
      hfound).1⟩

/-! ## Spatial neighbour search: the window -/

/-- The window of `knnindex` always has `2*width` rows and `2*width` columns. -/
theorem knnindex_window_size (icol irow ind width : Nat) :
    (knnindex_window icol irow ind width).r2 - (knnindex_window icol irow ind width).r1 =
      2 * (width : Int) ∧
    (knnindex_window icol irow ind width).c2 - (knnindex_window icol irow ind width).c1 =
      2 * (width : Int) := by
  unfold knnindex_window
  simp only []
  constructor
  · split_ifs <;> simp only [] <;> omega
  · split_ifs <;> simp only [] <;> omega

/-- On an image of at least `2*width` rows and columns the window of `knnindex` lies
inside the image. -/
theorem knnindex_window_inside (icol irow ind width : Nat) (hr : 2 * width ≤ irow)
    (hc : 2 * width ≤ icol) (hind : ind < irow * icol) :
    0 ≤ (knnindex_window icol irow ind width).r1 ∧
    (knnindex_window icol irow ind width).r2 ≤ (irow : Int) ∧
    0 ≤ (knnindex_window icol irow ind width).c1 ∧
    (knnindex_window icol irow ind width).c2 ≤ (icol : Int) := by
  have hicol : 0 < icol := by
    rcases Nat.eq_zero_or_pos icol with h | h
    · rw [h, Nat.mul_zero] at hind; omega
    · exact h
  have hrr : ind / icol < irow := (Nat.div_lt_iff_lt_mul hicol).mpr hind
  have hcc : ind % icol < icol := Nat.mod_lt _ hicol
  unfold knnindex_window
  simp only []
  refine ⟨?_, ?_, ?_, ?_⟩ <;> split_ifs <;> simp only [] <;> omega

/-- On an image with fewer than `2*width` rows or columns the window of `knnindex` does
not lie inside the image. -/
theorem knnindex_window_outside (icol irow ind width : Nat)
    (h : irow < 2 * width ∨ icol < 2 * width) :
    ¬ (0 ≤ (knnindex_window icol irow ind width).r1 ∧
      (knnindex_window icol irow ind width).r2 ≤ (irow : Int) ∧
      0 ≤ (knnindex_window icol irow ind width).c1 ∧
      (knnindex_window icol irow ind width).c2 ≤ (icol : Int)) := by
  obtain ⟨h1, h2⟩ := knnindex_window_size icol irow ind width
  intro ⟨a1, a2, a3, a4⟩
  rcases h with h | h <;> omega

/-- A double loop over `R` rows and `C` columns lists `R*C` entries, and the entry at
position `h` is the one of row `h / C` and column `h % C`. -/
theorem grid_list_spec (R C : Nat) (f : Nat → Nat → Int) :
    ((List.range R).flatMap (fun (di : Nat) =>
      (List.range C).map (fun (dj : Nat) => f di dj))).length = R * C ∧
    ∀ h, h < R * C →
      ((List.range R).flatMap (fun (di : Nat) =>
        (List.range C).map (fun (dj : Nat) => f di dj))).getD h 0 = f (h / C) (h % C) := by
  induction R with
  | zero =>
    constructor
    · simp
    · intro h hh
      simp at hh
  | succ R ih =>
    obtain ⟨ih1, ih2⟩ := ih
    have happ : (List.range (R + 1)).flatMap (fun (di : Nat) =>
        (List.range C).map (fun (dj : Nat) => f di dj)) =
        (List.range R).flatMap (fun (di : Nat) =>
          (List.range C).map (fun (dj : Nat) => f di dj)) ++
        (List.range C).map (fun (dj : Nat) => f R dj) := by
      rw [List.range_succ, List.flatMap_append]
      simp
    rw [happ]
    constructor
    · rw [List.length_append, ih1, List.length_map, List.length_range]
      ring
    · intro h hh
      by_cases hlt : h < R * C
      · rw [List.getD_append _ _ _ _ (by rw [ih1]; exact hlt)]
        exact ih2 h hlt
      · have hge : R * C ≤ h := Nat.le_of_not_lt hlt
        have hC : 0 < C := by
          rcases Nat.eq_zero_or_pos C with h0 | h0
          · rw [h0] at hh; simp at hh
          · exact h0
        have hsub : h - R * C < C := by
          have : (R + 1) * C = R * C + C := by ring
          omega
        rw [List.getD_append_right _ _ _ _ (by rw [ih1]; exact hge), ih1]
        rw [List.getD_eq_getElem _ _ (by rw [List.length_map, List.length_range]; exact hsub)]
        rw [List.getElem_map, List.getElem_range]
        have hdiv : h / C = R := by
          apply Nat.div_eq_of_lt_le
          · rw [Nat.mul_comm] at hge; rw [Nat.mul_comm]; exact hge
          · rw [Nat.mul_comm] at hh; rw [Nat.mul_comm]; exact hh
        have hmod : h % C = h - R * C := by
          have := Nat.div_add_mod h C
          rw [hdiv] at this
          rw [Nat.mul_comm] at this
          omega
        rw [hdiv, hmod]

/-- The array `pxind` of `knnindex` has `(2*width)*(2*width)` entries, and the entry at
position `h` is `(r1 + h / (2*width))*icol + c1 + h % (2*width)`. -/
theorem knnindex_pxind_spec (icol irow ind width : Nat) :
    (knnindex_pxind icol (knnindex_window icol irow ind width)).length =
      (2 * width) * (2 * width) ∧
    ∀ h, h < (2 * width) * (2 * width) →
      (knnindex_pxind icol (knnindex_window icol irow ind width)).getD h 0 =
        ((knnindex_window icol irow ind width).r1 + ((h / (2 * width) : Nat) : Int)) *
          (icol : Int) +
        ((knnindex_window icol irow ind width).c1 + ((h % (2 * width) : Nat) : Int)) := by
  obtain ⟨h1, h2⟩ := knnindex_window_size icol irow ind width
  have e1 : ((knnindex_window icol irow ind width).r2 -
      (knnindex_window icol irow ind width).r1).toNat = 2 * width := by omega
  have e2 : ((knnindex_window icol irow ind width).c2 -
      (knnindex_window icol irow ind width).c1).toNat = 2 * width := by omega
  unfold knnindex_pxind
  rw [e1, e2]
  exact grid_list_spec (2 * width) (2 * width) (fun di dj =>
    ((knnindex_window icol irow ind width).r1 + (di : Int)) * (icol : Int) +
      ((knnindex_window icol irow ind width).c1 + (dj : Int)))

/-- On an image of at least `2*width` rows and columns every entry of `pxind` is the
index of a pixel in the window, which lies inside the image, and positions of `pxind`
with the same entry are the same. -/
theorem knnindex_pxind_inside (icol irow ind width : Nat) (hr : 2 * width ≤ irow)
    (hc : 2 * width ≤ icol) (hind : ind < irow * icol) (h : Nat)
    (hh : h < (2 * width) * (2 * width)) :
    (0 ≤ (knnindex_pxind icol (knnindex_window icol irow ind width)).getD h 0 ∧
      (knnindex_pxind icol (knnindex_window icol irow ind width)).getD h 0 <
        ((irow * icol : Nat) : Int)) ∧
    (∃ r c : Int, (knnindex_window icol irow ind width).r1 ≤ r ∧
      r < (knnindex_window icol irow ind width).r2 ∧
      (knnindex_window icol irow ind width).c1 ≤ c ∧
      c < (knnindex_window icol irow ind width).c2 ∧
      (knnindex_pxind icol (knnindex_window icol irow ind width)).getD h 0 =
        r * (icol : Int) + c) ∧
    ∀ h2, h2 < (2 * width) * (2 * width) →
      (knnindex_pxind icol (knnindex_window icol irow ind width)).getD h2 0 =
        (knnindex_pxind icol (knnindex_window icol irow ind width)).getD h 0 → h2 = h := by
  obtain ⟨s1, s2⟩ := knnindex_window_size icol irow ind width
  obtain ⟨a1, a2, a3, a4⟩ := knnindex_window_inside icol irow ind width hr hc hind
  obtain ⟨_, hget⟩ := knnindex_pxind_spec icol irow ind width
  have hw : 0 < 2 * width := by
    rcases Nat.eq_zero_or_pos (2 * width) with h0 | h0
    · rw [h0] at hh; simp at hh
    · exact h0
  have hdiv : ∀ x, x < (2 * width) * (2 * width) → x / (2 * width) < 2 * width := by
    intro x hx
    exact (Nat.div_lt_iff_lt_mul hw).mpr hx
  have hmod : ∀ x, x % (2 * width) < 2 * width := fun x => Nat.mod_lt _ hw
  generalize hw1 : knnindex_window icol irow ind width = w at *
  rw [hget h hh]
  have hd := hdiv h hh
  have hm := hmod h
  have e1 := Nat.div_add_mod h (2 * width)
  generalize h / (2 * width) = q at hd e1 ⊢
  generalize h % (2 * width) = t at hm e1 ⊢
  have hrow : w.r1 + (q : Int) < (irow : Int) := by omega
  have hrow0 : 0 ≤ w.r1 + (q : Int) := by omega
  have hcol : w.c1 + (t : Int) < (icol : Int) := by omega
  have hcol0 : 0 ≤ w.c1 + (t : Int) := by omega
  refine ⟨⟨?_, ?_⟩, ⟨w.r1 + (q : Int), w.c1 + (t : Int), by omega, by omega, by omega,
    by omega, rfl⟩, ?_⟩
  · have := mul_nonneg hrow0 (Int.ofNat_nonneg icol)
    omega
  · have h1 : (w.r1 + (q : Int) + 1) * (icol : Int) ≤ (irow : Int) * (icol : Int) :=
      mul_le_mul_of_nonneg_right (by omega) (Int.ofNat_nonneg icol)
    push_cast
    rw [add_mul, one_mul] at h1
    omega
  · intro h2 hh2 he
    rw [hget h2 hh2] at he
    have hd2 := hdiv h2 hh2
    have hm2 := hmod h2
    have e2 := Nat.div_add_mod h2 (2 * width)
    generalize h2 / (2 * width) = q2 at hd2 e2 he
    generalize h2 % (2 * width) = t2 at hm2 e2 he
    -- equal indices with columns below `icol` have equal rows and columns
    have hrows : w.r1 + (q2 : Int) = w.r1 + (q : Int) := by
      have hc2 : w.c1 + (t2 : Int) < (icol : Int) := by omega
      have hc20 : 0 ≤ w.c1 + (t2 : Int) := by omega
      by_contra hne
      rcases lt_or_gt_of_ne hne with hlt | hgt
      · have : (w.r1 + (q2 : Int) + 1) * (icol : Int) ≤ (w.r1 + (q : Int)) * (icol : Int) :=
          mul_le_mul_of_nonneg_right (by omega) (Int.ofNat_nonneg icol)
        rw [add_mul, one_mul] at this
        omega
      · have : (w.r1 + (q : Int) + 1) * (icol : Int) ≤ (w.r1 + (q2 : Int)) * (icol : Int) :=
          mul_le_mul_of_nonneg_right (by omega) (Int.ofNat_nonneg icol)
        rw [add_mul, one_mul] at this
        omega
    rw [hrows] at he
    have hq : q2 = q := by omega
    have hr2 : t2 = t := by omega
    rw [hq, hr2] at e2
    omega

/-- C36: the window of `knnindex` around a pixel `ind` of an `irow × icol` image has
`2·width` rows and `2·width` columns (so `pxind` receives `(2·width)²` entries); when
`irow ≥ 2·width` and `icol ≥ 2·width` the window lies inside the image and every entry
of `pxind` is a pixel index in `[0, irow·icol)`; when the image has fewer than `2·width`
rows or columns the window passes a bound of the image (`r1 < 0`, `r2 > irow`, `c1 < 0`
or `c2 > icol`). -/
theorem knnindex_window_bounds (icol irow ind width : Nat) (hind : ind < irow * icol) :
    ((knnindex_window icol irow ind width).r2 - (knnindex_window icol irow ind width).r1 =
        2 * (width : Int) ∧
      (knnindex_window icol irow ind width).c2 - (knnindex_window icol irow ind width).c1 =
        2 * (width : Int) ∧
      (knnindex_pxind icol (knnindex_window icol irow ind width)).length =
        (2 * width) * (2 * width)) ∧
    (2 * width ≤ irow → 2 * width ≤ icol →
      (0 ≤ (knnindex_window icol irow ind width).r1 ∧
        (knnindex_window icol irow ind width).r2 ≤ (irow : Int) ∧
        0 ≤ (knnindex_window icol irow ind width).c1 ∧
        (knnindex_window icol irow ind width).c2 ≤ (icol : Int)) ∧
      ∀ p, p ∈ knnindex_pxind icol (knnindex_window icol irow ind width) →
        0 ≤ p ∧ p < ((irow * icol : Nat) : Int)) ∧
    (irow < 2 * width ∨ icol < 2 * width →
      (knnindex_window icol irow ind width).r1 < 0 ∨
      (knnindex_window icol irow ind width).r2 > (irow : Int) ∨
      (knnindex_window icol irow ind width).c1 < 0 ∨
      (knnindex_window icol irow ind width).c2 > (icol : Int)) := by
  obtain ⟨s1, s2⟩ := knnindex_window_size icol irow ind width
  obtain ⟨hlen, _⟩ := knnindex_pxind_spec icol irow ind width
  refine ⟨⟨s1, s2, hlen⟩, ?_, ?_⟩
  · intro hr hc
    refine ⟨knnindex_window_inside icol irow ind width hr hc hind, ?_⟩
    intro p hp
    obtain ⟨h, hh, hp2⟩ := List.getElem_of_mem hp
    have hh2 : h < (2 * width) * (2 * width) := by rw [← hlen]; exact hh
    have := (knnindex_pxind_inside icol irow ind width hr hc hind h hh2).1
    rw [List.getD_eq_getElem _ _ hh, hp2] at this
    exact this
  · intro h
    have := knnindex_window_outside icol irow ind width h
    by_contra hc
    apply this
    refine ⟨?_, ?_, ?_, ?_⟩ <;> omega

/-- C36, instance: the window around pixel 0 of a 30×30 image for `width = 15`. -/
theorem knnindex_window_bounds_witness :
    0 < 30 * 30 ∧
    (knnindex_pxind 30 (knnindex_window 30 30 0 15)).length = (2 * 15) * (2 * 15) :=
  ⟨by decide, (knnindex_window_bounds 30 30 0 15 (by decide)).1.2.2⟩

/-! ## Spatial neighbour search: the neighbour list -/

/-- The flag of a pixel after the flag block of `knnindex` is never 0. -/
theorem knnindex_flag_ne_zero (kern : gsl_vector → gsl_vector → ℚ) (data : Nat → Nat → ℚ)
    (natb : Nat) (svf : svminfo) (X : gsl_matrix) (rsflags : Nat → Int) (p : Nat) :
    knnindex_flag kern data natb svf X rsflags p ≠ 0 := by
  unfold knnindex_flag
  split
  · split <;> decide
  · assumption

/-- The first loop over the window in `knnindex`, when every entry of `pxind` is a pixel
index of the image: the loop runs through; a pixel of the window with `cls == 0` other
than the seed ends with the flag of `knnindex_flag`, every other flag is as before; and
`md[h]` holds the squared distance to the seed when the pixel `pxind[h]` has `cls == 0`,
is not the seed and its flag is not 2, and `DBL_MAX` otherwise. -/
theorem knnindex_scan_spec (kern : gsl_vector → gsl_vector → ℚ) (data : Nat → Nat → ℚ)
    (natb npix ind : Nat) (cls : Nat → Int) (svf : svminfo) (X : gsl_matrix)
    (pxind : Nat → Int) (rsflags : Nat → Int) (pnum : Nat)
    (hin : ∀ h, h < pnum → 0 ≤ pxind h ∧ pxind h < (npix : Int)) :
    ∃ sc, knnindex_scan kern data natb npix ind pnum cls svf X pxind rsflags = some sc ∧
      (∀ p, ((∃ h, h < pnum ∧ (pxind h).toNat = p) ∧ cls p = 0 ∧ p ≠ ind →
          sc.rsflags p = knnindex_flag kern data natb svf X rsflags p) ∧
        (¬ ((∃ h, h < pnum ∧ (pxind h).toNat = p) ∧ cls p = 0 ∧ p ≠ ind) →
          sc.rsflags p = rsflags p)) ∧
      (∀ h, h < pnum →
        sc.md h =
          if cls (pxind h).toNat = 0 ∧ (pxind h).toNat ≠ ind ∧
              knnindex_flag kern data natb svf X rsflags (pxind h).toNat ≠ 2 then
            some (knnindex_dsum data natb ind (pxind h).toNat)
          else none) ∧
      (∀ h, pnum ≤ h → sc.md h = none) := by
  unfold knnindex_scan
  induction pnum with
  | zero =>
    refine ⟨⟨rsflags, fun _ => none⟩, rfl, ?_, ?_, ?_⟩
    · intro p
      constructor
      · rintro ⟨⟨h, hh, _⟩, _⟩
        omega
      · intro _
        rfl
    · intro h hh
      omega
    · intro h _
      rfl
  | succ t ih =>
    obtain ⟨sc, hsc, hrs, hmd, hmd2⟩ := ih (fun h hh => hin h (by omega))
    rw [List.range_succ, List.foldl_append, hsc]
    simp only [List.foldl_cons, List.foldl_nil]
    obtain ⟨hi0, hi1⟩ := hin t (by omega)
    unfold knnindex_md_step
    simp only []
    have hnot : ¬ (pxind t < 0 ∨ pxind t ≥ (npix : Int)) := by omega
    rw [if_neg hnot]
    generalize hp : (pxind t).toNat = p
    -- flags before position `t`
    have hvis : ∀ q, (∃ h, h < t + 1 ∧ (pxind h).toNat = q) ↔
        ((∃ h, h < t ∧ (pxind h).toNat = q) ∨ q = p) := by
      intro q
      constructor
      · rintro ⟨h, hh, he⟩
        by_cases ht : h = t
        · right; rw [← he, ht, hp]
        · left; exact ⟨h, by omega, he⟩
      · rintro (⟨h, hh, he⟩ | he)
        · exact ⟨h, by omega, he⟩
        · exact ⟨t, by omega, by rw [hp, he]⟩
    by_cases hc : cls p = 0 ∧ p ≠ ind
    · rw [if_pos hc]
      -- the flag of `p` after the flag block
      have hflag : (if sc.rsflags p = 0 then
            Function.update sc.rsflags p
              (if calrsq kern ⟨natb, fun j => data j p⟩ svf.a X svf.sum > svf.rsq then 2 else 1)
          else sc.rsflags) p = knnindex_flag kern data natb svf X rsflags p := by
        by_cases hz : sc.rsflags p = 0
        · rw [if_pos hz, Function.update_same]
          by_cases hv : (∃ h, h < t ∧ (pxind h).toNat = p)
          · have := (hrs p).1 ⟨hv, hc⟩
            rw [hz] at this
            exact absurd this.symm (knnindex_flag_ne_zero kern data natb svf X rsflags p)
          · have := (hrs p).2 (fun hh => hv hh.1)
            rw [hz] at this
            unfold knnindex_flag
            rw [if_pos this.symm]
        · rw [if_neg hz]
          by_cases hv : (∃ h, h < t ∧ (pxind h).toNat = p)
          · exact (hrs p).1 ⟨hv, hc⟩
          · have := (hrs p).2 (fun hh => hv hh.1)
            unfold knnindex_flag
            rw [this] at hz
            rw [if_neg hz]
            exact this
      have hother : ∀ q, q ≠ p → (if sc.rsflags p = 0 then
            Function.update sc.rsflags p
              (if calrsq kern ⟨natb, fun j => data j p⟩ svf.a X svf.sum > svf.rsq then 2 else 1)
          else sc.rsflags) q = sc.rsflags q := by
        intro q hq
        split
        · rw [Function.update_noteq hq]
        · rfl
      generalize hrsdef : (if sc.rsflags p = 0 then
            Function.update sc.rsflags p
              (if calrsq kern ⟨natb, fun j => data j p⟩ svf.a X svf.sum > svf.rsq then 2 else 1)
          else sc.rsflags) = rs at hflag hother
      have hrs2 : ∀ q, ((∃ h, h < t + 1 ∧ (pxind h).toNat = q) ∧ cls q = 0 ∧ q ≠ ind →
            rs q = knnindex_flag kern data natb svf X rsflags q) ∧
          (¬ ((∃ h, h < t + 1 ∧ (pxind h).toNat = q) ∧ cls q = 0 ∧ q ≠ ind) →
            rs q = rsflags q) := by
        intro q
        by_cases hq : q = p
        · subst hq
          constructor
          · intro _
            exact hflag
          · intro hn
            exact absurd ⟨(hvis q).mpr (Or.inr rfl), hc⟩ hn
        · rw [hother q hq]
          constructor
          · rintro ⟨hv, hcq⟩
            rcases (hvis q).mp hv with hv2 | hv2
            · exact (hrs q).1 ⟨hv2, hcq⟩
            · exact absurd hv2 hq
          · intro hn
            apply (hrs q).2
            rintro ⟨hv, hcq⟩
            exact hn ⟨(hvis q).mpr (Or.inl hv), hcq⟩
      have hmdnew : ∀ (v : Option ℚ),
          (v = if cls p = 0 ∧ p ≠ ind ∧ knnindex_flag kern data natb svf X rsflags p ≠ 2 then
            some (knnindex_dsum data natb ind p) else none) →
          (∀ h, h < t + 1 → Function.update sc.md t v h =
            if cls (pxind h).toNat = 0 ∧ (pxind h).toNat ≠ ind ∧
                knnindex_flag kern data natb svf X rsflags (pxind h).toNat ≠ 2 then
              some (knnindex_dsum data natb ind (pxind h).toNat)
            else none) ∧
          (∀ h, t + 1 ≤ h → Function.update sc.md t v h = none) := by
        intro v hv
        constructor
        · intro h hh
          by_cases ht : h = t
          · rw [ht, Function.update_same, hp]
            exact hv
          · rw [Function.update_noteq ht]
            exact hmd h (by omega)
        · intro h hh
          rw [Function.update_noteq (by omega)]
          exact hmd2 h (by omega)
      by_cases h2 : rs p ≠ 2
      · rw [if_pos h2]
        have hv : (some (knnindex_dsum data natb ind p) : Option ℚ) =
            if cls p = 0 ∧ p ≠ ind ∧ knnindex_flag kern data natb svf X rsflags p ≠ 2 then
              some (knnindex_dsum data natb ind p) else none := by
          rw [hflag] at h2
          rw [if_pos ⟨hc.1, hc.2, h2⟩]
        exact ⟨_, rfl, hrs2, (hmdnew _ hv).1, (hmdnew _ hv).2⟩
      · rw [if_neg h2]
        have hv : (none : Option ℚ) =
            if cls p = 0 ∧ p ≠ ind ∧ knnindex_flag kern data natb svf X rsflags p ≠ 2 then
              some (knnindex_dsum data natb ind p) else none := by
          rw [hflag] at h2
          have : ¬ (cls p = 0 ∧ p ≠ ind ∧ knnindex_flag kern data natb svf X rsflags p ≠ 2) :=
            fun h => h2 h.2.2
          rw [if_neg this]
        exact ⟨_, rfl, hrs2, (hmdnew _ hv).1, (hmdnew _ hv).2⟩
    · rw [if_neg hc]
      refine ⟨_, rfl, ?_, ?_, ?_⟩
      · intro q
        constructor
        · rintro ⟨hv, hcq⟩
          rcases (hvis q).mp hv with hv2 | hv2
          · exact (hrs q).1 ⟨hv2, hcq⟩
          · rw [hv2] at hcq
            exact absurd hcq hc
        · intro hn
          apply (hrs q).2
          rintro ⟨hv, hcq⟩
          exact hn ⟨(hvis q).mpr (Or.inl hv), hcq⟩
      · intro h hh
        show Function.update sc.md t none h = _
        by_cases ht : h = t
        · rw [ht, Function.update_same, hp]
          have : ¬ (cls p = 0 ∧ p ≠ ind ∧ knnindex_flag kern data natb svf X rsflags p ≠ 2) :=
            fun h => hc ⟨h.1, h.2.1⟩
          rw [if_neg this]
        · rw [Function.update_noteq ht]
          exact hmd h (by omega)
      · intro h hh
        show Function.update sc.md t none h = _
        rw [Function.update_noteq (by omega)]
        exact hmd2 h (by omega)

/-- The selection state stays valid for a later position. -/
theorem knnSelected_mono (adjf : Int → Bool) (sts : Nat → Nat) (md : Nat → Option ℚ)
    (pxind : Nat → Int) (H H2 : Nat) (kx : Nat → Int) (cc : Nat) (hH : H ≤ H2)
    (h : KnnSelected adjf sts md pxind H kx cc) : KnnSelected adjf sts md pxind H2 kx cc := by
  obtain ⟨h1, pos, h2, h3⟩ := h
  refine ⟨h1, pos, ?_, h3⟩
  intro j hj
  obtain ⟨a, b⟩ := h2 j hj
  exact ⟨by omega, b⟩

/-- The selection loop of `knnindex` entered with `cc < k`: it returns, with at most `k`
entries, each taken at a position of the sort order with a distance other than `DBL_MAX`
and a pixel that passed `adjcheck2v`, in ascending positions. -/
theorem knnindex_select_spec (adjf : Int → Bool) (sts : Nat → Nat) (md : Nat → Option ℚ)
    (pxind : Nat → Int) (k n h : Nat) (kx : Nat → Int) (cc : Nat) (hk : cc < k)
    (hinv : KnnSelected adjf sts md pxind h kx cc) :
    ∃ kx1 cc1, knnindex_select adjf sts md pxind k n h (kx, cc) = some (kx1, cc1) ∧
      cc1 ≤ k ∧ KnnSelected adjf sts md pxind (h + n) kx1 cc1 := by
  induction n generalizing h kx cc with
  | zero =>
    exact ⟨kx, cc, rfl, by omega, hinv⟩
  | succ n ih =>
    unfold knnindex_select
    simp only []
    by_cases hc : md (sts h) ≠ none ∧ adjf (pxind (sts h)) = true
    · rw [if_pos hc, if_pos hk]
      simp only []
      have hnew : KnnSelected adjf sts md pxind (h + 1)
          (Function.update kx cc (pxind (sts h))) (cc + 1) := by
        obtain ⟨h1, pos, h2, h3⟩ := hinv
        refine ⟨?_, Function.update pos cc h, ?_, ?_⟩
        · intro j hj
          rw [Function.update_noteq (by omega)]
          exact h1 j (by omega)
        · intro j hj
          by_cases hjc : j = cc
          · rw [hjc, Function.update_same, Function.update_same]
            exact ⟨by omega, hc.1, hc.2, rfl⟩
          · rw [Function.update_noteq hjc, Function.update_noteq hjc]
            obtain ⟨a, b⟩ := h2 j (by omega)
            exact ⟨by omega, b⟩
        · intro j1 j2 h12 hj2
          by_cases hjc : j2 = cc
          · rw [hjc, Function.update_same, Function.update_noteq (by omega)]
            exact (h2 j1 (by omega)).1
          · rw [Function.update_noteq hjc, Function.update_noteq (by omega)]
            exact h3 j1 j2 h12 (by omega)
      by_cases hend : cc + 1 = k
      · rw [if_pos hend]
        exact ⟨_, _, rfl, by omega,
          knnSelected_mono adjf sts md pxind (h + 1) (h + (n + 1)) _ _ (by omega) hnew⟩
      · rw [if_neg hend]
        obtain ⟨kx1, cc1, e1, e2, e3⟩ := ih (h + 1) _ (cc + 1) (by omega) hnew
        refine ⟨kx1, cc1, e1, e2, ?_⟩
        have e : h + 1 + n = h + (n + 1) := by omega
        rw [← e]
        exact e3
    · rw [if_neg hc]
      simp only []
      have hne : ¬ cc = k := by omega
      rw [if_neg hne]
      obtain ⟨kx1, cc1, e1, e2, e3⟩ := ih (h + 1) kx cc hk
        (knnSelected_mono adjf sts md pxind h (h + 1) _ _ (by omega) hinv)
      refine ⟨kx1, cc1, e1, e2, ?_⟩
      have e : h + 1 + n = h + (n + 1) := by omega
      rw [← e]
      exact e3

/-- C31, on an image of at least `2·width` rows and columns and for `k ≥ 1`: `knnindex`
returns for the seed pixel `ind` an array in which the first `cc ≤ k` entries are pixel
indices and every later entry is -1; each of the `cc` entries is a pixel of the window
(row in `[r1, r2)`, column in `[c1, c2)`), inside the image, different from the seed,
with `cls == 0`, with a flag other than 2 in `rsflags` after the call, and adjacent to the
seed by `adjcheck2v`; no pixel is listed twice; and the squared distances to the seed in
raw attribute space do not descend along the list.  `sts` is the permutation written by
`gsl_sort_index` on the distances of the call. -/
theorem knnindex_neighbours (kern : gsl_vector → gsl_vector → ℚ) (sts : Nat → Nat)
    (data : Nat → Nat → ℚ) (icol irow natb ind width k : Nat) (cls : Nat → Int) (sam : Nat)
    (svf : svminfo) (X : gsl_matrix) (rsflags : Nat → Int)
    (hr : 2 * width ≤ irow) (hc : 2 * width ≤ icol) (hind : ind < irow * icol) (hk : 1 ≤ k)
    (hsort : ∀ sc, knnindex_scan kern data natb (irow * icol) ind ((2 * width) * (2 * width))
        cls svf X
        (fun h => (knnindex_pxind icol (knnindex_window icol irow ind width)).getD h 0)
        rsflags = some sc → IsSortIndexMax sts sc.md ((2 * width) * (2 * width))) :
    ∃ kdex rs cc,
      knnindex kern sts data icol irow natb ind width k cls sam svf X rsflags =
        some (kdex, rs) ∧
      cc ≤ k ∧
      (∀ j, cc ≤ j → kdex j = -1) ∧
      (∀ j, j < cc →
        (0 ≤ kdex j ∧ kdex j < ((irow * icol : Nat) : Int)) ∧
        (∃ r c : Int, (knnindex_window icol irow ind width).r1 ≤ r ∧
          r < (knnindex_window icol irow ind width).r2 ∧
          (knnindex_window icol irow ind width).c1 ≤ c ∧
          c < (knnindex_window icol irow ind width).c2 ∧ kdex j = r * (icol : Int) + c) ∧
        (kdex j).toNat ≠ ind ∧ cls (kdex j).toNat = 0 ∧ rs (kdex j).toNat ≠ 2 ∧
        adjcheck2v kern ⟨natb, fun b => data b ind⟩ ⟨natb, fun b => data b (kdex j).toNat⟩
          svf.a svf.sum svf.rsq sam X = true) ∧
      (∀ j1 j2, j1 < j2 → j2 < cc → kdex j1 ≠ kdex j2) ∧
      (∀ j1 j2, j1 ≤ j2 → j2 < cc →
        knnindex_dsum data natb ind (kdex j1).toNat ≤
          knnindex_dsum data natb ind (kdex j2).toNat) := by
  have hicol : icol ≠ 0 := by
    intro h0
    rw [h0, Nat.mul_zero] at hind
    omega
  have hins := knnindex_pxind_inside icol irow ind width hr hc hind
  obtain ⟨sc, hsc, hrs, hmd, _⟩ := knnindex_scan_spec kern data natb (irow * icol) ind cls svf X
    (fun h => (knnindex_pxind icol (knnindex_window icol irow ind width)).getD h 0)
    rsflags ((2 * width) * (2 * width)) (fun h hh => (hins h hh).1)
  obtain ⟨hs1, hs2, hs3⟩ := hsort sc hsc
  have hinit : KnnSelected
      (fun bp => adjcheck2v kern ⟨natb, fun b => data b ind⟩
        ⟨natb, fun b => data b bp.toNat⟩ svf.a svf.sum svf.rsq sam X)
      sts sc.md
      (fun h => (knnindex_pxind icol (knnindex_window icol irow ind width)).getD h 0)
      0 (fun _ => -1) 0 := by
    refine ⟨fun _ _ => rfl, fun _ => 0, ?_, ?_⟩
    · intro j hj
      omega
    · intro j1 j2 _ hj2
      omega
  obtain ⟨kx, cc, hsel, hcc, hfin, pos, hpos, hmono⟩ := knnindex_select_spec _ sts sc.md
    (fun h => (knnindex_pxind icol (knnindex_window icol irow ind width)).getD h 0)
    k ((2 * width) * (2 * width)) 0 (fun _ => -1) 0 (by omega) hinit
  rw [Nat.zero_add] at hpos
  refine ⟨kx, sc.rsflags, cc, ?_, hcc, hfin, ?_, ?_, ?_⟩
  · unfold knnindex
    rw [if_neg hicol]
    simp only []
    rw [hsc]
    simp only []
    rw [hsel]
  · intro j hj
    obtain ⟨p1, p2, p3, p4⟩ := hpos j hj
    have hlt := hs1 (pos j) p1
    obtain ⟨q1, q2, _⟩ := hins (sts (pos j)) hlt
    have hm := hmd (sts (pos j)) hlt
    simp only [] at p4 hm p3
    rw [p4]
    by_cases hcond : cls ((knnindex_pxind icol (knnindex_window icol irow ind width)).getD
          (sts (pos j)) 0).toNat = 0 ∧
        ((knnindex_pxind icol (knnindex_window icol irow ind width)).getD
          (sts (pos j)) 0).toNat ≠ ind ∧
        knnindex_flag kern data natb svf X rsflags
          ((knnindex_pxind icol (knnindex_window icol irow ind width)).getD
            (sts (pos j)) 0).toNat ≠ 2
    · refine ⟨q1, q2, hcond.2.1, hcond.1, ?_, p3⟩
      rw [(hrs _).1 ⟨⟨sts (pos j), hlt, rfl⟩, hcond.1, hcond.2.1⟩]
      exact hcond.2.2
    · rw [if_neg hcond] at hm
      exact absurd hm p2
  · intro j1 j2 h12 hj2
    obtain ⟨a1, _, _, a4⟩ := hpos j1 (by omega)
    obtain ⟨b1, _, _, b4⟩ := hpos j2 hj2
    rw [a4, b4]
    intro he
    have hp := hmono j1 j2 h12 hj2
    have e1 := (hins (sts (pos j2)) (hs1 _ b1)).2.2 (sts (pos j1)) (hs1 _ a1) he
    have e2 := hs2 (pos j1) (pos j2) a1 b1 e1
    omega
  · intro j1 j2 h12 hj2
    obtain ⟨a1, a2, _, a4⟩ := hpos j1 (by omega)
    obtain ⟨b1, b2, _, b4⟩ := hpos j2 hj2
    have hle : pos j1 ≤ pos j2 := by
      rcases Nat.lt_or_eq_of_le h12 with h | h
      · exact le_of_lt (hmono j1 j2 h hj2)
      · rw [h]
    have hord := hs3 (pos j1) (pos j2) hle b1
    have m1 := hmd (sts (pos j1)) (hs1 _ a1)
    have m2 := hmd (sts (pos j2)) (hs1 _ b1)
    simp only [] at m1 m2 a4 b4
    rw [a4, b4]
    split at m1
    · split at m2
      · rw [m1, m2] at hord
        exact hord
      · exact absurd m2 b2
    · exact absurd m1 a2

/-- The order of the distances is reflexive. -/
theorem knnindex_le_refl (x : Option ℚ) : knnindex_le x x := by
  cases x with
  | none => trivial
  | some u => exact le_refl u

/-- With a distance other than `DBL_MAX` at position 1 of the window at most, the
permutation that exchanges 0 and 1 is a sort permutation of the distances. -/
theorem isSortIndexMax_swap01 (md : Nat → Option ℚ) (m : Nat) (hm : 2 ≤ m)
    (hmd : ∀ h, h < m → h ≠ 1 → md h = none) : IsSortIndexMax swap01 md m := by
  refine ⟨?_, ?_, ?_⟩
  · intro k hk
    unfold swap01
    split_ifs <;> omega
  · intro k l _ _ h
    unfold swap01 at h
    split_ifs at h <;> omega
  · intro k l hkl hl
    by_cases hl0 : l = 0
    · have hk0 : k = 0 := by omega
      rw [hl0, hk0]
      exact knnindex_le_refl _
    · have hne : swap01 l ≠ 1 := by
        unfold swap01
        split_ifs <;> omega
      have hlt : swap01 l < m := by
        unfold swap01
        split_ifs <;> omega
      rw [hmd (swap01 l) hlt hne]
      unfold knnindex_le
      split
      · trivial
      · rename_i hn
        exact absurd hn (by simp)
      · rename_i hn
        exact absurd hn (by simp)

/-- The selection loop of `knnindex` passes over positions whose distance is
`DBL_MAX`. -/
theorem knnindex_select_skip (adjf : Int → Bool) (sts : Nat → Nat) (md : Nat → Option ℚ)
    (pxind : Nat → Int) (k n h : Nat) (s : (Nat → Int) × Nat)
    (hmd : ∀ x, h ≤ x → x < h + n → md (sts x) = none) :
    knnindex_select adjf sts md pxind k n h s = some s := by
  induction n generalizing h with
  | zero => rfl
  | succ n ih =>
    unfold knnindex_select
    simp only []
    have hc : ¬ (md (sts h) ≠ none ∧ adjf (pxind (sts h)) = true) := by
      intro hh
      exact hh.1 (hmd h (le_refl h) (by omega))
    rw [if_neg hc]
    simp only []
    by_cases hk : s.2 = k
    · rw [if_pos hk]
    · rw [if_neg hk]
      exact ih (h + 1) (fun x hx1 hx2 => hmd x (by omega) (by omega))

/-- On an image of `2*width` rows and `2*width` columns the window of `knnindex` is the
whole image: position `h` of `pxind` holds the pixel `h`. -/
theorem knnindex_pxind_full (ind width h : Nat) (hind : ind < (2 * width) * (2 * width))
    (hh : h < (2 * width) * (2 * width)) :
    (knnindex_pxind (2 * width) (knnindex_window (2 * width) (2 * width) ind width)).getD h 0
      = (h : Int) := by
  obtain ⟨s1, s2⟩ := knnindex_window_size (2 * width) (2 * width) ind width
  obtain ⟨a1, a2, a3, a4⟩ := knnindex_window_inside (2 * width) (2 * width) ind width
    (le_refl _) (le_refl _) hind
  rw [(knnindex_pxind_spec (2 * width) (2 * width) ind width).2 h hh]
  have e1 : (knnindex_window (2 * width) (2 * width) ind width).r1 = 0 := by
    push_cast at a2
    omega
  have e2 : (knnindex_window (2 * width) (2 * width) ind width).c1 = 0 := by
    push_cast at a4
    omega
  rw [e1, e2, zero_add, zero_add]
  have := Nat.div_add_mod h (2 * width)
  have e3 : ((h / (2 * width) : Nat) : Int) * ((2 * width : Nat) : Int) +
      ((h % (2 * width) : Nat) : Int) = ((2 * width * (h / (2 * width)) + h % (2 * width) : Nat) : Int) := by
    push_cast
    ring
  rw [e3, this]

/-- A call of `knnindex` on an image of `2*width` rows and columns in which no pixel other
than the seed has `cls == 0`: it returns a list without a neighbour and leaves the flags
alone. -/
theorem knnindex_none_found (kern : gsl_vector → gsl_vector → ℚ) (sts : Nat → Nat)
    (data : Nat → Nat → ℚ) (natb ind width k : Nat) (cls : Nat → Int) (sam : Nat)
    (svf : svminfo) (X : gsl_matrix) (rsflags : Nat → Int)
    (hind : ind < (2 * width) * (2 * width))
    (hsts : ∀ h, h < (2 * width) * (2 * width) → sts h < (2 * width) * (2 * width))
    (hcls : ∀ p, p < (2 * width) * (2 * width) → cls p ≠ 0 ∨ p = ind) :
    ∃ kdex rs,
      knnindex kern sts data (2 * width) (2 * width) natb ind width k cls sam svf X rsflags =
        some (kdex, rs) ∧
      (∀ j, kdex j = -1) ∧ ∀ p, rs p = rsflags p := by
  have hicol : 2 * width ≠ 0 := by
    intro h0
    rw [h0] at hind
    omega
  have hpx := fun h hh => knnindex_pxind_full ind width h hind hh
  have hin : ∀ h, h < (2 * width) * (2 * width) →
      0 ≤ (fun h => (knnindex_pxind (2 * width)
        (knnindex_window (2 * width) (2 * width) ind width)).getD h 0) h ∧
      (fun h => (knnindex_pxind (2 * width)
        (knnindex_window (2 * width) (2 * width) ind width)).getD h 0) h <
        (((2 * width) * (2 * width) : Nat) : Int) := by
    intro h hh
    simp only []
    rw [hpx h hh]
    exact ⟨Int.ofNat_nonneg h, by exact_mod_cast hh⟩
  obtain ⟨sc, hsc, hrs, hmd, _⟩ := knnindex_scan_spec kern data natb
    ((2 * width) * (2 * width)) ind cls svf X
    (fun h => (knnindex_pxind (2 * width)
      (knnindex_window (2 * width) (2 * width) ind width)).getD h 0)
    rsflags ((2 * width) * (2 * width))
    hin
  have hmdn : ∀ h, h < (2 * width) * (2 * width) → sc.md h = none := by
    intro h hh
    rw [hmd h hh]
    simp only [hpx h hh, Int.toNat_ofNat]
    have : ¬ (cls h = 0 ∧ h ≠ ind ∧ knnindex_flag kern data natb svf X rsflags h ≠ 2) := by
      intro hc
      rcases hcls h hh with h1 | h1
      · exact h1 hc.1
      · exact hc.2.1 h1
    rw [if_neg this]
  refine ⟨fun _ => -1, sc.rsflags, ?_, fun _ => rfl, ?_⟩
  · unfold knnindex
    rw [if_neg hicol]
    simp only []
    rw [hsc]
    simp only []
    rw [knnindex_select_skip _ sts sc.md _ k _ 0 _
      (fun x _ hx => hmdn (sts x) (hsts x (by omega)))]
  · intro p
    apply (hrs p).2
    rintro ⟨⟨h, hh, he⟩, hc0, hne⟩
    simp only [hpx h hh, Int.toNat_ofNat] at he
    rw [← he] at hc0 hne
    rcases hcls h hh with h1 | h1
    · exact h1 hc0
    · exact hne h1

/-- A call of `knnindex` with `k ≥ 2` on an image of `2*width` rows and columns in which
pixel 1 is the only pixel other than the seed with `cls == 0`, its flag after the flag
block is not 2, it is adjacent to the seed, and the sort permutation exchanges 0 and 1:
the list holds pixel 1 followed by -1, and the flags of the labelled pixels stay. -/
theorem knnindex_one_found (kern : gsl_vector → gsl_vector → ℚ)
    (data : Nat → Nat → ℚ) (natb ind width k : Nat) (cls : Nat → Int) (sam : Nat)
    (svf : svminfo) (X : gsl_matrix) (rsflags : Nat → Int)
    (hind : ind < (2 * width) * (2 * width)) (hk : 2 ≤ k)
    (h1 : 1 < (2 * width) * (2 * width)) (hseed : ind ≠ 1) (hc1 : cls 1 = 0)
    (hcls : ∀ p, p < (2 * width) * (2 * width) → p ≠ 1 → cls p ≠ 0)
    (hflag : knnindex_flag kern data natb svf X rsflags 1 ≠ 2)
    (hadj : adjcheck2v kern ⟨natb, fun b => data b ind⟩ ⟨natb, fun b => data b 1⟩
      svf.a svf.sum svf.rsq sam X = true) :
    ∃ kdex rs,
      knnindex kern swap01 data (2 * width) (2 * width) natb ind width k cls sam svf X
        rsflags = some (kdex, rs) ∧
      kdex 0 = 1 ∧ kdex 1 = -1 ∧ ∀ p, cls p ≠ 0 → rs p = rsflags p := by
  have hicol : 2 * width ≠ 0 := by
    intro h0
    rw [h0] at hind
    omega
  have hpx := fun h hh => knnindex_pxind_full ind width h hind hh
  have hin : ∀ h, h < (2 * width) * (2 * width) →
      0 ≤ (fun h => (knnindex_pxind (2 * width)
        (knnindex_window (2 * width) (2 * width) ind width)).getD h 0) h ∧
      (fun h => (knnindex_pxind (2 * width)
        (knnindex_window (2 * width) (2 * width) ind width)).getD h 0) h <
        (((2 * width) * (2 * width) : Nat) : Int) := by
    intro h hh
    simp only []
    rw [hpx h hh]
    exact ⟨Int.ofNat_nonneg h, by exact_mod_cast hh⟩
  obtain ⟨sc, hsc, hrs, hmd, _⟩ := knnindex_scan_spec kern data natb
    ((2 * width) * (2 * width)) ind cls svf X
    (fun h => (knnindex_pxind (2 * width)
      (knnindex_window (2 * width) (2 * width) ind width)).getD h 0)
    rsflags ((2 * width) * (2 * width))
    hin
  have hmdn : ∀ h, h < (2 * width) * (2 * width) → h ≠ 1 → sc.md h = none := by
    intro h hh hne
    rw [hmd h hh]
    simp only [hpx h hh, Int.toNat_ofNat]
    have : ¬ (cls h = 0 ∧ h ≠ ind ∧ knnindex_flag kern data natb svf X rsflags h ≠ 2) :=
      fun hc => hcls h hh hne hc.1
    rw [if_neg this]
  have hmd1 : sc.md 1 ≠ none := by
    rw [hmd 1 h1]
    simp only [hpx 1 h1]
    have e : ((1 : Nat) : Int).toNat = 1 := rfl
    rw [e, if_pos ⟨hc1, fun h => hseed h.symm, hflag⟩]
    exact Option.some_ne_none _
  refine ⟨Function.update (fun _ => -1) 0 1, sc.rsflags, ?_, ?_, ?_, ?_⟩
  · unfold knnindex
    rw [if_neg hicol]
    simp only []
    rw [hsc]
    simp only []
    have e : (2 * width) * (2 * width) = ((2 * width) * (2 * width) - 1) + 1 := by omega
    rw [e]
    unfold knnindex_select
    simp only []
    have hs0 : swap01 0 = 1 := rfl
    rw [hs0]
    have hp1 : (knnindex_pxind (2 * width)
        (knnindex_window (2 * width) (2 * width) ind width)).getD 1 0 = 1 := by
      rw [hpx 1 h1]
      rfl
    rw [hp1]
    have e1 : ((1 : Int)).toNat = 1 := rfl
    rw [e1, if_pos ⟨hmd1, hadj⟩, if_pos (by omega : (0 : Nat) < k)]
    simp only []
    have hne : ¬ (0 + 1 = k) := by omega
    rw [if_neg hne]
    rw [knnindex_select_skip _ swap01 sc.md _ k _ (0 + 1) _ (fun x hx1 hx2 => by
      have hx : swap01 x ≠ 1 := by
        unfold swap01
        split_ifs <;> omega
      have hlt : swap01 x < (2 * width) * (2 * width) := by
        unfold swap01
        split_ifs <;> omega
      exact hmdn _ hlt hx)]
  · rfl
  · rfl
  · intro p hp
    apply (hrs p).2
    rintro ⟨_, hc0, _⟩
    exact hp hc0

/-- Under the kernel `u·v` and the sphere around the single sample 1, a pixel with the
value 1 has the sphere distance 0. -/
theorem calrsq_unit (p : gsl_vector) (hp : p.data 0 = 1) :
    calrsq kernLin p svfUnit.a batchUnit svfUnit.sum = 0 := by
  rw [calrsq_eq]
  simp [kernLin, svfUnit, batchUnit, gsl_matrix_column, hp, Finset.sum_range_one]
  norm_num

/-- Two pixels with the value 1 are adjacent in the sphere around the single sample 1,
for every number of path points. -/
theorem adjcheck2v_unit (sam : Nat) :
    adjcheck2v kernLin ⟨1, fun _ => 1⟩ ⟨1, fun _ => 1⟩ svfUnit.a svfUnit.sum svfUnit.rsq sam
      batchUnit = true := by
  rw [adjcheck2v_iff]
  intro k _
  rw [calrsq_unit]
  · simp [svfUnit]
  · simp [adjcheck2v_point, gsl_blas_daxpy, gsl_vector_zero]

/-- A pixel with the value 1 and the flag 0 or 1 is not flagged outside the sphere
around the single sample 1. -/
theorem knnindex_flag_unit (rsflags : Nat → Int) (p : Nat)
    (h : rsflags p = 0 ∨ rsflags p = 1) :
    knnindex_flag kernLin (fun _ _ => 1) 1 svfUnit batchUnit rsflags p ≠ 2 := by
  unfold knnindex_flag
  rcases h with h | h
  · rw [if_pos h, calrsq_unit _ rfl]
    simp [svfUnit]
  · have : ¬ rsflags p = 0 := by rw [h]; decide
    rw [if_neg this, h]
    decide

/-- The first loop over the window of `knnindex` on an image of `2*width` rows and
columns in which no pixel other than pixel 1 has `cls == 0`: the permutation that
exchanges 0 and 1 sorts the distances it leaves. -/
theorem knnindex_scan_sorted (kern : gsl_vector → gsl_vector → ℚ) (data : Nat → Nat → ℚ)
    (natb ind width : Nat) (cls : Nat → Int) (svf : svminfo) (X : gsl_matrix)
    (rsflags : Nat → Int) (hind : ind < (2 * width) * (2 * width))
    (h1 : 1 < (2 * width) * (2 * width))
    (hcls : ∀ p, p < (2 * width) * (2 * width) → p ≠ 1 → cls p ≠ 0) (sc : KnnScan)
    (hsc : knnindex_scan kern data natb ((2 * width) * (2 * width)) ind
      ((2 * width) * (2 * width)) cls svf X
      (fun h => (knnindex_pxind (2 * width)
        (knnindex_window (2 * width) (2 * width) ind width)).getD h 0) rsflags = some sc) :
    IsSortIndexMax swap01 sc.md ((2 * width) * (2 * width)) := by
  have hpx := fun h hh => knnindex_pxind_full ind width h hind hh
  have hin : ∀ h, h < (2 * width) * (2 * width) →
      0 ≤ (fun h => (knnindex_pxind (2 * width)
        (knnindex_window (2 * width) (2 * width) ind width)).getD h 0) h ∧
      (fun h => (knnindex_pxind (2 * width)
        (knnindex_window (2 * width) (2 * width) ind width)).getD h 0) h <
        (((2 * width) * (2 * width) : Nat) : Int) := by
    intro h hh
    simp only []
    rw [hpx h hh]
    exact ⟨Int.ofNat_nonneg h, by exact_mod_cast hh⟩
  obtain ⟨sc2, hsc2, _, hmd, _⟩ := knnindex_scan_spec kern data natb
    ((2 * width) * (2 * width)) ind cls svf X _ rsflags ((2 * width) * (2 * width)) hin
  rw [hsc] at hsc2
  have e : sc = sc2 := Option.some.inj hsc2
  rw [e]
  apply isSortIndexMax_swap01 _ _ (by omega)
  intro h hh hne
  rw [hmd h hh]
  simp only [hpx h hh, Int.toNat_ofNat]
  have : ¬ (cls h = 0 ∧ h ≠ ind ∧ knnindex_flag kern data natb svf X rsflags h ≠ 2) :=
    fun hc => hcls h hh hne hc.1
  rw [if_neg this]

/-- C31, instance: a 2×2 image of one-band pixels with the value 1 in which pixel 1 alone
is unlabelled, the seed 0, `width = 1`, `k = 2`, and the sphere around the single sample
1 under the kernel `u·v`. -/
theorem knnindex_neighbours_witness :
    (2 * 1 ≤ 2 ∧ 0 < 2 * 2 ∧ 1 ≤ 2 ∧
      ∀ sc, knnindex_scan kernLin (fun _ _ => 1) 1 (2 * 2) 0 ((2 * 1) * (2 * 1)) labelsGap
          svfUnit batchUnit
          (fun h => (knnindex_pxind 2 (knnindex_window 2 2 0 1)).getD h 0)
          (fun _ => 0) = some sc → IsSortIndexMax swap01 sc.md ((2 * 1) * (2 * 1))) ∧
    ∃ kdex rs, knnindex kernLin swap01 (fun _ _ => 1) 2 2 1 0 1 2 labelsGap 25 svfUnit
      batchUnit (fun _ => 0) = some (kdex, rs) :=
  have hcls : ∀ p, p < (2 * 1) * (2 * 1) → p ≠ 1 → labelsGap p ≠ 0 := by
    intro p _ hp
    unfold labelsGap
    rw [if_neg hp]
    split <;> decide
  have hsort : ∀ sc, knnindex_scan kernLin (fun _ _ => 1) 1 (2 * 2) 0 ((2 * 1) * (2 * 1))
      labelsGap svfUnit batchUnit
      (fun h => (knnindex_pxind 2 (knnindex_window 2 2 0 1)).getD h 0)
      (fun _ => 0) = some sc → IsSortIndexMax swap01 sc.md ((2 * 1) * (2 * 1)) :=
    fun sc hsc => knnindex_scan_sorted kernLin (fun _ _ => 1) 1 0 1 labelsGap svfUnit
      batchUnit (fun _ => 0) (by decide) (by decide) hcls sc hsc
  ⟨⟨by decide, by decide, by decide, hsort⟩,
    match knnindex_neighbours kernLin swap01 (fun _ _ => 1) 2 2 1 0 1 2 labelsGap 25 svfUnit
      batchUnit (fun _ => 0) (by decide) (by decide) (by decide) (by decide) hsort with
    | ⟨kdex, rs, _, h, _⟩ => ⟨kdex, rs, h⟩⟩

/-- The window of `knnindex` on an image of three rows and one column for `width = 1`
around pixel 0: the positions of `pxind` hold the pixels 0, 1, 1, 2. -/
theorem knnindex_pxind_narrow :
    knnindex_pxind 1 (knnindex_window 1 3 0 1) = [0, 1, 1, 2] := by
  decide

/-- On an image narrower than the window `knnindex` lists a pixel twice.  The image has
three rows and one column of one-band pixels with the value 1, all unlabelled and flagged
inside the sphere around the single sample 1; for the seed 0, `width = 1` and `k = 2` the
window positions hold the pixels 0, 1, 1, 2, the distances are `DBL_MAX`, 0, 0, 0, the
order 1, 2, 3, 0 sorts them, and the returned list is 1, 1. -/
theorem knnindex_narrow_duplicate :
    ∃ sc kdex rs,
      knnindex_scan kernLin (fun _ _ => 1) 1 (3 * 1) 0 ((2 * 1) * (2 * 1)) (fun _ => 0)
        svfUnit batchUnit (fun h => (knnindex_pxind 1 (knnindex_window 1 3 0 1)).getD h 0)
        (fun _ => 1) = some sc ∧
      IsSortIndexMax rot4 sc.md ((2 * 1) * (2 * 1)) ∧
      knnindex kernLin rot4 (fun _ _ => 1) 1 3 1 0 1 2 (fun _ => 0) 25 svfUnit batchUnit
        (fun _ => 1) = some (kdex, rs) ∧
      kdex 0 = 1 ∧ kdex 1 = 1 := by
  have p0 : (knnindex_pxind 1 (knnindex_window 1 3 0 1)).getD 0 0 = 0 := by
    rw [knnindex_pxind_narrow]; rfl
  have p1 : (knnindex_pxind 1 (knnindex_window 1 3 0 1)).getD 1 0 = 1 := by
    rw [knnindex_pxind_narrow]; rfl
  have p2 : (knnindex_pxind 1 (knnindex_window 1 3 0 1)).getD 2 0 = 1 := by
    rw [knnindex_pxind_narrow]; rfl
  have p3 : (knnindex_pxind 1 (knnindex_window 1 3 0 1)).getD 3 0 = 2 := by
    rw [knnindex_pxind_narrow]; rfl
  have hin : ∀ h, h < (2 * 1) * (2 * 1) →
      0 ≤ (fun h => (knnindex_pxind 1 (knnindex_window 1 3 0 1)).getD h 0) h ∧
      (fun h => (knnindex_pxind 1 (knnindex_window 1 3 0 1)).getD h 0) h <
        ((3 * 1 : Nat) : Int) := by
    intro h hh
    simp only []
    have h4 : h < 4 := hh
    interval_cases h
    · rw [p0]; decide
    · rw [p1]; decide
    · rw [p2]; decide
    · rw [p3]; decide
  obtain ⟨sc, hsc, _, hmd, _⟩ := knnindex_scan_spec kernLin (fun _ _ => 1) 1 (3 * 1) 0
    (fun _ => 0) svfUnit batchUnit _ (fun _ => 1) ((2 * 1) * (2 * 1)) hin
  have hflag : ∀ p, knnindex_flag kernLin (fun _ _ => 1) 1 svfUnit batchUnit (fun _ => 1) p
      ≠ 2 := fun p => knnindex_flag_unit (fun _ => 1) p (Or.inr rfl)
  have hd : ∀ p, knnindex_dsum (fun _ _ => (1 : ℚ)) 1 0 p = 0 := by
    intro p
    simp [knnindex_dsum]
  have hm0 : sc.md 0 = none := by
    rw [hmd 0 (by decide)]
    simp only [p0]
    rw [if_neg (fun h => h.2.1 rfl)]
  have hm1 : sc.md 1 = some 0 := by
    rw [hmd 1 (by decide)]
    simp only [p1]
    rw [if_pos ⟨trivial, by decide, hflag _⟩, hd]
  have hm2 : sc.md 2 = some 0 := by
    rw [hmd 2 (by decide)]
    simp only [p2]
    rw [if_pos ⟨trivial, by decide, hflag _⟩, hd]
  have hm3 : sc.md 3 = some 0 := by
    rw [hmd 3 (by decide)]
    simp only [p3]
    rw [if_pos ⟨trivial, by decide, hflag _⟩, hd]
  have a1 : adjcheck2v kernLin ⟨1, fun _ => (1 : ℚ)⟩
      ⟨1, fun _ => (1 : ℚ)⟩ svfUnit.a svfUnit.sum svfUnit.rsq 25 batchUnit = true :=
    adjcheck2v_unit 25
  refine ⟨sc, Function.update (Function.update (fun _ => -1) 0 1) 1 1, sc.rsflags, hsc, ?_, ?_,
    ?_, ?_⟩
  · refine ⟨?_, ?_, ?_⟩
    · intro k hk
      unfold rot4
      split_ifs <;> omega
    · intro k l _ _ h
      unfold rot4 at h
      split_ifs at h <;> omega
    · intro k l hkl hl
      have hl4 : l < 4 := hl
      interval_cases l <;> interval_cases k <;>
        simp [rot4, hm0, hm1, hm2, hm3, knnindex_le]
  · unfold knnindex
    rw [if_neg (by decide : ¬ (1 = 0))]
    simp only []
    rw [hsc]
    simp only []
    have e4 : (2 * 1) * (2 * 1) = 2 + 1 + 1 := rfl
    rw [e4]
    have r0 : rot4 0 = 1 := rfl
    have r1 : rot4 (0 + 1) = 2 := rfl
    have sel2 : ∀ t : (Nat → Int) × Nat, t.2 = 1 →
        knnindex_select
          (fun bp => adjcheck2v kernLin ⟨1, fun _ => (1 : ℚ)⟩ ⟨1, fun _ => (1 : ℚ)⟩
            svfUnit.a svfUnit.sum svfUnit.rsq 25 batchUnit)
          rot4 sc.md (fun h => (knnindex_pxind 1 (knnindex_window 1 3 0 1)).getD h 0) 2
          (2 + 1) (0 + 1) t = some (Function.update t.1 t.2 1, t.2 + 1) := by
      intro t ht
      unfold knnindex_select
      simp only []
      rw [r1, p2, if_pos ⟨by rw [hm2]; exact Option.some_ne_none _, a1⟩,
        if_pos (by omega : t.2 < 2)]
      simp only []
      rw [if_pos (by omega : t.2 + 1 = 2)]
    unfold knnindex_select
    simp only []
    rw [r0, p1, if_pos ⟨by rw [hm1]; exact Option.some_ne_none _, a1⟩,
      if_pos (by decide : (0 : Nat) < 2)]
    simp only []
    rw [if_neg (by decide : ¬ (0 + 1 = 2)), sel2 _ rfl]
  · rfl
  · rfl

/-! ## Image-scale controller: the order of a propagation pass -/

/-- The pass of `clusteroneimage_sweep` is the pass in the order `0, 1, ..., pnum-1`. -/
theorem clusteroneimage_sweep_eq_order (knn : ImageState → Nat → (Nat → Int) × (Nat → Int))
    (cfg : ImageConfig) (st : ImageState) :
    clusteroneimage_sweep knn cfg st =
      clusteroneimage_sweep_order knn cfg (List.range cfg.pnum) st := rfl

/-- The body of the propagation loop leaves `succ`, `svf` and `X` alone. -/
theorem clusteroneimage_sweep_step_keeps (knn : ImageState → Nat → (Nat → Int) × (Nat → Int))
    (cfg : ImageConfig) (s : ImageState) (i : Nat) :
    (clusteroneimage_sweep_step knn cfg s i).succ = s.succ ∧
    (clusteroneimage_sweep_step knn cfg s i).svf = s.svf ∧
    (clusteroneimage_sweep_step knn cfg s i).X = s.X := by
  unfold clusteroneimage_sweep_step
  split
  · exact ⟨rfl, rfl, rfl⟩
  · exact ⟨rfl, rfl, rfl⟩

/-- The propagation loop passes over pixels that are no seeds. -/
theorem clusteroneimage_sweep_skip (knn : ImageState → Nat → (Nat → Int) × (Nat → Int))
    (cfg : ImageConfig) (L : List Nat) (s : ImageState) (h : ∀ i, i ∈ L → s.succ i = false) :
    L.foldl (clusteroneimage_sweep_step knn cfg) s = s := by
  induction L with
  | nil => rfl
  | cons i L ih =>
    rw [List.foldl_cons]
    have hi : clusteroneimage_sweep_step knn cfg s i = s := by
      unfold clusteroneimage_sweep_step
      have hc : ¬ (s.succ i = true ∧ s.rsflags i ≠ 2) := by
        intro hh
        rw [h i (List.mem_cons_self i L)] at hh
        exact absurd hh.1 (by decide)
      rw [if_neg hc]
    rw [hi]
    exact ih (fun j hj => h j (List.mem_cons_of_mem i hj))

/-- The neighbour loop on a list that holds the pixel `q` followed by -1. -/
theorem clusteroneimage_spread_one (kdex : Nat → Int) (i n q : Nat)
    (s : (Nat → Int) × (Nat → Bool)) (h0 : kdex 0 = (q : Int)) (h1 : kdex 1 = -1) :
    (clusteroneimage_spread kdex i (n + 2) 0 s).1 = Function.update s.1 q (s.1 i) := by
  unfold clusteroneimage_spread
  rw [if_pos (by rw [h0]; exact Int.ofNat_nonneg q)]
  unfold clusteroneimage_spread
  have hneg : ¬ kdex (0 + 1) ≥ 0 := by
    rw [Nat.zero_add, h1]
    decide
  rw [if_neg hneg, h0]
  rfl

/-- The neighbour loop on a list without a neighbour. -/
theorem clusteroneimage_spread_none (kdex : Nat → Int) (i n : Nat)
    (s : (Nat → Int) × (Nat → Bool)) (h0 : kdex 0 = -1) :
    clusteroneimage_spread kdex i n 0 s = s := by
  cases n with
  | zero => rfl
  | succ n =>
    unfold clusteroneimage_spread
    have hneg : ¬ kdex 0 ≥ 0 := by
      rw [h0]
      decide
    rw [if_neg hneg]

/-- The labels of `state900` other than that of pixel 1 are not 0. -/
theorem labelsGap_ne_zero (p : Nat) (hp : p ≠ 1) : labelsGap p ≠ 0 := by
  unfold labelsGap
  rw [if_neg hp]
  split <;> decide

/-- A call of `knnindex` in a pass on `cfg900` while pixel 1 is the only unlabelled
pixel: a seed other than pixel 1 gets the list with pixel 1 followed by -1, and the flags
of the labelled pixels stay. -/
theorem knn900_found (s : ImageState) (i : Nat) (hi : i < 900) (hi1 : i ≠ 1)
    (hsvf : s.svf = svfUnit) (hX : s.X = batchUnit) (hc1 : s.cls 1 = 0)
    (hcls : ∀ p, p < 900 → p ≠ 1 → s.cls p ≠ 0)
    (hrs : s.rsflags 1 = 0 ∨ s.rsflags 1 = 1) :
    (knn900 s i).1 0 = 1 ∧ (knn900 s i).1 1 = -1 ∧
      ∀ p, s.cls p ≠ 0 → (knn900 s i).2 p = s.rsflags p := by
  obtain ⟨kdex, rs, h, k0, k1, krs⟩ := knnindex_one_found kernLin (fun _ _ => 1) 1 i 15 10
    s.cls 25 svfUnit batchUnit s.rsflags hi (by decide) (by decide) hi1 hc1 hcls
    (knnindex_flag_unit s.rsflags 1 hrs) (adjcheck2v_unit 25)
  have e : knn900 s i = (kdex, rs) := by
    unfold knn900 clusteroneimage_knn cfg900
    simp only []
    rw [hsvf, hX]
    have h2 : knnindex kernLin swap01 (fun _ _ => 1) 30 30 1 i 15 10 s.cls 25 svfUnit
        batchUnit s.rsflags = some (kdex, rs) := h
    rw [h2]
    rfl
  rw [e]
  exact ⟨k0, k1, krs⟩

/-- A call of `knnindex` in a pass on `cfg900` when no pixel is unlabelled: the list
holds no neighbour and the flags stay. -/
theorem knn900_none (s : ImageState) (i : Nat) (hi : i < 900)
    (hcls : ∀ p, p < 900 → s.cls p ≠ 0) :
    (knn900 s i).1 0 = -1 ∧ ∀ p, (knn900 s i).2 p = s.rsflags p := by
  obtain ⟨kdex, rs, h, k0, krs⟩ := knnindex_none_found kernLin swap01 (fun _ _ => 1) 1 i 15 10
    s.cls 25 s.svf s.X s.rsflags hi
    (fun h hh => by unfold swap01; split_ifs <;> omega)
    (fun p hp => Or.inl (hcls p hp))
  have e : knn900 s i = (kdex, rs) := by
    unfold knn900 clusteroneimage_knn cfg900
    simp only []
    have h2 : knnindex kernLin swap01 (fun _ _ => 1) 30 30 1 i 15 10 s.cls 25 s.svf
        s.X s.rsflags = some (kdex, rs) := h
    rw [h2]
    rfl
  rw [e]
  exact ⟨k0 0, krs⟩

/-- The body of the propagation loop on `cfg900` for a seed other than pixel 1 while
pixel 1 is the only unlabelled pixel: pixel 1 takes the label of the seed, and the flags
of the labelled pixels stay. -/
theorem sweep900_step_found (s : ImageState) (i : Nat) (hi : i < 900) (hi1 : i ≠ 1)
    (hsucc : s.succ i = true) (hflag : s.rsflags i ≠ 2)
    (hsvf : s.svf = svfUnit) (hX : s.X = batchUnit) (hc1 : s.cls 1 = 0)
    (hcls : ∀ p, p < 900 → p ≠ 1 → s.cls p ≠ 0)
    (hrs : s.rsflags 1 = 0 ∨ s.rsflags 1 = 1) :
    (clusteroneimage_sweep_step knn900 cfg900 s i).cls = Function.update s.cls 1 (s.cls i) ∧
      ∀ p, s.cls p ≠ 0 →
        (clusteroneimage_sweep_step knn900 cfg900 s i).rsflags p = s.rsflags p := by
  obtain ⟨k0, k1, krs⟩ := knn900_found s i hi hi1 hsvf hX hc1 hcls hrs
  unfold clusteroneimage_sweep_step
  rw [if_pos ⟨hsucc, hflag⟩]
  simp only []
  constructor
  · exact clusteroneimage_spread_one (knn900 s i).1 i 8 1 (s.cls, s.vflags) k0 k1
  · exact krs

/-- The body of the propagation loop on `cfg900` when no pixel is unlabelled: the labels
stay. -/
theorem sweep900_step_none (s : ImageState) (i : Nat) (hi : i < 900)
    (hcls : ∀ p, p < 900 → s.cls p ≠ 0) :
    (clusteroneimage_sweep_step knn900 cfg900 s i).cls = s.cls := by
  obtain ⟨k0, _⟩ := knn900_none s i hi hcls
  unfold clusteroneimage_sweep_step
  split
  · simp only []
    rw [clusteroneimage_spread_none (knn900 s i).1 i cfg900.k (s.cls, s.vflags) k0]
  · rfl

/-- The list `0, 1, ..., 899` starts with 0, 1, 2. -/
theorem range900_split : List.range 900 = [0, 1, 2] ++ List.range' 3 897 := by
  rw [List.range_eq_range']
  exact (List.range'_append 0 3 897 1).symm

/-- A left fold over three entries followed by a tail. -/
theorem foldl_three {σ β : Type} (f : σ → β → σ) (s : σ) (a b c : β) (T : List β) :
    List.foldl f s ([a, b, c] ++ T) = List.foldl f (f (f (f s a) b) c) T := rfl

/-- A left fold over a list followed by three entries. -/
theorem foldl_snoc_three {σ β : Type} (f : σ → β → σ) (s : σ) (a b c : β) (T : List β) :
    List.foldl f s (T ++ [a, b, c]) = f (f (f (List.foldl f s T) a) b) c := by
  rw [List.foldl_append]
  rfl

/-- The body of the propagation loop leaves the state alone at a pixel that is no
seed. -/
theorem clusteroneimage_sweep_step_skip (knn : ImageState → Nat → (Nat → Int) × (Nat → Int))
    (cfg : ImageConfig) (s : ImageState) (i : Nat) (h : s.succ i = false) :
    clusteroneimage_sweep_step knn cfg s i = s := by
  unfold clusteroneimage_sweep_step
  have hc : ¬ (s.succ i = true ∧ s.rsflags i ≠ 2) := by
    intro hh
    rw [h] at hh
    exact absurd hh.1 (by decide)
  rw [if_neg hc]

/-- The start of a propagation pass on `state900`: the labels, the flags and the sphere
are those of `state900` and the seeds are the pixels 0 and 2. -/
theorem sweep900_start (s0 : ImageState)
    (hs0 : ({ state900 with
      succ := fun i => if i < cfg900.pnum then state900.vflags i else state900.succ i
      vflags := fun i => if i < cfg900.pnum then false else state900.vflags i } : ImageState)
      = s0) :
    s0.cls = labelsGap ∧ (s0.rsflags = fun _ => 0) ∧ s0.svf = svfUnit ∧ s0.X = batchUnit ∧
      ∀ i, i < 900 → s0.succ i = decide (i = 0 ∨ i = 2) := by
  rw [← hs0]
  refine ⟨rfl, rfl, rfl, rfl, ?_⟩
  intro i hi
  show (if i < cfg900.pnum then state900.vflags i else state900.succ i) = _
  rw [if_pos (by exact hi)]
  rfl

/-- A propagation pass on `state900` that runs the seed 0 before the seed 2 leaves the
label 1 in pixel 1. -/
theorem sweep900_order_up (T : List Nat) (hT : ∀ i, i ∈ T → 3 ≤ i ∧ i < 900) :
    (clusteroneimage_sweep_order knn900 cfg900 ([0, 1, 2] ++ T) state900).cls 1 = 1 := by
  have hgap : ∀ p, p < 900 → p ≠ 1 → labelsGap p ≠ 0 := fun p _ hp => labelsGap_ne_zero p hp
  rw [clusteroneimage_sweep_order]
  generalize hs0 : ({ state900 with
    succ := fun i => if i < cfg900.pnum then state900.vflags i else state900.succ i
    vflags := fun i => if i < cfg900.pnum then false else state900.vflags i } : ImageState)
    = s0
  obtain ⟨c0, r0, v0, x0, u0⟩ := sweep900_start s0 hs0
  rw [foldl_three]
  -- seed 0
  obtain ⟨a1, a2⟩ := sweep900_step_found s0 0 (by decide) (by decide)
    (by rw [u0 0 (by decide)]; rfl) (by rw [r0]; decide) v0 x0 (by rw [c0]; rfl)
    (by rw [c0]; exact hgap) (by rw [r0]; exact Or.inl rfl)
  obtain ⟨b1, b2, b3⟩ := clusteroneimage_sweep_step_keeps knn900 cfg900 s0 0
  generalize clusteroneimage_sweep_step knn900 cfg900 s0 0 = s1 at a1 a2 b1 b2 b3
  -- pixel 1 is no seed
  have hs2 : clusteroneimage_sweep_step knn900 cfg900 s1 1 = s1 :=
    clusteroneimage_sweep_step_skip knn900 cfg900 s1 1 (by rw [b1, u0 1 (by decide)]; rfl)
  rw [hs2]
  -- seed 2 finds no unlabelled pixel
  have hall : ∀ p, p < 900 → s1.cls p ≠ 0 := by
    intro p hp
    rw [a1, c0, Function.update_apply]
    split
    · decide
    · rename_i hne
      exact hgap p hp hne
  have c3 := sweep900_step_none s1 2 (by decide) hall
  obtain ⟨d1, _, _⟩ := clusteroneimage_sweep_step_keeps knn900 cfg900 s1 2
  generalize clusteroneimage_sweep_step knn900 cfg900 s1 2 = s3 at c3 d1
  rw [clusteroneimage_sweep_skip knn900 cfg900 T s3 (by
    intro i hi
    obtain ⟨h3, h9⟩ := hT i hi
    rw [d1, b1, u0 i h9]
    have : ¬ (i = 0 ∨ i = 2) := by omega
    exact decide_eq_false this)]
  rw [c3, a1, c0, Function.update_same]
  rfl

/-- A propagation pass on `state900` that runs the seed 2 before the seed 0 leaves the
label 2 in pixel 1. -/
theorem sweep900_order_down (T : List Nat) (hT : ∀ i, i ∈ T → 3 ≤ i ∧ i < 900) :
    (clusteroneimage_sweep_order knn900 cfg900 (T ++ [2, 1, 0]) state900).cls 1 = 2 := by
  have hgap : ∀ p, p < 900 → p ≠ 1 → labelsGap p ≠ 0 := fun p _ hp => labelsGap_ne_zero p hp
  rw [clusteroneimage_sweep_order]
  generalize hs0 : ({ state900 with
    succ := fun i => if i < cfg900.pnum then state900.vflags i else state900.succ i
    vflags := fun i => if i < cfg900.pnum then false else state900.vflags i } : ImageState)
    = s0
  obtain ⟨c0, r0, v0, x0, u0⟩ := sweep900_start s0 hs0
  rw [foldl_snoc_three]
  rw [clusteroneimage_sweep_skip knn900 cfg900 T s0 (by
    intro i hi
    obtain ⟨h3, h9⟩ := hT i hi
    rw [u0 i h9]
    have : ¬ (i = 0 ∨ i = 2) := by omega
    exact decide_eq_false this)]
  -- seed 2
  obtain ⟨a1, a2⟩ := sweep900_step_found s0 2 (by decide) (by decide)
    (by rw [u0 2 (by decide)]; rfl) (by rw [r0]; decide) v0 x0 (by rw [c0]; rfl)
    (by rw [c0]; exact hgap) (by rw [r0]; exact Or.inl rfl)
  obtain ⟨b1, b2, b3⟩ := clusteroneimage_sweep_step_keeps knn900 cfg900 s0 2
  generalize clusteroneimage_sweep_step knn900 cfg900 s0 2 = s1 at a1 a2 b1 b2 b3
  have hs2 : clusteroneimage_sweep_step knn900 cfg900 s1 1 = s1 :=
    clusteroneimage_sweep_step_skip knn900 cfg900 s1 1 (by rw [b1, u0 1 (by decide)]; rfl)
  rw [hs2]
  have hall : ∀ p, p < 900 → s1.cls p ≠ 0 := by
    intro p hp
    rw [a1, c0, Function.update_apply]
    split
    · decide
    · rename_i hne
      exact hgap p hp hne
  rw [sweep900_step_none s1 0 (by decide) hall, a1, c0, Function.update_same]
  rfl

/-- C33, as stated, fails: on a 30×30 image of equal one-band pixels in which pixel 1
alone is unlabelled and the pixels 0 (label 1) and 2 (label 2) are the seeds of a
propagation pass, `knnindex` returns pixel 1 to both seeds at the start of the pass, so
both iterations write `cls[1]`; run one after the other in the order `0, 1, ..., 899`
(the pass of `clusteroneimage_sweep`, `pnum = 900`) pixel 1 ends with the label 1, and in the reverse
order it ends with the label 2.  The permutation that exchanges 0 and 1 sorts the
distances of every call in which pixel 1 alone can be unlabelled. -/
theorem clusteroneimage_sweep_order_dependent :
    (∀ (cls rsflags : Nat → Int) (ind : Nat) (sc : KnnScan), ind < 900 →
      (∀ p, p < 900 → p ≠ 1 → cls p ≠ 0) →
      knnindex_scan kernLin cfg900.data cfg900.natb 900 ind 900 cls svfUnit batchUnit
        (fun h => (knnindex_pxind 30 (knnindex_window 30 30 ind 15)).getD h 0) rsflags =
        some sc → IsSortIndexMax swap01 sc.md 900) ∧
    (knn900 state900 0).1 0 = 1 ∧ (knn900 state900 2).1 0 = 1 ∧
    clusteroneimage_sweep knn900 cfg900 state900 =
      clusteroneimage_sweep_order knn900 cfg900 (List.range cfg900.pnum) state900 ∧
    (clusteroneimage_sweep_order knn900 cfg900 (List.range 900) state900).cls 1 = 1 ∧
    (clusteroneimage_sweep_order knn900 cfg900 (List.range 900).reverse state900).cls 1 = 2 := by
  have hgap : ∀ p, p < 900 → p ≠ 1 → labelsGap p ≠ 0 := fun p _ hp => labelsGap_ne_zero p hp
  have hg1 : labelsGap 1 = 0 := rfl
  have htail : ∀ i, i ∈ List.range' 3 897 → 3 ≤ i ∧ i < 900 := by
    intro i hi
    rw [List.mem_range'_1] at hi
    omega
  refine ⟨?_, ?_, ?_, clusteroneimage_sweep_eq_order knn900 cfg900 state900, ?_, ?_⟩
  · intro cls rsflags ind sc hind hcls hsc
    exact knnindex_scan_sorted kernLin (fun _ _ => 1) 1 ind 15 cls svfUnit batchUnit rsflags
      hind (by decide) hcls sc hsc
  · exact (knn900_found state900 0 (by decide) (by decide) rfl rfl hg1 hgap (Or.inl rfl)).1
  · exact (knn900_found state900 2 (by decide) (by decide) rfl rfl hg1 hgap (Or.inl rfl)).1
  · rw [range900_split]
    exact sweep900_order_up (List.range' 3 897) htail
  · have hrev : ([0, 1, 2] : List Nat).reverse = [2, 1, 0] := rfl
    rw [range900_split, List.reverse_append, hrev]
    exact sweep900_order_down (List.range' 3 897).reverse
      (fun i hi => htail i (List.mem_reverse.mp hi))


/-! ## Region blocks: the partition of the image -/

/-- A loop that counts the entries with `P` and appends the entries with `Q`. -/
theorem foldl_count_filter (P Q : Nat → Bool) (f : Nat × List Nat → Nat → Nat × List Nat)
    (hf : ∀ s x, f s x = (s.1 + (if P x = true then 1 else 0),
      s.2 ++ (if Q x = true then [x] else []))) (L : List Nat) (s : Nat × List Nat) :
    L.foldl f s = (s.1 + L.countP P, s.2 ++ L.filter Q) := by
  induction L generalizing s with
  | nil => simp
  | cons x L ih =>
    rw [List.foldl_cons, ih, hf, List.countP_cons, List.filter_cons]
    simp only []
    congr 1
    · omega
    · by_cases hq : Q x = true
      · rw [if_pos hq, if_pos hq, List.append_assoc, List.singleton_append]
      · rw [if_neg hq, if_neg hq, List.append_nil]

/-- The loop body of `createRblock` over a list of pixels: `vp` grows by the number of
pixels with `cp ≥ 0` and `cp == 0 || cp > cth`, and `idx` receives, in order, the pixels
with `cp ≥ 0` that are not of that kind. -/
theorem createRblock_step_fold (wcls : Nat → ℚ) (cth : Int) (L : List Nat)
    (s : Nat × List Nat) :
    L.foldl (createRblock_step wcls cth) s =
      (s.1 + L.countP (fun ind => decide (0 ≤ int_cast (wcls ind) ∧
          (int_cast (wcls ind) = 0 ∨ int_cast (wcls ind) > cth))),
        s.2 ++ L.filter (fun ind => decide (0 ≤ int_cast (wcls ind) ∧
          ¬ (int_cast (wcls ind) = 0 ∨ int_cast (wcls ind) > cth)))) := by
  apply foldl_count_filter
  intro s x
  unfold createRblock_step
  simp only [decide_eq_true_eq]
  by_cases h0 : int_cast (wcls x) ≥ 0
  · have h0a : 0 ≤ int_cast (wcls x) := h0
    by_cases h1 : int_cast (wcls x) = 0 ∨ int_cast (wcls x) > cth
    · rw [if_pos h0, if_pos h1, if_pos ⟨h0a, h1⟩, if_neg (fun h => h.2 h1), List.append_nil]
    · rw [if_pos h0, if_neg h1, if_neg (fun h => h1 h.2), if_pos ⟨h0a, h1⟩, Nat.add_zero]
  · have h0a : ¬ 0 ≤ int_cast (wcls x) := h0
    rw [if_neg h0, if_neg (fun h => h0a h.1), if_neg (fun h => h0a h.1), Nat.add_zero,
      List.append_nil]

/-- A double loop over rows and columns is the loop over the pixels row by row. -/
theorem foldl_grid {σ : Type} (f : σ → Nat → σ) (g : Nat → Nat → Nat) (L1 L2 : List Nat)
    (s : σ) :
    L1.foldl (fun (s : σ) (i : Nat) => L2.foldl (fun (s : σ) (j : Nat) => f s (g i j)) s) s =
      (L1.flatMap (fun (i : Nat) => L2.map (fun (j : Nat) => g i j))).foldl f s := by
  induction L1 generalizing s with
  | nil => rfl
  | cons i L1 ih =>
    rw [List.foldl_cons, ih, List.flatMap_cons, List.foldl_append, List.foldl_map]

/-- The fields of a block built by `createRblock`: the bounds, the seed list (the pixels
of the block with `1 ≤ cp ≤ cth`, row by row) and the count `vp` (the pixels of the block
with `cp ≥ 0` and `cp == 0 || cp > cth`). -/
theorem createRblock_spec (px py rs cs icol natb : Nat) (data : Nat → Nat → ℚ)
    (wcls : Nat → ℚ) (cth : Int) :
    (createRblock px py rs cs icol natb data wcls cth).x1 = px ∧
    (createRblock px py rs cs icol natb data wcls cth).x2 = px + rs ∧
    (createRblock px py rs cs icol natb data wcls cth).y1 = py ∧
    (createRblock px py rs cs icol natb data wcls cth).y2 = py + cs ∧
    (createRblock px py rs cs icol natb data wcls cth).idx =
      (blockPixels icol (createRblock px py rs cs icol natb data wcls cth)).filter
        (fun ind => decide (0 ≤ int_cast (wcls ind) ∧
          ¬ (int_cast (wcls ind) = 0 ∨ int_cast (wcls ind) > cth))) ∧
    (createRblock px py rs cs icol natb data wcls cth).vp =
      (blockPixels icol (createRblock px py rs cs icol natb data wcls cth)).countP
        (fun ind => decide (0 ≤ int_cast (wcls ind) ∧
          (int_cast (wcls ind) = 0 ∨ int_cast (wcls ind) > cth))) ∧
    (createRblock px py rs cs icol natb data wcls cth).seeds =
      (createRblock px py rs cs icol natb data wcls cth).idx.length := by
  have hb : blockPixels icol (createRblock px py rs cs icol natb data wcls cth) =
      (List.range' px rs).flatMap (fun (i : Nat) =>
        (List.range' py cs).map (fun (j : Nat) => i * icol + j)) := by
    unfold blockPixels createRblock
    simp only [Nat.add_sub_cancel_left]
  have hs : (List.range' px rs).foldl
      (fun (s : Nat × List Nat) (i : Nat) =>
        (List.range' py cs).foldl
          (fun (s : Nat × List Nat) (j : Nat) => createRblock_step wcls cth s (i * icol + j)) s)
      (0, []) = _ :=
    (foldl_grid (createRblock_step wcls cth) (fun i j => i * icol + j) (List.range' px rs)
      (List.range' py cs) (0, [])).trans (createRblock_step_fold wcls cth _ (0, []))
  rw [hb]
  unfold createRblock
  simp only []
  rw [hs]
  simp


/-- The start of the next stripe is the start of a stripe plus its length. -/
theorem stripeStart_succ (b off t : Nat) :
    stripeStart b off (t + 1) = stripeStart b off t + (if t < off then b + 1 else b) := by
  unfold stripeStart
  rw [Nat.add_mul, Nat.one_mul]
  by_cases h : t < off
  · rw [if_pos h, Nat.min_eq_left (by omega), Nat.min_eq_left (by omega)]
    omega
  · rw [if_neg h, Nat.min_eq_right (by omega), Nat.min_eq_right (by omega)]
    omega

/-- The stripes start at 0. -/
theorem stripeStart_zero (b off : Nat) : stripeStart b off 0 = 0 := by
  unfold stripeStart
  simp

/-- The stripes of a side of length `len` cut into `n ≥ 1` stripes end at `len`. -/
theorem stripeStart_total (len n : Nat) (hn : 0 < n) :
    stripeStart (len / n) (len % n) n = len := by
  unfold stripeStart
  rw [Nat.min_eq_right (le_of_lt (Nat.mod_lt _ hn))]
  exact Nat.div_add_mod len n

/-- The starts of the stripes ascend. -/
theorem stripeStart_mono (b off i j : Nat) (h : i ≤ j) :
    stripeStart b off i ≤ stripeStart b off j := by
  induction j with
  | zero =>
    have : i = 0 := by omega
    rw [this]
  | succ j ih =>
    rcases Nat.lt_or_eq_of_le h with h1 | h1
    · have := ih (by omega)
      rw [stripeStart_succ]
      omega
    · rw [h1]

/-- A position before the end of the stripes lies in exactly one stripe. -/
theorem stripeStart_unique (b off n r : Nat) (hr : r < stripeStart b off n) :
    ∃ i, i < n ∧ stripeStart b off i ≤ r ∧ r < stripeStart b off (i + 1) ∧
      ∀ k, stripeStart b off k ≤ r → r < stripeStart b off (k + 1) → k = i := by
  have hfind : ∃ i, i < n ∧ stripeStart b off i ≤ r ∧ r < stripeStart b off (i + 1) := by
    induction n with
    | zero =>
      rw [stripeStart_zero] at hr
      omega
    | succ n ih =>
      by_cases hlt : r < stripeStart b off n
      · obtain ⟨i, h1, h2, h3⟩ := ih hlt
        exact ⟨i, by omega, h2, h3⟩
      · exact ⟨n, by omega, by omega, hr⟩
  obtain ⟨i, h1, h2, h3⟩ := hfind
  refine ⟨i, h1, h2, h3, ?_⟩
  intro k hk1 hk2
  by_contra hne
  rcases Nat.lt_or_gt_of_ne hne with h | h
  · have := stripeStart_mono b off (k + 1) i (by omega)
    omega
  · have := stripeStart_mono b off (i + 1) k (by omega)
    omega

/-- The inner loop of `createRBlist` through the first `t` blocks of block row `i`: `py`
is the start of column stripe `t`, the entries `i*ncol + j` with `j < t` hold the blocks
built at the column stripes, and the other entries are as before. -/
theorem createRBlist_row_fold (data : Nat → Nat → ℚ) (icol natb : Nat) (wcls : Nat → ℚ)
    (cth : Int) (ncol bsy coff i px rs : Nat) (R : Nat → Rblock) (t : Nat) :
    ((List.range t).foldl
      (fun (s : Nat × (Nat → Rblock)) (j : Nat) =>
        (s.1 + (if j < coff then bsy + 1 else bsy),
          Function.update s.2 (i * ncol + j)
            (createRblock px s.1 rs (if j < coff then bsy + 1 else bsy) icol natb data wcls
              cth)))
      (0, R)).1 = stripeStart bsy coff t ∧
    (∀ j, j < t → ((List.range t).foldl
      (fun (s : Nat × (Nat → Rblock)) (j : Nat) =>
        (s.1 + (if j < coff then bsy + 1 else bsy),
          Function.update s.2 (i * ncol + j)
            (createRblock px s.1 rs (if j < coff then bsy + 1 else bsy) icol natb data wcls
              cth)))
      (0, R)).2 (i * ncol + j) =
        createRblock px (stripeStart bsy coff j) rs (if j < coff then bsy + 1 else bsy) icol
          natb data wcls cth) ∧
    (∀ b, (∀ j, j < t → b ≠ i * ncol + j) → ((List.range t).foldl
      (fun (s : Nat × (Nat → Rblock)) (j : Nat) =>
        (s.1 + (if j < coff then bsy + 1 else bsy),
          Function.update s.2 (i * ncol + j)
            (createRblock px s.1 rs (if j < coff then bsy + 1 else bsy) icol natb data wcls
              cth)))
      (0, R)).2 b = R b) := by
  induction t with
  | zero =>
    refine ⟨(stripeStart_zero bsy coff).symm, ?_, ?_⟩
    · intro j hj
      omega
    · intro b _
      rfl
  | succ t ih =>
    obtain ⟨h1, h2, h3⟩ := ih
    rw [List.range_succ, List.foldl_append]
    simp only [List.foldl_cons, List.foldl_nil]
    refine ⟨?_, ?_, ?_⟩
    · rw [h1, stripeStart_succ]
    · intro j hj
      by_cases hjt : j = t
      · rw [hjt, Function.update_same, h1]
      · rw [Function.update_noteq (by omega)]
        exact h2 j (by omega)
    · intro b hb
      rw [Function.update_noteq (hb t (by omega))]
      exact h3 b (fun j hj => hb j (by omega))

/-- The loops of `createRBlist` through the first `t` block rows: `px` is the start of row
stripe `t`, the entries `i*ncol + j` with `i < t` and `j < ncol` hold the blocks built at
the row and column stripes, and the other entries are as before. -/
theorem createRBlist_fold (data : Nat → Nat → ℚ) (icol natb : Nat) (wcls : Nat → ℚ)
    (cth : Int) (ncol bsx bsy roff coff : Nat) (R0 : Nat → Rblock) (t : Nat) :
    ((List.range t).foldl
      (fun (s : Nat × (Nat → Rblock)) (i : Nat) =>
        (s.1 + (if i < roff then bsx + 1 else bsx),
          (createRBlist_row data icol natb wcls cth ncol bsy coff i s.1
            (if i < roff then bsx + 1 else bsx) s.2).2))
      (0, R0)).1 = stripeStart bsx roff t ∧
    (∀ i j, i < t → j < ncol → ((List.range t).foldl
      (fun (s : Nat × (Nat → Rblock)) (i : Nat) =>
        (s.1 + (if i < roff then bsx + 1 else bsx),
          (createRBlist_row data icol natb wcls cth ncol bsy coff i s.1
            (if i < roff then bsx + 1 else bsx) s.2).2))
      (0, R0)).2 (i * ncol + j) =
        createRblock (stripeStart bsx roff i) (stripeStart bsy coff j)
          (if i < roff then bsx + 1 else bsx) (if j < coff then bsy + 1 else bsy) icol natb
          data wcls cth) ∧
    (∀ b, (∀ i j, i < t → j < ncol → b ≠ i * ncol + j) → ((List.range t).foldl
      (fun (s : Nat × (Nat → Rblock)) (i : Nat) =>
        (s.1 + (if i < roff then bsx + 1 else bsx),
          (createRBlist_row data icol natb wcls cth ncol bsy coff i s.1
            (if i < roff then bsx + 1 else bsx) s.2).2))
      (0, R0)).2 b = R0 b) := by
  induction t with
  | zero =>
    refine ⟨(stripeStart_zero bsx roff).symm, ?_, ?_⟩
    · intro i j hi _
      omega
    · intro b _
      rfl
  | succ t ih =>
    obtain ⟨h1, h2, h3⟩ := ih
    rw [List.range_succ, List.foldl_append]
    simp only [List.foldl_cons, List.foldl_nil]
    generalize hS : (List.range t).foldl
      (fun (s : Nat × (Nat → Rblock)) (i : Nat) =>
        (s.1 + (if i < roff then bsx + 1 else bsx),
          (createRBlist_row data icol natb wcls cth ncol bsy coff i s.1
            (if i < roff then bsx + 1 else bsx) s.2).2))
      (0, R0) = S at h1 h2 h3 ⊢
    obtain ⟨_, r2, r3⟩ := createRBlist_row_fold data icol natb wcls cth ncol bsy coff t S.1
      (if t < roff then bsx + 1 else bsx) S.2 ncol
    refine ⟨?_, ?_, ?_⟩
    · rw [h1, stripeStart_succ]
    · intro i j hi hj
      show (createRBlist_row data icol natb wcls cth ncol bsy coff t S.1
        (if t < roff then bsx + 1 else bsx) S.2).2 (i * ncol + j) = _
      unfold createRBlist_row
      by_cases hit : i = t
      · rw [hit, r2 j hj, h1]
      · have hne : ∀ j2, j2 < ncol → i * ncol + j ≠ t * ncol + j2 := by
          intro j2 hj2 he
          rcases Nat.lt_or_gt_of_ne hit with h | h
          · have : (i + 1) * ncol ≤ t * ncol := Nat.mul_le_mul_right _ h
            rw [Nat.add_mul, Nat.one_mul] at this
            omega
          · have : (t + 1) * ncol ≤ i * ncol := Nat.mul_le_mul_right _ h
            rw [Nat.add_mul, Nat.one_mul] at this
            omega
        rw [r3 _ hne]
        exact h2 i j (by omega) hj
    · intro b hb
      show (createRBlist_row data icol natb wcls cth ncol bsy coff t S.1
        (if t < roff then bsx + 1 else bsx) S.2).2 b = _
      unfold createRBlist_row
      rw [r3 b (fun j hj => hb t j (by omega) hj)]
      exact h3 b (fun i j hi hj => hb i j (by omega) hj)


/-- The pixels of a block that lies within the `icol` columns of the image: each pixel
`r*icol + c` with `x1 ≤ r < x2` and `y1 ≤ c < y2` is listed, and none twice. -/
theorem blockPixels_spec (icol : Nat) (rb : Rblock) (hx : rb.x1 ≤ rb.x2) (hy : rb.y1 ≤ rb.y2)
    (hc : rb.y2 ≤ icol) :
    (blockPixels icol rb).Nodup ∧
    ∀ ind, ind ∈ blockPixels icol rb ↔
      ∃ r c, rb.x1 ≤ r ∧ r < rb.x2 ∧ rb.y1 ≤ c ∧ c < rb.y2 ∧ ind = r * icol + c := by
  have hmem : ∀ ind, ind ∈ blockPixels icol rb ↔
      ∃ r c, rb.x1 ≤ r ∧ r < rb.x2 ∧ rb.y1 ≤ c ∧ c < rb.y2 ∧ ind = r * icol + c := by
    intro ind
    unfold blockPixels
    rw [List.mem_flatMap]
    constructor
    · rintro ⟨r, hr, hm⟩
      rw [List.mem_map] at hm
      obtain ⟨c, hcm, he⟩ := hm
      rw [List.mem_range'_1] at hr hcm
      exact ⟨r, c, by omega, by omega, by omega, by omega, he.symm⟩
    · rintro ⟨r, c, h1, h2, h3, h4, he⟩
      refine ⟨r, List.mem_range'_1.mpr (by omega), ?_⟩
      rw [List.mem_map]
      exact ⟨c, List.mem_range'_1.mpr (by omega), he.symm⟩
  refine ⟨?_, hmem⟩
  unfold blockPixels
  rw [List.nodup_flatMap]
  constructor
  · intro r _
    apply List.Nodup.map
    · intro a b hab
      simp only [] at hab
      omega
    · exact List.nodup_range' _ _
  · apply List.Pairwise.imp _ (List.nodup_range' rb.x1 (rb.x2 - rb.x1))
    intro a b hab
    show List.Disjoint _ _
    intro p hpa hpb
    rw [List.mem_map] at hpa hpb
    obtain ⟨ca, hca, ea⟩ := hpa
    obtain ⟨cb, hcb, eb⟩ := hpb
    rw [List.mem_range'_1] at hca hcb
    apply hab
    rw [← eb] at ea
    rcases Nat.lt_trichotomy a b with h | h | h
    · have : (a + 1) * icol ≤ b * icol := Nat.mul_le_mul_right _ h
      rw [Nat.add_mul, Nat.one_mul] at this
      omega
    · exact h
    · have : (b + 1) * icol ≤ a * icol := Nat.mul_le_mul_right _ h
      rw [Nat.add_mul, Nat.one_mul] at this
      omega

/-- The seeds of a block built by `createRblock` within the `icol` columns of the image:
a pixel of the block is listed in `idx` once when its label `cp` lies in `1..cth` and not
at all otherwise, and `seeds` is the length of `idx`. -/
theorem createRblock_seeds (px py rs cs icol natb : Nat) (data : Nat → Nat → ℚ)
    (wcls : Nat → ℚ) (cth : Int) (hc : py + cs ≤ icol) (r c : Nat) (hr1 : px ≤ r)
    (hr2 : r < px + rs) (hc1 : py ≤ c) (hc2 : c < py + cs) :
    List.count (r * icol + c) (createRblock px py rs cs icol natb data wcls cth).idx =
      if 1 ≤ int_cast (wcls (r * icol + c)) ∧ int_cast (wcls (r * icol + c)) ≤ cth then 1
      else 0 := by
  obtain ⟨e1, e2, e3, e4, e5, _, _⟩ := createRblock_spec px py rs cs icol natb data wcls cth
  obtain ⟨hnd, hmem⟩ := blockPixels_spec icol (createRblock px py rs cs icol natb data wcls cth)
    (by rw [e1, e2]; omega) (by rw [e3, e4]; omega) (by rw [e4]; exact hc)
  have hin : r * icol + c ∈ blockPixels icol (createRblock px py rs cs icol natb data wcls cth) :=
    (hmem _).mpr ⟨r, c, by rw [e1]; exact hr1, by rw [e2]; exact hr2, by rw [e3]; exact hc1,
      by rw [e4]; exact hc2, rfl⟩
  rw [e5]
  by_cases hp : 1 ≤ int_cast (wcls (r * icol + c)) ∧ int_cast (wcls (r * icol + c)) ≤ cth
  · rw [if_pos hp]
    apply List.count_eq_one_of_mem (hnd.filter _)
    rw [List.mem_filter]
    refine ⟨hin, ?_⟩
    apply decide_eq_true
    constructor
    · omega
    · intro h
      rcases h with h | h <;> omega
  · rw [if_neg hp]
    apply List.count_eq_zero_of_not_mem
    intro hm
    rw [List.mem_filter] at hm
    have := of_decide_eq_true hm.2
    apply hp
    constructor
    · by_contra h
      apply this.2
      left
      omega
    · by_contra h
      apply this.2
      right
      omega


/-- The lengths of the first `t` stripes add up to the start of stripe `t`. -/
theorem stripeStart_sum (b off t : Nat) :
    ∑ i in Finset.range t, (if i < off then b + 1 else b) = stripeStart b off t := by
  induction t with
  | zero => rw [Finset.sum_range_zero, stripeStart_zero]
  | succ t ih => rw [Finset.sum_range_succ, ih, stripeStart_succ]

/-- The call `createRBlist` on an image with `bs ≤ irow` and `bs ≤ icol` returns, and the
entry `i*ncol + j` of the returned list is the block built at row stripe `i` and column
stripe `j`. -/
theorem createRBlist_blocks (data : Nat → Nat → ℚ) (irow icol natb bs : Nat)
    (wcls : Nat → ℚ) (cth : Int) (R0 : Nat → Rblock) (hbs : 0 < bs) (hr : bs ≤ irow)
    (hc : bs ≤ icol) :
    ∃ R, createRBlist data irow icol natb bs wcls cth R0 =
        some (R, (irow / bs) * (icol / bs), irow / bs, icol / bs) ∧
      ∀ i j, i < irow / bs → j < icol / bs → R (i * (icol / bs) + j) =
        createRblock (stripeStart (irow / (irow / bs)) (irow % (irow / bs)) i)
          (stripeStart (icol / (icol / bs)) (icol % (icol / bs)) j)
          (if i < irow % (irow / bs) then irow / (irow / bs) + 1 else irow / (irow / bs))
          (if j < icol % (icol / bs) then icol / (icol / bs) + 1 else icol / (icol / bs))
          icol natb data wcls cth := by
  have hnr : 0 < irow / bs := Nat.div_pos hr hbs
  have hnc : 0 < icol / bs := Nat.div_pos hc hbs
  obtain ⟨_, h2, _⟩ := createRBlist_fold data icol natb wcls cth (icol / bs)
    (irow / (irow / bs)) (icol / (icol / bs)) (irow % (irow / bs)) (icol % (icol / bs)) R0
    (irow / bs)
  refine ⟨_, ?_, h2⟩
  unfold createRBlist
  rw [if_neg (by omega)]
  simp only []
  rw [if_neg (by omega)]


/-- A grid of blocks built by `createRblock` at the row stripes and column stripes of an
image is a partition of the image: the bounds of the blocks, the block of a pixel, the sums
of the heights and widths, and the seeds and the count `vp` of every block. -/
theorem createRblock_grid (data : Nat → Nat → ℚ) (irow icol natb : Nat) (wcls : Nat → ℚ)
    (cth : Int) (nrow ncol bsx roff bsy coff : Nat) (R : Nat → Rblock) (hncol : 0 < ncol)
    (hX : stripeStart bsx roff nrow = irow) (hY : stripeStart bsy coff ncol = icol)
    (hblk : ∀ i j, i < nrow → j < ncol → R (i * ncol + j) =
      createRblock (stripeStart bsx roff i) (stripeStart bsy coff j)
        (if i < roff then bsx + 1 else bsx) (if j < coff then bsy + 1 else bsy)
        icol natb data wcls cth) :
    (∀ r c, r < irow → c < icol →
      ∃ b, b < nrow * ncol ∧
        ((R b).x1 ≤ r ∧ r < (R b).x2 ∧ (R b).y1 ≤ c ∧ c < (R b).y2) ∧
        (∀ b2, b2 < nrow * ncol → (R b2).x1 ≤ r → r < (R b2).x2 → (R b2).y1 ≤ c →
          c < (R b2).y2 → b2 = b) ∧
        List.count (r * icol + c) (R b).idx =
          if 1 ≤ int_cast (wcls (r * icol + c)) ∧ int_cast (wcls (r * icol + c)) ≤ cth
          then 1 else 0) ∧
    (∀ j, j < ncol →
      ∑ i in Finset.range nrow, ((R (i * ncol + j)).x2 - (R (i * ncol + j)).x1) = irow) ∧
    (∀ i, i < nrow →
      ∑ j in Finset.range ncol, ((R (i * ncol + j)).y2 - (R (i * ncol + j)).y1) = icol) ∧
    (∀ b, b < nrow * ncol →
      (R b).x1 ≤ (R b).x2 ∧ (R b).x2 ≤ irow ∧ (R b).y1 ≤ (R b).y2 ∧ (R b).y2 ≤ icol ∧
      (R b).seeds = (R b).idx.length ∧
      (blockPixels icol (R b)).Nodup ∧
      (∀ ind, ind ∈ blockPixels icol (R b) ↔
        ∃ r c, (R b).x1 ≤ r ∧ r < (R b).x2 ∧ (R b).y1 ≤ c ∧ c < (R b).y2 ∧
          ind = r * icol + c) ∧
      (R b).idx = (blockPixels icol (R b)).filter
        (fun ind => decide (0 ≤ int_cast (wcls ind) ∧
          ¬ (int_cast (wcls ind) = 0 ∨ int_cast (wcls ind) > cth))) ∧
      (R b).vp = (blockPixels icol (R b)).countP
        (fun ind => decide (0 ≤ int_cast (wcls ind) ∧
          (int_cast (wcls ind) = 0 ∨ int_cast (wcls ind) > cth)))) := by
  have hbd : ∀ i j, i < nrow → j < ncol →
      (R (i * ncol + j)).x1 = stripeStart bsx roff i ∧
      (R (i * ncol + j)).x2 = stripeStart bsx roff (i + 1) ∧
      (R (i * ncol + j)).y1 = stripeStart bsy coff j ∧
      (R (i * ncol + j)).y2 = stripeStart bsy coff (j + 1) := by
    intro i j hi hj
    obtain ⟨e1, e2, e3, e4, _⟩ := createRblock_spec (stripeStart bsx roff i)
      (stripeStart bsy coff j) (if i < roff then bsx + 1 else bsx)
      (if j < coff then bsy + 1 else bsy) icol natb data wcls cth
    rw [hblk i j hi hj, stripeStart_succ, stripeStart_succ]
    exact ⟨e1, e2, e3, e4⟩
  have hsplit : ∀ b, b < nrow * ncol →
      b / ncol < nrow ∧ b % ncol < ncol ∧ b = b / ncol * ncol + b % ncol := by
    intro b hb
    exact ⟨(Nat.div_lt_iff_lt_mul hncol).mpr hb, Nat.mod_lt _ hncol,
      (Nat.div_add_mod' b ncol).symm⟩
  refine ⟨?_, ?_, ?_, ?_⟩
  · intro r c hr hc
    obtain ⟨i, hi, hi1, hi2, hiu⟩ := stripeStart_unique bsx roff nrow r (by rw [hX]; exact hr)
    obtain ⟨j, hj, hj1, hj2, hju⟩ := stripeStart_unique bsy coff ncol c (by rw [hY]; exact hc)
    obtain ⟨e1, e2, e3, e4⟩ := hbd i j hi hj
    refine ⟨i * ncol + j, ?_, ?_, ?_, ?_⟩
    · have : (i + 1) * ncol ≤ nrow * ncol := Nat.mul_le_mul_right _ hi
      rw [Nat.add_mul, Nat.one_mul] at this
      omega
    · rw [e1, e2, e3, e4]
      exact ⟨hi1, hi2, hj1, hj2⟩
    · intro b2 hb2 h1 h2 h3 h4
      obtain ⟨s1, s2, s3⟩ := hsplit b2 hb2
      obtain ⟨f1, f2, f3, f4⟩ := hbd (b2 / ncol) (b2 % ncol) s1 s2
      rw [s3] at h1 h2 h3 h4
      rw [f1] at h1
      rw [f2] at h2
      rw [f3] at h3
      rw [f4] at h4
      rw [s3, hiu _ h1 h2, hju _ h3 h4]
    · have hY2 : stripeStart bsy coff (j + 1) ≤ icol := by
        rw [← hY]
        exact stripeStart_mono bsy coff (j + 1) ncol hj
      rw [stripeStart_succ] at hi2 hj2 hY2
      rw [hblk i j hi hj]
      exact createRblock_seeds _ _ _ _ icol natb data wcls cth hY2 r c hi1 hi2 hj1 hj2
  · intro j hj
    have : ∀ i, i ∈ Finset.range nrow →
        (R (i * ncol + j)).x2 - (R (i * ncol + j)).x1 = if i < roff then bsx + 1 else bsx := by
      intro i hi
      obtain ⟨e1, e2, _, _⟩ := hbd i j (Finset.mem_range.mp hi) hj
      rw [e1, e2, stripeStart_succ, Nat.add_sub_cancel_left]
    rw [Finset.sum_congr rfl this, stripeStart_sum, hX]
  · intro i hi
    have : ∀ j, j ∈ Finset.range ncol →
        (R (i * ncol + j)).y2 - (R (i * ncol + j)).y1 = if j < coff then bsy + 1 else bsy := by
      intro j hj
      obtain ⟨_, _, e3, e4⟩ := hbd i j hi (Finset.mem_range.mp hj)
      rw [e3, e4, stripeStart_succ, Nat.add_sub_cancel_left]
    rw [Finset.sum_congr rfl this, stripeStart_sum, hY]
  · intro b hb
    obtain ⟨s1, s2, s3⟩ := hsplit b hb
    obtain ⟨f1, f2, f3, f4⟩ := hbd (b / ncol) (b % ncol) s1 s2
    rw [← s3] at f1 f2 f3 f4
    have g1 : (R b).x1 ≤ (R b).x2 := by
      rw [f1, f2]
      exact stripeStart_mono _ _ _ _ (by omega)
    have g2 : (R b).x2 ≤ irow := by
      rw [f2, ← hX]
      exact stripeStart_mono _ _ _ _ s1
    have g3 : (R b).y1 ≤ (R b).y2 := by
      rw [f3, f4]
      exact stripeStart_mono _ _ _ _ (by omega)
    have g4 : (R b).y2 ≤ icol := by
      rw [f4, ← hY]
      exact stripeStart_mono _ _ _ _ s2
    obtain ⟨hnd, hmem⟩ := blockPixels_spec icol (R b) g1 g3 g4
    have hb2 := hblk (b / ncol) (b % ncol) s1 s2
    rw [← s3] at hb2
    obtain ⟨_, _, _, _, e5, e6, e7⟩ := createRblock_spec (stripeStart bsx roff (b / ncol))
      (stripeStart bsy coff (b % ncol)) (if b / ncol < roff then bsx + 1 else bsx)
      (if b % ncol < coff then bsy + 1 else bsy) icol natb data wcls cth
    rw [← hb2] at e5 e6 e7
    exact ⟨g1, g2, g3, g4, e7, hnd, hmem, e5, e6⟩

/-- Claim C32: for every image with `irow ≥ bs` and `icol ≥ bs` (and `bs > 0`) the call
`createRBlist` returns `nrow*ncol` blocks that form a partition of the image grid: every
pixel `(r, c)` lies in exactly one block; in every block column the heights sum to `irow`
and in every block row the widths sum to `icol`; the pixel appears once in the seed list
of its block when its label `cp = (int) wcls[r*icol+c]` lies in `1..cth` and not at all
otherwise; `seeds` is the length of the seed list, which lists pixels of the block only;
and `vp` is the number of pixels of the block with `cp ≥ 0` and `cp = 0` or `cp > cth`,
so that a negative label counts in neither. -/
theorem createRBlist_partition (data : Nat → Nat → ℚ) (irow icol natb bs : Nat)
    (wcls : Nat → ℚ) (cth : Int) (R0 : Nat → Rblock) (hbs : 0 < bs) (hr : bs ≤ irow)
    (hc : bs ≤ icol) :
    ∃ R, createRBlist data irow icol natb bs wcls cth R0 =
        some (R, (irow / bs) * (icol / bs), irow / bs, icol / bs) ∧
      (∀ r c, r < irow → c < icol →
        ∃ b, b < (irow / bs) * (icol / bs) ∧
          ((R b).x1 ≤ r ∧ r < (R b).x2 ∧ (R b).y1 ≤ c ∧ c < (R b).y2) ∧
          (∀ b2, b2 < (irow / bs) * (icol / bs) → (R b2).x1 ≤ r → r < (R b2).x2 →
            (R b2).y1 ≤ c → c < (R b2).y2 → b2 = b) ∧
          List.count (r * icol + c) (R b).idx =
            if 1 ≤ int_cast (wcls (r * icol + c)) ∧ int_cast (wcls (r * icol + c)) ≤ cth
            then 1 else 0) ∧
      (∀ j, j < icol / bs →
        ∑ i in Finset.range (irow / bs),
          ((R (i * (icol / bs) + j)).x2 - (R (i * (icol / bs) + j)).x1) = irow) ∧
      (∀ i, i < irow / bs →
        ∑ j in Finset.range (icol / bs),
          ((R (i * (icol / bs) + j)).y2 - (R (i * (icol / bs) + j)).y1) = icol) ∧
      (∀ b, b < (irow / bs) * (icol / bs) →
        (R b).x1 ≤ (R b).x2 ∧ (R b).x2 ≤ irow ∧ (R b).y1 ≤ (R b).y2 ∧ (R b).y2 ≤ icol ∧
        (R b).seeds = (R b).idx.length ∧
        (blockPixels icol (R b)).Nodup ∧
        (∀ ind, ind ∈ blockPixels icol (R b) ↔
          ∃ r c, (R b).x1 ≤ r ∧ r < (R b).x2 ∧ (R b).y1 ≤ c ∧ c < (R b).y2 ∧
            ind = r * icol + c) ∧
        (R b).idx = (blockPixels icol (R b)).filter
          (fun ind => decide (0 ≤ int_cast (wcls ind) ∧
            ¬ (int_cast (wcls ind) = 0 ∨ int_cast (wcls ind) > cth))) ∧
        (R b).vp = (blockPixels icol (R b)).countP
          (fun ind => decide (0 ≤ int_cast (wcls ind) ∧
            (int_cast (wcls ind) = 0 ∨ int_cast (wcls ind) > cth)))) := by
  obtain ⟨R, hR, hblk⟩ := createRBlist_blocks data irow icol natb bs wcls cth R0 hbs hr hc
  exact ⟨R, hR, createRblock_grid data irow icol natb wcls cth (irow / bs) (icol / bs)
    (irow / (irow / bs)) (irow % (irow / bs)) (icol / (icol / bs)) (icol % (icol / bs)) R
    (Nat.div_pos hc hbs) (stripeStart_total irow (irow / bs) (Nat.div_pos hr hbs))
    (stripeStart_total icol (icol / bs) (Nat.div_pos hc hbs)) hblk⟩


/-- Witness for `createRBlist_partition`: a 5×5 image with block size 2 and `cth = 3`;
the call returns 4 blocks in 2 rows and 2 columns, and the heights and widths of the
blocks add up to 5. -/
theorem createRBlist_partition_witness :
    ∃ R, createRBlist dataOnes 5 5 1 2 labelsRamp 3 blocksEmpty =
        some (R, (5 / 2) * (5 / 2), 5 / 2, 5 / 2) ∧
      (∀ j, j < 5 / 2 →
        ∑ i in Finset.range (5 / 2),
          ((R (i * (5 / 2) + j)).x2 - (R (i * (5 / 2) + j)).x1) = 5) ∧
      (∀ i, i < 5 / 2 →
        ∑ j in Finset.range (5 / 2),
          ((R (i * (5 / 2) + j)).y2 - (R (i * (5 / 2) + j)).y1) = 5) :=
  match createRBlist_partition dataOnes 5 5 1 2 labelsRamp 3 blocksEmpty (by decide)
    (by decide) (by decide) with
  | ⟨R, h, _, h2, h3, _⟩ => ⟨R, h, h2, h3⟩



/-! ## Image-scale controller: straggler labels -/

/-- The copy loop adds the seeds of the block to `sds` when the buffers hold them. -/
theorem findYmatrix_add_sds (thd : Nat) (rb : Rblock) (s : YState)
    (h : s.sds + rb.seeds ≤ 10 * thd) :
    ∃ s1, findYmatrix_add thd rb s = some s1 ∧ s1.sds = s.sds + rb.seeds := by
  unfold findYmatrix_add
  rw [if_pos h]
  exact ⟨_, rfl, rfl⟩

/-- One slot of the loop over `perm` whose seeds fit under `thd`: the loop goes on with
the seeds of the slot added to `sds`. -/
theorem findYmatrix_ring_step (rblist : Nat → Rblock) (thd : Nat) (perm : Nat → Int)
    (k i : Nat) (s : YState) (h : s.sds + slotSeeds rblist (perm i) ≤ thd) :
    ∃ s1, s1.sds = s.sds + slotSeeds rblist (perm i) ∧
      findYmatrix_ring rblist thd perm (k + 1) i s = findYmatrix_ring rblist thd perm k (i + 1) s1 := by
  unfold slotSeeds at h ⊢
  rw [findYmatrix_ring]
  by_cases hp : perm i ≥ 0
  · rw [if_pos hp] at h ⊢
    rw [if_pos hp]
    by_cases hs : (rblist (perm i).toNat).seeds > 0
    · rw [if_pos hs]
      obtain ⟨s1, h1, h2⟩ := findYmatrix_add_sds thd (rblist (perm i).toNat) s (by omega)
      rw [h1]
      simp only []
      rw [if_neg (by omega)]
      exact ⟨s1, h2, rfl⟩
    · rw [if_neg hs]
      exact ⟨s, by omega, rfl⟩
  · rw [if_neg hp] at h ⊢
    rw [if_neg hp]
    exact ⟨s, rfl, rfl⟩

/-- The loop over `perm` runs through when all seeds of its slots fit under `thd`: it
ends with `flag` set and the seeds added to `sds`. -/
theorem findYmatrix_ring_pass (rblist : Nat → Rblock) (thd : Nat) (perm : Nat → Int)
    (k i : Nat) (s : YState)
    (h : s.sds + ((List.range' i k).map (fun t => slotSeeds rblist (perm t))).sum ≤ thd) :
    ∃ s1, findYmatrix_ring rblist thd perm k i s = some (s1, true) ∧
      s1.sds = s.sds + ((List.range' i k).map (fun t => slotSeeds rblist (perm t))).sum := by
  induction k generalizing i s with
  | zero =>
    refine ⟨s, ?_, ?_⟩
    · rw [findYmatrix_ring]
    · simp
  | succ k ih =>
    rw [List.range'_succ, List.map_cons, List.sum_cons] at h ⊢
    obtain ⟨s1, h1, h2⟩ := findYmatrix_ring_step rblist thd perm k i s (by omega)
    obtain ⟨s2, h3, h4⟩ := ih (i + 1) s1 (by omega)
    refine ⟨s2, ?_, ?_⟩
    · rw [h2, h3]
    · rw [h4, h1]
      omega

/-- The loop over `perm` stops when the seeds of its slots pass `thd`: for a state with
`sds ≤ thd` and slots of at most `9*thd` seeds each, it ends with `flag` cleared and
`sds > thd`, and `sds` passed `thd` with the seeds of the last slot copied. -/
theorem findYmatrix_ring_stop (rblist : Nat → Rblock) (thd : Nat) (perm : Nat → Int)
    (k i : Nat) (s : YState) (hs : s.sds ≤ thd)
    (hbuf : ∀ t, i ≤ t → t < i + k → slotSeeds rblist (perm t) ≤ 9 * thd)
    (h : thd < s.sds + ((List.range' i k).map (fun t => slotSeeds rblist (perm t))).sum) :
    ∃ s1, findYmatrix_ring rblist thd perm k i s = some (s1, false) ∧ thd < s1.sds ∧
      s1.sds ≤ s.sds + ((List.range' i k).map (fun t => slotSeeds rblist (perm t))).sum ∧
      ∃ t, i ≤ t ∧ t < i + k ∧ s1.sds ≤ thd + slotSeeds rblist (perm t) := by
  induction k generalizing i s with
  | zero =>
    simp at h
    omega
  | succ k ih =>
    rw [List.range'_succ, List.map_cons, List.sum_cons] at h ⊢
    by_cases hfit : s.sds + slotSeeds rblist (perm i) ≤ thd
    · obtain ⟨s1, h1, h2⟩ := findYmatrix_ring_step rblist thd perm k i s hfit
      obtain ⟨s2, h3, h4, h5, t, h6, h7, h8⟩ := ih (i + 1) s1 (by omega)
        (fun t ht1 ht2 => hbuf t (by omega) (by omega)) (by omega)
      refine ⟨s2, ?_, h4, ?_, t, by omega, by omega, h8⟩
      · rw [h2, h3]
      · omega
    · have hb := hbuf i (le_refl i) (by omega)
      unfold slotSeeds at hfit hb
      rw [findYmatrix_ring]
      by_cases hp : perm i ≥ 0
      · rw [if_pos hp] at hfit hb
        rw [if_pos hp]
        have hpos : (rblist (perm i).toNat).seeds > 0 := by omega
        rw [if_pos hpos]
        obtain ⟨s1, h1, h2⟩ := findYmatrix_add_sds thd (rblist (perm i).toNat) s (by omega)
        rw [h1]
        simp only []
        rw [if_pos (by omega)]
        refine ⟨s1, rfl, by omega, ?_, i, le_refl i, by omega, ?_⟩
        · unfold slotSeeds
          rw [if_pos hp]
          omega
        · unfold slotSeeds
          rw [if_pos hp]
          omega
      · rw [if_neg hp] at hfit
        omega


/-- A sum over the list of the first `m` indices is the sum over the range. -/
theorem sum_list_range (f : Nat → Nat) (m : Nat) :
    ((List.range' 0 m).map f).sum = ∑ i in Finset.range m, f i := by
  rw [← List.range_eq_range']
  induction m with
  | zero => rfl
  | succ m ih =>
    rw [List.range_succ, List.map_append, List.sum_append, ih, Finset.sum_range_succ]
    simp

/-- The sum over the positions of a list is the sum of the list. -/
theorem sum_list_getD {α : Type} (L : List α) (d : α) (f : α → Nat) :
    ∑ k in Finset.range L.length, f (L.getD k d) = (L.map f).sum := by
  induction L with
  | nil => rfl
  | cons a L ih =>
    rw [List.length_cons, Finset.sum_range_succ', List.map_cons, List.sum_cons, ← ih]
    simp only [List.getD_cons_succ, List.getD_cons_zero]
    omega

/-- The value stored for the cell of block `b` of the grid is `b`. -/
theorem findNNblocks_value_block (nrow ncol b : Nat) (hb : b < nrow * ncol) :
    findNNblocks_value (nrow : Int) (ncol : Int) (((b / ncol : Nat) : Int),
      ((b % ncol : Nat) : Int)) = (b : Int) := by
  have hncol : 0 < ncol := by
    rcases Nat.eq_zero_or_pos ncol with h | h
    · rw [h, Nat.mul_zero] at hb
      omega
    · exact h
  have h1 : b / ncol < nrow := (Nat.div_lt_iff_lt_mul hncol).mpr hb
  have h2 : b % ncol < ncol := Nat.mod_lt _ hncol
  have h3 := Nat.div_add_mod' b ncol
  have a1 : (0 : Int) ≤ ((b / ncol : Nat) : Int) := Int.natCast_nonneg _
  have a2 : ((b / ncol : Nat) : Int) < (nrow : Int) := by exact_mod_cast h1
  have a3 : (0 : Int) ≤ ((b % ncol : Nat) : Int) := Int.natCast_nonneg _
  have a4 : ((b % ncol : Nat) : Int) < (ncol : Int) := by exact_mod_cast h2
  have a5 : ((b / ncol : Nat) : Int) * (ncol : Int) + ((b % ncol : Nat) : Int) = (b : Int) := by
    exact_mod_cast h3
  unfold findNNblocks_value
  simp only []
  generalize ((b / ncol : Nat) : Int) = u at a1 a2 a5 ⊢
  generalize ((b % ncol : Nat) : Int) = w at a3 a4 a5 ⊢
  rw [if_neg (by omega)]
  exact a5

/-- The value stored for a cell is -1 or the index `b` of a block of the grid whose cell
it is. -/
theorem findNNblocks_value_cases (nrow ncol : Nat) (c : Int × Int) :
    findNNblocks_value (nrow : Int) (ncol : Int) c = -1 ∨
      ∃ b, b < nrow * ncol ∧ findNNblocks_value (nrow : Int) (ncol : Int) c = (b : Int) ∧
        c = (((b / ncol : Nat) : Int), ((b % ncol : Nat) : Int)) := by
  unfold findNNblocks_value
  by_cases hout : c.1 < 0 ∨ c.1 ≥ (nrow : Int) ∨ c.2 < 0 ∨ c.2 ≥ (ncol : Int)
  · left
    rw [if_pos hout]
  · right
    rw [if_neg hout]
    obtain ⟨i, j⟩ := c
    simp only [] at hout ⊢
    have hi0 : 0 ≤ i := by omega
    have hj0 : 0 ≤ j := by omega
    obtain ⟨a, rfl⟩ := Int.eq_ofNat_of_zero_le hi0
    obtain ⟨r, rfl⟩ := Int.eq_ofNat_of_zero_le hj0
    have ha : a < nrow := by omega
    have hr : r < ncol := by omega
    refine ⟨a * ncol + r, ?_, ?_, ?_⟩
    · have : (a + 1) * ncol ≤ nrow * ncol := Nat.mul_le_mul_right _ ha
      rw [Nat.add_mul, Nat.one_mul] at this
      omega
    · push_cast
      rfl
    · have e1 : (a * ncol + r) / ncol = a := by
        rw [Nat.add_comm, Nat.add_mul_div_right _ _ (by omega), Nat.div_eq_of_lt hr,
          Nat.zero_add]
      have e2 : (a * ncol + r) % ncol = r := by
        rw [Nat.add_comm, Nat.add_mul_mod_self_right, Nat.mod_eq_of_lt hr]
      rw [e1, e2]

/-- The ring of a block is `n` exactly when its cell lies at Chebyshev distance `n` from
the cell of the home block. -/
theorem ringOf_eq_iff (ncol bid b n : Nat) :
    ringOf ncol bid b = n ↔
      max |((b / ncol : Nat) : Int) - ((bid / ncol : Nat) : Int)|
        |((b % ncol : Nat) : Int) - ((bid % ncol : Nat) : Int)| = (n : Int) := by
  unfold ringOf
  rw [← Int.natCast_natAbs, ← Int.natCast_natAbs, ← Nat.cast_max]
  exact Nat.cast_inj.symm


/-- The seeds of a slot that holds the block index `b`. -/
theorem slotSeeds_block (rblist : Nat → Rblock) (b : Nat) :
    slotSeeds rblist (b : Int) = (rblist b).seeds := by
  unfold slotSeeds
  rw [if_pos (Int.natCast_nonneg b), Int.toNat_natCast]

/-- The seeds of a slot that holds -1. -/
theorem slotSeeds_none (rblist : Nat → Rblock) : slotSeeds rblist (-1) = 0 := by
  unfold slotSeeds
  rw [if_neg (by decide)]

/-- The seeds behind the slots of `findNNblocks` for ring `n ≥ 1` around the home block
`bid`: with a permutation `sts` of `0..8n-1` the call returns, the seeds of its slots add
up to the seeds of the blocks of the grid in ring `n`, and every slot holds no seeds or
those of a block of the grid. -/
theorem findNNblocks_seeds (rblist : Nat → Rblock) (bid nrow ncol n : Nat) (sts : Nat → Nat)
    (perm0 : Nat → Int) (hn : 1 ≤ n) (hsts : ∀ c, c < 8 * n → sts c < 8 * n)
    (hinj : ∀ c d, c < 8 * n → d < 8 * n → sts c = sts d → c = d) :
    ∃ perm, findNNblocks ((bid / ncol : Nat) : Int) ((bid % ncol : Nat) : Int) (nrow : Int)
        (ncol : Int) n sts perm0 = some perm ∧
      ((List.range' 0 (8 * n)).map (fun t => slotSeeds rblist (perm t))).sum =
        ∑ b in Finset.range (nrow * ncol),
          (if ringOf ncol bid b = n then (rblist b).seeds else 0) ∧
      ∀ t, t < 8 * n → slotSeeds rblist (perm t) = 0 ∨
        ∃ b, b < nrow * ncol ∧ slotSeeds rblist (perm t) = (rblist b).seeds := by
  have hlen := findNNblocks_cells_length ((bid / ncol : Nat) : Int) ((bid % ncol : Nat) : Int)
    n hn
  obtain ⟨perm, h1, h2, _⟩ := findNNblocks_fold (nrow : Int) (ncol : Int) (8 * n) sts hsts hinj
    (findNNblocks_cells ((bid / ncol : Nat) : Int) ((bid % ncol : Nat) : Int) n) 0
    (fun i => if i < 8 * n then -1 else perm0 i) (by rw [hlen]; omega)
  have hperm : ∀ cc, cc < 8 * n → perm (sts cc) = findNNblocks_value (nrow : Int) (ncol : Int)
      ((findNNblocks_cells ((bid / ncol : Nat) : Int) ((bid % ncol : Nat) : Int) n).getD cc
        (0, 0)) := by
    intro cc hcc
    have h := h2 cc (by rw [hlen]; exact hcc)
    rw [Nat.zero_add] at h
    exact h
  refine ⟨perm, ?_, ?_, ?_⟩
  · unfold findNNblocks
    simp only []
    rw [h1]
    rfl
  · rw [sum_list_range]
    have e1 : ∑ s in Finset.range (8 * n), slotSeeds rblist (perm s) =
        ∑ cc in Finset.range (8 * n), slotSeeds rblist (perm (sts cc)) := by
      symm
      apply Finset.sum_bij (fun cc _ => sts cc)
      · intro cc hcc
        exact Finset.mem_range.mpr (hsts cc (Finset.mem_range.mp hcc))
      · intro a ha b hb hab
        exact hinj a b (Finset.mem_range.mp ha) (Finset.mem_range.mp hb) hab
      · intro s hs
        obtain ⟨cc, hcc, he⟩ := injOn_range_surj sts (8 * n) hsts hinj s (Finset.mem_range.mp hs)
        exact ⟨cc, Finset.mem_range.mpr hcc, he⟩
      · intro cc _
        rfl
    have e2 : ∑ cc in Finset.range (8 * n), slotSeeds rblist (perm (sts cc)) =
        ∑ cc in Finset.range (8 * n), slotSeeds rblist (findNNblocks_value (nrow : Int)
          (ncol : Int) ((findNNblocks_cells ((bid / ncol : Nat) : Int)
            ((bid % ncol : Nat) : Int) n).getD cc (0, 0))) := by
      apply Finset.sum_congr rfl
      intro cc hcc
      rw [hperm cc (Finset.mem_range.mp hcc)]
    have e3 := sum_list_getD
      (findNNblocks_cells ((bid / ncol : Nat) : Int) ((bid % ncol : Nat) : Int) n) (0, 0)
      (fun c => slotSeeds rblist (findNNblocks_value (nrow : Int) (ncol : Int) c))
    rw [hlen] at e3
    have e4 := List.sum_toFinset
      (fun c => slotSeeds rblist (findNNblocks_value (nrow : Int) (ncol : Int) c))
      (findNNblocks_cells_nodup ((bid / ncol : Nat) : Int) ((bid % ncol : Nat) : Int) n)
    have e5 : ∑ b in (Finset.range (nrow * ncol)).filter (fun b => ringOf ncol bid b = n),
        (rblist b).seeds =
        ∑ c in (findNNblocks_cells ((bid / ncol : Nat) : Int) ((bid % ncol : Nat) : Int)
          n).toFinset, slotSeeds rblist (findNNblocks_value (nrow : Int) (ncol : Int) c) := by
      apply Finset.sum_bij_ne_zero
        (fun b _ _ => (((b / ncol : Nat) : Int), ((b % ncol : Nat) : Int)))
      · intro b hb _
        rw [Finset.mem_filter] at hb
        rw [List.mem_toFinset, findNNblocks_cells_mem]
        exact (ringOf_eq_iff ncol bid b n).mp hb.2
      · intro a _ _ b _ _ hab
        rw [Prod.mk.injEq] at hab
        have q1 : a / ncol = b / ncol := by exact_mod_cast hab.1
        have q2 : a % ncol = b % ncol := by exact_mod_cast hab.2
        rw [← Nat.div_add_mod' a ncol, ← Nat.div_add_mod' b ncol, q1, q2]
      · intro c hc hne
        rw [List.mem_toFinset] at hc
        rcases findNNblocks_value_cases nrow ncol c with hv | ⟨b, hb, hv, hcb⟩
        · rw [hv, slotSeeds_none] at hne
          exact absurd rfl hne
        · rw [hv, slotSeeds_block] at hne
          refine ⟨b, ?_, hne, hcb.symm⟩
          rw [Finset.mem_filter, Finset.mem_range]
          refine ⟨hb, ?_⟩
          rw [hcb, findNNblocks_cells_mem] at hc
          exact (ringOf_eq_iff ncol bid b n).mpr hc
      · intro b hb _
        rw [Finset.mem_filter, Finset.mem_range] at hb
        rw [findNNblocks_value_block nrow ncol b hb.1, slotSeeds_block]
    rw [e1, e2, e3, ← e4, ← e5, Finset.sum_filter]
  · intro t ht
    obtain ⟨cc, hcc, he⟩ := injOn_range_surj sts (8 * n) hsts hinj t ht
    rw [← he, hperm cc hcc]
    rcases findNNblocks_value_cases nrow ncol
      ((findNNblocks_cells ((bid / ncol : Nat) : Int) ((bid % ncol : Nat) : Int) n).getD cc
        (0, 0)) with hv | ⟨b, hb, hv, _⟩
    · left
      rw [hv, slotSeeds_none]
    · right
      exact ⟨b, hb, by rw [hv, slotSeeds_block]⟩


/-- A sum over `fuel + 1` consecutive rings splits off the first ring. -/
theorem sum_range_shift (F : Nat → Nat) (n fuel : Nat) :
    ∑ r in Finset.range (fuel + 1), F (n + r) =
      F n + ∑ r in Finset.range fuel, F (n + 1 + r) := by
  rw [Finset.sum_range_succ', Nat.add_zero, Nat.add_comm]
  congr 1
  apply Finset.sum_congr rfl
  intro r _
  congr 1
  omega

/-- The rings of `findYmatrix` never end while the seeds of the rings searched fit under
`thd`: with `fuel` rings available from ring `n ≥ 1`, the loop does not end when `sds`
and the seeds of the rings `n .. n+fuel-1` stay at or below `thd`. -/
theorem findYmatrix_rings_none (rblist : Nat → Rblock) (bid nrow ncol thd : Nat)
    (sts : Nat → Nat → Nat) (perm0 : Nat → Nat → Int)
    (hsts : ∀ n, 1 ≤ n → (∀ c, c < 8 * n → sts n c < 8 * n) ∧
      ∀ c d, c < 8 * n → d < 8 * n → sts n c = sts n d → c = d)
    (fuel n : Nat) (s : YState) (hn : 1 ≤ n)
    (h : s.sds + ∑ r in Finset.range fuel, ∑ b in Finset.range (nrow * ncol),
      (if ringOf ncol bid b = n + r then (rblist b).seeds else 0) ≤ thd) :
    findYmatrix_rings rblist ((bid / ncol : Nat) : Int) ((bid % ncol : Nat) : Int)
      (nrow : Int) (ncol : Int) thd sts perm0 fuel n s = none := by
  induction fuel generalizing n s with
  | zero => rw [findYmatrix_rings]
  | succ fuel ih =>
    have hsplit := sum_range_shift (fun k => ∑ b in Finset.range (nrow * ncol),
      (if ringOf ncol bid b = k then (rblist b).seeds else 0)) n fuel
    simp only [] at hsplit
    rw [hsplit] at h
    obtain ⟨perm, p1, p2, _⟩ := findNNblocks_seeds rblist bid nrow ncol n (sts n) (perm0 n) hn
      (hsts n hn).1 (hsts n hn).2
    obtain ⟨s1, q1, q2⟩ := findYmatrix_ring_pass rblist thd perm (8 * n) 0 s
      (by rw [p2]; omega)
    rw [findYmatrix_rings, p1]
    simp only []
    rw [q1]
    simp only []
    exact ih (n + 1) s1 (by omega) (by rw [q2, p2]; omega)

/-- The rings of `findYmatrix` end once the seeds pass `thd`: from a state with
`sds ≤ thd` at ring `n ≥ 1`, when `sds` and the seeds of the rings `n .. n+fuel-1` exceed
`thd` and no block holds more than `9*thd` seeds, the loop ends within `fuel` rings with
`sds > thd`, and `sds` passed `thd` with the seeds of one block. -/
theorem findYmatrix_rings_some (rblist : Nat → Rblock) (bid nrow ncol thd : Nat)
    (sts : Nat → Nat → Nat) (perm0 : Nat → Nat → Int)
    (hsts : ∀ n, 1 ≤ n → (∀ c, c < 8 * n → sts n c < 8 * n) ∧
      ∀ c d, c < 8 * n → d < 8 * n → sts n c = sts n d → c = d)
    (hbuf : ∀ b, b < nrow * ncol → (rblist b).seeds ≤ 9 * thd)
    (fuel n : Nat) (s : YState) (hn : 1 ≤ n) (hs : s.sds ≤ thd)
    (h : thd < s.sds + ∑ r in Finset.range fuel, ∑ b in Finset.range (nrow * ncol),
      (if ringOf ncol bid b = n + r then (rblist b).seeds else 0)) :
    ∃ s1, (∀ f, fuel ≤ f →
        findYmatrix_rings rblist ((bid / ncol : Nat) : Int) ((bid % ncol : Nat) : Int)
          (nrow : Int) (ncol : Int) thd sts perm0 f n s = some (some s1)) ∧
      thd < s1.sds ∧
      s1.sds ≤ s.sds + ∑ r in Finset.range fuel, ∑ b in Finset.range (nrow * ncol),
        (if ringOf ncol bid b = n + r then (rblist b).seeds else 0) ∧
      ∃ b, b < nrow * ncol ∧ s1.sds ≤ thd + (rblist b).seeds := by
  induction fuel generalizing n s with
  | zero =>
    rw [Finset.sum_range_zero] at h
    omega
  | succ fuel ih =>
    have hsplit := sum_range_shift (fun k => ∑ b in Finset.range (nrow * ncol),
      (if ringOf ncol bid b = k then (rblist b).seeds else 0)) n fuel
    simp only [] at hsplit
    rw [hsplit] at h ⊢
    obtain ⟨perm, p1, p2, p3⟩ := findNNblocks_seeds rblist bid nrow ncol n (sts n) (perm0 n) hn
      (hsts n hn).1 (hsts n hn).2
    by_cases hfit : s.sds + ∑ b in Finset.range (nrow * ncol),
        (if ringOf ncol bid b = n then (rblist b).seeds else 0) ≤ thd
    · obtain ⟨s1, q1, q2⟩ := findYmatrix_ring_pass rblist thd perm (8 * n) 0 s
        (by rw [p2]; exact hfit)
      rw [p2] at q2
      obtain ⟨s2, r1, r2, r3, r4⟩ := ih (n + 1) s1 (by omega) (by omega) (by omega)
      refine ⟨s2, ?_, r2, by omega, r4⟩
      intro f hf
      obtain ⟨g, rfl⟩ : ∃ g, f = g + 1 := ⟨f - 1, by omega⟩
      rw [findYmatrix_rings, p1]
      simp only []
      rw [q1]
      simp only []
      exact r1 g (by omega)
    · have hslot : ∀ t, 0 ≤ t → t < 0 + 8 * n → slotSeeds rblist (perm t) ≤ 9 * thd := by
        intro t _ ht
        rcases p3 t (by omega) with h0 | ⟨b, hb, he⟩
        · rw [h0]
          omega
        · rw [he]
          exact hbuf b hb
      obtain ⟨s1, q1, q2, q3, t, _, q5, q6⟩ := findYmatrix_ring_stop rblist thd perm (8 * n) 0 s
        hs hslot (by rw [p2]; omega)
      rw [p2] at q3
      refine ⟨s1, ?_, q2, by omega, ?_⟩
      · intro f hf
        obtain ⟨g, rfl⟩ : ∃ g, f = g + 1 := ⟨f - 1, by omega⟩
        rw [findYmatrix_rings, p1]
        simp only []
        rw [q1]
      · rcases p3 t (by omega) with h0 | ⟨b, hb, he⟩
        · rw [h0] at q6
          omega
        · exact ⟨b, hb, by rw [← he]; exact q6⟩

/-- The seeds of the home block and of the rings `1 .. N` are the seeds of the blocks of
the grid whose ring is at most `N`. -/
theorem ringOf_sum (rblist : Nat → Rblock) (bid ncol nb N : Nat) :
    ∑ n in Finset.range (N + 1), ∑ b in Finset.range nb,
      (if ringOf ncol bid b = n then (rblist b).seeds else 0) =
    ∑ b in Finset.range nb, (if ringOf ncol bid b ≤ N then (rblist b).seeds else 0) := by
  rw [Finset.sum_comm]
  apply Finset.sum_congr rfl
  intro b _
  rw [Finset.sum_ite_eq]
  by_cases h : ringOf ncol bid b ≤ N
  · rw [if_pos h, if_pos (Finset.mem_range.mpr (by omega))]
  · rw [if_neg h, if_neg (fun hm => h (by have := Finset.mem_range.mp hm; omega))]

/-- Ring 0 holds the home block only. -/
theorem ringOf_zero (ncol bid b : Nat) : ringOf ncol bid b = 0 ↔ b = bid := by
  unfold ringOf
  constructor
  · intro h
    have h1 : (((b / ncol : Nat) : Int) - ((bid / ncol : Nat) : Int)).natAbs = 0 := by omega
    have h2 : (((b % ncol : Nat) : Int) - ((bid % ncol : Nat) : Int)).natAbs = 0 := by omega
    rw [Int.natAbs_eq_zero, sub_eq_zero] at h1 h2
    have q1 : b / ncol = bid / ncol := by exact_mod_cast h1
    have q2 : b % ncol = bid % ncol := by exact_mod_cast h2
    rw [← Nat.div_add_mod' b ncol, ← Nat.div_add_mod' bid ncol, q1, q2]
  · intro h
    rw [h]
    simp

/-- Every block of the grid lies in a ring below `nrow + ncol`. -/
theorem ringOf_le (nrow ncol bid b : Nat) (hbid : bid < nrow * ncol) (hb : b < nrow * ncol) :
    ringOf ncol bid b ≤ nrow + ncol := by
  have hncol : 0 < ncol := by
    rcases Nat.eq_zero_or_pos ncol with h | h
    · rw [h, Nat.mul_zero] at hb
      omega
    · exact h
  have h1 : b / ncol < nrow := (Nat.div_lt_iff_lt_mul hncol).mpr hb
  have h2 : b % ncol < ncol := Nat.mod_lt _ hncol
  have h3 : bid / ncol < nrow := (Nat.div_lt_iff_lt_mul hncol).mpr hbid
  have h4 : bid % ncol < ncol := Nat.mod_lt _ hncol
  unfold ringOf
  generalize b / ncol = u at h1 ⊢
  generalize b % ncol = v at h2 ⊢
  generalize bid / ncol = u2 at h3 ⊢
  generalize bid % ncol = v2 at h4 ⊢
  apply max_le
  · omega
  · omega


/-- The home block of `findYmatrix` when its seeds fit under `thd`: the search is the loop
over the rings from ring 1, entered with `sds` at the seeds of the home block. -/
theorem findYmatrix_search_home (rblist : Nat → Rblock) (bid nrow ncol thd : Nat)
    (sts : Nat → Nat → Nat) (perm0 : Nat → Nat → Int) (hncol : ncol ≠ 0)
    (h : (rblist bid).seeds ≤ thd) :
    ∃ s0, s0.sds = (rblist bid).seeds ∧ ∀ fuel,
      findYmatrix_search rblist bid nrow ncol thd sts perm0 fuel =
        findYmatrix_rings rblist ((bid / ncol : Nat) : Int) ((bid % ncol : Nat) : Int)
          (nrow : Int) (ncol : Int) thd sts perm0 fuel 1 s0 := by
  by_cases hpos : (rblist bid).seeds > 0
  · obtain ⟨s0, a1, a2⟩ := findYmatrix_add_sds thd (rblist bid) ⟨0, [], []⟩
      (by show 0 + (rblist bid).seeds ≤ 10 * thd; omega)
    have a3 : s0.sds = (rblist bid).seeds := by
      rw [a2]
      exact Nat.zero_add _
    refine ⟨s0, a3, ?_⟩
    intro fuel
    unfold findYmatrix_search
    rw [if_neg hncol, if_pos hpos, a1]
    simp only []
    rw [if_neg (by omega)]
  · refine ⟨⟨0, [], []⟩, by show 0 = (rblist bid).seeds; omega, ?_⟩
    intro fuel
    unfold findYmatrix_search
    rw [if_neg hncol, if_neg hpos]

/-- The home block of `findYmatrix` when its seeds exceed `thd` and fit in the buffers:
the search ends there, with `sds` at the seeds of the home block. -/
theorem findYmatrix_search_home_stop (rblist : Nat → Rblock) (bid nrow ncol thd : Nat)
    (sts : Nat → Nat → Nat) (perm0 : Nat → Nat → Int) (hncol : ncol ≠ 0)
    (h : thd < (rblist bid).seeds) (hbuf : (rblist bid).seeds ≤ 9 * thd) :
    ∃ s0, s0.sds = (rblist bid).seeds ∧ ∀ fuel,
      findYmatrix_search rblist bid nrow ncol thd sts perm0 fuel = some (some s0) := by
  obtain ⟨s0, a1, a2⟩ := findYmatrix_add_sds thd (rblist bid) ⟨0, [], []⟩
    (by show 0 + (rblist bid).seeds ≤ 10 * thd; omega)
  have a3 : s0.sds = (rblist bid).seeds := by
    rw [a2]
    exact Nat.zero_add _
  refine ⟨s0, a3, ?_⟩
  intro fuel
  unfold findYmatrix_search
  rw [if_neg hncol, if_pos (by omega), a1]
  simp only []
  rw [if_pos (by omega)]

/-- The seeds of the home block and of the rings `1 .. N` are the seeds of the blocks of
the grid whose ring is at most `N`: at most the seeds of the grid, and all of them from
`N = nrow + ncol` on. -/
theorem ringOf_cumulative (rblist : Nat → Rblock) (bid nrow ncol N : Nat)
    (hbid : bid < nrow * ncol) :
    (rblist bid).seeds + ∑ r in Finset.range N, ∑ b in Finset.range (nrow * ncol),
        (if ringOf ncol bid b = 1 + r then (rblist b).seeds else 0) ≤
      ∑ b in Finset.range (nrow * ncol), (rblist b).seeds ∧
    (nrow + ncol ≤ N →
      (rblist bid).seeds + ∑ r in Finset.range N, ∑ b in Finset.range (nrow * ncol),
        (if ringOf ncol bid b = 1 + r then (rblist b).seeds else 0) =
      ∑ b in Finset.range (nrow * ncol), (rblist b).seeds) := by
  have h0 : ∑ b in Finset.range (nrow * ncol),
      (if ringOf ncol bid b = 0 then (rblist b).seeds else 0) = (rblist bid).seeds := by
    have e : ∀ b, b ∈ Finset.range (nrow * ncol) →
        (if ringOf ncol bid b = 0 then (rblist b).seeds else 0) =
          (if bid = b then (rblist b).seeds else 0) := by
      intro b _
      by_cases hb : b = bid
      · rw [if_pos ((ringOf_zero ncol bid b).mpr hb), if_pos hb.symm]
      · rw [if_neg (fun hr => hb ((ringOf_zero ncol bid b).mp hr)),
          if_neg (fun hr => hb hr.symm)]
    rw [Finset.sum_congr rfl e, Finset.sum_ite_eq, if_pos (Finset.mem_range.mpr hbid)]
  have hsum : (rblist bid).seeds + ∑ r in Finset.range N, ∑ b in Finset.range (nrow * ncol),
        (if ringOf ncol bid b = 1 + r then (rblist b).seeds else 0) =
      ∑ b in Finset.range (nrow * ncol),
        (if ringOf ncol bid b ≤ N then (rblist b).seeds else 0) := by
    rw [← ringOf_sum, Finset.sum_range_succ', h0, Nat.add_comm]
    congr 1
    apply Finset.sum_congr rfl
    intro r _
    rw [Nat.add_comm 1 r]
  rw [hsum]
  constructor
  · apply Finset.sum_le_sum
    intro b _
    by_cases hb : ringOf ncol bid b ≤ N
    · rw [if_pos hb]
    · rw [if_neg hb]
      exact Nat.zero_le _
  · intro hN
    apply Finset.sum_congr rfl
    intro b hb
    have := ringOf_le nrow ncol bid b hbid (Finset.mem_range.mp hb)
    rw [if_pos (by omega)]

/-- Claim C38: the ring search of `findYmatrix` ends exactly when the seeds of the whole
block grid exceed `thd`.  For a home block `bid` of the `nrow × ncol` grid, permutations
`sts n` of `0..8n-1` for the rings and blocks of at most `9*thd` seeds each (so that the
buffers of `10*thd` entries hold every copy): when the seeds of the grid exceed `thd`, the
search ends within `nrow + ncol` rings, with `sds > thd`, at most the seeds of the grid,
and `sds` passed `thd` with the copy of one block (the search stops as soon as the seeds
collected exceed `thd`); and when the grid holds at most `thd` seeds, the loop over the
rings does not end, whatever the number of rings available. -/
theorem findYmatrix_search_ends (rblist : Nat → Rblock) (bid nrow ncol thd : Nat)
    (sts : Nat → Nat → Nat) (perm0 : Nat → Nat → Int)
    (hbid : bid < nrow * ncol)
    (hsts : ∀ n, 1 ≤ n → (∀ c, c < 8 * n → sts n c < 8 * n) ∧
      ∀ c d, c < 8 * n → d < 8 * n → sts n c = sts n d → c = d)
    (hbuf : ∀ b, b < nrow * ncol → (rblist b).seeds ≤ 9 * thd) :
    (thd < ∑ b in Finset.range (nrow * ncol), (rblist b).seeds →
      ∃ s, (∀ fuel, nrow + ncol ≤ fuel →
          findYmatrix_search rblist bid nrow ncol thd sts perm0 fuel = some (some s)) ∧
        thd < s.sds ∧ s.sds ≤ ∑ b in Finset.range (nrow * ncol), (rblist b).seeds ∧
        ∃ b, b < nrow * ncol ∧ s.sds ≤ thd + (rblist b).seeds) ∧
    (∑ b in Finset.range (nrow * ncol), (rblist b).seeds ≤ thd →
      ∀ fuel, findYmatrix_search rblist bid nrow ncol thd sts perm0 fuel = none) := by
  have hncol : ncol ≠ 0 := by
    intro h
    rw [h, Nat.mul_zero] at hbid
    omega
  constructor
  · intro htot
    by_cases hhome : (rblist bid).seeds ≤ thd
    · obtain ⟨s0, a1, a2⟩ := findYmatrix_search_home rblist bid nrow ncol thd sts perm0 hncol
        hhome
      obtain ⟨_, c2⟩ := ringOf_cumulative rblist bid nrow ncol (nrow + ncol) hbid
      have c3 := c2 (le_refl _)
      obtain ⟨s1, r1, r2, r3, r4⟩ := findYmatrix_rings_some rblist bid nrow ncol thd sts perm0
        hsts hbuf (nrow + ncol) 1 s0 (le_refl 1) (by omega) (by rw [a1, c3]; exact htot)
      refine ⟨s1, ?_, r2, ?_, r4⟩
      · intro fuel hf
        rw [a2 fuel]
        exact r1 fuel hf
      · rw [a1, c3] at r3
        exact r3
    · obtain ⟨s0, a1, a2⟩ := findYmatrix_search_home_stop rblist bid nrow ncol thd sts perm0
        hncol (by omega) (hbuf bid hbid)
      refine ⟨s0, fun fuel _ => a2 fuel, by omega, ?_, bid, hbid, by omega⟩
      rw [a1]
      exact Finset.single_le_sum (f := fun b => (rblist b).seeds) (fun _ _ => Nat.zero_le _)
        (Finset.mem_range.mpr hbid)
  · intro htot fuel
    obtain ⟨c1, _⟩ := ringOf_cumulative rblist bid nrow ncol fuel hbid
    have hhome : (rblist bid).seeds ≤ thd := by omega
    obtain ⟨s0, a1, a2⟩ := findYmatrix_search_home rblist bid nrow ncol thd sts perm0 hncol
      hhome
    rw [a2 fuel]
    exact findYmatrix_rings_none rblist bid nrow ncol thd sts perm0 hsts fuel 1 s0 (le_refl 1)
      (by rw [a1]; omega)

/-- Witness for `findYmatrix_search_ends`: a 2×2 grid of blocks with one seed each, home
block 0, `thd = 2` and the identity permutations; the four seeds of the grid exceed
`thd`, and the search ends with more than two seeds. -/
theorem findYmatrix_search_ends_witness :
    (0 < 2 * 2 ∧
      (∀ n, 1 ≤ n → (∀ c, c < 8 * n → (fun (_ : Nat) (c : Nat) => c) n c < 8 * n) ∧
        ∀ c d, c < 8 * n → d < 8 * n →
          (fun (_ : Nat) (c : Nat) => c) n c = (fun (_ : Nat) (c : Nat) => c) n d → c = d) ∧
      (∀ b, b < 2 * 2 → (blocksOne b).seeds ≤ 9 * 2) ∧
      2 < ∑ b in Finset.range (2 * 2), (blocksOne b).seeds) ∧
    ∃ s, (∀ fuel, 2 + 2 ≤ fuel →
        findYmatrix_search blocksOne 0 2 2 2 (fun _ c => c) (fun _ _ => 0) fuel =
          some (some s)) ∧
      2 < s.sds :=
  have hbid : 0 < 2 * 2 := by decide
  have hsts : ∀ n, 1 ≤ n → (∀ c, c < 8 * n → (fun (_ : Nat) (c : Nat) => c) n c < 8 * n) ∧
      ∀ c d, c < 8 * n → d < 8 * n →
        (fun (_ : Nat) (c : Nat) => c) n c = (fun (_ : Nat) (c : Nat) => c) n d → c = d :=
    fun _ _ => ⟨fun _ h => h, fun _ _ _ _ h => h⟩
  have hbuf : ∀ b, b < 2 * 2 → (blocksOne b).seeds ≤ 9 * 2 := by
    intro b _
    show 1 ≤ 9 * 2
    decide
  have htot : 2 < ∑ b in Finset.range (2 * 2), (blocksOne b).seeds := by
    decide
  ⟨⟨hbid, hsts, hbuf, htot⟩,
    match (findYmatrix_search_ends blocksOne 0 2 2 2 (fun _ c => c) (fun _ _ => 0) hbid hsts
      hbuf).1 htot with
    | ⟨s, h1, h2, _⟩ => ⟨s, h1, h2⟩⟩



/-! ## Pairwise coefficient update: every divisor -/

/-- The function `updatecoeffs` is its statements after the clipping, run on the clipped
step. -/
theorem updatecoeffs_eq_store (K : gsl_matrix) (a fw : Nat → ℚ) (i j : Nat) (rvm ph : ℚ) :
    updatecoeffs K a fw i j rvm ph =
      updatecoeffs_store K a fw i j rvm ph (updatecoeffs_ahi K a fw i j rvm) := rfl

/-- With a divisor other than 0 the step of `updatecoeffs` is the clipped quotient. -/
theorem updatecoeffs_ieee_ahi_of_ne_zero (K : gsl_matrix) (a fw : Nat → ℚ) (i j : Nat)
    (rvm : ℚ)
    (hxx : gsl_matrix_get K i i + gsl_matrix_get K j j - 2 * gsl_matrix_get K i j ≠ 0) :
    updatecoeffs_ieee_ahi K a fw i j rvm = some (updatecoeffs_ahi K a fw i j rvm) := by
  unfold updatecoeffs_ieee_ahi updatecoeffs_ahi
  simp only []
  rw [if_neg hxx]

/-- With a divisor other than 0 the function `updatecoeffs` for every divisor is
`updatecoeffs`. -/
theorem updatecoeffs_ieee_of_ne_zero (K : gsl_matrix) (a fw : Nat → ℚ) (i j : Nat)
    (rvm ph : ℚ)
    (hxx : gsl_matrix_get K i i + gsl_matrix_get K j j - 2 * gsl_matrix_get K i j ≠ 0) :
    updatecoeffs_ieee K a fw i j rvm ph = some (updatecoeffs K a fw i j rvm ph) := by
  unfold updatecoeffs_ieee
  rw [updatecoeffs_ieee_ahi_of_ne_zero K a fw i j rvm hxx, updatecoeffs_eq_store]

/-- With the divisor 0 and equal heights the quotient of `updatecoeffs` is `0/0`: the call
stores NaN. -/
theorem updatecoeffs_ieee_nan (K : gsl_matrix) (a fw : Nat → ℚ) (i j : Nat) (rvm ph : ℚ)
    (hxx : gsl_matrix_get K i i + gsl_matrix_get K j j - 2 * gsl_matrix_get K i j = 0)
    (hfw : fw j = fw i) :
    updatecoeffs_ieee K a fw i j rvm ph = none := by
  have hahi : updatecoeffs_ieee_ahi K a fw i j rvm = none := by
    unfold updatecoeffs_ieee_ahi
    simp only []
    rw [if_pos hxx, hfw, sub_self, if_neg (lt_irrefl 0), if_neg (lt_irrefl 0)]
  unfold updatecoeffs_ieee
  rw [hahi]

/-- With a divisor other than 0, or with heights that differ, the step of `updatecoeffs`
is a number and the call runs its statements after the clipping on it. -/
theorem updatecoeffs_ieee_defined (K : gsl_matrix) (a fw : Nat → ℚ) (i j : Nat) (rvm ph : ℚ)
    (hdef : gsl_matrix_get K i i + gsl_matrix_get K j j - 2 * gsl_matrix_get K i j ≠ 0 ∨
      fw j ≠ fw i) :
    ∃ ahi, updatecoeffs_ieee_ahi K a fw i j rvm = some ahi ∧
      updatecoeffs_ieee K a fw i j rvm ph = some (updatecoeffs_store K a fw i j rvm ph ahi) := by
  have hex : ∃ ahi, updatecoeffs_ieee_ahi K a fw i j rvm = some ahi := by
    by_cases hxx : gsl_matrix_get K i i + gsl_matrix_get K j j - 2 * gsl_matrix_get K i j = 0
    · have hne : fw j ≠ fw i := by
        rcases hdef with h | h
        · exact absurd hxx h
        · exact h
      unfold updatecoeffs_ieee_ahi
      simp only []
      rw [if_pos hxx]
      by_cases hpos : fw j - fw i > 0
      · rw [if_pos hpos]
        exact ⟨_, rfl⟩
      · rw [if_neg hpos]
        have hneg : fw j - fw i < 0 := by
          rcases lt_trichotomy (fw j - fw i) 0 with h | h | h
          · exact h
          · exact absurd (sub_eq_zero.mp h) hne
          · exact absurd h hpos
        rw [if_pos hneg]
        exact ⟨_, rfl⟩
    · exact ⟨_, updatecoeffs_ieee_ahi_of_ne_zero K a fw i j rvm hxx⟩
  obtain ⟨ahi, h⟩ := hex
  refine ⟨ahi, h, ?_⟩
  unfold updatecoeffs_ieee
  rw [h]

/-- The coefficients after the statements that follow the clipping, entry by entry, for
`i ≠ j`: `a[i]` is the step, `a[j]` is `gama` minus it, the others are untouched (also on
the early return, where the step is the old `a[i]`). -/
theorem updatecoeffs_store_a_apply (K : gsl_matrix) (a fw : Nat → ℚ) (i j : Nat)
    (rvm ph ahi : ℚ) (hij : i ≠ j) (k : Nat) :
    (updatecoeffs_store K a fw i j rvm ph ahi).a k =
      if k = j then a i + a j - ahi else if k = i then ahi else a k := by
  unfold updatecoeffs_store
  by_cases h : a i = ahi
  · simp only [h, if_true]
    by_cases hkj : k = j
    · subst hkj
      simp only [if_true]
      rw [← h]; ring
    · simp only [hkj, if_false]
      by_cases hki : k = i
      · subst hki; simp only [if_true]; rw [← h]
      · simp only [hki, if_false]
  · simp only [h, if_false]
    by_cases hkj : k = j
    · subst hkj
      simp
    · simp only [hkj, if_false]
      rw [Function.update_noteq hkj]
      by_cases hki : k = i
      · subst hki; simp
      · simp only [hki, if_false]
        rw [Function.update_noteq hki]

open Finset in
/-- The statements after the clipping keep `a[i] + a[j]`, every other coefficient and the
sum of the coefficients over any index range holding `i` and `j`, for every step. -/
theorem updatecoeffs_store_pair_mass (K : gsl_matrix) (a fw : Nat → ℚ) (i j : Nat)
    (rvm ph ahi : ℚ) (hij : i ≠ j) :
    (updatecoeffs_store K a fw i j rvm ph ahi).a i +
      (updatecoeffs_store K a fw i j rvm ph ahi).a j = a i + a j ∧
    (∀ k, k ≠ i → k ≠ j → (updatecoeffs_store K a fw i j rvm ph ahi).a k = a k) ∧
    (∀ m, i < m → j < m →
      ∑ k in range m, (updatecoeffs_store K a fw i j rvm ph ahi).a k = ∑ k in range m, a k) := by
  have hap := updatecoeffs_store_a_apply K a fw i j rvm ph ahi hij
  refine ⟨?_, ?_, ?_⟩
  · rw [hap i, hap j]
    simp only [hij, if_false, if_true]
    ring
  · intro k hki hkj
    rw [hap k]
    simp only [hki, hkj, if_false]
  · intro m hi hj
    have hfun : (updatecoeffs_store K a fw i j rvm ph ahi).a =
        Function.update (Function.update a i ahi) j (a i + a j - ahi) := by
      funext k
      rw [hap k]
      by_cases hkj : k = j
      · subst hkj; simp
      · rw [Function.update_noteq hkj]
        by_cases hki : k = i
        · subst hki; simp [hkj]
        · rw [Function.update_noteq hki]; simp [hkj, hki]
    rw [hfun, sum_range_update _ m j _ hj, sum_range_update _ m i _ hi,
      Function.update_noteq (Ne.symm hij)]
    ring

open Finset in
/-- The statements after the clipping keep the heights in step with the coefficients: for
a pair `i ≠ j` below `m = K->size1`, when `fw[k] = Σ_p a_p·K[k,p]` holds before, it holds
for the coefficients and heights after, for every step. -/
theorem updatecoeffs_store_heights (K : gsl_matrix) (a fw : Nat → ℚ) (m i j : Nat)
    (rvm ph ahi : ℚ) (hm : K.size1 = m) (hi : i < m) (hj : j < m) (hij : i ≠ j)
    (hfw : ∀ k, k < m → fw k = ∑ p in range m, a p * gsl_matrix_get K k p) (k : Nat)
    (hk : k < m) :
    (updatecoeffs_store K a fw i j rvm ph ahi).fw k =
      ∑ p in range m, (updatecoeffs_store K a fw i j rvm ph ahi).a p * gsl_matrix_get K k p := by
  unfold updatecoeffs_store
  by_cases h : a i = ahi
  · simp only [h, if_true]
    exact hfw k hk
  · simp only [h, if_false, hm, hk, if_true]
    have hsum : ∑ p in range m,
        Function.update (Function.update a i ahi) j (a i + a j - ahi) p *
          gsl_matrix_get K k p =
        ∑ p in range m, a p * gsl_matrix_get K k p
          - a i * gsl_matrix_get K k i - a j * gsl_matrix_get K k j
          + ahi * gsl_matrix_get K k i + (a i + a j - ahi) * gsl_matrix_get K k j := by
      have e : ∀ p, Function.update (Function.update a i ahi) j (a i + a j - ahi) p *
          gsl_matrix_get K k p =
          Function.update (Function.update (fun q => a q * gsl_matrix_get K k q) i
            (ahi * gsl_matrix_get K k i)) j ((a i + a j - ahi) * gsl_matrix_get K k j) p := by
        intro p
        simp only [Function.update_apply]
        split
        · rename_i hp; rw [hp]
        · split
          · rename_i hp; rw [hp]
          · rfl
      simp only [e]
      rw [sum_range_update _ m j _ hj, sum_range_update _ m i _ hi]
      rw [Function.update_noteq (Ne.symm hij)]
      ring
    rw [hsum, hfw k hk]
    ring

/-- Under the all-ones kernel matrix the divisor of `updatecoeffs` is 0 for every pair. -/
theorem onesKernel_divisor (n i j : Nat) :
    gsl_matrix_get (onesKernel n) i i + gsl_matrix_get (onesKernel n) j j
      - 2 * gsl_matrix_get (onesKernel n) i j = 0 := by
  unfold gsl_matrix_get onesKernel
  norm_num

open Finset in
/-- C5, as stated, fails: under the 3×3 all-ones kernel matrix with the coefficients 1/2,
1/4, 1/4 and equal heights 1, the pair (1, 2) has the divisor 0 and the height difference
0; the quotient is `0/0`, and the call stores NaN in `a[1]` and `a[2]`, so no result of the
call has `a[1] + a[2]` at its value before. -/
theorem updatecoeffs_pair_mass_counterexample :
    (1 : Nat) ≠ 2 ∧
    gsl_matrix_get (onesKernel 3) 1 1 + gsl_matrix_get (onesKernel 3) 2 2
      - 2 * gsl_matrix_get (onesKernel 3) 1 2 = 0 ∧
    updatecoeffs_ieee (onesKernel 3) coeffs3 (fun _ => 1) 1 2 (1 / 2) 0 = none ∧
    ¬ ∃ r, updatecoeffs_ieee (onesKernel 3) coeffs3 (fun _ => 1) 1 2 (1 / 2) 0 = some r ∧
      r.a 1 + r.a 2 = coeffs3 1 + coeffs3 2 := by
  have hnone := updatecoeffs_ieee_nan (onesKernel 3) coeffs3 (fun _ => 1) 1 2 (1 / 2) 0
    (onesKernel_divisor 3 1 2) rfl
  refine ⟨by decide, onesKernel_divisor 3 1 2, hnone, ?_⟩
  rintro ⟨r, hr, _⟩
  rw [hnone] at hr
  cases hr

open Finset in
/-- C5, amended: for every kernel matrix, coefficient and height arrays, cap and pair
`i ≠ j` with `K[i,i] + K[j,j] - 2K[i,j] ≠ 0` or `fw[j] ≠ fw[i]` (the quotient of the step
is a number or an infinity, not `0/0`), a call of `updatecoeffs` leaves `a[i] + a[j]` at
its value before the call, leaves every other coefficient unchanged, and so keeps the sum
of the coefficients over any index range holding `i` and `j`. -/
theorem updatecoeffs_pair_mass (K : gsl_matrix) (a fw : Nat → ℚ) (i j : Nat) (rvm ph : ℚ)
    (hij : i ≠ j)
    (hdef : gsl_matrix_get K i i + gsl_matrix_get K j j - 2 * gsl_matrix_get K i j ≠ 0 ∨
      fw j ≠ fw i) :
    ∃ r, updatecoeffs_ieee K a fw i j rvm ph = some r ∧
      r.a i + r.a j = a i + a j ∧
      (∀ k, k ≠ i → k ≠ j → r.a k = a k) ∧
      (∀ m, i < m → j < m → ∑ k in range m, r.a k = ∑ k in range m, a k) := by
  obtain ⟨ahi, _, h⟩ := updatecoeffs_ieee_defined K a fw i j rvm ph hdef
  exact ⟨_, h, updatecoeffs_store_pair_mass K a fw i j rvm ph ahi hij⟩

/-- The heights 2, 1, 1 differ at the pair (0, 1). -/
theorem heightsTilt_ne : heightsTilt 1 ≠ heightsTilt 0 := by
  unfold heightsTilt
  norm_num

open Finset in
/-- C5 amended, instance: the pair (0, 1) of the coefficients 1/2, 1/4, 1/4 under the 3×3
all-ones kernel matrix with the heights 2, 1, 1: the divisor is 0, the quotient is `-inf`
and the step is clipped to `L`. -/
theorem updatecoeffs_pair_mass_witness :
    ((0 : Nat) ≠ 1 ∧
      (gsl_matrix_get (onesKernel 3) 0 0 + gsl_matrix_get (onesKernel 3) 1 1
        - 2 * gsl_matrix_get (onesKernel 3) 0 1 ≠ 0 ∨ heightsTilt 1 ≠ heightsTilt 0)) ∧
    ∃ r, updatecoeffs_ieee (onesKernel 3) coeffs3 heightsTilt 0 1 (1 / 2) 0 = some r ∧
      r.a 0 + r.a 1 = coeffs3 0 + coeffs3 1 ∧
      (∀ k, k ≠ 0 → k ≠ 1 → r.a k = coeffs3 k) ∧
      (∀ m, 0 < m → 1 < m → ∑ k in range m, r.a k = ∑ k in range m, coeffs3 k) :=
  ⟨⟨by decide, Or.inr heightsTilt_ne⟩,
    updatecoeffs_pair_mass (onesKernel 3) coeffs3 heightsTilt 0 1 (1 / 2) 0 (by decide)
      (Or.inr heightsTilt_ne)⟩

/-- The all-ones kernel matrix is symmetric. -/
theorem onesKernel_symm (n p q : Nat) :
    gsl_matrix_get (onesKernel n) p q = gsl_matrix_get (onesKernel n) q p := rfl

open Finset in
/-- Under the 3×3 all-ones kernel matrix the heights `K·a` of the coefficients 1/2, 1/4,
1/4 are all 1. -/
theorem onesKernel_heights (k : Nat) :
    (1 : ℚ) = ∑ p in range 3, coeffs3 p * gsl_matrix_get (onesKernel 3) k p := by
  simp only [Finset.sum_range_succ, Finset.sum_range_zero, gsl_matrix_get, onesKernel, coeffs3]
  norm_num

open Finset in
/-- C25, as stated, fails: the 3×3 all-ones kernel matrix is symmetric, the heights of the
coefficients 1/2, 1/4, 1/4 are `K·a = (1, 1, 1)`, and for the pair (0, 1) the divisor and
the height difference are 0; the quotient is `0/0`, and the call stores NaN in the
coefficients of the pair and in every height, so the heights after the call are not the
sums `Σ_p a_p·K[k,p]` of numbers. -/
theorem updatecoeffs_heights_track_counterexample :
    ((onesKernel 3).size1 = 3 ∧
      (∀ p q, p < 3 → q < 3 →
        gsl_matrix_get (onesKernel 3) p q = gsl_matrix_get (onesKernel 3) q p) ∧
      (0 : Nat) ≠ 1 ∧
      (∀ k, k < 3 → (fun _ => (1 : ℚ)) k =
        ∑ p in range 3, coeffs3 p * gsl_matrix_get (onesKernel 3) k p)) ∧
    updatecoeffs_ieee (onesKernel 3) coeffs3 (fun _ => 1) 0 1 (1 / 2) 0 = none ∧
    ¬ ∃ r, updatecoeffs_ieee (onesKernel 3) coeffs3 (fun _ => 1) 0 1 (1 / 2) 0 = some r ∧
      ∀ k, k < 3 → r.fw k = ∑ p in range 3, r.a p * gsl_matrix_get (onesKernel 3) k p := by
  have hnone := updatecoeffs_ieee_nan (onesKernel 3) coeffs3 (fun _ => 1) 0 1 (1 / 2) 0
    (onesKernel_divisor 3 0 1) rfl
  refine ⟨⟨rfl, fun p q _ _ => onesKernel_symm 3 p q, by decide,
    fun k _ => onesKernel_heights k⟩, hnone, ?_⟩
  rintro ⟨r, hr, _⟩
  rw [hnone] at hr
  cases hr

open Finset in
/-- C25, amended: the height vector tracks the coefficients.  For a symmetric `m×m` matrix
`K` the sweep before the solver loop leaves `fw[k] = Σ_p a_p·K[k,p]` for every `k < m`,
and for a pair `i ≠ j` below `m` with `K[i,i] + K[j,j] - 2K[i,j] ≠ 0` or `fw[j] ≠ fw[i]`
(the quotient of the step is not `0/0`), when this equation holds before `updatecoeffs`
it holds for the coefficients and heights after the call. -/
theorem updatecoeffs_heights_track (K : gsl_matrix) (a fw0 fw : Nat → ℚ) (m i j : Nat)
    (rvm ph : ℚ) (hm : K.size1 = m)
    (hsym : ∀ p q, p < m → q < m → gsl_matrix_get K p q = gsl_matrix_get K q p)
    (hi : i < m) (hj : j < m) (hij : i ≠ j)
    (hdef : gsl_matrix_get K i i + gsl_matrix_get K j j - 2 * gsl_matrix_get K i j ≠ 0 ∨
      fw j ≠ fw i) :
    (∀ k, k < m → (SVclustering_heights K a fw0 m).fw k =
      ∑ p in range m, a p * gsl_matrix_get K k p) ∧
    ((∀ k, k < m → fw k = ∑ p in range m, a p * gsl_matrix_get K k p) →
      ∃ r, updatecoeffs_ieee K a fw i j rvm ph = some r ∧
        ∀ k, k < m → r.fw k = ∑ p in range m, r.a p * gsl_matrix_get K k p) := by
  constructor
  · intro k hk
    rw [SVclustering_heights_fw K a fw0 m k hk, hyperdistance_eq, hm]
    apply Finset.sum_congr rfl
    intro p hp
    rw [hsym p k (Finset.mem_range.mp hp) hk]
    ring
  · intro hfw
    obtain ⟨ahi, _, h⟩ := updatecoeffs_ieee_defined K a fw i j rvm ph hdef
    exact ⟨_, h, fun k hk => updatecoeffs_store_heights K a fw m i j rvm ph ahi hm hi hj hij
      hfw k hk⟩

/-- A symmetric 3×3 matrix that is not positive semidefinite: rows (1, 2, 0), (2, 3, 0),
(0, 0, 1); for the pair (0, 1) the divisor `1 + 3 - 2·2` is 0. -/
theorem kernelFlat_spec :
    (∀ p q, p < 3 → q < 3 → gsl_matrix_get kernelFlat p q = gsl_matrix_get kernelFlat q p) ∧
    gsl_matrix_get kernelFlat 0 0 + gsl_matrix_get kernelFlat 1 1
      - 2 * gsl_matrix_get kernelFlat 0 1 = 0 := by
  constructor
  · intro p q hp hq
    unfold gsl_matrix_get kernelFlat
    interval_cases p <;> interval_cases q <;> rfl
  · unfold gsl_matrix_get kernelFlat
    norm_num

open Finset in
/-- The heights `K·a` of the coefficients 1/2, 1/4, 1/4 under `kernelFlat` are 1, 7/4,
1/4. -/
theorem kernelFlat_heights (k : Nat) (hk : k < 3) :
    heightsFlat k = ∑ p in range 3, coeffs3 p * gsl_matrix_get kernelFlat k p := by
  simp only [Finset.sum_range_succ, Finset.sum_range_zero, gsl_matrix_get, kernelFlat,
    heightsFlat, coeffs3]
  interval_cases k <;> norm_num

/-- The heights 1, 7/4, 1/4 differ at the pair (0, 1). -/
theorem heightsFlat_ne : heightsFlat 1 ≠ heightsFlat 0 := by
  unfold heightsFlat
  norm_num

open Finset in
/-- C25 amended, instance: the pair (0, 1) of the coefficients 1/2, 1/4, 1/4 under the
symmetric matrix `kernelFlat` with the heights `K·a = (1, 7/4, 1/4)`: the divisor is 0, the
quotient is `+inf` and the step is clipped to `H`. -/
theorem updatecoeffs_heights_track_witness :
    (kernelFlat.size1 = 3 ∧
      (∀ p q, p < 3 → q < 3 → gsl_matrix_get kernelFlat p q = gsl_matrix_get kernelFlat q p) ∧
      0 < 3 ∧ 1 < 3 ∧ (0 : Nat) ≠ 1 ∧
      (gsl_matrix_get kernelFlat 0 0 + gsl_matrix_get kernelFlat 1 1
        - 2 * gsl_matrix_get kernelFlat 0 1 ≠ 0 ∨ heightsFlat 1 ≠ heightsFlat 0) ∧
      (∀ k, k < 3 → heightsFlat k = ∑ p in range 3, coeffs3 p * gsl_matrix_get kernelFlat k p)) ∧
    ((∀ k, k < 3 → (SVclustering_heights kernelFlat coeffs3 (fun _ => 0) 3).fw k =
      ∑ p in range 3, coeffs3 p * gsl_matrix_get kernelFlat k p) ∧
    ∃ r, updatecoeffs_ieee kernelFlat coeffs3 heightsFlat 0 1 (1 / 2) 0 = some r ∧
      ∀ k, k < 3 → r.fw k = ∑ p in range 3, r.a p * gsl_matrix_get kernelFlat k p) :=
  ⟨⟨rfl, kernelFlat_spec.1, by decide, by decide, by decide, Or.inr heightsFlat_ne,
      kernelFlat_heights⟩,
    (updatecoeffs_heights_track kernelFlat coeffs3 (fun _ => 0) heightsFlat 3 0 1 (1 / 2) 0 rfl
      kernelFlat_spec.1 (by decide) (by decide) (by decide) (Or.inr heightsFlat_ne)).1,
    (updatecoeffs_heights_track kernelFlat coeffs3 (fun _ => 0) heightsFlat 3 0 1 (1 / 2) 0 rfl
      kernelFlat_spec.1 (by decide) (by decide) (by decide) (Or.inr heightsFlat_ne)).2
      kernelFlat_heights⟩

/-- The call of `updatecoeffs` for the pair (0, 1) of the coefficients 1/2, 1/4, 1/4 under
the 3×3 all-ones kernel matrix with the heights 2, 1, 1 and the cap 1/2: the divisor is 0
and the quotient `-inf`, the step is `L = 1/4`, the update is accepted, `a[0] = 1/4` is
free, `a[1] = 1/2` is at the cap, and `ph` is the height `fw[0] = 2`. -/
theorem updatecoeffs_ieee_tilt :
    ∃ r, updatecoeffs_ieee (onesKernel 3) coeffs3 heightsTilt 0 1 (1 / 2) 0 = some r ∧
      r.ret = 1 ∧ r.a 0 = 1 / 4 ∧ r.a 1 = 1 / 2 ∧ r.fw 0 = 2 ∧ r.ph = 2 := by
  have hahi : updatecoeffs_ieee_ahi (onesKernel 3) coeffs3 heightsTilt 0 1 (1 / 2) =
      some (1 / 4) := by
    unfold updatecoeffs_ieee_ahi
    simp only []
    rw [if_pos (onesKernel_divisor 3 0 1)]
    have hneg : heightsTilt 1 - heightsTilt 0 < 0 := by
      unfold heightsTilt
      norm_num
    rw [if_neg (not_lt.mpr (le_of_lt hneg)), if_pos hneg]
    have hL : updatecoeffs_L coeffs3 0 1 (1 / 2) = 1 / 4 := by
      norm_num [updatecoeffs_L, coeffs3]
    have hH : updatecoeffs_H coeffs3 0 1 (1 / 2) = 1 / 2 := by
      norm_num [updatecoeffs_H, coeffs3]
    rw [hL, hH]
    norm_num
  refine ⟨updatecoeffs_store (onesKernel 3) coeffs3 heightsTilt 0 1 (1 / 2) 0 (1 / 4), ?_, ?_⟩
  · unfold updatecoeffs_ieee
    rw [hahi]
  · have hne : ¬ coeffs3 0 = 1 / 4 := by
      norm_num [coeffs3]
    unfold updatecoeffs_store
    rw [if_neg hne]
    simp [coeffs3, heightsTilt, onesKernel, gsl_matrix_get]
    norm_num

/-- A thread past the body of its iteration executes nothing more. -/
theorem inducecluster_sv2_threads_leave (kern : gsl_vector → gsl_vector → ℚ) (X : gsl_matrix)
    (svind : Nat → Nat) (svcls : Nat → Int) (svcc sam : Nat) (a : Nat → ℚ) (rsq sum : ℚ)
    (tB : SearchThread) (i j k : Nat) (s : SearchShared) :
    inducecluster_sv2_threads kern X svind svcls svcc sam a rsq sum (List.replicate k false)
      (⟨i, j, SearchPlace.leave⟩, tB, s) = (⟨i, j, SearchPlace.leave⟩, tB, s) := by
  unfold inducecluster_sv2_threads
  induction k with
  | zero => rfl
  | succ k ih =>
    rw [List.replicate_succ, List.foldl_cons]
    exact ih

/-- A thread that runs alone from the call for position `j`, with `n` support vectors
left and with `cls[i] = 0`, has left the body after `2n+1` statements, and the label of
its sample is then the result of the search `inducecluster_sv2_search`: the label of the
first support vector that passes `adjcheck`, and 0 when none passes. -/
theorem inducecluster_sv2_thread_alone (kern : gsl_vector → gsl_vector → ℚ) (X : gsl_matrix)
    (svind : Nat → Nat) (svcls : Nat → Int) (svcc sam : Nat) (a : Nat → ℚ) (rsq sum : ℚ)
    (tB : SearchThread) (i n : Nat) :
    ∀ j (s : SearchShared), j + n = svcc → s.cls i = 0 →
      ∃ (j1 : Nat) (s1 : SearchShared),
        inducecluster_sv2_threads kern X svind svcls svcc sam a rsq sum
          (List.replicate (2 * n + 1) false) (⟨i, j, SearchPlace.call⟩, tB, s) =
          (⟨i, j1, SearchPlace.leave⟩, tB, s1) ∧
        s1.cls = Function.update s.cls i
          (inducecluster_sv2_search kern X svind svcls sam a rsq sum i n j) := by
  induction n with
  | zero =>
    intro j s hj h0
    refine ⟨j, s, ?_, ?_⟩
    · unfold inducecluster_sv2_threads
      rw [List.replicate_succ, List.foldl_cons]
      have hlt : ¬ j < svcc := by omega
      simp [inducecluster_sv2_turn, inducecluster_sv2_thread, hlt]
    · unfold inducecluster_sv2_search
      rw [← h0, Function.update_eq_self]
  | succ n ih =>
    intro j s hj h0
    have hrep : List.replicate (2 * (n + 1) + 1) false =
        false :: false :: List.replicate (2 * n + 1) false := by
      have e : 2 * (n + 1) + 1 = (2 * n + 1) + 1 + 1 := by omega
      rw [e, List.replicate_succ, List.replicate_succ]
    have hstep1 : inducecluster_sv2_turn kern X svind svcls svcc sam a rsq sum
        (⟨i, j, SearchPlace.call⟩, tB, s) false =
        (⟨i, j, SearchPlace.test⟩, tB,
          ⟨adjcheck kern X i (svind j) sam a rsq sum, s.cls⟩) := by
      have hlt : j < svcc := by omega
      simp [inducecluster_sv2_turn, inducecluster_sv2_thread, hlt]
    unfold inducecluster_sv2_threads
    rw [hrep, List.foldl_cons, List.foldl_cons, hstep1]
    cases hadj : adjcheck kern X i (svind j) sam a rsq sum with
    | true =>
      have hstep2 : inducecluster_sv2_turn kern X svind svcls svcc sam a rsq sum
          (⟨i, j, SearchPlace.test⟩, tB, ⟨true, s.cls⟩) false =
          (⟨i, j, SearchPlace.leave⟩, tB, ⟨true, Function.update s.cls i (svcls j)⟩) := by
        simp [inducecluster_sv2_turn, inducecluster_sv2_thread]
      rw [hstep2]
      have hl := inducecluster_sv2_threads_leave kern X svind svcls svcc sam a rsq sum tB i j
        (2 * n + 1) ⟨true, Function.update s.cls i (svcls j)⟩
      unfold inducecluster_sv2_threads at hl
      rw [hl]
      have hs : inducecluster_sv2_search kern X svind svcls sam a rsq sum i (n + 1) j =
          svcls j := by
        rw [inducecluster_sv2_search, hadj]
        simp
      refine ⟨j, _, rfl, ?_⟩
      rw [hs]
    | false =>
      have hstep2 : inducecluster_sv2_turn kern X svind svcls svcc sam a rsq sum
          (⟨i, j, SearchPlace.test⟩, tB, ⟨false, s.cls⟩) false =
          (⟨i, j + 1, SearchPlace.call⟩, tB, ⟨false, s.cls⟩) := by
        simp [inducecluster_sv2_turn, inducecluster_sv2_thread]
      rw [hstep2]
      obtain ⟨j1, s1, h1, h2⟩ := ih (j + 1) ⟨false, s.cls⟩ (by omega) h0
      unfold inducecluster_sv2_threads at h1
      refine ⟨j1, s1, h1, ?_⟩
      have hs : inducecluster_sv2_search kern X svind svcls sam a rsq sum i (n + 1) j =
          inducecluster_sv2_search kern X svind svcls sam a rsq sum i n (j + 1) := by
        rw [inducecluster_sv2_search, hadj]
        simp
      rw [h2, hs]


open Finset in
/-- The sphere distance of a one-band point with the value `x` from the centre of the
sphere around the first of the samples 1, 1, 5 under the kernel `u·v` is `(x - 1)²`. -/
theorem calrsq_samples3 (p : gsl_vector) :
    calrsq kernLin p svfUnit.a samples3 1 = (p.data 0 - 1) ^ 2 := by
  rw [calrsq_eq]
  simp only [Finset.sum_range_succ, Finset.sum_range_zero, kernLin, svfUnit, samples3,
    gsl_matrix_column]
  norm_num
  ring

/-- Among the samples 1, 1, 5 with one path point, the sample 1 passes `adjcheck` against
the support vector 0 (the path point 1 has the distance 0) and the sample 2 does not (the
path point 3 has the distance 4 above `rsq = 1`). -/
theorem adjcheck_samples3 :
    adjcheck kernLin samples3 1 0 1 svfUnit.a 1 1 = true ∧
    adjcheck kernLin samples3 2 0 1 svfUnit.a 1 1 = false := by
  constructor
  · unfold adjcheck
    rw [adjcheck2v_iff]
    intro k hk
    rw [calrsq_samples3, adjcheck2v_point_eq]
    have hk0 : k = 0 := by omega
    subst hk0
    simp only [gsl_matrix_column, samples3]
    norm_num
  · rw [Bool.eq_false_iff]
    intro h
    unfold adjcheck at h
    rw [adjcheck2v_iff] at h
    have h0 := h 0 (by decide)
    rw [calrsq_samples3, adjcheck2v_point_eq] at h0
    simp only [gsl_matrix_column, samples3] at h0
    norm_num at h0

/-- The scan of `createcluster_v2` on the coefficients `(1, 0, 0)` under the cap 2 over
three samples: one support vector (`svcc = 1`), the sample 0 (`svind[0] = 0`);
`clusterfromgraph` on the one-vertex graph labels it 1 and returns `nc = 2`; and after
`cls[svind[0]] = svcls[0]` the labels of the three samples are 1, -1, -1. -/
theorem createcluster_v2_samples3 :
    createcluster_v2_svcc svfUnit.a 2 3 = 1 ∧
    createcluster_v2_svind svfUnit.a 2 3 0 = 0 ∧
    (∀ (adj : Nat → Nat → Bool) (depth : Nat) (cdex0 : Nat → Nat) (svcls0 : Nat → Int),
      ∃ svcls, clusterfromgraph adj 1 depth cdex0 svcls0 = some (2, svcls) ∧ svcls 0 = 1) ∧
    (∀ (cls : Nat → Int) (i : Nat), i < 3 →
      Function.update (createcluster_v2_cls svfUnit.a 2 3 cls) 0 1 i = labelsOpen i) := by
  have hl : createcluster_v2_svlist svfUnit.a 2 3 = [0] := by
    simp [createcluster_v2_svlist, List.range_succ, List.filter_cons, svfUnit]
  refine ⟨?_, ?_, ?_, ?_⟩
  · simp [createcluster_v2_svcc, hl]
  · simp [createcluster_v2_svind, hl]
  · intro adj depth cdex0 svcls0
    refine ⟨Function.update svcls0 0 1, ?_, by simp⟩
    simp [clusterfromgraph]
  · intro cls i hi
    by_cases h0 : i = 0
    · subst h0
      simp [labelsOpen]
    · rw [Function.update_noteq h0]
      simp [createcluster_v2_cls, labelsOpen, svfUnit, h0, hi]

/-- C10, as stated, fails in the parallel loop of `inducecluster_sv2`, whose threads share
the variable `flag`.  Three samples 1, 1, 5; sample 0 is the only free support vector
(`a = (1, 0, 0)` under the cap 2: the scan of `createcluster_v2` gives `svcc = 1`,
`svind[0] = 0`, and `clusterfromgraph` gives it the label 1), and the samples 1 and 2 are
neither free nor at the cap, so the labels at the loop are 1, -1, -1; `adjcheck` against the support vector holds for sample 1 and fails for
sample 2, so the search gives sample 2 the label 0 and sample 1 the label 1.  A thread in
the iteration of sample 2 and a thread in the iteration of sample 1, run one after the
other, leave these labels.  Run in turns, the first thread writes `flag` (false), the
second overwrites it (true), and the first thread reads `flag` set: sample 2 ends with
the label 1 of a support vector against which its `adjcheck` failed. -/
theorem inducecluster_sv2_shared_flag :
    ((0 < svfUnit.a 0 ∧ svfUnit.a 0 < 2) ∧
      (¬ (0 < svfUnit.a 1 ∧ svfUnit.a 1 < 2) ∧ svfUnit.a 1 ≠ 2) ∧
      (¬ (0 < svfUnit.a 2 ∧ svfUnit.a 2 < 2) ∧ svfUnit.a 2 ≠ 2)) ∧
    (createcluster_v2_svcc svfUnit.a 2 3 = 1 ∧
      createcluster_v2_svind svfUnit.a 2 3 0 = 0 ∧
      (∀ (adj : Nat → Nat → Bool) (depth : Nat) (cdex0 : Nat → Nat) (svcls0 : Nat → Int),
        ∃ svcls, clusterfromgraph adj 1 depth cdex0 svcls0 = some (2, svcls) ∧ svcls 0 = 1) ∧
      (∀ (cls : Nat → Int) (i : Nat), i < 3 →
        Function.update (createcluster_v2_cls svfUnit.a 2 3 cls) 0 1 i = labelsOpen i)) ∧
    (adjcheck kernLin samples3 1 0 1 svfUnit.a 1 1 = true ∧
      adjcheck kernLin samples3 2 0 1 svfUnit.a 1 1 = false) ∧
    (inducecluster_sv2_search kernLin samples3 (fun _ => 0) (fun _ => 1) 1 svfUnit.a 1 1 1 1 0
        = 1 ∧
      inducecluster_sv2_search kernLin samples3 (fun _ => 0) (fun _ => 1) 1 svfUnit.a 1 1 2 1 0
        = 0) ∧
    (∀ flag0 : Bool,
      (inducecluster_sv2_threads kernLin samples3 (fun _ => 0) (fun _ => 1) 1 1 svfUnit.a 1 1
        [false, false, false, false, true, true, true]
        (⟨2, 0, SearchPlace.enter⟩, ⟨1, 0, SearchPlace.enter⟩, ⟨flag0, labelsOpen⟩)).1.place =
          SearchPlace.leave ∧
      (inducecluster_sv2_threads kernLin samples3 (fun _ => 0) (fun _ => 1) 1 1 svfUnit.a 1 1
        [false, false, false, false, true, true, true]
        (⟨2, 0, SearchPlace.enter⟩, ⟨1, 0, SearchPlace.enter⟩, ⟨flag0, labelsOpen⟩)).2.1.place =
          SearchPlace.leave ∧
      (inducecluster_sv2_threads kernLin samples3 (fun _ => 0) (fun _ => 1) 1 1 svfUnit.a 1 1
        [false, false, false, false, true, true, true]
        (⟨2, 0, SearchPlace.enter⟩, ⟨1, 0, SearchPlace.enter⟩, ⟨flag0, labelsOpen⟩)).2.2.cls 2 = 0 ∧
      (inducecluster_sv2_threads kernLin samples3 (fun _ => 0) (fun _ => 1) 1 1 svfUnit.a 1 1
        [false, false, false, false, true, true, true]
        (⟨2, 0, SearchPlace.enter⟩, ⟨1, 0, SearchPlace.enter⟩, ⟨flag0, labelsOpen⟩)).2.2.cls 1 = 1) ∧
    (∀ flag0 : Bool,
      (inducecluster_sv2_threads kernLin samples3 (fun _ => 0) (fun _ => 1) 1 1 svfUnit.a 1 1
        [false, true, false, true, false, true]
        (⟨2, 0, SearchPlace.enter⟩, ⟨1, 0, SearchPlace.enter⟩, ⟨flag0, labelsOpen⟩)).1.place =
          SearchPlace.leave ∧
      (inducecluster_sv2_threads kernLin samples3 (fun _ => 0) (fun _ => 1) 1 1 svfUnit.a 1 1
        [false, true, false, true, false, true]
        (⟨2, 0, SearchPlace.enter⟩, ⟨1, 0, SearchPlace.enter⟩, ⟨flag0, labelsOpen⟩)).2.1.place =
          SearchPlace.leave ∧
      (inducecluster_sv2_threads kernLin samples3 (fun _ => 0) (fun _ => 1) 1 1 svfUnit.a 1 1
        [false, true, false, true, false, true]
        (⟨2, 0, SearchPlace.enter⟩, ⟨1, 0, SearchPlace.enter⟩, ⟨flag0, labelsOpen⟩)).2.2.cls 2 = 1 ∧
      (inducecluster_sv2_threads kernLin samples3 (fun _ => 0) (fun _ => 1) 1 1 svfUnit.a 1 1
        [false, true, false, true, false, true]
        (⟨2, 0, SearchPlace.enter⟩, ⟨1, 0, SearchPlace.enter⟩, ⟨flag0, labelsOpen⟩)).2.2.cls 1 = 1) := by
  obtain ⟨h1, h2⟩ := adjcheck_samples3
  refine ⟨?_, createcluster_v2_samples3, ⟨h1, h2⟩, ?_, ?_, ?_⟩
  · simp only [svfUnit]
    norm_num
  · constructor
    · rw [inducecluster_sv2_search, h1]
      simp
    · rw [inducecluster_sv2_search, h2]
      simp [inducecluster_sv2_search]
  · intro flag0
    simp [inducecluster_sv2_threads, inducecluster_sv2_turn, inducecluster_sv2_thread,
      labelsOpen, h1, h2, Function.update_apply]
  · intro flag0
    simp [inducecluster_sv2_threads, inducecluster_sv2_turn, inducecluster_sv2_thread,
      labelsOpen, h1, h2, Function.update_apply]


end Statsml
